import Mathlib

/-! ## Containers and metafunctions of `cpp-projects`

The components are embedded one after the other: `socow_vector` (namespace `Socow`), the type
lists of `tl`, `circular_buffer`, `matrix`, the plain `vector` and `bitset`.  The definitions of all
components come first; the lemmas and the claims of each component follow. -/

/-! ## Object sizes -/

/-- The sizes in bytes that the code obtains with `sizeof`: `sizeof(T)` for an element type
`T`, which is at least 1, and `sizeof(buffer)` for the block header of
`socow_vector<T, SMALL_SIZE>`. -/
class Layout (T : Type) where
  sizeof_T : Nat
  sizeof_T_pos : 0 < sizeof_T
  sizeof_buffer : Nat

/-- In the examples over `Nat` the elements stand for values of `int`. -/
instance : Layout Nat := ⟨4, by decide, 16⟩

/-- In the examples over `Int` the elements stand for values of `int`. -/
instance : Layout Int := ⟨4, by decide, 16⟩

/-- In the examples over `ZMod 4294967296` the elements stand for values of `unsigned int`. -/
instance : Layout (ZMod 4294967296) := ⟨4, by decide, 16⟩

/-! ## socow_vector: small-object, copy-on-write vector

A shallow embedding of `src/socow_vector/socow_vector.h`.

* A heap is a list of cells; a cell is `some b` for a live `buffer` and `none`
  for a freed one.  `operator new` appends a cell, so the address of a fresh
  buffer is the length of the heap; `operator delete` overwrites the cell with
  `none`.
* Element storage (`_sdata`, `buffer::data`) is a list of slots; a slot is
  `some x` when an element is constructed there and `none` when it is raw
  memory (never constructed, or destroyed).
* A member function that may modify the object or the heap takes the heap and
  the object and returns the new heap and object.  A result `none` stands for
  undefined behaviour (an element read from raw memory) or for an exhausted
  recursion or iteration budget.
* `std::size_t` is `Nat`.  On the states and arguments considered below
  no subtraction underflows.  The number of bytes that the private constructor
  requests from `operator new` is computed modulo `2 ^ 64`; a request that
  wraps yields a block smaller than the capacity it records, and the
  constructor has no result then, so every block of the heap has room for
  `capacity` elements and every capacity of a block is below `2 ^ 64`.  The
  capacity `2 * capacity() + 1` that `push_back` and `insert` request is passed
  to the constructor as the exact number: below `2 ^ 64` it is the value of the
  source, and from `2 ^ 64` on, where the source wraps to a capacity below the
  number of elements it then writes, the constructor has no result either.
* The members of the anonymous union (`_sdata`, `_buffer`) are two fields.
  The code reads only the member selected by `_small`.
* Moving an element leaves the source slot constructed (it is destroyed
  later by the code); the moved-from value is modelled as unchanged.
-/

namespace Socow

/-- The heap block `socow_vector::buffer`: capacity, reference count, slots. -/
structure buffer (T : Type) where
  capacity : Nat
  refs : Nat
  data : List (Option T)
deriving DecidableEq

/-- A heap: cell `p` is the block at address `p`, `none` once freed. -/
abbrev Heap (T : Type) := List (Option (buffer T))

/-- The data members of `socow_vector<T, SMALL_SIZE>`. -/
structure socow_vector (T : Type) where
  _size : Nat
  _small : Bool
  _sdata : List (Option T)
  _buffer : Nat
deriving DecidableEq

variable {T : Type} [Layout T]

/-- The block at address `p`, if live. -/
def lookup (h : Heap T) (p : Nat) : Option (buffer T) := h.getD p none

/-- Dereference `p`; a dangling pointer reads as an empty block. -/
def deref (h : Heap T) (p : Nat) : buffer T := (lookup h p).getD ⟨0, 0, []⟩

/-- Overwrite the block at address `p`. -/
def store (h : Heap T) (p : Nat) (b : buffer T) : Heap T := h.set p (some b)

/-- The effect of `operator delete(p)`. -/
def free (h : Heap T) (p : Nat) : Heap T := h.set p none

/-- The effect of `operator new` followed by placement construction of `b`:
the new heap and the address of the block. -/
def alloc (h : Heap T) (b : buffer T) : Heap T × Nat := (h ++ [some b], h.length)

/-- The effect of `std::uninitialized_copy_n(src + first, n, dst + dfirst)` and of
`std::uninitialized_move_n` on slot arrays. -/
def copy_n (src : List (Option T)) : Nat → Nat → List (Option T) → Nat → List (Option T)
  | _, 0, dst, _ => dst
  | first, n + 1, dst, dfirst =>
    copy_n src (first + 1) n (dst.set dfirst (src.getD first none)) (dfirst + 1)

/-- The effect of `std::destroy_n(p + first, n)` on a slot array. -/
def destroy_n : List (Option T) → Nat → Nat → List (Option T)
  | d, _, 0 => d
  | d, first, n + 1 => destroy_n (d.set first none) (first + 1) n

/-- The effect of `std::swap(p[i], p[j])` on a slot array. -/
def swap_slots (d : List (Option T)) (i j : Nat) : List (Option T) :=
  (d.set i (d.getD j none)).set j (d.getD i none)

/-- A `while` loop: `cond` is tested before each round; `none` when the
budget of rounds is used up while `cond` still holds. -/
def loop {σ : Type} (cond : σ → Bool) (body : σ → Option σ) : Nat → σ → Option σ
  | 0, s => if cond s then none else some s
  | n + 1, s => if cond s then (body s).bind (loop cond body n) else some s

namespace socow_vector

/-- `socow_vector()`. -/
def ctor (S : Nat) : socow_vector T :=
  { _size := 0, _small := true, _sdata := List.replicate S none, _buffer := 0 }

def is_small (v : socow_vector T) : Bool := v._small

def size (v : socow_vector T) : Nat := v._size

def capacity (S : Nat) (h : Heap T) (v : socow_vector T) : Nat :=
  if v.is_small then S else (deref h v._buffer).capacity

def empty (v : socow_vector T) : Bool := v.size == 0

/-- The slot array `cdata()` points to. -/
def cdata (h : Heap T) (v : socow_vector T) : List (Option T) :=
  if v.is_small then v._sdata else (deref h v._buffer).data

/-- Write the slot array `cdata()` points to. -/
def set_cdata (h : Heap T) (v : socow_vector T) (d : List (Option T)) :
    Heap T × socow_vector T :=
  if v.is_small then (h, { v with _sdata := d })
  else (store h v._buffer { deref h v._buffer with data := d }, v)

def shared (h : Heap T) (v : socow_vector T) : Bool :=
  !v.is_small && decide (1 < (deref h v._buffer).refs)

/-- The argument of `operator new` in the private constructor,
`sizeof(buffer) + sizeof(T) * capacity`, a `std::size_t`. -/
def buffer_bytes (T : Type) [Layout T] (capacity : Nat) : Nat :=
  (Layout.sizeof_buffer T + Layout.sizeof_T T * capacity) % 2 ^ 64

/-- A block of `buffer_bytes` bytes has room for `capacity` elements: the sum
did not wrap. -/
def Fits (T : Type) [Layout T] (capacity : Nat) : Prop :=
  buffer_bytes T capacity = Layout.sizeof_buffer T + Layout.sizeof_T T * capacity

instance (capacity : Nat) : Decidable (Fits T capacity) :=
  inferInstanceAs (Decidable
    (buffer_bytes T capacity = Layout.sizeof_buffer T + Layout.sizeof_T T * capacity))

/-- The private `socow_vector(std::size_t capacity)`.  There is no result when
the block that `operator new` returns is too small for `capacity` elements. -/
def ctor_capacity (S : Nat) (h : Heap T) (capacity : Nat) :
    Option (Heap T × socow_vector T) :=
  if capacity ≤ S then
    some (h, { _size := 0, _small := true, _sdata := List.replicate S none, _buffer := 0 })
  else if Fits T capacity then
    let (h1, p) := alloc h ⟨capacity, 1, List.replicate capacity none⟩
    some (h1, { _size := 0, _small := false, _sdata := List.replicate S none, _buffer := p })
  else none

/-- `socow_vector(const socow_vector& other)`. -/
def ctor_copy (S : Nat) (h : Heap T) (other : socow_vector T) : Heap T × socow_vector T :=
  let v : socow_vector T :=
    { _size := other.size, _small := other.is_small, _sdata := List.replicate S none,
      _buffer := 0 }
  if v.is_small then
    (h, { v with _sdata := copy_n (cdata h other) 0 v.size v._sdata 0 })
  else
    let b := deref h other._buffer
    (store h other._buffer { b with refs := b.refs + 1 }, { v with _buffer := other._buffer })

/-- The body of `swap` after `lhs`/`rhs` are normalised.  In the branches
guarded by `is_small()`, `cdata()` is `_sdata`. -/
def swap_ordered (lhs rhs : socow_vector T) : socow_vector T × socow_vector T :=
  let (lhs, rhs) :=
    if lhs.is_small && rhs.is_small then
      let l := lhs._sdata
      let r := rhs._sdata
      -- std::swap_ranges
      let l1 := copy_n r 0 lhs.size l 0
      let r1 := copy_n l 0 lhs.size r 0
      let l2 := copy_n r1 lhs.size (rhs.size - lhs.size) l1 lhs.size
      let r2 := destroy_n r1 lhs.size (rhs.size - lhs.size)
      ({ lhs with _sdata := l2 }, { rhs with _sdata := r2 })
    else (lhs, rhs)
  let (lhs, rhs) :=
    if lhs.is_small && !rhs.is_small then
      let tmp := rhs._buffer
      let rhs1 := { rhs with _sdata := copy_n lhs._sdata 0 lhs.size rhs._sdata 0 }
      let lhs1 := { lhs with _sdata := destroy_n lhs._sdata 0 lhs.size }
      ({ lhs1 with _buffer := tmp }, rhs1)
    else (lhs, rhs)
  let (lhs, rhs) :=
    if !lhs.is_small && !rhs.is_small then
      ({ lhs with _buffer := rhs._buffer }, { rhs with _buffer := lhs._buffer })
    else (lhs, rhs)
  ({ lhs with _size := rhs._size, _small := rhs._small },
   { rhs with _size := lhs._size, _small := lhs._small })

/-- `this->swap(other)` for two distinct objects: the new `*this` and `other`. -/
def swap (this other : socow_vector T) : socow_vector T × socow_vector T :=
  if (!this.is_small && other.is_small) ||
      (this.is_small == other.is_small && decide (other.size < this.size)) then
    let r := swap_ordered other this
    (r.2, r.1)
  else swap_ordered this other

/-- `~socow_vector()`: the heap after the object is gone. -/
def dtor (h : Heap T) (v : socow_vector T) : Heap T :=
  if !v.is_small then
    let b := deref h v._buffer
    let h1 := store h v._buffer { b with refs := b.refs - 1 }
    if (deref h1 v._buffer).refs = 0 then
      let h2 := (set_cdata h1 v (destroy_n (cdata h1 v) 0 v.size)).1
      free h2 v._buffer
    else h1
  else h

/-- Read through `operator[] const`. -/
def index_const (h : Heap T) (v : socow_vector T) (i : Nat) : Option T :=
  (cdata h v).getD i none

/-- The effect of `new (cdata() + i) T(value)`. -/
def construct_at (h : Heap T) (v : socow_vector T) (i : Nat) (value : T) :
    Heap T × socow_vector T :=
  set_cdata h v ((cdata h v).set i (some value))

/-- The state of a loop inside a member function: the counter, the heap,
`*this` and the local `tmp`. -/
structure Locals (T : Type) where
  i : Nat
  h : Heap T
  this : socow_vector T
  tmp : socow_vector T

/-!
The member functions below call one another (`push_back` calls `clear`, `clear`
calls `pop_back`, `pop_back` calls `back` and `push_back`, the mutable accessors
call `unshare`, which calls `expand`, ...).  The first argument bounds the depth of
nested calls: each call passes one less, and depth `0` gives `none`.
-/
mutual

/-- `unshare()`. -/
def unshare : Nat → Nat → Heap T → socow_vector T → Option (Heap T × socow_vector T)
  | 0, _, _, _ => none
  | d + 1, S, h, v =>
    if !shared h v then some (h, v)
    else expand d S h v (capacity S h v)
termination_by structural d => d

/-- `expand(new_capacity)`. -/
def expand : Nat → Nat → Heap T → socow_vector T → Nat → Option (Heap T × socow_vector T)
  | 0, _, _, _, _ => none
  | d + 1, S, h, v, new_capacity =>
    match ctor_capacity S h new_capacity with
    | none => none
    | some (h1, tmp) =>
      (loop (fun (s : Locals T) => decide (s.i < s.this.size))
        (fun (s : Locals T) =>
          if shared s.h s.this then
            (index_const s.h s.this s.i).bind fun x =>
            (push_back_copy d S s.h s.tmp x).bind fun r =>
            some { s with i := s.i + 1, h := r.1, tmp := r.2 }
          else
            (index_mut d S s.h s.this s.i).bind fun r =>
            (index_const r.1 r.2 s.i).bind fun x =>
            (push_back d S r.1 s.tmp x).bind fun r2 =>
            some { s with i := s.i + 1, h := r2.1, this := r.2, tmp := r2.2 })
        v.size ⟨0, h1, v, tmp⟩).bind fun s =>
      (clear d S s.h s.this).bind fun r =>
      let (v1, tmp1) := swap r.2 s.tmp
      some (dtor r.1 tmp1, v1)
termination_by structural d => d

/-- The mutable `operator[]`: the state after the call; the reference
returned is slot `i` of `cdata()`. -/
def index_mut : Nat → Nat → Heap T → socow_vector T → Nat → Option (Heap T × socow_vector T)
  | 0, _, _, _, _ => none
  | d + 1, S, h, v, _ => unshare d S h v
termination_by structural d => d

/-- The mutable `data()`: the state after the call; the pointer returned is
`cdata()`. -/
def data : Nat → Nat → Heap T → socow_vector T → Option (Heap T × socow_vector T)
  | 0, _, _, _ => none
  | d + 1, S, h, v => unshare d S h v
termination_by structural d => d

/-- The mutable `back()`: the state after the call; the reference returned
is slot `size() - 1` of `data()`. -/
def back : Nat → Nat → Heap T → socow_vector T → Option (Heap T × socow_vector T)
  | 0, _, _, _ => none
  | d + 1, S, h, v => data d S h v
termination_by structural d => d

/-- `push_back(const T& value)`. -/
def push_back_copy : Nat → Nat → Heap T → socow_vector T → T →
    Option (Heap T × socow_vector T)
  | 0, _, _, _, _ => none
  | d + 1, S, h, v, value =>
    if v.size < capacity S h v && !shared h v then
      let (h1, v1) := construct_at h v v.size value
      some (h1, { v1 with _size := v1._size + 1 })
    else push_back d S h v value
termination_by structural d => d

/-- `push_back(T&& value)`. -/
def push_back : Nat → Nat → Heap T → socow_vector T → T → Option (Heap T × socow_vector T)
  | 0, _, _, _, _ => none
  | d + 1, S, h, v, value =>
    if v.size < capacity S h v && !shared h v then
      let (h1, v1) := construct_at h v v.size value
      some (h1, { v1 with _size := v1._size + 1 })
    else
      match ctor_capacity S h (if v.size = capacity S h v then 2 * capacity S h v + 1
          else capacity S h v) with
      | none => none
      | some (h1, tmp) =>
        let (h2, tmp2) :=
          if !shared h1 v then
            let (h', t) := construct_at h1 tmp v.size value
            let t := { t with _size := 1 }
            set_cdata h' t (copy_n (cdata h' v) 0 v.size (cdata h' t) 0)
          else
            let (h', t) := set_cdata h1 tmp (copy_n (cdata h1 v) 0 v.size (cdata h1 tmp) 0)
            let t := { t with _size := v.size }
            construct_at h' t v.size value
        let tmp3 := { tmp2 with _size := v.size + 1 }
        (clear d S h2 v).bind fun r =>
        let (v1, tmp4) := swap r.2 tmp3
        some (dtor r.1 tmp4, v1)
termination_by structural d => d

/-- `pop_back()`.  On an empty container `back()` is out of bounds. -/
def pop_back : Nat → Nat → Heap T → socow_vector T → Option (Heap T × socow_vector T)
  | 0, _, _, _ => none
  | d + 1, S, h, v =>
    if shared h v then
      match ctor_capacity S h (capacity S h v) with
      | none => none
      | some (h1, tmp) =>
        (loop (fun (s : Locals T) => decide (s.i < s.this.size - 1))
          (fun (s : Locals T) =>
            (index_const s.h s.this s.i).bind fun x =>
            (push_back_copy d S s.h s.tmp x).bind fun r =>
            some { s with i := s.i + 1, h := r.1, tmp := r.2 })
          v.size ⟨0, h1, v, tmp⟩).bind fun s =>
        let (v1, tmp1) := swap s.this s.tmp
        some (dtor s.h tmp1, v1)
    else
      (back d S h v).bind fun r =>
      if r.2.size = 0 then none
      else
        let (h1, v1) := set_cdata r.1 r.2 ((cdata r.1 r.2).set (r.2.size - 1) none)
        some (h1, { v1 with _size := v1._size - 1 })
termination_by structural d => d

/-- `clear()`. -/
def clear : Nat → Nat → Heap T → socow_vector T → Option (Heap T × socow_vector T)
  | 0, _, _, _ => none
  | d + 1, S, h, v =>
    if shared h v then
      let tmp : socow_vector T := ctor S
      let (v1, tmp1) := swap v tmp
      some (dtor h tmp1, v1)
    else
      loop (fun (s : Heap T × socow_vector T) => decide (s.2.size ≠ 0))
        (fun s => pop_back d S s.1 s.2) v.size (h, v)

termination_by structural d => d
end

/-- The mutable `front()`: the state after the call. -/
def front (d S : Nat) (h : Heap T) (v : socow_vector T) : Option (Heap T × socow_vector T) :=
  data d S h v

/-- The mutable `begin()`: the state after the call. -/
def begin (d S : Nat) (h : Heap T) (v : socow_vector T) : Option (Heap T × socow_vector T) :=
  data d S h v

/-- The mutable `end()`: the state after the call. -/
def end_ (d S : Nat) (h : Heap T) (v : socow_vector T) : Option (Heap T × socow_vector T) :=
  data d S h v

/-- Read through `front() const`. -/
def front_const (h : Heap T) (v : socow_vector T) : Option T := (cdata h v).getD 0 none

/-- Read through `back() const`. -/
def back_const (h : Heap T) (v : socow_vector T) : Option T :=
  (cdata h v).getD (v.size - 1) none

/-- The state of a loop over `*this` alone: the counter, the heap, `*this`. -/
structure Cursor (T : Type) where
  i : Nat
  h : Heap T
  this : socow_vector T

/-- The statement `std::swap((*this)[i], (*this)[j])`. -/
def swap_elems (d S : Nat) (h : Heap T) (v : socow_vector T) (i j : Nat) :
    Option (Heap T × socow_vector T) :=
  (index_mut d S h v i).bind fun r =>
  (index_mut d S r.1 r.2 j).bind fun r2 =>
  some (set_cdata r2.1 r2.2 (swap_slots (cdata r2.1 r2.2) i j))

/-- `insert(const_iterator pos, T&& value)` with `start = pos - cdata()`:
the new heap and object, and the index the returned iterator points to. -/
def insert (d S : Nat) (h : Heap T) (v : socow_vector T) (start : Nat) (value : T) :
    Option (Heap T × socow_vector T × Nat) :=
  if v.size ≠ capacity S h v && !shared h v then
    (push_back d S h v value).bind fun r =>
    (loop (fun (s : Cursor T) => decide (s.i < s.this.size))
      (fun s =>
        (swap_elems d S s.h s.this start s.i).bind fun r2 =>
        some { i := s.i + 1, h := r2.1, this := r2.2 })
      r.2.size ⟨start + 1, r.1, r.2⟩).bind fun s =>
    some (s.h, s.this, start)
  else
    match ctor_capacity S h (if v.size = capacity S h v then 2 * capacity S h v + 1
        else capacity S h v) with
    | none => none
    | some (h1, tmp) =>
      let (h2, tmp2) :=
        if shared h1 v then
          let (h', t) := set_cdata h1 tmp (copy_n (cdata h1 v) 0 start (cdata h1 tmp) 0)
          let t := { t with _size := start }
          set_cdata h' t (copy_n (cdata h' v) start (v.size - start) (cdata h' t) (start + 1))
        else
          let (h', t) := set_cdata h1 tmp (copy_n (cdata h1 v) 0 start (cdata h1 tmp) 0)
          let t := { t with _size := start }
          set_cdata h' t (copy_n (cdata h' v) start (v.size - start) (cdata h' t) (start + 1))
      let (h3, tmp3) := construct_at h2 tmp2 start value
      let tmp4 := { tmp3 with _size := v.size + 1 }
      let (v1, tmp5) := swap v tmp4
      some (dtor h3 tmp5, v1, start)

/-- `insert(const_iterator pos, const T& value)`. -/
def insert_copy (d S : Nat) (h : Heap T) (v : socow_vector T) (start : Nat) (value : T) :
    Option (Heap T × socow_vector T × Nat) :=
  let x := value
  insert d S h v start x

/-- `erase(const_iterator first, const_iterator last)` with the iterators given
as indices into `cdata()`: the new heap and object, and the index the returned
iterator points to. -/
def erase (d S : Nat) (h : Heap T) (v : socow_vector T) (first last : Nat) :
    Option (Heap T × socow_vector T × Nat) :=
  let tail := last - first
  let start := first
  let res := start
  (if shared h v then
    match ctor_capacity S h (capacity S h v) with
    | none => none
    | some (h1, tmp) =>
      (loop (fun (s : Locals T) => decide (s.i < start))
        (fun s =>
          (index_const s.h s.this s.i).bind fun x =>
          (push_back_copy d S s.h s.tmp x).bind fun r =>
          some { s with i := s.i + 1, h := r.1, tmp := r.2 })
        start ⟨0, h1, v, tmp⟩).bind fun s1 =>
      (loop (fun (s : Locals T) => decide (s.i < s.this.size))
        (fun s =>
          (index_const s.h s.this s.i).bind fun x =>
          (push_back_copy d S s.h s.tmp x).bind fun r =>
          some { s with i := s.i + 1, h := r.1, tmp := r.2 })
        v.size { s1 with i := start + tail }).bind fun s2 =>
      let (v1, tmp1) := swap s2.this s2.tmp
      some (dtor s2.h tmp1, v1)
  else
    (loop (fun (s : Cursor T) => decide (s.i + tail ≠ s.this.size))
      (fun s =>
        (swap_elems d S s.h s.this s.i (s.i + tail)).bind fun r =>
        some { i := s.i + 1, h := r.1, this := r.2 })
      v.size ⟨start, h, v⟩).bind fun s1 =>
    (loop (fun (s : Cursor T) => decide (s.i ≠ 0))
      (fun s =>
        (pop_back d S s.h s.this).bind fun r =>
        some { i := s.i - 1, h := r.1, this := r.2 })
      tail ⟨tail, s1.h, s1.this⟩).bind fun s2 =>
    some (s2.h, s2.this)).bind fun r =>
  (begin d S r.1 r.2).bind fun r2 =>
  some (r2.1, r2.2, res)

/-- `erase(const_iterator pos)`. -/
def erase_at (d S : Nat) (h : Heap T) (v : socow_vector T) (pos : Nat) :
    Option (Heap T × socow_vector T × Nat) :=
  erase d S h v pos (pos + 1)

/-- `reserve(new_capacity)`. -/
def reserve (d S : Nat) (h : Heap T) (v : socow_vector T) (new_capacity : Nat) :
    Option (Heap T × socow_vector T) :=
  if capacity S h v < new_capacity || (v.size < new_capacity && shared h v) then
    expand d S h v new_capacity
  else some (h, v)

/-- `shrink_to_fit()`. -/
def shrink_to_fit (d S : Nat) (h : Heap T) (v : socow_vector T) :
    Option (Heap T × socow_vector T) :=
  if v.is_small || v.size = capacity S h v then some (h, v)
  else expand d S h v v.size

/-- `socow_vector(socow_vector&& other)`: the new object and `other`. -/
def ctor_move (S : Nat) (other : socow_vector T) : socow_vector T × socow_vector T :=
  swap (ctor S) other

/-- `operator=(const socow_vector& other)` when `&other != this`. -/
def assign_copy (d S : Nat) (h : Heap T) (v other : socow_vector T) :
    Option (Heap T × socow_vector T) :=
  let (h1, tmp) := ctor_copy S h other
  (clear d S h1 v).bind fun r =>
  let (v1, tmp1) := swap r.2 tmp
  some (dtor r.1 tmp1, v1)

/-- `operator=(socow_vector&& other)` when `&other != this`: the new heap,
`*this` and `other`. -/
def assign_move (d S : Nat) (h : Heap T) (v other : socow_vector T) :
    Option (Heap T × socow_vector T × socow_vector T) :=
  (clear d S h v).bind fun r =>
  let (v1, other1) := swap r.2 other
  if !other1.is_small then
    some (free r.1 other1._buffer, v1, { other1 with _small := true })
  else some (r.1, v1, other1)

/-- The assignment `v[i] = x` through the mutable `operator[]`.  An index
that is not below `size()` is out of bounds. -/
def assign_elem (d S : Nat) (h : Heap T) (v : socow_vector T) (i : Nat) (x : T) :
    Option (Heap T × socow_vector T) :=
  (index_mut d S h v i).bind fun r =>
  if i < r.2.size then some (set_cdata r.1 r.2 ((cdata r.1 r.2).set i (some x)))
  else none

/-- The calls `push_back(x)` for the values `x` of a list, in order. -/
def push_all (d S : Nat) :
    List T → Heap T × socow_vector T → Option (Heap T × socow_vector T)
  | [], s => some s
  | x :: xs, s => (push_back d S s.1 s.2 x).bind (push_all d S xs)

/-- The elements `(*this)[0], ..., (*this)[size() - 1]` as stored. -/
def elems (h : Heap T) (v : socow_vector T) : List (Option T) :=
  (cdata h v).take v.size

/-! ### Allocation failure

`operator new` is called in one place, the private constructor
`socow_vector(std::size_t capacity)`, and only for a capacity above
`SMALL_SIZE`.  Every member function that uses this constructor does so to
build its local `tmp`, as the first statement of the branch that needs new
storage.  The definitions below follow a call with an allocator that succeeds
(`ok = true`) or throws `std::bad_alloc` (`ok = false`) at that statement: when
it throws, no statement of the branch has run and no local object exists, so
the exception leaves the call with the heap and `*this` as they are; when it
succeeds, the call runs on as in the definitions above.
-/

/-- How a call ends: it returns, or it leaves with `std::bad_alloc`; either
way with the heap and `*this` of that moment. -/
inductive Outcome (T : Type) where
  | done (s : Heap T × socow_vector T) : Outcome T
  | bad_alloc (s : Heap T × socow_vector T) : Outcome T

/-- The private `socow_vector(std::size_t capacity)` with an allocator that may
fail: `none` when `operator new` throws, and otherwise what the constructor
does. -/
def ctor_capacity_try (ok : Bool) (S : Nat) (h : Heap T) (capacity : Nat) :
    Option (Option (Heap T × socow_vector T)) :=
  if capacity ≤ S then some (ctor_capacity S h capacity)
  else if ok then some (ctor_capacity S h capacity)
  else none

/-- `expand(new_capacity)`: `socow_vector tmp(new_capacity);` comes first. -/
def expand_try (ok : Bool) (d S : Nat) (h : Heap T) (v : socow_vector T) (new_capacity : Nat) :
    Option (Outcome T) :=
  match ctor_capacity_try ok S h new_capacity with
  | none => some (.bad_alloc (h, v))
  | some _ => (expand d S h v new_capacity).map .done

/-- `unshare()`. -/
def unshare_try (ok : Bool) : Nat → Nat → Heap T → socow_vector T → Option (Outcome T)
  | 0, _, _, _ => none
  | d + 1, S, h, v =>
    if !shared h v then some (.done (h, v))
    else expand_try ok d S h v (capacity S h v)

/-- The mutable `operator[]`. -/
def index_mut_try (ok : Bool) : Nat → Nat → Heap T → socow_vector T → Nat → Option (Outcome T)
  | 0, _, _, _, _ => none
  | d + 1, S, h, v, _ => unshare_try ok d S h v

/-- The mutable `data()`. -/
def data_try (ok : Bool) : Nat → Nat → Heap T → socow_vector T → Option (Outcome T)
  | 0, _, _, _ => none
  | d + 1, S, h, v => unshare_try ok d S h v

/-- `push_back(T&& value)`: in the branch that needs new storage,
`socow_vector tmp(...)` comes first. -/
def push_back_try (ok : Bool) (d S : Nat) (h : Heap T) (v : socow_vector T) (value : T) :
    Option (Outcome T) :=
  if v.size < capacity S h v && !shared h v then (push_back d S h v value).map .done
  else
    match ctor_capacity_try ok S h
        (if v.size = capacity S h v then 2 * capacity S h v + 1 else capacity S h v) with
    | none => some (.bad_alloc (h, v))
    | some _ => (push_back d S h v value).map .done

/-- `push_back(const T& value)`: the other branch copies `value` and calls
`push_back(T&&)`. -/
def push_back_copy_try (ok : Bool) :
    Nat → Nat → Heap T → socow_vector T → T → Option (Outcome T)
  | 0, _, _, _, _ => none
  | d + 1, S, h, v, value =>
    if v.size < capacity S h v && !shared h v then
      (push_back_copy (d + 1) S h v value).map .done
    else
      let x := value
      push_back_try ok d S h v x

/-- `insert(const_iterator pos, T&& value)`: the in-place branch does not
allocate; in the other branch `socow_vector tmp(...)` comes first. -/
def insert_try (ok : Bool) (d S : Nat) (h : Heap T) (v : socow_vector T) (start : Nat)
    (value : T) : Option (Outcome T) :=
  if v.size ≠ capacity S h v && !shared h v then
    (insert d S h v start value).map fun r => .done (r.1, r.2.1)
  else
    match ctor_capacity_try ok S h
        (if v.size = capacity S h v then 2 * capacity S h v + 1 else capacity S h v) with
    | none => some (.bad_alloc (h, v))
    | some _ => (insert d S h v start value).map fun r => .done (r.1, r.2.1)

/-- `insert(const_iterator pos, const T& value)`. -/
def insert_copy_try (ok : Bool) (d S : Nat) (h : Heap T) (v : socow_vector T) (start : Nat)
    (value : T) : Option (Outcome T) :=
  let x := value
  insert_try ok d S h v start x

/-- `pop_back()`: on a shared container `socow_vector tmp(capacity())` comes
first. -/
def pop_back_try (ok : Bool) (d S : Nat) (h : Heap T) (v : socow_vector T) :
    Option (Outcome T) :=
  if shared h v then
    match ctor_capacity_try ok S h (capacity S h v) with
    | none => some (.bad_alloc (h, v))
    | some _ => (pop_back d S h v).map .done
  else (pop_back d S h v).map .done

/-- `erase(const_iterator first, const_iterator last)`: on a shared container
`socow_vector tmp(capacity())` comes first. -/
def erase_try (ok : Bool) (d S : Nat) (h : Heap T) (v : socow_vector T) (first last : Nat) :
    Option (Outcome T) :=
  if shared h v then
    match ctor_capacity_try ok S h (capacity S h v) with
    | none => some (.bad_alloc (h, v))
    | some _ => (erase d S h v first last).map fun r => .done (r.1, r.2.1)
  else (erase d S h v first last).map fun r => .done (r.1, r.2.1)

/-- `reserve(new_capacity)`. -/
def reserve_try (ok : Bool) (d S : Nat) (h : Heap T) (v : socow_vector T) (new_capacity : Nat) :
    Option (Outcome T) :=
  if capacity S h v < new_capacity || (v.size < new_capacity && shared h v) then
    expand_try ok d S h v new_capacity
  else some (.done (h, v))

/-- `shrink_to_fit()`. -/
def shrink_to_fit_try (ok : Bool) (d S : Nat) (h : Heap T) (v : socow_vector T) :
    Option (Outcome T) :=
  if v.is_small || v.size = capacity S h v then some (.done (h, v))
  else expand_try ok d S h v v.size

/-- The strong guarantee for a call that ended as `res`, where a call with an
allocator that always succeeds ends as `normal`.  The call ended.  If it left
with `std::bad_alloc`, the allocator was a failing one and the heap and the
object are those of the call.  If it returned, it returned what `normal` does,
which allocated at most one block, and none when the allocator is a failing
one. -/
def Safe (ok : Bool) (h : Heap T) (v : socow_vector T) (res : Option (Outcome T))
    (normal : Option (Heap T × socow_vector T)) : Prop :=
  ∃ out, res = some out ∧
    (∀ s, out = .bad_alloc s → ok = false ∧ s = (h, v)) ∧
    (∀ s, out = .done s → normal = some s ∧ s.1.length ≤ h.length + 1 ∧
      (ok = false → s.1.length = h.length))

end socow_vector

open socow_vector

/-! ## Well-formed states -/

/-- The reference count stored at address `p`; `0` when no block is live there. -/
def rc (h : Heap T) (p : Nat) : Nat :=
  match lookup h p with
  | some b => b.refs
  | none => 0

/-- Whether `v` is heap-backed with `_buffer == p`. -/
def points_to (v : socow_vector T) (p : Nat) : Bool := !v._small && v._buffer == p

/-- A container is well formed in a heap: the inline array has `SMALL_SIZE`
slots, the first `size()` slots of `cdata()` hold elements, and either it is
inline with `size() ≤ SMALL_SIZE`, or its block is live, has `capacity` slots,
`size() ≤ capacity`, `SMALL_SIZE < capacity`, a positive reference count, and a
capacity that the private constructor can provide. -/
def WF (S : Nat) (h : Heap T) (v : socow_vector T) : Prop :=
  v._sdata.length = S ∧
  (∀ i, i < v._size → ((cdata h v).getD i none).isSome = true) ∧
  (if v._small = true then v._size ≤ S
   else match lookup h v._buffer with
     | some b => b.data.length = b.capacity ∧ v._size ≤ b.capacity ∧ S < b.capacity ∧
         1 ≤ b.refs ∧ Fits T b.capacity
     | none => False)

instance (S : Nat) (h : Heap T) (v : socow_vector T) : Decidable (WF S h v) := by
  unfold WF
  cases lookup h v._buffer <;> infer_instance

/-- An update of `v` in place: same mode, same block, no allocation; every
block but an exclusively owned one of `v` is untouched, and that one keeps its
capacity and reference count. -/
structure InPlace (h : Heap T) (v : socow_vector T) (h' : Heap T) (v' : socow_vector T) :
    Prop where
  len : h'.length = h.length
  small : v'._small = v._small
  buf : v'._buffer = v._buffer
  sdata : v'._sdata.length = v._sdata.length
  other : ∀ p, (v._small = true ∨ p ≠ v._buffer) → lookup h' p = lookup h p
  own : v._small = false → ∀ b, lookup h v._buffer = some b →
    ∃ b', lookup h' v._buffer = some b' ∧ b'.refs = b.refs ∧ b'.capacity = b.capacity ∧
      b'.data.length = b.data.length ∧ (1 < b.refs → b' = b)

/-- The effect of a member function of `v` on the heap: blocks `v` does not
reference are untouched; the block of `v` is either kept (same capacity and
count, and same contents when it is shared) or released (count lowered by one,
freed when the count was one); a block that was not there before is live only
if it is the block of the result, with reference count one; at most one block
was allocated, and if one was, it is the block of the result. -/
structure Eff (h : Heap T) (v : socow_vector T) (h' : Heap T) (v' : socow_vector T) :
    Prop where
  len : h.length ≤ h'.length
  other : ∀ p, p < h.length → (v._small = true ∨ p ≠ v._buffer) → lookup h' p = lookup h p
  fresh : ∀ p, h.length ≤ p → (v'._small = true ∨ p ≠ v'._buffer) → lookup h' p = none
  fresh_own : v'._small = false → h.length ≤ v'._buffer → rc h' v'._buffer = 1
  origin : v'._small = false → (v._small = false ∧ v'._buffer = v._buffer) ∨ h.length ≤ v'._buffer
  own : v._small = false → ∀ b, lookup h v._buffer = some b →
    (v'._small = false ∧ v'._buffer = v._buffer ∧
      ∃ b', lookup h' v._buffer = some b' ∧ b'.refs = b.refs ∧ b'.capacity = b.capacity ∧
        (1 < b.refs → b' = b)) ∨
    ((v'._small = true ∨ v'._buffer ≠ v._buffer) ∧
      lookup h' v._buffer = if b.refs ≤ 1 then none else some { b with refs := b.refs - 1 })
  alloc : h'.length = h.length ∨
    (h'.length = h.length + 1 ∧ v'._small = false ∧ v'._buffer = h.length)

/-- The contribution of `v` to the number of references to the block at `p`. -/
def ind (v : socow_vector T) (p : Nat) : Nat := if points_to v p then 1 else 0

/-- The object `u` holds what `v` held: same size and mode, the same block when
heap-backed, the same first `size()` inline slots when inline. -/
def Same (S : Nat) (v u : socow_vector T) : Prop :=
  u._size = v._size ∧ u._small = v._small ∧ u._sdata.length = S ∧
  (v._small = false → u._buffer = v._buffer) ∧
  (v._small = true → ∀ i, i < v._size → u._sdata[i]? = v._sdata[i]?)

/-! ## Programs over several containers -/

/-- A program state: the heap and the container objects; `none` marks an
object whose lifetime has ended. -/
structure World (T : Type) where
  heap : Heap T
  objs : List (Option (socow_vector T))
deriving DecidableEq

/-- The public operations, on objects named by their index in the state.
Iterators are given as indices into `cdata()`. -/
inductive Op (T : Type) where
  | construct : Op T
  | copy_construct (src : Nat) : Op T
  | move_construct (src : Nat) : Op T
  | copy_assign (dst src : Nat) : Op T
  | move_assign (dst src : Nat) : Op T
  | swap (a b : Nat) : Op T
  | destroy (a : Nat) : Op T
  | push_back (a : Nat) (x : T) : Op T
  | push_back_copy (a : Nat) (x : T) : Op T
  | insert (a pos : Nat) (x : T) : Op T
  | insert_copy (a pos : Nat) (x : T) : Op T
  | pop_back (a : Nat) : Op T
  | erase (a first last : Nat) : Op T
  | erase_at (a pos : Nat) : Op T
  | clear (a : Nat) : Op T
  | reserve (a n : Nat) : Op T
  | shrink_to_fit (a : Nat) : Op T
  | assign_elem (a i : Nat) (x : T) : Op T
  | index_mut (a i : Nat) : Op T
  | data (a : Nat) : Op T
  | front (a : Nat) : Op T
  | back (a : Nat) : Op T

namespace World

/-- The object at index `a`, if alive. -/
def get (w : World T) (a : Nat) : Option (socow_vector T) := w.objs.getD a none

/-- Replace the heap and the object at index `a`. -/
def put (w : World T) (a : Nat) (r : Heap T × socow_vector T) : World T :=
  ⟨r.1, w.objs.set a (some r.2)⟩

/-- The number of live objects that reference the block at `p`. -/
def count (w : World T) (p : Nat) : Nat :=
  w.objs.countP fun o =>
    match o with
    | some v => points_to v p
    | none => false

/-- Run one operation with call depth `d`.  `none` when a named object is
not alive, when a precondition of the operation fails (`pop_back`, `front`,
`back` on an empty container, a position out of range), or when the depth
does not suffice. -/
def exec (d S : Nat) (w : World T) : Op T → Option (World T)
  | .construct => some ⟨w.heap, w.objs ++ [some (ctor S)]⟩
  | .copy_construct src =>
    (w.get src).bind fun o =>
    let r := ctor_copy S w.heap o
    some ⟨r.1, w.objs ++ [some r.2]⟩
  | .move_construct src =>
    (w.get src).bind fun o =>
    let r := ctor_move S o
    some ⟨w.heap, w.objs.set src (some r.2) ++ [some r.1]⟩
  | .copy_assign dst src =>
    (w.get dst).bind fun v =>
    (w.get src).bind fun o =>
    if dst = src then some w
    else (assign_copy d S w.heap v o).map fun r => w.put dst r
  | .move_assign dst src =>
    (w.get dst).bind fun v =>
    (w.get src).bind fun o =>
    if dst = src then some w
    else (assign_move d S w.heap v o).map fun r =>
      ⟨r.1, (w.objs.set dst (some r.2.1)).set src (some r.2.2)⟩
  | .swap a b =>
    (w.get a).bind fun v =>
    (w.get b).bind fun o =>
    if a = b then some w
    else
      let r := socow_vector.swap v o
      some ⟨w.heap, (w.objs.set a (some r.1)).set b (some r.2)⟩
  | .destroy a =>
    (w.get a).bind fun v => some ⟨dtor w.heap v, w.objs.set a none⟩
  | .push_back a x =>
    (w.get a).bind fun v => (socow_vector.push_back d S w.heap v x).map fun r => w.put a r
  | .push_back_copy a x =>
    (w.get a).bind fun v => (socow_vector.push_back_copy d S w.heap v x).map fun r => w.put a r
  | .insert a pos x =>
    (w.get a).bind fun v =>
    if pos ≤ v.size then
      (socow_vector.insert d S w.heap v pos x).map fun r => w.put a (r.1, r.2.1)
    else none
  | .insert_copy a pos x =>
    (w.get a).bind fun v =>
    if pos ≤ v.size then
      (socow_vector.insert_copy d S w.heap v pos x).map fun r => w.put a (r.1, r.2.1)
    else none
  | .pop_back a =>
    (w.get a).bind fun v =>
    if v.size = 0 then none
    else (socow_vector.pop_back d S w.heap v).map fun r => w.put a r
  | .erase a first last =>
    (w.get a).bind fun v =>
    if first ≤ last ∧ last ≤ v.size then
      (socow_vector.erase d S w.heap v first last).map fun r => w.put a (r.1, r.2.1)
    else none
  | .erase_at a pos =>
    (w.get a).bind fun v =>
    if pos < v.size then
      (socow_vector.erase_at d S w.heap v pos).map fun r => w.put a (r.1, r.2.1)
    else none
  | .clear a =>
    (w.get a).bind fun v => (socow_vector.clear d S w.heap v).map fun r => w.put a r
  | .reserve a n =>
    (w.get a).bind fun v => (socow_vector.reserve d S w.heap v n).map fun r => w.put a r
  | .shrink_to_fit a =>
    (w.get a).bind fun v => (socow_vector.shrink_to_fit d S w.heap v).map fun r => w.put a r
  | .assign_elem a i x =>
    (w.get a).bind fun v =>
    if i < v.size then (socow_vector.assign_elem d S w.heap v i x).map fun r => w.put a r
    else none
  | .index_mut a i =>
    (w.get a).bind fun v =>
    if i < v.size then (socow_vector.index_mut d S w.heap v i).map fun r => w.put a r
    else none
  | .data a =>
    (w.get a).bind fun v => (socow_vector.data d S w.heap v).map fun r => w.put a r
  | .front a =>
    (w.get a).bind fun v =>
    if v.size = 0 then none
    else (socow_vector.front d S w.heap v).map fun r => w.put a r
  | .back a =>
    (w.get a).bind fun v =>
    if v.size = 0 then none
    else (socow_vector.back d S w.heap v).map fun r => w.put a r

/-- The state invariant: every live object is well formed, the reference
count stored in a block is the number of live objects that reference it (an
address without a live block is referenced by none), and a live block has a
positive count. -/
def Inv (S : Nat) (w : World T) : Prop :=
  (∀ a v, w.get a = some v → WF S w.heap v) ∧
  (∀ p, rc w.heap p = w.count p) ∧
  (∀ p b, lookup w.heap p = some b → 1 ≤ b.refs)

/-- The precondition of an operation: the objects it names are alive, the
positions are in range, and `pop_back`, `front`, `back` are not applied to an
empty container. -/
def Pre (w : World T) : Op T → Prop
  | .construct => True
  | .copy_construct src => ∃ o, w.get src = some o
  | .move_construct src => ∃ o, w.get src = some o
  | .copy_assign dst src => ∃ v o, w.get dst = some v ∧ w.get src = some o
  | .move_assign dst src => ∃ v o, w.get dst = some v ∧ w.get src = some o
  | .swap a b => ∃ v o, w.get a = some v ∧ w.get b = some o
  | .destroy a => ∃ v, w.get a = some v
  | .push_back a _ => ∃ v, w.get a = some v
  | .push_back_copy a _ => ∃ v, w.get a = some v
  | .insert a pos _ => ∃ v, w.get a = some v ∧ pos ≤ v._size
  | .insert_copy a pos _ => ∃ v, w.get a = some v ∧ pos ≤ v._size
  | .pop_back a => ∃ v, w.get a = some v ∧ v._size ≠ 0
  | .erase a first last => ∃ v, w.get a = some v ∧ first ≤ last ∧ last ≤ v._size
  | .erase_at a pos => ∃ v, w.get a = some v ∧ pos < v._size
  | .clear a => ∃ v, w.get a = some v
  | .reserve a _ => ∃ v, w.get a = some v
  | .shrink_to_fit a => ∃ v, w.get a = some v
  | .assign_elem a i _ => ∃ v, w.get a = some v ∧ i < v._size
  | .index_mut a i => ∃ v, w.get a = some v ∧ i < v._size
  | .data a => ∃ v, w.get a = some v
  | .front a => ∃ v, w.get a = some v ∧ v._size ≠ 0
  | .back a => ∃ v, w.get a = some v ∧ v._size ≠ 0

/-- The blocks that an operation requests have a size: `push_back` and `insert`
on a full container request a block for `2 * capacity() + 1` elements, and
`reserve(n)` above the capacity requests one for `n` elements. -/
def Room (S : Nat) (w : World T) : Op T → Prop
  | .push_back a _ => ∀ v, w.get a = some v → v._size = capacity S w.heap v →
      Fits T (2 * capacity S w.heap v + 1)
  | .push_back_copy a _ => ∀ v, w.get a = some v → v._size = capacity S w.heap v →
      Fits T (2 * capacity S w.heap v + 1)
  | .insert a _ _ => ∀ v, w.get a = some v → v._size = capacity S w.heap v →
      Fits T (2 * capacity S w.heap v + 1)
  | .insert_copy a _ _ => ∀ v, w.get a = some v → v._size = capacity S w.heap v →
      Fits T (2 * capacity S w.heap v + 1)
  | .reserve a n => ∀ v, w.get a = some v → capacity S w.heap v < n → Fits T n
  | _ => True

/-- The objects an operation may modify. -/
def touches : Op T → Nat → Prop
  | .construct, _ => False
  | .copy_construct _, _ => False
  | .move_construct src, c => c = src
  | .copy_assign dst _, c => c = dst
  | .move_assign dst src, c => c = dst ∨ c = src
  | .swap a b, c => c = a ∨ c = b
  | .destroy a, c => c = a
  | .push_back a _, c => c = a
  | .push_back_copy a _, c => c = a
  | .insert a _ _, c => c = a
  | .insert_copy a _ _, c => c = a
  | .pop_back a, c => c = a
  | .erase a _ _, c => c = a
  | .erase_at a _, c => c = a
  | .clear a, c => c = a
  | .reserve a _, c => c = a
  | .shrink_to_fit a, c => c = a
  | .assign_elem a _ _, c => c = a
  | .index_mut a _, c => c = a
  | .data a, c => c = a
  | .front a, c => c = a
  | .back a, c => c = a

/-- The object at index `c` is the same in both states and sees the same
elements and capacity. -/
def Keeps (S : Nat) (w w' : World T) (c : Nat) : Prop :=
  ∀ u, w.get c = some u →
    w'.get c = some u ∧ elems w'.heap u = elems w.heap u ∧
      capacity S w'.heap u = capacity S w.heap u

/-- The states a program can reach from the state with no object and an
empty heap.  A call depth of `9` suffices for every operation, so steps are
run with at least that. -/
inductive Reachable (S : Nat) : World T → Prop where
  | init : Reachable S ⟨[], []⟩
  | step {w w' : World T} (d : Nat) (op : Op T) :
      Reachable S w → exec (d + 9) S w op = some w' → Reachable S w'

/-- Containers that reference the same block have the same size. -/
def Agree (w : World T) : Prop :=
  ∀ a b va vb, w.get a = some va → w.get b = some vb → va._small = false →
    vb._small = false → va._buffer = vb._buffer → va._size = vb._size

/-- Where the heap-backed containers of `w'` come from: each is the only owner
of its block, or has the block and the size of a container of `w`. -/
def Origin (w w' : World T) : Prop :=
  ∀ c v', w'.get c = some v' → v'._small = false →
    rc w'.heap v'._buffer = 1 ∨
    ∃ k o, w.get k = some o ∧ o._small = false ∧ o._buffer = v'._buffer ∧ o._size = v'._size

/-- Every block of `w` with a count above one is still there in `w'`, with the
same slots and capacity. -/
def Quiet (w w' : World T) : Prop :=
  ∀ p b, lookup w.heap p = some b → 1 < b.refs →
    ∃ b', lookup w'.heap p = some b' ∧ b'.data = b.data ∧ b'.capacity = b.capacity

/-- The operation `op` runs to completion from `w` and leaves the object `a` at index `ia`, and
the elements it holds, as they were in `w0`. -/
def Leaves (d S : Nat) (w0 w : World T) (ia : Nat) (a : socow_vector T) (op : Op T) : Prop :=
  ∃ w', exec (d + 9) S w op = some w' ∧ w'.get ia = some a ∧
    elems w'.heap a = elems w0.heap a

/-- The member function result `f` of the object at `ib`, put back into `w`, leaves the object
`a` at index `ia`, and the elements it holds, as they were in `w0`. -/
def LeavesBy (w0 w : World T) (ia : Nat) (a : socow_vector T) (ib : Nat)
    (f : Option (Heap T × socow_vector T)) : Prop :=
  ∃ r, f = some r ∧ (w.put ib r).get ia = some a ∧
    elems (w.put ib r).heap a = elems w0.heap a

end World

/-! ## Example states (`SMALL_SIZE = 2`, elements of type `Nat`) -/

/-- One inline container holding `7, 8`. -/
def ex_inline : World Nat := ⟨[], [some ⟨2, true, [some 7, some 8], 0⟩]⟩

/-- One heap-backed container holding `7, 8, 9`: `ex_inline` after `push_back(9)`. -/
def ex_heap : World Nat :=
  ⟨[some ⟨5, 1, [some 7, some 8, some 9, none, none]⟩], [some ⟨3, false, [none, none], 0⟩]⟩

/-- Two containers that share one block: `ex_heap` after a copy construction. -/
def ex_shared : World Nat :=
  ⟨[some ⟨5, 2, [some 7, some 8, some 9, none, none]⟩],
    [some ⟨3, false, [none, none], 0⟩, some ⟨3, false, [none, none], 0⟩]⟩

/-- One heap-backed container holding `7, 8` in a block of capacity 5:
`ex_heap` after `pop_back()`. -/
def ex_two : World Nat :=
  ⟨[some ⟨5, 1, [some 7, some 8, none, none, none]⟩], [some ⟨2, false, [none, none], 0⟩]⟩

/-- One heap-backed container holding `7` in a block of capacity 5: `ex_two`
after `pop_back()`. -/
def ex_one : World Nat :=
  ⟨[some ⟨5, 1, [some 7, none, none, none, none]⟩], [some ⟨1, false, [none, none], 0⟩]⟩

/-- Two containers that share the block of `7`: `ex_one` after a copy
construction. -/
def ex_one_shared : World Nat :=
  ⟨[some ⟨5, 2, [some 7, none, none, none, none]⟩],
    [some ⟨1, false, [none, none], 0⟩, some ⟨1, false, [none, none], 0⟩]⟩

/-- A heap-backed container holding `7, 8` and an inline one holding `5`:
`ex_two` after a default construction and `push_back(5)` on the new object. -/
def ex_mixed : World Nat :=
  ⟨[some ⟨5, 1, [some 7, some 8, none, none, none]⟩],
    [some ⟨2, false, [none, none], 0⟩, some ⟨1, true, [some 5, none], 0⟩]⟩

end Socow

/-! ## Type lists (`src/typelist/typelist.h`)

A C++ type is, as far as the library can tell, one of three things: an instance
`List<Types...>` of a class template whose parameters are all types, the constant
`tl::index<N>`, or any other type.  A metafunction is a function on such types that returns
`none` where the C++ program would not compile.  `std::size_t` arithmetic is arithmetic modulo
`2 ^ 64`.  Recursive metafunctions carry the instantiation depth they may use. -/

namespace tl

/-- Class templates that match `template <typename...> typename`. -/
inductive Template where
  | type_list : Template
  | named (id : Nat) : Template
deriving DecidableEq

/-- Types, as seen by the partial specialisations of the library. -/
inductive Ty (α : Type) where
  | atom (a : α) : Ty α
  | index (N : Nat) : Ty α
  | app (L : Template) (Types : List (Ty α)) : Ty α

/-- Number of values of `std::size_t`. -/
def SIZE_RANGE : Nat := 2 ^ 64

variable {α : Type}

/-- Collects the results of a pack expansion; fails if one of them fails. -/
def expand {β : Type} : List (Option β) → Option (List β)
  | [] => some []
  | x :: xs => x.bind fun a => (expand xs).map fun as => a :: as

/-- Overload `operator+` on `identity<List1<Types1...>>` and `identity<List2<Types2...>>`. -/
def plus : Ty α → Ty α → Option (Ty α)
  | .app List1 Types1, .app _ Types2 => some (.app List1 (Types1 ++ Types2))
  | _, _ => none

def second : Ty α → Option (Ty α)
  | .app _ (_ :: Second :: _) => some Second
  | _ => none

def count : Ty α → Option Nat
  | .app _ Types => some Types.length
  | _ => none

def enumerate : Ty α → Option (Ty α)
  | .app L Types => some (.app L (Types.enum.map fun p => .app L [.index p.1, p.2]))
  | _ => none

/-- The right fold `(identity<Lists>{} + ... + identity<type_list<>>{})`. -/
def concat (Lists : List (Ty α)) : Option (Ty α) :=
  Lists.foldr (fun l acc => acc.bind (plus l)) (some (.app .type_list []))

def apply (F : Template) : Ty α → Option (Ty α)
  | .app _ Types => some (.app F Types)
  | _ => none

mutual
def flatten : Ty α → Option (Ty α)
  | .app L Types => ((flatten_pack Types).bind concat).bind (apply L)
  | Type_ => some (.app .type_list [Type_])
/-- The pack expansion `flatten<Types>...`. -/
def flatten_pack : List (Ty α) → Option (List (Ty α))
  | [] => some []
  | x :: xs => (flatten x).bind fun a => (flatten_pack xs).map fun as => a :: as
end

def conditional {β : Type} (B : Bool) (t f : β) : β :=
  match B with
  | true => t
  | false => f

def filter (Pred : Ty α → Option Bool) : Ty α → Option (Ty α)
  | .app L [] => some (.app L [])
  | .app L Types =>
    (expand (Types.map fun Type_ =>
      (Pred Type_).map fun value => conditional value (.app L [Type_]) (.app L []))).bind
      concat
  | _ => none

def get_index : Ty α → Option Nat
  | .app _ [.index N, _] => some N
  | _ => none

def transform (F : Ty α → Option (Ty α)) : Ty α → Option (Ty α)
  | .app L Types => (expand (Types.map F)).map (.app L)
  | _ => none

/-- Member `comp` of `slice_impl<List, Start, Len>`. -/
def slice_comp (Start Len : Nat) (Pair : Ty α) : Option Bool :=
  (get_index Pair).map fun i => decide (Start ≤ i) && decide (i < (Start + Len) % SIZE_RANGE)

def slice (l : Ty α) (Start Len : Nat) : Option (Ty α) :=
  ((enumerate l).bind (filter (slice_comp Start Len))).bind (transform second)

def merge (Compare : Ty α → Ty α → Bool) : Nat → Ty α → Ty α → Option (Ty α)
  | 0, _, _ => none
  | _ + 1, .app L [], .app L2 [] => if L = L2 then some (.app L []) else none
  | _ + 1, .app L Types, .app L2 [] => if L = L2 then some (.app L Types) else none
  | _ + 1, .app L [], .app L2 Types => if L = L2 then some (.app L Types) else none
  | d + 1, .app L (First1 :: Rest1), .app L2 (First2 :: Rest2) =>
    if L = L2 then
      match Compare First1 First2 with
      | true =>
        (merge Compare d (.app L Rest1) (.app L (First2 :: Rest2))).bind fun r =>
          concat [.app L [First1], r]
      | false =>
        (merge Compare d (.app L (First1 :: Rest1)) (.app L Rest2)).bind fun r =>
          concat [.app L [First2], r]
    else none
  | _ + 1, _, _ => none

def merge_sort (Compare : Ty α → Ty α → Bool) : Nat → Ty α → Option (Ty α)
  | 0, _ => none
  | _ + 1, .app L [] => some (.app L [])
  | _ + 1, .app L [A] => some (.app L [A])
  | _ + 1, .app L [A, B] =>
    some (conditional (Compare A B) (.app L [A, B]) (.app L [B, A]))
  | d + 1, .app L Types =>
    let len1 := Types.length / 2
    let len2 := Types.length - len1
    (slice (.app L Types) 0 len1).bind fun l1 =>
    (merge_sort Compare d l1).bind fun sorted1 =>
    (slice (.app L Types) len1 len2).bind fun l2 =>
    (merge_sort Compare d l2).bind fun sorted2 =>
    merge Compare d sorted1 sorted2
  | _ + 1, _ => none

/-! ### Words of the specification -/

mutual
/-- The non-list leaves of a type, left to right, depth first. -/
def leaves : Ty α → List (Ty α)
  | .app _ Types => leaves_pack Types
  | x => [x]
def leaves_pack : List (Ty α) → List (Ty α)
  | [] => []
  | x :: xs => leaves x ++ leaves_pack xs
end

/-- The template that `flatten` wraps its result in. -/
def outer : Ty α → Template
  | .app L _ => L
  | _ => .type_list

/-- A type that is not an instance of a list template. -/
def is_leaf : Ty α → Prop
  | .app _ _ => False
  | _ => True

/-- No element is followed by an element that `Compare` orders strictly before it. -/
def Sorted (Compare : Ty α → Ty α → Bool) (l : List (Ty α)) : Prop :=
  l.Pairwise fun a b => Compare b a = false

structure StrictWeakOrder (Compare : Ty α → Ty α → Bool) : Prop where
  irrefl : ∀ a, Compare a a = false
  trans : ∀ a b c, Compare a b = true → Compare b c = true → Compare a c = true
  incomp : ∀ a b c, Compare a b = false → Compare b a = false → Compare b c = false →
    Compare c b = false → Compare a c = false ∧ Compare c a = false

/-! ### The types of the tests -/

inductive Prim where
  | int | float | double | long
deriving DecidableEq

def Prim.rank : Prim → Nat
  | .int => 0
  | .float => 1
  | .double => 2
  | .long => 3

/-- Rank of a type in the order of the tests; the types that `compare_impl` is not
specialised for are ranked last. -/
def rank : Ty Prim → Nat
  | .atom a => a.rank
  | _ => 4

/-- The comparison `compare_impl` of the tests, `int < float < double < long`. -/
def compare_prim (A B : Ty Prim) : Bool := decide (rank A < rank B)

end tl

/-! ## Ring buffer (`src/circular_buffer/circular-buffer.h`)

The array `_data` is a list of `_capacity` slots; a slot holds `none` until an element is
constructed in it and after the element is destroyed.  Moves and swaps carry the contents of
slots.  An iterator is the offset it stores, a position argument is its distance from
`begin()`.  Allocation succeeds and all sizes stay below `2 ^ 64`. -/

structure circular_buffer (T : Type) where
  _offset : Nat
  _size : Nat
  _capacity : Nat
  _data : List (Option T)
deriving DecidableEq

namespace circular_buffer

variable {T : Type}

/-- The default constructor. -/
def ctor : circular_buffer T := ⟨0, 0, 0, []⟩

/-- Index of the slot that an iterator with this offset points to (`operator->`). -/
def arrow (offset capacity : Nat) : Nat :=
  if offset ≥ capacity then offset - capacity else offset

/-- The slot of `*(begin() + index)`. -/
def slot (b : circular_buffer T) (index : Nat) : Nat :=
  arrow (b._offset + index) b._capacity

/-- Contents of `(*this)[index]`. -/
def index (b : circular_buffer T) (index : Nat) : Option T :=
  b._data.getD (b.slot index) none

def assign_index (b : circular_buffer T) (index : Nat) (x : Option T) : circular_buffer T :=
  { b with _data := b._data.set (b.slot index) x }

/-- The call `std::swap((*this)[i], (*this)[j])`. -/
def swap_index (b : circular_buffer T) (i j : Nat) : circular_buffer T :=
  (b.assign_index i (b.index j)).assign_index j (b.index i)

def push_back_in (other : circular_buffer T) (val : Option T) : circular_buffer T :=
  let ind := other._offset + other._size
  let ind := if ind ≥ other._capacity then ind - other._capacity else ind
  { other with _data := other._data.set ind val, _size := other._size + 1 }

def push_front_in (other : circular_buffer T) (val : Option T) : circular_buffer T :=
  let ind := if other._offset = 0 then other._capacity - 1 else other._offset - 1
  { other with _data := other._data.set ind val, _offset := ind, _size := other._size + 1 }

/-- The algorithms `std::uninitialized_copy` and `std::uninitialized_move` from
`other.begin() .. other.end()` to the start of an array of `capacity` slots read at offset 0. -/
def uninitialized_copy (other : circular_buffer T) (capacity : Nat) (data : List (Option T)) :
    List (Option T) :=
  (List.range other._size).foldl (fun d i => d.set (arrow i capacity) (other.index i)) data

/-- The copy constructor. -/
def ctor_copy (other : circular_buffer T) : circular_buffer T :=
  ⟨0, other._size, other._capacity,
    uninitialized_copy other other._capacity (List.replicate other._capacity none)⟩

/-- The private constructors `circular_buffer(other, new_capacity)`. -/
def ctor_capacity (other : circular_buffer T) (new_capacity : Nat) : circular_buffer T :=
  ⟨0, other._size, new_capacity,
    uninitialized_copy other new_capacity (List.replicate new_capacity none)⟩

def pop_back (b : circular_buffer T) : Option (circular_buffer T) :=
  if b._size = 0 then none
  else some { b.assign_index (b._size - 1) none with _size := b._size - 1 }

def pop_front (b : circular_buffer T) : Option (circular_buffer T) :=
  if b._size = 0 then none
  else some { b.assign_index 0 none with
    _size := b._size - 1
    _offset := if b._offset = b._capacity - 1 then 0 else b._offset + 1 }

def reserve (b : circular_buffer T) (desired_capacity : Nat) : circular_buffer T :=
  if desired_capacity ≤ b._capacity then b else ctor_capacity b desired_capacity

/-- Loop `for (i = pref; i > 0; --i) push_front_in(tmp, (*this)[i - 1])`. -/
def insert_front_loop (b : circular_buffer T) : Nat → circular_buffer T → circular_buffer T
  | 0, tmp => tmp
  | i + 1, tmp => insert_front_loop b i (push_front_in tmp (b.index i))

/-- Loop `for (i = pref; i < size(); ++i) push_back_in(tmp, (*this)[i])`, with `n` rounds
left. -/
def insert_back_loop (b : circular_buffer T) : Nat → Nat → circular_buffer T →
    circular_buffer T
  | _, 0, tmp => tmp
  | i, n + 1, tmp => insert_back_loop b (i + 1) n (push_back_in tmp (b.index i))

/-- Loop `while (next <= pref) { swap((*this)[next - 1], (*this)[next]); ++next; }`, with `n`
rounds left. -/
def swap_up_loop : Nat → Nat → circular_buffer T → circular_buffer T
  | _, 0, b => b
  | next, n + 1, b => swap_up_loop (next + 1) n (b.swap_index (next - 1) next)

/-- Loop `while (next > pref) { swap((*this)[next - 1], (*this)[next]); --next; }`, with `n`
rounds left. -/
def swap_down_loop : Nat → Nat → circular_buffer T → circular_buffer T
  | _, 0, b => b
  | next, n + 1, b => swap_down_loop (next - 1) n (b.swap_index (next - 1) next)

/-- The member `insert(pos, val)` with `pos = begin() + pref`; the returned iterator is
`begin() + pref`. -/
def insert (b : circular_buffer T) (pref : Nat) (val : T) : Option (circular_buffer T) :=
  if pref ≤ b._size then
    let suff := b._size - pref
    if b._size = b._capacity then
      let tmp : circular_buffer T := reserve ctor (2 * b._capacity + 1)
      let tmp := { tmp with
        _data := tmp._data.set pref (some val), _size := tmp._size + 1, _offset := pref }
      let tmp := insert_front_loop b pref tmp
      let tmp := insert_back_loop b pref (b._size - pref) tmp
      some tmp
    else if pref < suff then
      let b := push_front_in b (some val)
      some (swap_up_loop 1 pref b)
    else
      let b := push_back_in b (some val)
      some (swap_down_loop (b._size - 1) (b._size - 1 - pref) b)
  else none

def push_back (b : circular_buffer T) (val : T) : Option (circular_buffer T) :=
  b.insert b._size val

def push_front (b : circular_buffer T) (val : T) : Option (circular_buffer T) :=
  b.insert 0 val

/-- Loop `for (i = 0; i < suff; ++i) swap((*this)[pref + i], (*this)[pref + i + len])`, with
`n` rounds left. -/
def erase_back_loop (pref len : Nat) : Nat → Nat → circular_buffer T → circular_buffer T
  | _, 0, b => b
  | i, n + 1, b => erase_back_loop pref len (i + 1) n (b.swap_index (pref + i) (pref + i + len))

/-- Loop `for (i = pref; i > 0; --i) swap((*this)[i - 1], (*this)[len + i - 1])`. -/
def erase_front_loop (len : Nat) : Nat → circular_buffer T → circular_buffer T
  | 0, b => b
  | i + 1, b => erase_front_loop len i (b.swap_index i (len + i))

/-- Runs one of the `pop` members `n` times. -/
def repeat_pop (pop : circular_buffer T → Option (circular_buffer T)) :
    Nat → circular_buffer T → Option (circular_buffer T)
  | 0, b => some b
  | n + 1, b => (pop b).bind (repeat_pop pop n)

/-- The member `erase(first, last)` with `first = begin() + pref` and
`last = first + len`. -/
def erase (b : circular_buffer T) (pref len : Nat) : Option (circular_buffer T) :=
  if pref + len ≤ b._size then
    let suff := b._size - (pref + len)
    if pref > suff then
      repeat_pop pop_back len (erase_back_loop pref len 0 suff b)
    else
      repeat_pop pop_front len (erase_front_loop len pref b)
  else none

/-- The call `std::destroy(begin(), end())`. -/
def destroy (b : circular_buffer T) : circular_buffer T :=
  (List.range b._size).foldl (fun b i => b.assign_index i none) b

def clear (b : circular_buffer T) : circular_buffer T :=
  { b.destroy with _size := 0 }

/-- Public operations on one buffer.  `copy` stands for the state of a buffer copied from this
one (copy construction and copy assignment), `moved_from` for the state that the move
constructor leaves in its argument; `swap` and move assignment exchange the states of two
buffers. -/
inductive Op (T : Type) where
  | push_back (val : T)
  | push_front (val : T)
  | pop_back
  | pop_front
  | reserve (desired_capacity : Nat)
  | insert (pos : Nat) (val : T)
  | erase (first len : Nat)
  | clear
  | copy
  | moved_from

def exec (b : circular_buffer T) : Op T → Option (circular_buffer T)
  | .push_back val => b.push_back val
  | .push_front val => b.push_front val
  | .pop_back => b.pop_back
  | .pop_front => b.pop_front
  | .reserve n => some (b.reserve n)
  | .insert pos val => b.insert pos val
  | .erase first len => b.erase first len
  | .clear => some b.clear
  | .copy => some (ctor_copy b)
  | .moved_from => some ⟨0, 0, 0, []⟩

/-- States that a buffer can be in. -/
inductive Reachable : circular_buffer T → Prop where
  | ctor : Reachable ctor
  | step {b b' : circular_buffer T} (op : Op T) : Reachable b → exec b op = some b' →
    Reachable b'

/-- Runs a sequence of operations. -/
def run (b : circular_buffer T) : List (Op T) → Option (circular_buffer T)
  | [] => some b
  | op :: ops => (exec b op).bind fun b' => run b' ops

/-- Class invariant: the elements fit, and the offset is inside a non-empty array. -/
structure Inv (b : circular_buffer T) : Prop where
  size_le : b._size ≤ b._capacity
  offset_lt : 0 < b._capacity → b._offset < b._capacity
  data_length : b._data.length = b._capacity

/-- Two states with the same bookkeeping and an array of the same length. -/
def Shape (b b' : circular_buffer T) : Prop :=
  b'._offset = b._offset ∧ b'._size = b._size ∧ b'._capacity = b._capacity ∧
    b'._data.length = b._data.length

/-- Example: a full buffer with three slots. -/
def ex_full : circular_buffer Nat := ⟨0, 3, 3, [some 1, some 2, some 3]⟩

/-- The logical sequence `(*this)[0], ..., (*this)[size() - 1]`. -/
def to_list (b : circular_buffer T) : List (Option T) := (List.range b._size).map b.index

/-- The member `erase(first, last)` together with the iterator it returns, `begin() + pref`,
given by the offset that the iterator stores. -/
def erase_it (b : circular_buffer T) (pref len : Nat) : Option (circular_buffer T × Nat) :=
  (b.erase pref len).map fun b' => (b', b'._offset + pref)

/-- The array is in place: the offset is inside it and it has `_capacity` slots. -/
def Ring (b : circular_buffer T) : Prop :=
  b._offset < b._capacity ∧ b._data.length = b._capacity

end circular_buffer

/-! ## Dense matrix (`src/matrix/matrix.h`)

The element type `T` is any type with the value `T()`, written `0`, a sum and a product; the
arithmetic of the elements is that of `T`.  The array `_data` is a list.  A pointer to `T` is
the distance in bytes from `_data` to its address, modulo `2 ^ 64`; an access through a pointer
has no result when the address is not that of an element of the array.  Arithmetic of
`std::size_t` is arithmetic modulo `2 ^ 64`, and arithmetic of `std::ptrdiff_t` wraps into
`[-2 ^ 63, 2 ^ 63)`. -/

structure matrix (T : Type) where
  _rows : Nat
  _cols : Nat
  _data : List T
deriving DecidableEq

namespace matrix

variable {T : Type}

/-- Number of values of `std::size_t`. -/
def SIZE_RANGE : Nat := 2 ^ 64

/-- Conversion to `std::ptrdiff_t`, and the result of its arithmetic: the value modulo `2 ^ 64`
that lies in `[-2 ^ 63, 2 ^ 63)`. -/
def to_ptrdiff (x : Int) : Int := (x + 2 ^ 63) % 2 ^ 64 - 2 ^ 63

/-- The pointer `p + n` for a pointer to `T`: the address moves by `n * sizeof(T)` bytes. -/
def ptr_add (T : Type) [Layout T] (p : Nat) (n : Int) : Nat :=
  (((p : Int) + n * (Layout.sizeof_T T : Int)) % 2 ^ 64).toNat

/-- The difference `p - q` of two pointers to `T`: the distance in bytes as a `std::ptrdiff_t`,
divided by `sizeof(T)`. -/
def ptr_diff (T : Type) [Layout T] (p q : Nat) : Int :=
  (to_ptrdiff ((p : Int) - (q : Int))).tdiv (Layout.sizeof_T T : Int)

/-- The pointer `data()`. -/
def data (_m : matrix T) : Nat := 0

/-- Read through a pointer: `*p`. -/
def load [Layout T] (m : matrix T) (p : Nat) : Option T :=
  if p % Layout.sizeof_T T = 0 then m._data.get? (p / Layout.sizeof_T T) else none

/-- Write through a pointer: `*p = x`. -/
def store [Layout T] (m : matrix T) (p : Nat) (x : T) : Option (matrix T) :=
  if p % Layout.sizeof_T T = 0 ∧ p / Layout.sizeof_T T < m._data.length then
    some { m with _data := m._data.set (p / Layout.sizeof_T T) x }
  else none

def size (m : matrix T) : Nat := (m._rows * m._cols) % SIZE_RANGE

def empty (m : matrix T) : Bool := decide (m.size = 0)

/-- The constructor `matrix(rows, cols)`; the elements are value-initialised. -/
def ctor [Zero T] (rows cols : Nat) : matrix T :=
  let r := if (rows * cols) % SIZE_RANGE = 0 then 0 else rows
  let c := if (rows * cols) % SIZE_RANGE = 0 then 0 else cols
  ⟨r, c, List.replicate ((r * c) % SIZE_RANGE) 0⟩

/-- Read through `operator()(row, col)`: the element `_data[row * _cols + col]`. -/
def get [Layout T] (m : matrix T) (row col : Nat) : Option T :=
  if row < m._rows ∧ col < m._cols then
    m.load (ptr_add T m.data (((row * m._cols + col) % SIZE_RANGE : Nat) : Int))
  else none

/-- Write through `operator()(row, col)`. -/
def set [Layout T] (m : matrix T) (row col : Nat) (x : T) : Option (matrix T) :=
  if row < m._rows ∧ col < m._cols then
    m.store (ptr_add T m.data (((row * m._cols + col) % SIZE_RANGE : Nat) : Int)) x
  else none

/-! ### Iterators

A row iterator is a pointer. -/

def row_begin [Layout T] (m : matrix T) (row : Nat) : Option Nat :=
  if row < m._rows then some (ptr_add T m.data (((row * m._cols) % SIZE_RANGE : Nat) : Int))
  else none

def row_end [Layout T] (m : matrix T) (row : Nat) : Option Nat :=
  (m.row_begin row).map fun p => ptr_add T p (m._cols : Int)

/-- The data members of `base_col_iterator`. -/
structure col_iterator (T : Type) where
  _current : Nat
  _cols : Nat
  _col : Nat
deriving DecidableEq

/-- The call `operator*` of a column iterator: `_current[_col]`. -/
def col_iterator.deref [Layout T] (m : matrix T) (it : col_iterator T) : Option T :=
  m.load (ptr_add T it._current (it._col : Int))

/-- The call `operator++` of a column iterator: `_current += _cols`. -/
def col_iterator.incr [Layout T] (it : col_iterator T) : col_iterator T :=
  { it with _current := ptr_add T it._current (it._cols : Int) }

/-- The call `operator+=` and the friend `operator+` with a `difference_type`:
`_current += other * static_cast<difference_type>(_cols)`. -/
def col_iterator.add [Layout T] (it : col_iterator T) (other : Int) : col_iterator T :=
  { it with _current := ptr_add T it._current (to_ptrdiff (other * to_ptrdiff (it._cols : Int))) }

/-- The call `operator-=` and the friend `operator-` with a `difference_type`:
`_current -= other * static_cast<difference_type>(_cols)`. -/
def col_iterator.sub [Layout T] (it : col_iterator T) (other : Int) : col_iterator T :=
  { it with
    _current := ptr_add T it._current (-to_ptrdiff (other * to_ptrdiff (it._cols : Int))) }

/-- The friend `operator-` of two column iterators:
`(left._current - right._current) / static_cast<difference_type>(left._cols)`; the division
truncates, and there is no result for a divisor 0 and for a quotient outside
`std::ptrdiff_t`. -/
def col_iterator.diff [Layout T] (left right : col_iterator T) : Option Int :=
  if to_ptrdiff (left._cols : Int) = 0 then none
  else if ptr_diff T left._current right._current = -2 ^ 63 ∧
      to_ptrdiff (left._cols : Int) = -1 then none
  else some ((ptr_diff T left._current right._current).tdiv (to_ptrdiff (left._cols : Int)))

/-- The friend `operator==` of two column iterators. -/
def col_iterator.eq (lhs rhs : col_iterator T) : Bool := decide (lhs._current = rhs._current)

def col_begin (m : matrix T) (col : Nat) : Option (col_iterator T) :=
  if col < m._cols then some ⟨m.data, m._cols, col⟩ else none

def col_end [Layout T] (m : matrix T) (col : Nat) : Option (col_iterator T) :=
  (m.col_begin col).map fun it => it.add (to_ptrdiff (m._rows : Int))

/-! ### The product -/

/-- The call `std::inner_product(first1, last1, first2, init)` on a row of `left` and a column
of `right`: while `first1 != last1`, `init = init + *first1 * *first2`, `++first1`,
`++first2`.  The first argument bounds the number of rounds. -/
def inner_product [Layout T] [Add T] [Mul T] (left right : matrix T) :
    Nat → Nat → Nat → col_iterator T → T → Option T
  | 0, _, _, _, _ => none
  | fuel + 1, first1, last1, first2, init =>
    if first1 = last1 then some init
    else
      (left.load first1).bind fun a =>
      (first2.deref right).bind fun b =>
      inner_product left right fuel (ptr_add T first1 1) last1 first2.incr (init + a * b)

/-- Inner loop of `operator*`, at column `col` with `n` columns left. -/
def mul_cols [Layout T] [Zero T] [Add T] [Mul T] (fuel : Nat) (left right : matrix T)
    (row : Nat) : Nat → Nat → matrix T → Option (matrix T)
  | _, 0, res => some res
  | col, n + 1, res =>
    (left.row_begin row).bind fun first1 =>
    (left.row_end row).bind fun last1 =>
    (right.col_begin col).bind fun first2 =>
    (inner_product left right fuel first1 last1 first2 0).bind fun x =>
    (res.set row col x).bind (mul_cols fuel left right row (col + 1) n)

/-- Outer loop of `operator*`, at row `row` with `n` rows left. -/
def mul_rows [Layout T] [Zero T] [Add T] [Mul T] (fuel : Nat) (left right : matrix T) :
    Nat → Nat → matrix T → Option (matrix T)
  | _, 0, res => some res
  | row, n + 1, res =>
    (mul_cols fuel left right row 0 right._cols res).bind
      (mul_rows fuel left right (row + 1) n)

/-- The friend `operator*(const matrix&, const matrix&)`; `fuel` bounds the number of rounds
of each call of `std::inner_product`. -/
def mul [Layout T] [Zero T] [Add T] [Mul T] (fuel : Nat) (left right : matrix T) :
    Option (matrix T) :=
  if left._cols = right._rows then
    mul_rows fuel left right 0 left._rows (ctor left._rows right._cols)
  else none

def swap (lhs rhs : matrix T) : matrix T × matrix T :=
  (⟨rhs._rows, rhs._cols, rhs._data⟩, ⟨lhs._rows, lhs._cols, lhs._data⟩)

/-- The member `operator*=(const matrix&)`; returns the new state of `*this`. -/
def mul_assign [Layout T] [Zero T] [Add T] [Mul T] (fuel : Nat) (self other : matrix T) :
    Option (matrix T) :=
  (mul fuel self other).map fun tmp => (swap self tmp).1

/-! ### Specification -/

/-- The element stored for `(i, j)` in row-major order. -/
def entry [Zero T] (m : matrix T) (i j : Nat) : T := m._data.getD (i * m._cols + j) 0

/-- A matrix with `r` rows and `k` columns and its `r * k` elements, which take fewer than
`2 ^ 63` bytes. -/
structure Dim [Layout T] (m : matrix T) (r k : Nat) : Prop where
  rows : m._rows = r
  cols : m._cols = k
  data : m._data.length = r * k
  bytes : Layout.sizeof_T T * (r * k) < 2 ^ 63

/-- The sum over `t < k` of `A(i, t) * B(t, j)`, accumulated from `T()` in the order of `t`. -/
def dot [Zero T] [Add T] [Mul T] (A B : matrix T) (k i j : Nat) : T :=
  (List.range k).foldl (fun acc t => acc + A.entry i t * B.entry t j) 0

/-- Example: a matrix with `2 ^ 32` rows and one column. -/
def ex_tall : matrix Int := ⟨2 ^ 32, 1, List.replicate (2 ^ 32) 0⟩

/-- Example: a matrix with one row and `2 ^ 32` columns. -/
def ex_wide : matrix Int := ⟨1, 2 ^ 32, List.replicate (2 ^ 32) 0⟩

/-- Example: a matrix with two rows and three columns. -/
def ex_a : matrix Int := ⟨2, 3, [1, 2, 3, 4, 5, 6]⟩

/-- Example: a matrix with three rows and two columns. -/
def ex_b : matrix Int := ⟨3, 2, [7, 8, 9, 10, 11, 12]⟩

end matrix

/-! ## Plain vector (`src/vector/vector.h`)

The array `_data` is a list of `_capacity` slots; a slot holds `none` until an element is
constructed in it.  A run of a member function ends normally or with `std::bad_alloc`; in
both cases it yields the state of `*this`.  The flag `ok` tells whether `operator new`
succeeds.  Member functions that call each other carry the call depth they may use. -/

structure vector (T : Type) where
  _size : Nat
  _capacity : Nat
  _data : List (Option T)
deriving DecidableEq

namespace vector

variable {T : Type}

/-- How a call ends, with the state of the object it was called on. -/
inductive Outcome (T : Type) where
  | done (v : vector T) : Outcome T
  | bad_alloc (v : vector T) : Outcome T
deriving DecidableEq

/-- The default constructor. -/
def ctor : vector T := ⟨0, 0, []⟩

/-- The private constructor `vector(capacity)`; `none` stands for `std::bad_alloc`. -/
def ctor_capacity (ok : Bool) (capacity : Nat) : Option (vector T) :=
  if ok then some ⟨0, capacity, List.replicate capacity none⟩ else none

/-- The loop `for (i = 0; i < size(); ++i) tmp.push_back((*this)[i])` of `copy_reserve`, at
index `i` with `n` rounds left; `push` is the call `tmp.push_back`. -/
def copy_loop (push : vector T → T → Option (Outcome T)) (v : vector T) :
    Nat → Nat → vector T → Option (Outcome T)
  | _, 0, tmp => some (.done tmp)
  | i, n + 1, tmp =>
    match v._data.getD i none with
    | none => none
    | some x =>
      match push tmp x with
      | some (.done tmp') => copy_loop push v (i + 1) n tmp'
      | other => other

mutual
/-- The member `push_back(const T&)`. -/
def push_back (ok : Bool) : Nat → vector T → T → Option (Outcome T)
  | 0, _, _ => none
  | d + 1, v, value =>
    if v._size < v._capacity then
      some (.done { v with _data := v._data.set v._size (some value), _size := v._size + 1 })
    else
      let new_capacity := 2 * v._capacity + 1
      match copy_reserve ok d v new_capacity with
      | some (.done tmp) =>
        match push_back ok d tmp value with
        | some (.done tmp') => some (.done tmp')
        | some (.bad_alloc _) => some (.bad_alloc v)
        | none => none
      | some (.bad_alloc _) => some (.bad_alloc v)
      | none => none
/-- The private member `copy_reserve(new_capacity)`; on a normal end it yields `tmp`. -/
def copy_reserve (ok : Bool) : Nat → vector T → Nat → Option (Outcome T)
  | 0, _, _ => none
  | d + 1, v, new_capacity =>
    match ctor_capacity ok new_capacity with
    | none => some (.bad_alloc v)
    | some tmp => copy_loop (push_back ok d) v 0 v._size tmp
end

/-- The slots `(*this)[0] .. (*this)[size() - 1]`. -/
def slots (v : vector T) : List (Option T) := v._data.take v._size

/-- The sequence of elements. -/
def elems (v : vector T) : List T := v.slots.filterMap id

/-- Class invariant: the elements fit into the array and are constructed. -/
structure Inv (v : vector T) : Prop where
  size_le : v._size ≤ v._capacity
  data_length : v._data.length = v._capacity
  constructed : ∀ i, i < v._size → ∃ x, v._data.get? i = some (some x)

/-- Example: a full vector. -/
def ex_full : vector Nat := ⟨2, 2, [some 7, some 8]⟩

/-- Example: a vector with a free slot. -/
def ex_room : vector Nat := ⟨1, 3, [some 7, none, none]⟩

end vector

/-! ## Bit set (`src/bitset`)

A word is a natural number below `2 ^ 64`; the array of a bitset is a list of words.  A shift
of a word by 64 or more has no result.  `std::size_t` arithmetic is arithmetic modulo `2 ^ 64`.
A pointer to a word is its index in the array; a view, an iterator or a reference is used
together with the array it points into.  A string is a list of characters. -/

namespace bitset_utils

def word_size : Nat := 64

/-- Number of values of `std::size_t` and of `word_type`. -/
def SIZE_RANGE : Nat := 2 ^ 64

def npos : Nat := SIZE_RANGE - 1

def mask : Nat := SIZE_RANGE - 1

def word_ind (bit : Nat) : Nat := bit / word_size

def offset (bit : Nat) : Nat := bit % word_size

/-- The operator `x << n`. -/
def shl (x n : Nat) : Option Nat :=
  if n < word_size then some ((x <<< n) % SIZE_RANGE) else none

/-- The operator `x >> n`. -/
def shr (x n : Nat) : Option Nat :=
  if n < word_size then some (x >>> n) else none

/-- The operator `~x`. -/
def compl (x : Nat) : Nat := x ^^^ mask

/-- Sum of two `std::size_t`. -/
def add (a b : Nat) : Nat := (a + b) % SIZE_RANGE

/-- Difference of two `std::size_t`. -/
def sub (a b : Nat) : Nat := (a + SIZE_RANGE - b % SIZE_RANGE) % SIZE_RANGE

/-- Product of two `std::size_t`. -/
def mul (a b : Nat) : Nat := (a * b) % SIZE_RANGE

/-- The function `std::popcount`: the number of bits that are set. -/
def popcount (x : Nat) : Nat := (List.range word_size).countP fun j => x.testBit (63 - j)

end bitset_utils

section BitsetDefs

open bitset_utils

/-- The data members of `bitset_reference`; `_word` is the index of the word. -/
structure bitset_reference where
  _offset : Nat
  _word : Nat
deriving DecidableEq

namespace bitset_reference

def max_bit : Nat := 2 ^ 63

/-- The conversion `operator bool`. -/
def get (data : List Nat) (ref : bitset_reference) : Option Bool :=
  (data.get? ref._word).bind fun w =>
  (shl w ref._offset).map fun x => decide (x &&& max_bit > 0)

/-- The assignment `operator=(bool)`; yields the array. -/
def assign (data : List Nat) (ref : bitset_reference) (x : Bool) : Option (List Nat) :=
  (ref.get data).bind fun cur =>
  if cur != x then
    (data.get? ref._word).bind fun w =>
    (shl 1 (sub (sub word_size ref._offset) 1)).map fun m => data.set ref._word (w ^^^ m)
  else some data

end bitset_reference

/-- The data member `_offset` of `bitset_iterator`. -/
structure bitset_iterator where
  _offset : Nat
deriving DecidableEq

namespace bitset_iterator

/-- The call `operator*`. -/
def deref (it : bitset_iterator) : bitset_reference :=
  ⟨offset it._offset, word_ind it._offset⟩

/-- The friend `operator+` with a `difference_type`, given as the `std::size_t` it was
converted from. -/
def plus (it : bitset_iterator) (other : Nat) : bitset_iterator := ⟨add it._offset other⟩

/-- The call `operator[]`. -/
def index (it : bitset_iterator) (other : Nat) : bitset_reference := (it.plus other).deref

end bitset_iterator

/-- The data members `_l_offset` and `_r_offset` of `bitset_view`. -/
structure bitset_view where
  _l_offset : Nat
  _r_offset : Nat
deriving DecidableEq

namespace bitset_view

def begin (v : bitset_view) : bitset_iterator := ⟨v._l_offset⟩

def end_ (v : bitset_view) : bitset_iterator := ⟨v._r_offset⟩

/-- The constructor from two iterators. -/
def ctor_range (first last : bitset_iterator) : bitset_view := ⟨first._offset, last._offset⟩

def size (v : bitset_view) : Nat := sub v._r_offset v._l_offset

def index (v : bitset_view) (other : Nat) : bitset_reference := v.begin.index other

def words_count (v : bitset_view) : Nat :=
  v.size / word_size + (if v.size % word_size > 0 then 1 else 0)

def mask (l r : Nat) : Option Nat :=
  (shl bitset_utils.mask l).bind fun a =>
  (shr a l).bind fun b =>
  (shr b (sub word_size r)).bind fun c =>
  shl c (sub word_size r)

def submask (x l r : Nat) : Option Nat := (mask l r).map fun m => x &&& m

def get_nth_word (data : List Nat) (v : bitset_view) (ind : Nat) : Option Nat :=
  let read := min word_size (sub v.size (mul ind word_size))
  let l_wi := word_ind v._l_offset
  let l := offset v._l_offset
  let r := l + read
  if r ≤ word_size then
    (data.get? (l_wi + ind)).bind fun w =>
    (submask w l r).bind fun x => shl x l
  else
    let r := r - word_size
    (data.get? (l_wi + ind)).bind fun w0 =>
    (data.get? (l_wi + ind + 1)).bind fun w1 =>
    (submask w0 l word_size).bind fun x0 =>
    (shl x0 l).bind fun hi =>
    (submask w1 0 r).bind fun x1 =>
    (shr x1 (word_size - l)).map fun lo => hi ||| lo

def set_nth_word (data : List Nat) (v : bitset_view) (ind word : Nat) : Option (List Nat) :=
  let write := min word_size (sub v.size (mul ind word_size))
  let l_wi := word_ind v._l_offset
  let l := offset v._l_offset
  let r := l + write
  if r ≤ word_size then
    (data.get? (l_wi + ind)).bind fun w =>
    (mask l r).bind fun m =>
    (submask word 0 (r - l)).bind fun x =>
    (shr x l).map fun y => data.set (l_wi + ind) ((w &&& compl m) ||| y)
  else
    let r := r - word_size
    (data.get? (l_wi + ind)).bind fun w0 =>
    (mask l word_size).bind fun m0 =>
    (shr word l).bind fun y0 =>
    let data := data.set (l_wi + ind) ((w0 &&& compl m0) ||| y0)
    (shl word (word_size - l)).bind fun word =>
    (data.get? (l_wi + ind + 1)).bind fun w1 =>
    (mask 0 r).bind fun m1 =>
    (submask word 0 r).map fun y1 => data.set (l_wi + ind + 1) ((w1 &&& compl m1) ||| y1)

/-- The loop of `all()`, at word `i` with `n` words left. -/
def all_loop (data : List Nat) (v : bitset_view) : Nat → Nat → Option Bool
  | _, 0 => some true
  | i, n + 1 =>
    let sz := min word_size (sub v.size (mul i word_size))
    (get_nth_word data v i).bind fun w =>
    (submask bitset_utils.mask 0 sz).bind fun full =>
    if w ≠ full then some false else all_loop data v (i + 1) n

def all (data : List Nat) (v : bitset_view) : Option Bool := all_loop data v 0 v.words_count

/-- The loop of `any()`, at word `i` with `n` words left. -/
def any_loop (data : List Nat) (v : bitset_view) : Nat → Nat → Option Bool
  | _, 0 => some false
  | i, n + 1 =>
    (get_nth_word data v i).bind fun w =>
    if w > 0 then some true else any_loop data v (i + 1) n

def any (data : List Nat) (v : bitset_view) : Option Bool := any_loop data v 0 v.words_count

/-- The loop of `count()`, at word `i` with `n` words left. -/
def count_loop (data : List Nat) (v : bitset_view) : Nat → Nat → Nat → Option Nat
  | _, 0, res => some res
  | i, n + 1, res =>
    (get_nth_word data v i).bind fun w => count_loop data v (i + 1) n (add res (popcount w))

def count (data : List Nat) (v : bitset_view) : Option Nat :=
  count_loop data v 0 v.words_count 0

def subview (v : bitset_view) (offset count : Nat) : bitset_view :=
  if offset ≥ v.size then ctor_range v.end_ v.end_
  else if add offset count < v.size ∧ offset < v.size ∧ count < v.size then
    ctor_range (v.begin.plus offset) ((v.begin.plus offset).plus count)
  else ctor_range (v.begin.plus offset) v.end_

/-- The loop of the two `transform` members and of `fill_words`, at word `i` with `n` words
left; `f` computes the word to store from the word read. -/
def words_loop (v : bitset_view) (f : Nat → Nat → Option Nat) :
    Nat → Nat → List Nat → Option (List Nat)
  | _, 0, data => some data
  | i, n + 1, data =>
    (get_nth_word data v i).bind fun w =>
    (f i w).bind fun x =>
    (set_nth_word data v i x).bind (words_loop v f (i + 1) n)

/-- The member `transform(other, f)`; `odata` is the array that `other` points into. -/
def transform2 (data : List Nat) (v : bitset_view) (odata : List Nat) (other : bitset_view)
    (f : Nat → Nat → Nat) : Option (List Nat) :=
  words_loop v (fun i w => (get_nth_word odata other i).map fun o => f w o) 0 v.words_count data

/-- The member `transform(f)`. -/
def transform (data : List Nat) (v : bitset_view) (f : Nat → Nat) : Option (List Nat) :=
  words_loop v (fun _ w => some (f w)) 0 v.words_count data

/-- The loop of `fill_words`, at word `i` with `n` words left. -/
def fill_loop (v : bitset_view) (val : Nat) : Nat → Nat → List Nat → Option (List Nat)
  | _, 0, data => some data
  | i, n + 1, data => (set_nth_word data v i val).bind (fill_loop v val (i + 1) n)

def fill_words (data : List Nat) (v : bitset_view) (val : Nat) : Option (List Nat) :=
  fill_loop v val 0 v.words_count data

/-- The operator `&=`. -/
def and_assign (data : List Nat) (v : bitset_view) (odata : List Nat) (other : bitset_view) :
    Option (List Nat) := transform2 data v odata other fun a b => a &&& b

/-- The operator `|=`. -/
def or_assign (data : List Nat) (v : bitset_view) (odata : List Nat) (other : bitset_view) :
    Option (List Nat) := transform2 data v odata other fun a b => a ||| b

/-- The operator `^=`. -/
def xor_assign (data : List Nat) (v : bitset_view) (odata : List Nat) (other : bitset_view) :
    Option (List Nat) := transform2 data v odata other fun a b => a ^^^ b

def flip (data : List Nat) (v : bitset_view) : Option (List Nat) := transform data v compl

def set (data : List Nat) (v : bitset_view) : Option (List Nat) :=
  fill_words data v bitset_utils.mask

def reset (data : List Nat) (v : bitset_view) : Option (List Nat) := fill_words data v 0

/-- The loop of `to_string`, from the iterator `it` with `n` bits left. -/
def to_string_loop (data : List Nat) : bitset_iterator → Nat → Option (List Char)
  | _, 0 => some []
  | it, n + 1 =>
    (it.deref.get data).bind fun b =>
    (to_string_loop data (it.plus 1) n).map fun s => (if b then '1' else '0') :: s

/-- The friend `to_string(const bitset_view&)`. -/
def to_string (data : List Nat) (v : bitset_view) : Option (List Char) :=
  to_string_loop data v.begin v.size

end bitset_view

/-- The data members of `bitset`; `_data` is the array, empty for `nullptr`. -/
structure bitset where
  _size : Nat
  _data : List Nat
deriving DecidableEq

namespace bitset

def word_cnt (b : bitset) : Nat :=
  b._size / word_size + (if b._size % word_size > 0 then 1 else 0)

/-- The constructor `bitset(std::size_t size)`; the words are value-initialised. -/
def ctor_size (size : Nat) : bitset :=
  ⟨size, List.replicate (word_cnt ⟨size, []⟩) 0⟩

/-- The constructor `bitset(std::size_t size, bool value)`. -/
def ctor_value (size : Nat) (value : Bool) : bitset :=
  let b := ctor_size size
  if value ∧ size ≠ 0 then { b with _data := List.replicate b.word_cnt npos } else b

def index (index : Nat) : bitset_reference := ⟨offset index, word_ind index⟩

/-- The function `std::copy_n`; no result when one of the arrays is too short. -/
def copy_n (src : List Nat) (n : Nat) (dst : List Nat) : Option (List Nat) :=
  if n ≤ src.length ∧ n ≤ dst.length then some (src.take n ++ dst.drop n) else none

/-- Conversion of an `int` to `std::size_t`: the value modulo `2 ^ 64`. -/
def to_size_t (i : Int) : Nat := (i % 2 ^ 64).toNat

/-- The result of arithmetic in `int`: the value modulo `2 ^ 32` that lies in
`[-2 ^ 31, 2 ^ 31)`.  The language leaves an overflow of `int` undefined; the definitions
follow a build in which it wraps. -/
def to_int (x : Int) : Int := (x + 2 ^ 31) % 2 ^ 32 - 2 ^ 31

/-- The loop `for (int i = 0; i < str.size(); ++i) (*this)[i] = str[i] - '0';` of
`bitset(std::string_view)` at the value `i` of the counter; in the comparison and in both
subscripts `i` is converted to `std::size_t`.  The first argument bounds the number of
rounds. -/
def ctor_string_loop (str : List Char) : Nat → Int → List Nat → Option (List Nat)
  | 0, _, _ => none
  | fuel + 1, i, data =>
    if to_size_t i < str.length then
      ((index (to_size_t i)).assign data
        (decide (((str.getD (to_size_t i) '0').toNat : Int) - ('0'.toNat : Int) ≠ 0))).bind
        fun data => ctor_string_loop str fuel (to_int (i + 1)) data
    else some data

/-- The constructor `bitset(std::string_view)`.  The loop leaves after at most `str.size()`
rounds, so the bound `str.size() + 1` on their number is not reached. -/
def ctor_string (str : List Char) : Option bitset :=
  let b := ctor_size str.length
  (ctor_string_loop str (str.length + 1) 0 b._data).map fun data => { b with _data := data }

/-- The view `[begin(), end())` of the whole bitset. -/
def view (b : bitset) : bitset_view := bitset_view.ctor_range ⟨0⟩ ⟨b._size⟩

/-- The operator `<<=`. -/
def shl_assign (b : bitset) (count : Nat) : Option bitset :=
  let tmp := ctor_value (add b._size count) false
  (copy_n b._data b.word_cnt tmp._data).map fun data => { tmp with _data := data }

/-- The operator `>>=`. -/
def shr_assign (b : bitset) (count : Nat) : Option bitset :=
  let count := if count > b._size then b._size else count
  let tmp := ctor_value (sub b._size count) false
  (copy_n b._data tmp.word_cnt tmp._data).map fun data => { tmp with _data := data }

def all (b : bitset) : Option Bool := b.view.all b._data

def any (b : bitset) : Option Bool := b.view.any b._data

def count (b : bitset) : Option Nat := b.view.count b._data

def subview (b : bitset) (offset count : Nat) : bitset_view := b.view.subview offset count

/-- The function `to_string(const bitset&)`. -/
def to_string (b : bitset) : Option (List Char) := b.view.to_string b._data

/-- The bit stored for index `i`: bit `63 - i % 64` of word `i / 64`. -/
def bit_at (data : List Nat) (i : Nat) : Bool := (data.getD (i / 64) 0).testBit (63 - i % 64)

end bitset

namespace bitset_view

/-- A view into an array: its offsets are ordered `std::size_t` values and its bits lie in the
array. -/
structure Valid (data : List Nat) (v : bitset_view) : Prop where
  le : v._l_offset ≤ v._r_offset
  lt : v._r_offset < SIZE_RANGE
  inside : v._r_offset ≤ 64 * data.length

/-- Bit `i` of the view, as stored. -/
def bit (data : List Nat) (v : bitset_view) (i : Nat) : Bool :=
  bitset.bit_at data (v._l_offset + i)

/-- The array `d` differs from `data` exactly in the bits of the view `v`, where bit `i` has the
value `g i`. -/
def Updates (data d : List Nat) (v : bitset_view) (g : Nat → Bool) : Prop :=
  d.length = data.length ∧
  (∀ i, i < v._r_offset - v._l_offset → bit d v i = g i) ∧
  ∀ q, ¬ (v._l_offset ≤ q ∧ q < v._r_offset) → bitset.bit_at d q = bitset.bit_at data q

/-- The loop invariant of the loops that store one word after the other: the bits of the words
before `i` have their final value `G`, every other bit of the array is as at the start. -/
def Progress (D d : List Nat) (v : bitset_view) (G : Nat → Bool) (i : Nat) : Prop :=
  d.length = D.length ∧
  ∀ q, bitset.bit_at d q =
    if v._l_offset ≤ q ∧ q < min v._r_offset (v._l_offset + i * 64) then G q
    else bitset.bit_at D q

/-- Example: a view of ten bits that starts at bit 60 of the first word. -/
def ex_view : bitset_view := ⟨60, 70⟩

/-- Example: two words; the bits 60 to 69 are `1111000000`. -/
def ex_words : List Nat := [15, 0]

/-- Example: two words with all bits set. -/
def ex_ones : List Nat := [2 ^ 64 - 1, 2 ^ 64 - 1]

end bitset_view

end BitsetDefs

namespace Socow

variable {T : Type} [Layout T]

open socow_vector

/-! ## Slot arrays -/

section Slots

@[simp] theorem length_copy_n (src : List (Option T)) (n : Nat) :
    ∀ (first : Nat) (dst : List (Option T)) (dfirst : Nat),
      (copy_n src first n dst dfirst).length = dst.length := by
  induction n with
  | zero => intro first dst dfirst; rfl
  | succ n ih => intro first dst dfirst; simp [copy_n, ih]

theorem getElem?_copy_n (src : List (Option T)) (n : Nat) :
    ∀ (first : Nat) (dst : List (Option T)) (dfirst j : Nat),
      (copy_n src first n dst dfirst)[j]? =
        if dfirst ≤ j ∧ j < dfirst + n ∧ j < dst.length
        then some (src.getD (first + (j - dfirst)) none) else dst[j]? := by
  induction n with
  | zero =>
    intro first dst dfirst j
    have : ¬ (dfirst ≤ j ∧ j < dfirst + 0 ∧ j < dst.length) := by omega
    rw [copy_n, if_neg this]
  | succ n ih =>
    intro first dst dfirst j
    rw [copy_n, ih]
    simp only [List.length_set, List.getElem?_set]
    by_cases hj : dfirst = j
    · subst hj
      by_cases hl : dfirst < dst.length
      · have h1 : ¬ (dfirst + 1 ≤ dfirst ∧ dfirst < dfirst + 1 + n ∧ dfirst < dst.length) := by
          omega
        have h2 : dfirst ≤ dfirst ∧ dfirst < dfirst + (n + 1) ∧ dfirst < dst.length := by omega
        simp [h1, h2, hl]
      · have h1 : ¬ (dfirst + 1 ≤ dfirst ∧ dfirst < dfirst + 1 + n ∧ dfirst < dst.length) := by
          omega
        have h2 : ¬ (dfirst ≤ dfirst ∧ dfirst < dfirst + (n + 1) ∧ dfirst < dst.length) := by
          omega
        have h3 : dst[dfirst]? = none := List.getElem?_eq_none (by omega)
        simp [h1, h2, hl, h3]
    · by_cases hc : dfirst + 1 ≤ j ∧ j < dfirst + 1 + n ∧ j < dst.length
      · have h2 : dfirst ≤ j ∧ j < dfirst + (n + 1) ∧ j < dst.length := by omega
        have h3 : first + 1 + (j - (dfirst + 1)) = first + (j - dfirst) := by omega
        simp [hc, h2, h3]
      · have h2 : ¬ (dfirst ≤ j ∧ j < dfirst + (n + 1) ∧ j < dst.length) := by omega
        simp [hc, h2, hj]

@[simp] theorem length_destroy_n (n : Nat) :
    ∀ (d : List (Option T)) (first : Nat), (destroy_n d first n).length = d.length := by
  induction n with
  | zero => intro d first; rfl
  | succ n ih => intro d first; simp [destroy_n, ih]

theorem getElem?_destroy_n (n : Nat) :
    ∀ (d : List (Option T)) (first j : Nat),
      (destroy_n d first n)[j]? =
        if first ≤ j ∧ j < first + n ∧ j < d.length then some none else d[j]? := by
  induction n with
  | zero =>
    intro d first j
    have : ¬ (first ≤ j ∧ j < first + 0 ∧ j < d.length) := by omega
    rw [destroy_n, if_neg this]
  | succ n ih =>
    intro d first j
    rw [destroy_n, ih]
    simp only [List.length_set, List.getElem?_set]
    by_cases hj : first = j
    · subst hj
      by_cases hl : first < d.length
      · have h1 : ¬ (first + 1 ≤ first ∧ first < first + 1 + n ∧ first < d.length) := by omega
        have h2 : first ≤ first ∧ first < first + (n + 1) ∧ first < d.length := by omega
        simp [h1, h2, hl]
      · have h1 : ¬ (first + 1 ≤ first ∧ first < first + 1 + n ∧ first < d.length) := by omega
        have h2 : ¬ (first ≤ first ∧ first < first + (n + 1) ∧ first < d.length) := by omega
        have h3 : d[first]? = none := List.getElem?_eq_none (by omega)
        simp [h1, h2, hl, h3]
    · by_cases hc : first + 1 ≤ j ∧ j < first + 1 + n ∧ j < d.length
      · have h2 : first ≤ j ∧ j < first + (n + 1) ∧ j < d.length := by omega
        simp [hc, h2]
      · have h2 : ¬ (first ≤ j ∧ j < first + (n + 1) ∧ j < d.length) := by omega
        simp [hc, h2, hj]

@[simp] theorem length_swap_slots (d : List (Option T)) (i j : Nat) :
    (swap_slots d i j).length = d.length := by
  simp [swap_slots]

theorem getElem?_swap_slots (d : List (Option T)) (i j k : Nat) (hi : i < d.length)
    (hj : j < d.length) :
    (swap_slots d i j)[k]? = if k = j then d[i]? else if k = i then d[j]? else d[k]? := by
  simp only [swap_slots, List.getElem?_set, List.length_set, List.getD_eq_getElem?_getD]
  by_cases h1 : j = k
  · subst h1
    simp [hj, List.getElem?_eq_getElem hi]
  · have h1' : ¬ k = j := fun e => h1 e.symm
    by_cases h2 : i = k
    · subst h2
      simp [h1, h1', hi, List.getElem?_eq_getElem hj]
    · have h2' : ¬ k = i := fun e => h2 e.symm
      simp [h1, h1', h2, h2']

/-- Reading a slot: the slot's content, raw memory outside the array. -/
theorem getD_eq_join (d : List (Option T)) (i : Nat) : d.getD i none = (d[i]?).join := by
  rw [List.getD_eq_getElem?_getD]
  cases d[i]? <;> rfl

end Slots

/-! ## Heap cells -/

section HeapLemmas

theorem lookup_eq (h : Heap T) (p : Nat) : lookup h p = (h[p]?).join := by
  unfold lookup
  rw [List.getD_eq_getElem?_getD]
  cases h[p]? <;> rfl

theorem lookup_lt {h : Heap T} {p : Nat} {b : buffer T} (hb : lookup h p = some b) :
    p < h.length := by
  by_contra hc
  rw [lookup_eq, List.getElem?_eq_none (by omega)] at hb
  cases hb

theorem lookup_store (h : Heap T) (p q : Nat) (b : buffer T) :
    lookup (store h p b) q = if q = p ∧ p < h.length then some b else lookup h q := by
  simp only [lookup_eq, store, List.getElem?_set]
  by_cases h1 : p = q
  · subst h1
    by_cases h2 : p < h.length
    · simp [h2]
    · simp [h2, List.getElem?_eq_none (Nat.le_of_not_lt h2)]
  · have h1' : ¬ q = p := fun e => h1 e.symm
    simp [h1, h1']

theorem lookup_free (h : Heap T) (p q : Nat) :
    lookup (free h p) q = if q = p then none else lookup h q := by
  simp only [lookup_eq, free, List.getElem?_set]
  by_cases h1 : p = q
  · subst h1
    by_cases h2 : p < h.length
    · simp [h2]
    · simp [h2]
  · have h1' : ¬ q = p := fun e => h1 e.symm
    simp [h1, h1']

theorem lookup_alloc (h : Heap T) (b : buffer T) (q : Nat) :
    lookup (alloc h b).1 q = if q = h.length then some b else lookup h q := by
  simp only [lookup_eq, alloc, List.getElem?_append]
  by_cases h1 : q < h.length
  · have : ¬ q = h.length := by omega
    simp [h1, this]
  · by_cases h2 : q = h.length
    · subst h2
      simp
    · have h3 : h[q]? = none := List.getElem?_eq_none (by omega)
      have h4 : ([some b] : Heap T)[q - h.length]? = none :=
        List.getElem?_eq_none (by simp; omega)
      simp [h1, h2, h3, h4]

@[simp] theorem length_store (h : Heap T) (p : Nat) (b : buffer T) :
    (store h p b).length = h.length := by simp [store]

@[simp] theorem length_free (h : Heap T) (p : Nat) : (free h p).length = h.length := by
  simp [free]

@[simp] theorem length_alloc (h : Heap T) (b : buffer T) :
    (alloc h b).1.length = h.length + 1 := by simp [alloc]

@[simp] theorem alloc_snd (h : Heap T) (b : buffer T) : (alloc h b).2 = h.length := rfl

theorem deref_of_lookup {h : Heap T} {p : Nat} {b : buffer T} (hb : lookup h p = some b) :
    deref h p = b := by simp [deref, hb]

end HeapLemmas

/-! ## Loops -/

/-- A loop whose body keeps an invariant and decreases a measure bounded by the
budget runs to completion, and ends in a state where the invariant holds and the
condition fails. -/
theorem loop_spec {σ : Type} (cond : σ → Bool) (body : σ → Option σ) (Inv : σ → Prop)
    (m : σ → Nat)
    (hstep : ∀ s, Inv s → cond s = true → ∃ s', body s = some s' ∧ Inv s' ∧ m s' < m s) :
    ∀ (n : Nat) (s : σ), Inv s → m s ≤ n →
      ∃ s', loop cond body n s = some s' ∧ Inv s' ∧ cond s' = false := by
  intro n
  induction n with
  | zero =>
    intro s hI hm
    cases hc : cond s with
    | false => exact ⟨s, by simp [loop, hc], hI, hc⟩
    | true =>
      obtain ⟨s', _, _, hlt⟩ := hstep s hI hc
      omega
  | succ n ih =>
    intro s hI hm
    cases hc : cond s with
    | false => exact ⟨s, by simp [loop, hc], hI, hc⟩
    | true =>
      obtain ⟨s', hb, hI', hlt⟩ := hstep s hI hc
      obtain ⟨s'', hl, hI'', hc''⟩ := ih s' hI' (by omega)
      exact ⟨s'', by simp [loop, hc, hb, hl], hI'', hc''⟩

/-! ## Storage access -/

section Access

theorem cdata_small {h : Heap T} {v : socow_vector T} (hs : v._small = true) :
    cdata h v = v._sdata := by simp [cdata, is_small, hs]

theorem cdata_heap {h : Heap T} {v : socow_vector T} {b : buffer T} (hs : v._small = false)
    (hb : lookup h v._buffer = some b) : cdata h v = b.data := by
  simp [cdata, is_small, hs, deref_of_lookup hb]

theorem capacity_small {S : Nat} {h : Heap T} {v : socow_vector T} (hs : v._small = true) :
    capacity S h v = S := by simp [capacity, is_small, hs]

theorem capacity_heap {S : Nat} {h : Heap T} {v : socow_vector T} {b : buffer T}
    (hs : v._small = false) (hb : lookup h v._buffer = some b) :
    capacity S h v = b.capacity := by
  simp [capacity, is_small, hs, deref_of_lookup hb]

theorem shared_small {h : Heap T} {v : socow_vector T} (hs : v._small = true) :
    shared h v = false := by simp [shared, is_small, hs]

theorem shared_heap {h : Heap T} {v : socow_vector T} {b : buffer T} (hs : v._small = false)
    (hb : lookup h v._buffer = some b) : shared h v = decide (1 < b.refs) := by
  simp [shared, is_small, hs, deref_of_lookup hb]

theorem set_cdata_small {h : Heap T} {v : socow_vector T} (d : List (Option T))
    (hs : v._small = true) : set_cdata h v d = (h, { v with _sdata := d }) := by
  simp [set_cdata, is_small, hs]

theorem set_cdata_heap {h : Heap T} {v : socow_vector T} {b : buffer T} (d : List (Option T))
    (hs : v._small = false) (hb : lookup h v._buffer = some b) :
    set_cdata h v d = (store h v._buffer { b with data := d }, v) := by
  simp [set_cdata, is_small, hs, deref_of_lookup hb]

theorem rc_of_lookup {h : Heap T} {p : Nat} {b : buffer T} (hb : lookup h p = some b) :
    rc h p = b.refs := by simp [rc, hb]

theorem rc_of_none {h : Heap T} {p : Nat} (hb : lookup h p = none) : rc h p = 0 := by
  simp [rc, hb]

end Access

/-! ## Well-formedness, unpacked -/

section WFLemmas

variable {S : Nat} {h : Heap T} {v : socow_vector T}

theorem WF.sdata_length (hv : WF S h v) : v._sdata.length = S := hv.1

theorem WF.small_le (hv : WF S h v) (hs : v._small = true) : v._size ≤ S := by
  have := hv.2.2
  simpa [hs] using this

theorem WF.block (hv : WF S h v) (hs : v._small = false) :
    ∃ b, lookup h v._buffer = some b ∧ b.data.length = b.capacity ∧ v._size ≤ b.capacity ∧
      S < b.capacity ∧ 1 ≤ b.refs := by
  have h3 := hv.2.2
  simp only [hs] at h3
  cases hb : lookup h v._buffer with
  | none => simp [hb] at h3
  | some b =>
    rw [hb] at h3
    exact ⟨b, rfl, h3.1, h3.2.1, h3.2.2.1, h3.2.2.2.1⟩

theorem fits_iff (n : Nat) :
    Fits T n ↔ Layout.sizeof_buffer T + Layout.sizeof_T T * n < 2 ^ 64 := by
  unfold Fits buffer_bytes
  constructor
  · intro e
    rw [← e]
    exact Nat.mod_lt _ (by decide)
  · exact Nat.mod_eq_of_lt

theorem socow_vector.Fits.mono {n m : Nat} (hm : Fits T m) (hn : n ≤ m) : Fits T n := by
  rw [fits_iff] at hm ⊢
  have := Nat.mul_le_mul_left (Layout.sizeof_T T) hn
  omega

/-- A capacity that fits is a value of `std::size_t`. -/
theorem socow_vector.Fits.lt_range {n : Nat} (hn : Fits T n) : n < 2 ^ 64 := by
  rw [fits_iff] at hn
  have hs := Layout.sizeof_T_pos (T := T)
  have := Nat.mul_le_mul_right n hs
  omega

theorem WF.fits_block (hv : WF S h v) (hs : v._small = false) {b : buffer T}
    (hb : lookup h v._buffer = some b) : Fits T b.capacity := by
  have h3 := hv.2.2
  simp only [hs] at h3
  rw [hb] at h3
  exact h3.2.2.2.2

/-- The capacity of a heap-backed container is one that the private
constructor provides. -/
theorem WF.fits (hv : WF S h v) (hs : v._small = false) : Fits T (capacity S h v) := by
  obtain ⟨b, hb, _⟩ := hv.block hs
  rw [capacity_heap hs hb]
  exact hv.fits_block hs hb

/-- A request for at most the capacity of a well-formed container can be
served. -/
theorem WF.fits_le (hv : WF S h v) {n : Nat} (hn : n ≤ capacity S h v) (hS : S < n) :
    Fits T n := by
  cases hs : v._small with
  | true => rw [capacity_small hs] at hn; omega
  | false => exact (hv.fits hs).mono hn

/-- The request of `push_back` and `insert` has a block when the grown capacity has one. -/
theorem WF.fits_request (hv : WF S h v)
    (hf : v._size = capacity S h v → Fits T (2 * capacity S h v + 1)) :
    S < (if v._size = capacity S h v then 2 * capacity S h v + 1 else capacity S h v) →
      Fits T (if v._size = capacity S h v then 2 * capacity S h v + 1 else capacity S h v) := by
  intro hS
  split
  · rename_i he
    exact hf he
  · rename_i he
    rw [if_neg he] at hS
    exact hv.fits_le (Nat.le_refl _) hS

theorem WF.init (hv : WF S h v) {i : Nat} (hi : i < v._size) :
    ∃ x, (cdata h v)[i]? = some (some x) := by
  have h2 := hv.2.1 i hi
  rw [getD_eq_join] at h2
  cases hc : (cdata h v)[i]? with
  | none => simp [hc] at h2
  | some o =>
    cases o with
    | none => simp [hc] at h2
    | some x => exact ⟨x, rfl⟩

theorem WF.cdata_length (hv : WF S h v) : (cdata h v).length = capacity S h v := by
  cases hs : v._small with
  | true => rw [cdata_small hs, capacity_small hs]; exact hv.1
  | false =>
    obtain ⟨b, hb, hl, _⟩ := hv.block hs
    rw [cdata_heap hs hb, capacity_heap hs hb, hl]

theorem WF.size_le_capacity (hv : WF S h v) : v._size ≤ capacity S h v := by
  cases hs : v._small with
  | true => rw [capacity_small hs]; exact hv.small_le hs
  | false =>
    obtain ⟨b, hb, _, hl, _⟩ := hv.block hs
    rw [capacity_heap hs hb]; exact hl

theorem WF.le_capacity (hv : WF S h v) : S ≤ capacity S h v := by
  cases hs : v._small with
  | true => rw [capacity_small hs]
  | false =>
    obtain ⟨b, hb, _, _, hl, _⟩ := hv.block hs
    rw [capacity_heap hs hb]; omega

theorem WF.of_small (hl : v._sdata.length = S) (hs : v._small = true) (hn : v._size ≤ S)
    (hi : ∀ i, i < v._size → ∃ x, v._sdata[i]? = some (some x)) : WF S h v := by
  refine ⟨hl, ?_, by simpa [hs] using hn⟩
  intro i h1
  obtain ⟨x, hx⟩ := hi i h1
  rw [cdata_small hs, getD_eq_join, hx]; rfl

theorem WF.of_heap {b : buffer T} (hl : v._sdata.length = S) (hs : v._small = false)
    (hb : lookup h v._buffer = some b) (h1 : b.data.length = b.capacity)
    (h2 : v._size ≤ b.capacity) (h3 : S < b.capacity) (h4 : 1 ≤ b.refs)
    (h5 : Fits T b.capacity)
    (hi : ∀ i, i < v._size → ∃ x, b.data[i]? = some (some x)) : WF S h v := by
  refine ⟨hl, ?_, by simp [hs, hb, h1, h2, h3, h4, h5]⟩
  intro i hi'
  obtain ⟨x, hx⟩ := hi i hi'
  rw [cdata_heap hs hb, getD_eq_join, hx]; rfl

theorem elems_length (hv : WF S h v) : (elems h v).length = v._size := by
  have := hv.cdata_length
  have := hv.size_le_capacity
  simp [elems, size]; omega

theorem getElem?_elems (i : Nat) :
    (elems h v)[i]? = if i < v._size then (cdata h v)[i]? else none := by
  simp [elems, size, List.getElem?_take]

end WFLemmas

/-! ## swap -/

section Swap

theorem getElem?_eq_some_getD {l : List (Option T)} {i : Nat} (hi : i < l.length) :
    l[i]? = some (l.getD i none) := by
  rw [List.getD_eq_getElem?_getD, List.getElem?_eq_getElem hi]; rfl

theorem Same.self {S : Nat} {v : socow_vector T} (hl : v._sdata.length = S) : Same S v v :=
  ⟨rfl, rfl, hl, fun _ => rfl, fun _ _ _ => rfl⟩

theorem swap_ordered_spec {S : Nat} (l r : socow_vector T) (hl : l._sdata.length = S)
    (hr : r._sdata.length = S) (hls : l._small = true → l._size ≤ S)
    (hrs : r._small = true → r._size ≤ S)
    (h1 : ¬ (l._small = false ∧ r._small = true))
    (h2 : l._small = r._small → l._size ≤ r._size) :
    Same S r (swap_ordered l r).1 ∧ Same S l (swap_ordered l r).2 := by
  obtain ⟨ln, lsm, ld, lb⟩ := l
  obtain ⟨rn, rsm, rd, rb⟩ := r
  simp only at hl hr hls hrs h1 h2
  cases lsm <;> cases rsm
  · -- both heap-backed
    simp [swap_ordered, is_small, Same, hl, hr]
  · exact absurd ⟨rfl, rfl⟩ h1
  · -- inline, heap-backed
    have hle := hls rfl
    refine ⟨?_, ?_⟩
    · simp [swap_ordered, is_small, Same, hl]
    · simp only [swap_ordered, is_small, Same, size]
      refine ⟨by simp, by simp, by simp [hr], by simp, ?_⟩
      intro _ i hi
      simp only [Bool.and_self, Bool.not_true, Bool.and_false, Bool.false_eq_true, if_false,
        Bool.not_false, Bool.and_true, if_true, getElem?_copy_n]
      have : 0 ≤ i ∧ i < 0 + ln ∧ i < rd.length := by omega
      rw [if_pos this, getElem?_eq_some_getD (by omega)]
      simp
  · -- both inline
    have hle := hls rfl
    have hre := hrs rfl
    have hlr := h2 rfl
    refine ⟨?_, ?_⟩
    · simp only [swap_ordered, is_small, Same, size]
      refine ⟨by simp, by simp, by simp [hl], by simp, ?_⟩
      intro _ i hi
      simp only [Bool.and_self, if_true, Bool.not_true, Bool.and_false, Bool.false_eq_true,
        if_false, getElem?_copy_n, length_copy_n]
      by_cases hc : i < ln
      · have c1 : ¬ (ln ≤ i ∧ i < ln + (rn - ln) ∧ i < ld.length) := by omega
        have c2 : 0 ≤ i ∧ i < 0 + ln ∧ i < ld.length := by omega
        rw [if_neg c1, if_pos c2, getElem?_eq_some_getD (by omega)]
        simp
      · have c1 : ln ≤ i ∧ i < ln + (rn - ln) ∧ i < ld.length := by omega
        rw [if_pos c1, getElem?_eq_some_getD (l := rd) (by omega)]
        have e : ln + (i - ln) = i := by omega
        rw [e]
        congr 1
        rw [getD_eq_join, getD_eq_join, getElem?_copy_n]
        have c2 : ¬ (0 ≤ i ∧ i < 0 + ln ∧ i < rd.length) := by omega
        rw [if_neg c2]
    · simp only [swap_ordered, is_small, Same, size]
      refine ⟨by simp, by simp, by simp [hr], by simp, ?_⟩
      intro _ i hi
      simp only [Bool.and_self, if_true, Bool.not_true, Bool.and_false, Bool.false_eq_true,
        if_false, getElem?_destroy_n, getElem?_copy_n, length_copy_n]
      have c1 : ¬ (ln ≤ i ∧ i < ln + (rn - ln) ∧ i < rd.length) := by omega
      have c2 : 0 ≤ i ∧ i < 0 + ln ∧ i < rd.length := by omega
      rw [if_neg c1, if_pos c2, getElem?_eq_some_getD (by omega)]
      simp

/-- After `a.swap(b)` the object `a` holds what `b` held and `b` holds what `a`
held. -/
theorem swap_spec {S : Nat} (a b : socow_vector T) (ha : a._sdata.length = S)
    (hb : b._sdata.length = S) (has : a._small = true → a._size ≤ S)
    (hbs : b._small = true → b._size ≤ S) :
    Same S b (socow_vector.swap a b).1 ∧ Same S a (socow_vector.swap a b).2 := by
  unfold socow_vector.swap
  split
  · rename_i hc
    simp only [is_small, size, Bool.or_eq_true, Bool.and_eq_true, Bool.not_eq_true',
      beq_iff_eq, decide_eq_true_eq] at hc
    have := swap_ordered_spec b a hb ha hbs has
      (by rintro ⟨h1, h2⟩; rcases hc with ⟨h3, _⟩ | ⟨h3, _⟩ <;> simp_all)
      (by intro h1; rcases hc with ⟨h3, h4⟩ | ⟨_, h4⟩
          · simp_all
          · omega)
    exact ⟨this.2, this.1⟩
  · rename_i hc
    simp only [is_small, size, Bool.or_eq_true, Bool.and_eq_true, Bool.not_eq_true',
      beq_iff_eq, decide_eq_true_eq, not_or, not_and, not_lt] at hc
    exact swap_ordered_spec a b ha hb has hbs (by rintro ⟨h1, h2⟩; exact absurd h2 (by simpa using hc.1 h1))
      (fun h => hc.2 h)

end Swap

/-! ## Objects that hold the same contents -/

section SameLemmas

variable {S : Nat} {h : Heap T} {v u : socow_vector T}

theorem Same.points_to_eq (hu : Same S v u) (p : Nat) : points_to u p = points_to v p := by
  obtain ⟨_, h2, _, h4, _⟩ := hu
  cases hs : v._small with
  | true => simp [Socow.points_to, h2, hs]
  | false => simp [Socow.points_to, h2, hs, h4 hs]

theorem Same.capacity_same (hu : Same S v u) : capacity S h u = capacity S h v := by
  obtain ⟨_, h2, _, h4, _⟩ := hu
  cases hs : v._small with
  | true => simp [socow_vector.capacity, is_small, h2, hs]
  | false => simp [socow_vector.capacity, is_small, h2, hs, h4 hs]

theorem Same.shared_same (hu : Same S v u) : shared h u = shared h v := by
  obtain ⟨_, h2, _, h4, _⟩ := hu
  cases hs : v._small with
  | true => simp [socow_vector.shared, is_small, h2, hs]
  | false => simp [socow_vector.shared, is_small, h2, hs, h4 hs]

theorem Same.getElem?_cdata (hu : Same S v u) {i : Nat} (hi : i < v._size) :
    (cdata h u)[i]? = (cdata h v)[i]? := by
  obtain ⟨_, h2, _, h4, h5⟩ := hu
  cases hs : v._small with
  | true => rw [cdata_small (h2.trans hs), cdata_small hs]; exact h5 hs i hi
  | false => simp [cdata, is_small, h2, hs, h4 hs]

theorem Same.elems_eq (hu : Same S v u) : elems h u = elems h v := by
  apply List.ext_getElem?
  intro i
  rw [getElem?_elems, getElem?_elems, hu.1]
  by_cases hi : i < v._size
  · rw [if_pos hi, if_pos hi, hu.getElem?_cdata hi]
  · rw [if_neg hi, if_neg hi]

theorem Same.wf_same (hu : Same S v u) (hv : WF S h v) : WF S h u := by
  cases hs : v._small with
  | true =>
    refine WF.of_small hu.2.2.1 (hu.2.1.trans hs) (hu.1 ▸ hv.small_le hs) ?_
    intro i hi
    rw [hu.1] at hi
    obtain ⟨x, hx⟩ := hv.init hi
    refine ⟨x, ?_⟩
    rw [← hx, cdata_small hs]
    exact hu.2.2.2.2 hs i hi
  | false =>
    obtain ⟨b, hb, h1, h2, h3, h4⟩ := hv.block hs
    have hbuf := hu.2.2.2.1 hs
    refine WF.of_heap hu.2.2.1 (hu.2.1.trans hs) (hbuf ▸ hb) h1 (hu.1 ▸ h2) h3 h4
      (hv.fits_block hs hb) ?_
    intro i hi
    rw [hu.1] at hi
    obtain ⟨x, hx⟩ := hv.init hi
    rw [cdata_heap hs hb] at hx
    exact ⟨x, hx⟩

theorem Same.compose {S : Nat} {v u t : socow_vector T} (a : Same S v u) (b : Same S u t) :
    Same S v t := by
  obtain ⟨a1, a2, _, a4, a5⟩ := a
  obtain ⟨b1, b2, b3, b4, b5⟩ := b
  refine ⟨b1.trans a1, b2.trans a2, b3, ?_, ?_⟩
  · intro hs
    rw [b4 (a2.trans hs), a4 hs]
  · intro hs i hi
    rw [b5 (a2.trans hs) i (by rw [a1]; exact hi), a5 hs i hi]

end SameLemmas

/-! ## Construction and destruction -/

section CtorDtor

variable {S : Nat} {h : Heap T} {v : socow_vector T}

theorem ctor_capacity_small {n : Nat} (hn : n ≤ S) :
    ctor_capacity S h n = some (h, ctor S) := by
  simp [ctor_capacity, hn, ctor]

theorem ctor_capacity_heap {n : Nat} (hn : S < n) (hf : Fits T n) :
    ctor_capacity S h n =
      some (h ++ [some ⟨n, 1, List.replicate n none⟩],
        { _size := 0, _small := false, _sdata := List.replicate S none, _buffer := h.length }) := by
  have : ¬ n ≤ S := by omega
  simp [ctor_capacity, this, alloc, hf]

/-- A request that wraps has no result. -/
theorem ctor_capacity_none {n : Nat} (hn : S < n) (hf : ¬ Fits T n) :
    ctor_capacity S h n = none := by
  have : ¬ n ≤ S := by omega
  simp [ctor_capacity, this, hf]

/-- The constructor has a result only for a capacity whose block has a size. -/
theorem fits_of_ctor_capacity {n : Nat} {r : Heap T × socow_vector T}
    (e : ctor_capacity S h n = some r) (hn : S < n) : Fits T n := by
  by_contra hf
  rw [ctor_capacity_none hn hf] at e
  cases e

/-- The storage the constructor chooses. -/
theorem ctor_capacity_flag {n : Nat} {r : Heap T × socow_vector T}
    (e : ctor_capacity S h n = some r) : r.2._small = decide (n ≤ S) := by
  by_cases hc : n ≤ S
  · rw [ctor_capacity_small hc] at e
    cases e
    simp [ctor, hc]
  · rw [ctor_capacity_heap (by omega) (fits_of_ctor_capacity e (by omega))] at e
    cases e
    simp [hc]

theorem lookup_append (b : buffer T) (q : Nat) :
    lookup (h ++ [some b]) q = if q = h.length then some b else lookup h q :=
  lookup_alloc h b q

theorem wf_ctor : WF S h (ctor S : socow_vector T) :=
  WF.of_small (by simp [ctor]) rfl (Nat.zero_le _) (fun i hi => absurd hi (Nat.not_lt_zero i))

theorem dtor_small (hs : v._small = true) : dtor h v = h := by
  simp [dtor, is_small, hs]

@[simp] theorem length_dtor : (dtor h v).length = h.length := by
  unfold dtor
  split
  · simp only []
    split
    · simp [set_cdata]
      split <;> simp
    · simp
  · rfl

theorem lookup_dtor {b : buffer T} (hs : v._small = false)
    (hb : lookup h v._buffer = some b) (q : Nat) :
    lookup (dtor h v) q =
      if q = v._buffer then (if b.refs ≤ 1 then none else some { b with refs := b.refs - 1 })
      else lookup h q := by
  have hlt := lookup_lt hb
  have hd : deref h v._buffer = b := deref_of_lookup hb
  have hd1 : deref (store h v._buffer { b with refs := b.refs - 1 }) v._buffer
      = { b with refs := b.refs - 1 } := by
    apply deref_of_lookup
    rw [lookup_store]; simp [hlt]
  simp only [dtor, is_small, hs, hd, hd1, Bool.not_false, if_true]
  by_cases hr : b.refs ≤ 1
  · have : b.refs - 1 = 0 := by omega
    rw [if_pos this, if_pos hr, lookup_free]
    by_cases hq : q = v._buffer
    · simp [hq]
    · simp only [hq, if_false, set_cdata, is_small, hs, Bool.false_eq_true]
      rw [lookup_store, lookup_store]
      simp [hq]
  · have : ¬ b.refs - 1 = 0 := by omega
    rw [if_neg this, if_neg hr, lookup_store]
    by_cases hq : q = v._buffer
    · simp [hq, hlt]
    · simp [hq]

theorem lookup_ctor_copy {o : socow_vector T} {b : buffer T} (hs : o._small = false)
    (hb : lookup h o._buffer = some b) (q : Nat) :
    lookup (ctor_copy S h o).1 q =
      if q = o._buffer then some { b with refs := b.refs + 1 } else lookup h q := by
  have hlt := lookup_lt hb
  simp only [ctor_copy, is_small, hs, deref_of_lookup hb, Bool.false_eq_true, if_false,
    lookup_store]
  by_cases hq : q = o._buffer
  · simp [hq, hlt]
  · simp [hq]

end CtorDtor

/-! ## Updates in place -/

section InPlaceLemmas

variable {S : Nat} {h h1 h2 : Heap T} {v v1 v2 : socow_vector T}

theorem InPlace.refl (h : Heap T) (v : socow_vector T) : InPlace h v h v :=
  ⟨rfl, rfl, rfl, rfl, fun _ _ => rfl, fun _ b hb => ⟨b, hb, rfl, rfl, rfl, fun _ => rfl⟩⟩

theorem InPlace.trans (a : InPlace h v h1 v1) (b : InPlace h1 v1 h2 v2) : InPlace h v h2 v2 := by
  refine ⟨b.len.trans a.len, b.small.trans a.small, b.buf.trans a.buf,
    b.sdata.trans a.sdata, ?_, ?_⟩
  · intro p hp
    rw [b.other p (by rw [a.small, a.buf]; exact hp), a.other p hp]
  · intro hs c hc
    obtain ⟨c1, hc1, r1, k1, l1, e1⟩ := a.own hs c hc
    have hs1 : v1._small = false := a.small.trans hs
    obtain ⟨c2, hc2, r2, k2, l2, e2⟩ := b.own hs1 c1 (a.buf ▸ hc1)
    refine ⟨c2, a.buf ▸ hc2, r2.trans r1, k2.trans k1, l2.trans l1, ?_⟩
    intro hr
    rw [e2 (by omega), e1 hr]

/-- Changing the `_size` field is an update in place. -/
theorem InPlace.set_size (a : InPlace h v h1 v1) (n : Nat) :
    InPlace h v h1 { v1 with _size := n } :=
  ⟨a.len, a.small, a.buf, a.sdata, a.other, a.own⟩

theorem InPlace.set_cdata (hx : shared h v = false)
    (hlive : v._small = false → ∃ b, lookup h v._buffer = some b)
    (d : List (Option T)) (hd : d.length = (cdata h v).length) :
    InPlace h v (set_cdata h v d).1 (set_cdata h v d).2 := by
  cases hs : v._small with
  | true =>
    rw [set_cdata_small d hs]
    refine ⟨rfl, rfl, rfl, ?_, fun _ _ => rfl, fun h' => by rw [hs] at h'; cases h'⟩
    rw [cdata_small hs] at hd
    exact hd
  | false =>
    obtain ⟨b, hb⟩ := hlive hs
    rw [set_cdata_heap d hs hb]
    have hlt := lookup_lt hb
    rw [shared_heap hs hb] at hx
    have hr : ¬ 1 < b.refs := by simpa using hx
    rw [cdata_heap hs hb] at hd
    refine ⟨by simp, rfl, rfl, rfl, ?_, ?_⟩
    · intro p hp
      rw [lookup_store]
      have : p ≠ v._buffer := by
        rcases hp with hp | hp
        · rw [hs] at hp; cases hp
        · exact hp
      simp [this]
    · intro _ c hc
      rw [hb] at hc
      cases hc
      refine ⟨{ b with data := d }, ?_, rfl, rfl, hd, fun h' => absurd h' hr⟩
      rw [lookup_store]; simp [hlt]

end InPlaceLemmas

/-! ## What an object sees of the heap -/

section View

variable {S : Nat} {h h' : Heap T} {v v' u : socow_vector T}

theorem cdata_congr (hu : u._small = true ∨ lookup h' u._buffer = lookup h u._buffer) :
    cdata h' u = cdata h u := by
  rcases hu with hu | hu
  · rw [cdata_small hu, cdata_small hu]
  · simp [cdata, deref, hu]

theorem capacity_congr (hu : u._small = true ∨ lookup h' u._buffer = lookup h u._buffer) :
    capacity S h' u = capacity S h u := by
  rcases hu with hu | hu
  · rw [capacity_small hu, capacity_small hu]
  · simp [capacity, deref, hu]

theorem shared_congr (hu : u._small = true ∨ lookup h' u._buffer = lookup h u._buffer) :
    shared h' u = shared h u := by
  rcases hu with hu | hu
  · rw [shared_small hu, shared_small hu]
  · simp [shared, deref, hu]

theorem elems_congr (hu : u._small = true ∨ lookup h' u._buffer = lookup h u._buffer) :
    elems h' u = elems h u := by
  simp [elems, cdata_congr hu]

theorem wf_congr (hu : u._small = true ∨ lookup h' u._buffer = lookup h u._buffer)
    (hw : WF S h u) : WF S h' u := by
  obtain ⟨w1, w2, w3⟩ := hw
  refine ⟨w1, ?_, ?_⟩
  · rw [cdata_congr hu]; exact w2
  · rcases hu with hu | hu
    · simpa [hu] using w3
    · rw [hu]; exact w3

@[simp] theorem cdata_set_size (n : Nat) : cdata h { v with _size := n } = cdata h v := rfl

@[simp] theorem capacity_set_size (n : Nat) :
    capacity S h { v with _size := n } = capacity S h v := rfl

@[simp] theorem shared_set_size (n : Nat) : shared h { v with _size := n } = shared h v := rfl

theorem cdata_set_cdata (hlive : v._small = false → ∃ b, lookup h v._buffer = some b)
    (d : List (Option T)) : cdata (set_cdata h v d).1 (set_cdata h v d).2 = d := by
  cases hs : v._small with
  | true => rw [set_cdata_small d hs]; exact cdata_small hs
  | false =>
    obtain ⟨b, hb⟩ := hlive hs
    rw [set_cdata_heap d hs hb]
    have : lookup (store h v._buffer { b with data := d }) v._buffer = some { b with data := d } := by
      rw [lookup_store]; simp [lookup_lt hb]
    exact cdata_heap hs this

theorem set_cdata_size (d : List (Option T)) : (set_cdata h v d).2._size = v._size := by
  unfold set_cdata; split <;> rfl

theorem WF.live (hv : WF S h v) : v._small = false → ∃ b, lookup h v._buffer = some b := by
  intro hs
  obtain ⟨b, hb, _⟩ := hv.block hs
  exact ⟨b, hb⟩

theorem WF.buffer_lt (hv : WF S h v) (hs : v._small = false) : v._buffer < h.length := by
  obtain ⟨b, hb, _⟩ := hv.block hs
  exact lookup_lt hb

theorem InPlace.capacity_eq (a : InPlace h v h' v') (hv : WF S h { v with _size := 0 }) :
    capacity S h' v' = capacity S h v := by
  cases hs : v._small with
  | true => rw [capacity_small hs, capacity_small (a.small.trans hs)]
  | false =>
    obtain ⟨b, hb, _⟩ := hv.block hs
    obtain ⟨b', h1, _, h3, _⟩ := a.own hs b hb
    rw [capacity_heap hs hb, capacity_heap (a.small.trans hs) (a.buf ▸ h1), h3]

theorem InPlace.shared_eq (a : InPlace h v h' v') (hv : WF S h { v with _size := 0 }) :
    shared h' v' = shared h v := by
  cases hs : v._small with
  | true => rw [shared_small hs, shared_small (a.small.trans hs)]
  | false =>
    obtain ⟨b, hb, _⟩ := hv.block hs
    obtain ⟨b', h1, h2, _⟩ := a.own hs b hb
    rw [shared_heap hs hb, shared_heap (a.small.trans hs) (a.buf ▸ h1), h2]

theorem InPlace.cdata_len (a : InPlace h v h' v') (hv : WF S h { v with _size := 0 }) :
    (cdata h' v').length = (cdata h v).length := by
  cases hs : v._small with
  | true => rw [cdata_small hs, cdata_small (a.small.trans hs)]; exact a.sdata
  | false =>
    obtain ⟨b, hb, _⟩ := hv.block hs
    obtain ⟨b', h1, _, _, h4, _⟩ := a.own hs b hb
    rw [cdata_heap hs hb, cdata_heap (a.small.trans hs) (a.buf ▸ h1), h4]

/-- An update in place leaves a well-formed object well formed, given the new
size fits and the slots below it hold elements. -/
theorem InPlace.wf (a : InPlace h v h' v') (hv : WF S h { v with _size := 0 })
    (hn : v'._size ≤ capacity S h v)
    (hi : ∀ i, i < v'._size → ∃ x, (cdata h' v')[i]? = some (some x)) : WF S h' v' := by
  cases hs : v._small with
  | true =>
    have hs' := a.small.trans hs
    rw [capacity_small hs] at hn
    refine WF.of_small (a.sdata.trans hv.1) hs' hn ?_
    intro i hi'
    rw [← cdata_small (h := h') hs']
    exact hi i hi'
  | false =>
    have hs' := a.small.trans hs
    obtain ⟨b, hb, l1, _, l3, l4⟩ := hv.block hs
    obtain ⟨b', h1, h2, h3, h4, _⟩ := a.own hs b hb
    have hb' : lookup h' v'._buffer = some b' := a.buf ▸ h1
    rw [capacity_heap hs hb] at hn
    refine WF.of_heap (a.sdata.trans hv.1) hs' hb' (by omega) (by omega) (by omega) (by omega)
      (h3 ▸ hv.fits_block hs hb) ?_
    intro i hi'
    rw [← cdata_heap hs' hb']
    exact hi i hi'

/-- An update in place of `v` does not change what an object sees that does not
share an exclusively owned block with `v`. -/
theorem InPlace.other_view (a : InPlace h v h' v')
    (hu : u._small = true ∨ v._small = true ∨ u._buffer ≠ v._buffer ∨ shared h v = true) :
    u._small = true ∨ lookup h' u._buffer = lookup h u._buffer := by
  rcases hu with hu | hu | hu | hu
  · exact Or.inl hu
  · exact Or.inr (a.other _ (Or.inl hu))
  · exact Or.inr (a.other _ (Or.inr hu))
  · by_cases he : u._buffer = v._buffer
    · right
      cases hs : v._small with
      | true => rw [shared_small hs] at hu; cases hu
      | false =>
        rw [he]
        cases hb : lookup h v._buffer with
        | none =>
          simp [socow_vector.shared, is_small, hs, deref, hb] at hu
        | some b =>
          obtain ⟨b', h1, _, _, _, h5⟩ := a.own hs b hb
          rw [shared_heap hs hb] at hu
          rw [h1, h5 (by simpa using hu)]
    · exact Or.inr (a.other _ (Or.inr he))

end View

/-! ## Member functions on an exclusively owned container -/

section Exclusive

variable {S : Nat} {h : Heap T} {v : socow_vector T}

theorem WF.zero (hv : WF S h v) : WF S h { v with _size := 0 } := by
  obtain ⟨w1, _, w3⟩ := hv
  refine ⟨w1, fun i hi => absurd hi (Nat.not_lt_zero i), ?_⟩
  cases hs : v._small with
  | true => simp [hs]
  | false =>
    simp only [hs] at w3 ⊢
    cases hb : lookup h v._buffer with
    | none => simp [hb] at w3
    | some b =>
      simp only [hb] at w3 ⊢
      simpa using ⟨w3.1, w3.2.2.1, w3.2.2.2⟩

/-- Writing the slot array of an exclusively owned container and setting its
size. -/
theorem write_spec (hv : WF S h { v with _size := 0 }) (hx : shared h v = false)
    (d : List (Option T)) (hd : d.length = (cdata h v).length) (n : Nat)
    (hn : n ≤ capacity S h v) (hi : ∀ i, i < n → ∃ x, d[i]? = some (some x)) :
    InPlace h v (set_cdata h v d).1 { (set_cdata h v d).2 with _size := n } ∧
    WF S (set_cdata h v d).1 { (set_cdata h v d).2 with _size := n } ∧
    cdata (set_cdata h v d).1 (set_cdata h v d).2 = d := by
  have hlive : v._small = false → ∃ b, lookup h v._buffer = some b := hv.live
  have a := (InPlace.set_cdata hx hlive d hd).set_size n
  have c := cdata_set_cdata hlive d
  refine ⟨a, a.wf hv hn ?_, c⟩
  intro i hi'
  rw [cdata_set_size, c]
  exact hi i hi'

theorem unshare_excl (d : Nat) (hx : shared h v = false) :
    unshare (d + 1) S h v = some (h, v) := by
  simp [unshare, hx]

theorem index_mut_excl (d : Nat) (i : Nat) (hx : shared h v = false) :
    index_mut (d + 2) S h v i = some (h, v) := by
  simp [index_mut, unshare, hx]

theorem data_excl (d : Nat) (hx : shared h v = false) :
    data (d + 2) S h v = some (h, v) := by
  simp [data, unshare, hx]

theorem back_excl (d : Nat) (hx : shared h v = false) :
    back (d + 3) S h v = some (h, v) := by
  simp [back, data, unshare, hx]

theorem begin_excl (d : Nat) (hx : shared h v = false) :
    socow_vector.begin (d + 2) S h v = some (h, v) := by
  simp [socow_vector.begin, data, unshare, hx]

/-- `push_back(T&&)` when there is room and the storage is not shared: the
element is constructed in place. -/
theorem push_back_inplace (d : Nat) (x : T) (hv : WF S h v) (hc : v._size < capacity S h v)
    (hx : shared h v = false) :
    ∃ h' v', push_back (d + 1) S h v x = some (h', v') ∧ InPlace h v h' v' ∧ WF S h' v' ∧
      v'._size = v._size + 1 ∧ cdata h' v' = (cdata h v).set v._size (some x) := by
  have hl : ((cdata h v).set v._size (some x)).length = (cdata h v).length := by simp
  have hlen := hv.cdata_length
  obtain ⟨a, w, c⟩ := write_spec hv.zero hx _ hl (v._size + 1) (by omega) (by
    intro i hi
    rw [List.getElem?_set]
    by_cases he : v._size = i
    · subst he
      exact ⟨x, by simp; omega⟩
    · simp only [he, if_false]
      exact hv.init (by omega))
  refine ⟨_, _, ?_, a, w, rfl, by rw [cdata_set_size]; exact c⟩
  simp [push_back, size, hc, hx, construct_at, set_cdata_size]

/-- `push_back(const T&)` when there is room and the storage is not shared. -/
theorem push_back_copy_inplace (d : Nat) (x : T) (hv : WF S h v)
    (hc : v._size < capacity S h v) (hx : shared h v = false) :
    ∃ h' v', push_back_copy (d + 1) S h v x = some (h', v') ∧ InPlace h v h' v' ∧
      WF S h' v' ∧ v'._size = v._size + 1 ∧
      cdata h' v' = (cdata h v).set v._size (some x) := by
  obtain ⟨h', v', e, r⟩ := push_back_inplace 0 x hv hc hx
  refine ⟨h', v', ?_, r⟩
  rw [← e]
  simp [push_back_copy, push_back, size, hc, hx]

/-- `pop_back()` on a non-empty container whose storage is not shared: the
last element is destroyed in place. -/
theorem pop_back_excl (d : Nat) (hv : WF S h v) (hn : v._size ≠ 0) (hx : shared h v = false) :
    ∃ h' v', pop_back (d + 4) S h v = some (h', v') ∧ InPlace h v h' v' ∧ WF S h' v' ∧
      v'._size = v._size - 1 ∧ cdata h' v' = (cdata h v).set (v._size - 1) none := by
  have hl : ((cdata h v).set (v._size - 1) none).length = (cdata h v).length := by simp
  have hlen := hv.cdata_length
  have hle := hv.size_le_capacity
  obtain ⟨a, w, c⟩ := write_spec hv.zero hx _ hl (v._size - 1) (by omega) (by
    intro i hi
    rw [List.getElem?_set]
    have he : ¬ v._size - 1 = i := by omega
    simp only [he, if_false]
    exact hv.init (by omega))
  refine ⟨_, _, ?_, a, w, rfl, by rw [cdata_set_size]; exact c⟩
  simp [pop_back, back_excl, size, hn, hx, set_cdata_size]

/-- `clear()` on a container whose storage is not shared: every element is
destroyed in place. -/
theorem clear_excl (d : Nat) (hv : WF S h v) (hx : shared h v = false) :
    ∃ h' v', clear (d + 5) S h v = some (h', v') ∧ InPlace h v h' v' ∧ WF S h' v' ∧
      v'._size = 0 := by
  have key := loop_spec (fun (s : Heap T × socow_vector T) => decide (s.2.size ≠ 0))
    (fun s => pop_back (d + 4) S s.1 s.2)
    (fun s => InPlace h v s.1 s.2 ∧ WF S s.1 s.2) (fun s => s.2._size)
    (by
      rintro ⟨h1, v1⟩ ⟨a, w⟩ hc
      simp only [size, ne_eq, decide_not, Bool.not_eq_true', decide_eq_false_iff_not] at hc
      have hx1 : shared h1 v1 = false := by rw [a.shared_eq hv.zero]; exact hx
      obtain ⟨h2, v2, e, a2, w2, n2, _⟩ := pop_back_excl d w hc hx1
      exact ⟨(h2, v2), e, ⟨a.trans a2, w2⟩, by simp only [n2]; omega⟩)
    v._size (h, v) ⟨InPlace.refl h v, hv⟩ (Nat.le_refl _)
  obtain ⟨⟨h', v'⟩, e, ⟨a, w⟩, hc⟩ := key
  refine ⟨h', v', ?_, a, w, ?_⟩
  · rw [← e]
    simp [clear, hx, size]
  · simpa [size] using hc

/-- `std::swap((*this)[i], (*this)[j])` on a container whose storage is not
shared. -/
theorem swap_elems_excl (d : Nat) (i j : Nat) (hv : WF S h v) (hi : i < v._size)
    (hj : j < v._size) (hx : shared h v = false) :
    ∃ h' v', swap_elems (d + 2) S h v i j = some (h', v') ∧ InPlace h v h' v' ∧
      WF S h' v' ∧ v'._size = v._size ∧ cdata h' v' = swap_slots (cdata h v) i j := by
  have hl : (swap_slots (cdata h v) i j).length = (cdata h v).length := by simp
  have hlen := hv.cdata_length
  have hle := hv.size_le_capacity
  obtain ⟨a, w, c⟩ := write_spec hv.zero hx _ hl v._size hle (by
    intro k hk
    rw [getElem?_swap_slots _ _ _ _ (by omega) (by omega)]
    split
    · exact hv.init hi
    · split
      · exact hv.init hj
      · exact hv.init hk)
  have e : ({ (set_cdata h v (swap_slots (cdata h v) i j)).2 with _size := v._size } :
      socow_vector T) = (set_cdata h v (swap_slots (cdata h v) i j)).2 := by
    have := set_cdata_size (h := h) (v := v) (swap_slots (cdata h v) i j)
    cases hr : (set_cdata h v (swap_slots (cdata h v) i j)).2
    simp only [hr] at this
    simp [this]
  rw [e] at a w
  refine ⟨_, _, ?_, a, w, set_cdata_size _, c⟩
  simp [swap_elems, index_mut_excl, hx]

end Exclusive

/-! ## Effects on the heap -/

section Effects

variable {S : Nat} {h h1 h2 : Heap T} {v v1 v2 : socow_vector T}

theorem lookup_ge {p : Nat} (hp : h.length ≤ p) : lookup h p = none := by
  rw [lookup_eq, List.getElem?_eq_none hp]; rfl

theorem Eff.unchanged (hv : v._small = false → v._buffer < h.length) : Eff h v h v := by
  refine ⟨Nat.le_refl _, fun _ _ _ => rfl, fun p hp _ => lookup_ge hp, ?_, ?_, ?_, Or.inl rfl⟩
  · intro hs hl
    have := hv hs
    omega
  · intro hs
    exact Or.inl ⟨hs, rfl⟩
  · intro hs b hb
    exact Or.inl ⟨hs, rfl, b, hb, rfl, rfl, fun _ => rfl⟩

theorem InPlace.eff (a : InPlace h v h1 v1) (hv : v._small = false → v._buffer < h.length) :
    Eff h v h1 v1 := by
  refine ⟨Nat.le_of_eq a.len.symm, fun p _ hp => a.other p hp, ?_, ?_, ?_, ?_, Or.inl a.len⟩
  · intro p hp _
    exact lookup_ge (by rw [a.len]; exact hp)
  · intro hs hl
    have := hv (a.small ▸ hs)
    rw [a.buf] at hl
    omega
  · intro hs
    exact Or.inl ⟨a.small ▸ hs, a.buf⟩
  · intro hs b hb
    obtain ⟨b', e1, e2, e3, _, e5⟩ := a.own hs b hb
    exact Or.inl ⟨a.small.trans hs, a.buf, b', e1, e2, e3, e5⟩

/-- An effect followed by an update in place of the result. -/
theorem Eff.then_inplace (e : Eff h v h1 v1) (a : InPlace h1 v1 h2 v2)
    (hw : WF S h1 { v1 with _size := 0 }) :
    Eff h v h2 v2 := by
  have hlt1 : v1._small = false → v1._buffer < h1.length := fun hs => hw.buffer_lt hs
  refine ⟨a.len ▸ e.len, ?_, ?_, ?_, ?_, ?_, ?_⟩
  rotate_right
  · rcases e.alloc with h0 | ⟨h0, h1, h2⟩
    · exact Or.inl (a.len.trans h0)
    · exact Or.inr ⟨a.len.trans h0, a.small.trans h1, a.buf.trans h2⟩
  · intro p hp hpv
    by_cases hq : v1._small = true ∨ p ≠ v1._buffer
    · rw [a.other p hq, e.other p hp hpv]
    · simp only [not_or, Bool.not_eq_true, ne_eq, not_not] at hq
      obtain ⟨hs1, hq⟩ := hq
      subst hq
      rcases e.origin hs1 with ⟨hs, hb⟩ | hge
      · rcases hpv with hpv | hpv
        · rw [hs] at hpv; cases hpv
        · exact absurd hb hpv
      · omega
  · intro p hp hpv
    rw [a.small, a.buf] at hpv
    rw [a.other p hpv]
    exact e.fresh p hp hpv
  · intro hs hl
    have hs1 : v1._small = false := a.small ▸ hs
    rw [a.buf] at hl ⊢
    obtain ⟨b, hb, _⟩ := hw.block hs1
    obtain ⟨b', e1, e2, _⟩ := a.own hs1 b hb
    have := e.fresh_own hs1 hl
    rw [rc_of_lookup hb] at this
    rw [rc_of_lookup e1, e2, this]
  · intro hs
    have hs1 : v1._small = false := a.small ▸ hs
    rw [a.buf]
    exact e.origin hs1
  · intro hs b hb
    rcases e.own hs b hb with ⟨hs1, hb1, b1, l1, r1, c1, d1⟩ | ⟨hne, l1⟩
    · left
      obtain ⟨b2, l2, r2, c2, _, d2⟩ := a.own hs1 b1 (hb1 ▸ l1)
      refine ⟨a.small.trans hs1, a.buf.trans hb1, b2, hb1 ▸ l2, r2.trans r1, c2.trans c1, ?_⟩
      intro hr
      rw [d2 (by omega), d1 hr]
    · right
      rw [a.small, a.buf]
      refine ⟨hne, ?_⟩
      rw [a.other _ (by
        rcases hne with hne | hne
        · exact Or.inl hne
        · exact Or.inr (fun e' => hne e'.symm)), l1]

theorem ctor_capacity_spec (h : Heap T) (n : Nat) (hf : S < n → Fits T n) :
    ∃ r, ctor_capacity S h n = some r ∧
    Eff h (ctor S) r.1 r.2 ∧
    WF S r.1 r.2 ∧
    r.2._size = 0 ∧
    capacity S r.1 r.2 = (if n ≤ S then S else n) ∧
    shared r.1 r.2 = false ∧
    cdata r.1 r.2 = List.replicate (if n ≤ S then S else n) none := by
  by_cases hn : n ≤ S
  · refine ⟨_, ctor_capacity_small hn, ?_⟩
    refine ⟨Eff.unchanged (by simp [ctor]), wf_ctor, rfl, by simp [hn, capacity_small, ctor],
      shared_small rfl, ?_⟩
    rw [cdata_small rfl]
    simp [ctor, hn]
  · have hn' : S < n := by omega
    refine ⟨_, ctor_capacity_heap hn' (hf hn'), ?_⟩
    have hl : lookup (h ++ [some (⟨n, 1, List.replicate n none⟩ : buffer T)]) h.length
        = some ⟨n, 1, List.replicate n none⟩ := by rw [lookup_append]; simp
    refine ⟨⟨by simp, ?_, ?_, ?_, ?_, ?_, Or.inr ⟨by simp, rfl, rfl⟩⟩, ?_, rfl, ?_, ?_, ?_⟩
    · intro p hp _
      rw [lookup_append]
      simp [Nat.ne_of_lt hp]
    · intro p hp hpv
      simp only [Bool.false_eq_true, ne_eq, false_or] at hpv
      rw [lookup_append]
      simp only [hpv, if_false]
      exact lookup_ge hp
    · intro _ _
      exact rc_of_lookup hl
    · intro _
      exact Or.inr (Nat.le_refl _)
    · intro hs
      simp [ctor] at hs
    · exact WF.of_heap (by simp) rfl hl (by simp) (Nat.zero_le _) hn' (Nat.le_refl _)
        (hf hn') (fun i hi => absurd hi (Nat.not_lt_zero i))
    · rw [capacity_heap rfl hl]; simp [hn]
    · rw [shared_heap rfl hl]; simp
    · rw [cdata_heap rfl hl]; simp [hn]

end Effects

/-! ## Replacing the storage: `swap(tmp)` and the destruction of `tmp` -/

section Replace

variable {S : Nat} {h H H2 : Heap T} {v v2 t : socow_vector T}

/-- The common tail of the reallocating member functions.  `tmp` (here `t`) was
built on the side (`hE`), `*this` was possibly cleared meanwhile (`hC`); then
`swap(tmp)` runs and `tmp` is destroyed.  The object ends up with the storage
of `tmp`, and its former block is released. -/
theorem replace_spec (hv : WF S h v) (hE : Eff h (ctor S) H t) (ht : WF S H t)
    (hC : Eff H v H2 v2) (hv2 : WF S H2 v2) (hlen : H2.length = H.length) :
    Eff h v (dtor H2 (socow_vector.swap v2 t).2) (socow_vector.swap v2 t).1 ∧
    WF S (dtor H2 (socow_vector.swap v2 t).2) (socow_vector.swap v2 t).1 ∧
    Same S t (socow_vector.swap v2 t).1 ∧
    elems (dtor H2 (socow_vector.swap v2 t).2) (socow_vector.swap v2 t).1 = elems H t ∧
    capacity S (dtor H2 (socow_vector.swap v2 t).2) (socow_vector.swap v2 t).1
      = capacity S H t ∧
    shared (dtor H2 (socow_vector.swap v2 t).2) (socow_vector.swap v2 t).1 = false := by
  obtain ⟨Sv, St⟩ := swap_spec v2 t hv2.sdata_length ht.sdata_length hv2.small_le ht.small_le
  generalize (socow_vector.swap v2 t).1 = v' at Sv ⊢
  generalize (socow_vector.swap v2 t).2 = t' at St ⊢
  -- where `t` lives
  have ht_ge : t._small = false → h.length ≤ t._buffer := by
    intro hs
    rcases hE.origin hs with ⟨hc, _⟩ | hge
    · simp [ctor] at hc
    · exact hge
  have ht_rc : t._small = false → rc H t._buffer = 1 := fun hs => hE.fresh_own hs (ht_ge hs)
  have hv_lt : v._small = false → v._buffer < h.length := fun hs => hv.buffer_lt hs
  -- where `v2` lives
  have hv2_buf : v2._small = false → v._small = false ∧ v2._buffer = v._buffer := by
    intro hs
    rcases hC.origin hs with hc | hge
    · exact hc
    · have := hv2.buffer_lt hs
      omega
  -- the final heap
  have hfinal : ∀ p, (v._small = true ∨ p ≠ v._buffer) → lookup (dtor H2 t') p = lookup H2 p := by
    intro p hp
    cases hs2 : v2._small with
    | true => rw [dtor_small (St.2.1.trans hs2)]
    | false =>
      obtain ⟨c, hc, _⟩ := hv2.block hs2
      have hb' : t'._buffer = v2._buffer := St.2.2.2.1 hs2
      rw [lookup_dtor (St.2.1.trans hs2) (hb' ▸ hc), hb']
      obtain ⟨hs, hb⟩ := hv2_buf hs2
      have : p ≠ v2._buffer := by
        rcases hp with hp | hp
        · rw [hs] at hp; cases hp
        · rw [hb]; exact hp
      simp [this]
  have hH : ∀ p, p < h.length → lookup H p = lookup h p := fun p hp =>
    hE.other p hp (Or.inl rfl)
  have ht_cell : t._small = false → lookup (dtor H2 t') t._buffer = lookup H t._buffer := by
    intro hs
    have hge := ht_ge hs
    have hne : v._small = true ∨ t._buffer ≠ v._buffer := by
      cases hsv : v._small with
      | true => exact Or.inl rfl
      | false => have := hv_lt hsv; exact Or.inr (by omega)
    rw [hfinal _ hne]
    exact hC.other _ (ht.buffer_lt hs) hne
  have hview : v'._small = true ∨ lookup (dtor H2 t') v'._buffer = lookup H v'._buffer := by
    cases hs : t._small with
    | true => exact Or.inl (Sv.2.1.trans hs)
    | false => right; rw [Sv.2.2.2.1 hs]; exact ht_cell hs
  have wt : WF S H v' := Sv.wf_same ht
  have halloc : (dtor H2 t').length = h.length ∨
      ((dtor H2 t').length = h.length + 1 ∧ v'._small = false ∧ v'._buffer = h.length) := by
    rcases hE.alloc with h0 | ⟨h0, h1, h2⟩
    · exact Or.inl (by rw [length_dtor, hlen]; exact h0)
    · exact Or.inr ⟨by rw [length_dtor, hlen]; exact h0, Sv.2.1.trans h1,
        (Sv.2.2.2.1 h1).trans h2⟩
  refine ⟨⟨?_, ?_, ?_, ?_, ?_, ?_, halloc⟩, wf_congr hview wt, Sv, ?_, ?_, ?_⟩
  · rw [length_dtor, hlen]; exact hE.len
  · intro p hp hpv
    rw [hfinal p hpv, hC.other p (Nat.lt_of_lt_of_le hp hE.len) hpv, hH p hp]
  · intro p hp hpv
    have hne : v._small = true ∨ p ≠ v._buffer := by
      cases hsv : v._small with
      | true => exact Or.inl rfl
      | false => have := hv_lt hsv; exact Or.inr (by omega)
    rw [hfinal p hne]
    by_cases hpl : p < H.length
    · rw [hC.other p hpl hne]
      apply hE.fresh p hp
      rw [Sv.2.1] at hpv
      rcases hpv with hpv | hpv
      · exact Or.inl hpv
      · cases hs : t._small with
        | true => exact Or.inl rfl
        | false => right; rw [← Sv.2.2.2.1 hs]; exact hpv
    · exact lookup_ge (by omega)
  · intro hs _
    have hst : t._small = false := Sv.2.1 ▸ hs
    rw [Sv.2.2.2.1 hst]
    have := ht_rc hst
    simp only [rc, ht_cell hst] at this ⊢
    exact this
  · intro hs
    have hst : t._small = false := Sv.2.1 ▸ hs
    rw [Sv.2.2.2.1 hst]
    exact Or.inr (ht_ge hst)
  · intro hs b hb
    right
    have hlt := hv_lt hs
    refine ⟨?_, ?_⟩
    · cases hst : t._small with
      | true => exact Or.inl (Sv.2.1.trans hst)
      | false =>
        right
        rw [Sv.2.2.2.1 hst]
        have := ht_ge hst
        omega
    · have hbH : lookup H v._buffer = some b := by rw [hH _ hlt]; exact hb
      rcases hC.own hs b hbH with ⟨hs2, hb2, c, hc, r1, _, d1⟩ | ⟨hne, l1⟩
      · have hb' : t'._buffer = v2._buffer := St.2.2.2.1 hs2
        rw [lookup_dtor (St.2.1.trans hs2) (b := c) (by rw [hb', hb2]; exact hc), hb', hb2]
        simp only [if_true, r1]
        by_cases hr : b.refs ≤ 1
        · simp [hr]
        · simp only [hr, if_false]
          rw [d1 (by omega)]
      · have hs2 : v2._small = true := by
          rcases hne with hne | hne
          · exact hne
          · cases hs2 : v2._small with
            | true => rfl
            | false => exact absurd (hv2_buf hs2).2 hne
        rw [dtor_small (St.2.1.trans hs2), l1]
  · rw [elems_congr hview, Sv.elems_eq]
  · rw [capacity_congr hview, Sv.capacity_same]
  · rw [shared_congr hview, Sv.shared_same]
    cases hst : t._small with
    | true => exact shared_small hst
    | false =>
      obtain ⟨c, hc, _⟩ := ht.block hst
      have := ht_rc hst
      rw [rc_of_lookup hc] at this
      rw [shared_heap hst hc, this]
      rfl

end Replace

/-! ## clear and push_back -/

section PushBack

variable {S : Nat} {h : Heap T} {v : socow_vector T}

theorem set_cdata_twice (hlive : v._small = false → ∃ b, lookup h v._buffer = some b)
    (d1 d2 : List (Option T)) (k : Nat) :
    set_cdata (set_cdata h v d1).1 { (set_cdata h v d1).2 with _size := k } d2 =
      ((set_cdata h v d2).1, { (set_cdata h v d2).2 with _size := k }) := by
  cases hs : v._small with
  | true =>
    rw [set_cdata_small d1 hs, set_cdata_small d2 hs]
    simp [set_cdata, is_small, hs]
  | false =>
    obtain ⟨b, hb⟩ := hlive hs
    rw [set_cdata_heap d1 hs hb, set_cdata_heap d2 hs hb]
    have hl : lookup (store h v._buffer { b with data := d1 }) v._buffer
        = some { b with data := d1 } := by
      rw [lookup_store]; simp [lookup_lt hb]
    simp only [set_cdata, is_small, hs, Bool.false_eq_true, if_false, deref_of_lookup hl]
    simp [store, List.set_set]

theorem cdata_of_set_cdata_size (hlive : v._small = false → ∃ b, lookup h v._buffer = some b)
    (d : List (Option T)) (k : Nat) :
    cdata (set_cdata h v d).1 { (set_cdata h v d).2 with _size := k } = d := by
  rw [cdata_set_size]; exact cdata_set_cdata hlive d

/-- `clear()`: the container is empty afterwards; an exclusively owned
container is updated in place, a shared block is released. -/
theorem clear_spec (d : Nat) (hv : WF S h v) :
    ∃ h' v', clear (d + 5) S h v = some (h', v') ∧ Eff h v h' v' ∧ WF S h' v' ∧
      v'._size = 0 ∧ h'.length = h.length ∧
      (shared h v = false → InPlace h v h' v') ∧
      (shared h v = true → v'._small = true) := by
  cases hx : shared h v with
  | false =>
    obtain ⟨h', v', e, a, w, n⟩ := clear_excl d hv hx
    exact ⟨h', v', e, a.eff (fun hs => hv.buffer_lt hs), w, n, a.len, fun _ => a,
      fun hc => absurd hc (by decide)⟩
  | true =>
    have hr := replace_spec hv (Eff.unchanged (h := h) (v := ctor S) (by simp [ctor])) wf_ctor
      (Eff.unchanged (fun hs => hv.buffer_lt hs)) hv rfl
    obtain ⟨e, w, s, _, _, _⟩ := hr
    refine ⟨_, _, ?_, e, w, s.1, by simp, fun hc => absurd hc (by decide), fun _ => s.2.1⟩
    simp [clear, hx]

theorem take_succ_eq_append {d l : List (Option T)} {n : Nat} {x : T} (hl : l.length = n)
    (h1 : ∀ i, i < n → d[i]? = l[i]?) (h2 : d[n]? = some (some x)) :
    d.take (n + 1) = l ++ [some x] := by
  apply List.ext_getElem?
  intro i
  rw [List.getElem?_take, List.getElem?_append, hl]
  by_cases hi : i < n
  · have : i < n + 1 := by omega
    rw [if_pos this, if_pos hi, h1 i hi]
  · rw [if_neg hi]
    by_cases he : i = n
    · subst he
      simp [h2]
    · have h3 : ¬ i < n + 1 := by omega
      have h4 : ([some x] : List (Option T))[i - n]? = none :=
        List.getElem?_eq_none (by simp; omega)
      rw [if_neg h3, h4]

/-- The tail of `push_back` and `expand`: `clear(); swap(tmp);` and the
destruction of `tmp`, for a `tmp` built on the side. -/
theorem clear_replace_spec (d : Nat) {H : Heap T} {t : socow_vector T} (hv : WF S h v)
    (hE : Eff h (ctor S) H t) (ht : WF S H t) :
    ∃ h' v', ((clear (d + 5) S H v).bind fun r =>
        some (dtor r.1 (socow_vector.swap r.2 t).2, (socow_vector.swap r.2 t).1))
        = some (h', v') ∧
      Eff h v h' v' ∧ WF S h' v' ∧ Same S t v' ∧ elems h' v' = elems H t ∧
      capacity S h' v' = capacity S H t ∧ shared h' v' = false := by
  have hview : v._small = true ∨ lookup H v._buffer = lookup h v._buffer := by
    cases hs : v._small with
    | true => exact Or.inl rfl
    | false => exact Or.inr (hE.other _ (hv.buffer_lt hs) (Or.inl rfl))
  have hvH : WF S H v := wf_congr hview hv
  obtain ⟨H2, v2, e, eC, w2, _, hlen, _, _⟩ := clear_spec d hvH
  obtain ⟨r1, r2, r3, r4, r5, r6⟩ := replace_spec hv hE ht eC w2 hlen
  exact ⟨_, _, by rw [e]; rfl, r1, r2, r3, r4, r5, r6⟩

/-- `push_back(T&&)`: the value is appended; the capacity grows to
`2 * capacity + 1` exactly when the container was full; the result is not
shared. -/
theorem push_back_spec (d : Nat) (x : T) (hv : WF S h v)
    (hf : v._size = capacity S h v → Fits T (2 * capacity S h v + 1)) :
    ∃ h' v', push_back (d + 6) S h v x = some (h', v') ∧ Eff h v h' v' ∧ WF S h' v' ∧
      elems h' v' = elems h v ++ [some x] ∧ v'._size = v._size + 1 ∧
      capacity S h' v' =
        (if v._size = capacity S h v then 2 * capacity S h v + 1 else capacity S h v) ∧
      shared h' v' = false ∧
      (v._size < capacity S h v → shared h v = false → InPlace h v h' v') := by
  have hlen := hv.cdata_length
  have hle := hv.size_le_capacity
  have hel := elems_length hv
  by_cases hc : v._size < capacity S h v ∧ shared h v = false
  · obtain ⟨h', v', e, a, w, n, c⟩ := push_back_inplace (d + 5) x hv hc.1 hc.2
    refine ⟨h', v', e, a.eff (fun hs => hv.buffer_lt hs), w, ?_, n, ?_, ?_, fun _ _ => a⟩
    · simp only [elems, size, n, c]
      apply take_succ_eq_append (by simpa [elems, size] using hel)
      · intro i hi
        rw [List.getElem?_take, if_pos hi, List.getElem?_set]
        simp [Nat.ne_of_gt hi]
      · rw [List.getElem?_set]; simp; omega
    · rw [a.capacity_eq hv.zero, if_neg (by omega)]
    · rw [a.shared_eq hv.zero]; exact hc.2
  · -- a new block is needed
    obtain ⟨r, htmp, E1, W1, n1, c1, x1, d1⟩ := ctor_capacity_spec (S := S) h
      (if v._size = capacity S h v then 2 * capacity S h v + 1 else capacity S h v)
      (hv.fits_request hf)
    generalize hncap :
      (if v._size = capacity S h v then 2 * capacity S h v + 1 else capacity S h v) = ncap
      at htmp E1 W1 n1 c1 x1 d1
    have hSle := hv.le_capacity
    have hncap_gt : S < ncap := by
      rw [← hncap]
      split
      · omega
      · rename_i hne
        have hsh : shared h v = true := by
          by_contra hcon
          exact hc ⟨by omega, by simpa using hcon⟩
        cases hs : v._small with
        | true => rw [shared_small hs] at hsh; cases hsh
        | false =>
          obtain ⟨b, hb, _, _, h3, _⟩ := hv.block hs
          rw [capacity_heap hs hb]; exact h3
    have hncap_ge : v._size + 1 ≤ ncap := by
      rw [← hncap]; split <;> omega
    have hcase : ¬ ncap ≤ S := by omega
    simp only [hcase, if_false] at c1 d1
    obtain ⟨h1, tmp⟩ := r
    simp only at E1 W1 n1 c1 x1 d1
    have hview1 : v._small = true ∨ lookup h1 v._buffer = lookup h v._buffer := by
      cases hs : v._small with
      | true => exact Or.inl rfl
      | false => exact Or.inr (E1.other _ (hv.buffer_lt hs) (Or.inl rfl))
    have hlive : tmp._small = false → ∃ b, lookup h1 tmp._buffer = some b := W1.live
    have htz : ({ tmp with _size := 0 } : socow_vector T) = tmp := by
      cases tmp; simp only at n1; subst n1; rfl
    -- the slot array written to `tmp`, in either order
    have hbuild : ∃ dat : List (Option T), dat.length = ncap ∧
        (∀ i, i < v._size → dat[i]? = (cdata h v)[i]?) ∧ dat[v._size]? = some (some x) ∧
        push_back (d + 6) S h v x =
          (clear (d + 5) S (set_cdata h1 tmp dat).1 v).bind fun r =>
            some (dtor r.1 (socow_vector.swap r.2
                { (set_cdata h1 tmp dat).2 with _size := v._size + 1 }).2,
              (socow_vector.swap r.2
                { (set_cdata h1 tmp dat).2 with _size := v._size + 1 }).1) := by
      have hcd : cdata h1 v = cdata h v := cdata_congr hview1
      have hsh : shared h1 v = shared h v := shared_congr hview1
      have hcond : ¬ ((decide (v._size < capacity S h v) && !shared h v) = true) := by
        cases hsv : shared h v with
        | true => simp
        | false =>
          simp only [Bool.not_false, Bool.and_true, decide_eq_true_eq]
          exact fun hlt => hc ⟨hlt, hsv⟩
      have hother : ∀ dd : List (Option T), cdata (set_cdata h1 tmp dd).1 v = cdata h v := by
        intro dd
        rw [← hcd]
        apply cdata_congr
        cases hs : v._small with
        | true => exact Or.inl rfl
        | false =>
          right
          cases hst : tmp._small with
          | true => rw [set_cdata_small dd hst]
          | false =>
            obtain ⟨b, hb⟩ := hlive hst
            rw [set_cdata_heap dd hst hb, lookup_store]
            have h1' : h.length ≤ tmp._buffer := by
              rcases E1.origin hst with ⟨hc', _⟩ | hge
              · simp [ctor] at hc'
              · exact hge
            have h2' := hv.buffer_lt hs
            have : ¬ v._buffer = tmp._buffer := by omega
            simp [this]
      cases hsv : shared h v with
      | false =>
        refine ⟨copy_n (cdata h v) 0 v._size ((cdata h1 tmp).set v._size (some x)) 0,
          by simp [d1], ?_, ?_, ?_⟩
        · intro i hi
          rw [getElem?_copy_n]
          have : 0 ≤ i ∧ i < 0 + v._size ∧ i < ((cdata h1 tmp).set v._size (some x)).length := by
            simp [d1]; omega
          rw [if_pos this, getElem?_eq_some_getD (by omega)]
          simp
        · rw [getElem?_copy_n]
          have : ¬ (0 ≤ v._size ∧ v._size < 0 + v._size ∧
              v._size < ((cdata h1 tmp).set v._size (some x)).length) := by omega
          rw [if_neg this, List.getElem?_set]
          simp [d1]; omega
        · rw [push_back]
          simp only [size]
          rw [if_neg hcond]
          simp only [hncap, htmp, hsh, hsv, Bool.not_false, if_true, construct_at]
          rw [set_cdata_twice hlive, cdata_of_set_cdata_size hlive, hother]
      | true =>
        refine ⟨(copy_n (cdata h v) 0 v._size (cdata h1 tmp) 0).set v._size (some x),
          by simp [d1], ?_, ?_, ?_⟩
        · intro i hi
          rw [List.getElem?_set, if_neg (by omega), getElem?_copy_n]
          have : 0 ≤ i ∧ i < 0 + v._size ∧ i < (cdata h1 tmp).length := by
            simp [d1]; omega
          rw [if_pos this, getElem?_eq_some_getD (by omega)]
          simp
        · rw [List.getElem?_set]
          simp [d1]; omega
        · rw [push_back]
          simp only [size]
          rw [if_neg hcond]
          simp only [hncap, htmp, hsh, hsv, Bool.not_true, Bool.false_eq_true, if_false,
            construct_at]
          rw [set_cdata_twice hlive, cdata_of_set_cdata_size hlive, hcd]
    obtain ⟨dat, hdl, hd1, hd2, hpb⟩ := hbuild
    have hx1 : shared h1 tmp = false := x1
    obtain ⟨a, w, c⟩ := write_spec (htz.symm ▸ W1) x1 dat (by rw [hdl, d1]; simp) (v._size + 1)
      (by rw [c1]; exact hncap_ge) (by
        intro i hi
        by_cases he : i = v._size
        · subst he; exact ⟨x, hd2⟩
        · rw [hd1 i (by omega)]; exact hv.init (by omega))
    have E2 : Eff h (ctor S) (set_cdata h1 tmp dat).1
        { (set_cdata h1 tmp dat).2 with _size := v._size + 1 } :=
      E1.then_inplace a (htz.symm ▸ W1)
    obtain ⟨h', v', e, r1, r2, r3, r4, r5, r6⟩ := clear_replace_spec d hv E2 w
    refine ⟨h', v', by rw [hpb]; exact e, r1, r2, ?_, r3.1, ?_, r6, fun hlt hs => absurd ⟨hlt, hs⟩ hc⟩
    · rw [r4]
      simp only [elems, size, cdata_set_size, c]
      exact take_succ_eq_append (by simpa [elems, size] using hel)
        (fun i hi => by rw [hd1 i hi, List.getElem?_take, if_pos hi]) hd2
    · rw [r5, a.capacity_eq (htz.symm ▸ W1), c1]

end PushBack

/-! ## Loops that push the elements of `*this` onto `tmp` -/

section CopyLoop

variable {S : Nat}

theorem push_inplace_eq {h : Heap T} {t : socow_vector T} (d : Nat) (x : T)
    (hc : t._size < capacity S h t) (hx : shared h t = false) :
    push_back (d + 1) S h t x = push_back 1 S h t x ∧
    push_back_copy (d + 1) S h t x = push_back 1 S h t x := by
  constructor <;> simp [push_back, push_back_copy, size, hc, hx]

/-- A loop that pushes the elements `lo, lo + 1, ..., bound - 1` of `v` onto an
exclusively owned `tmp` with room for them: it terminates, `v` is untouched,
`tmp` is updated in place, keeps its first `k0` elements and gains the pushed
ones in order. -/
theorem copy_loop_spec (cond : Locals T → Bool) (body : Locals T → Option (Locals T))
    {H0 : Heap T} {v t0 : socow_vector T} (lo bound k0 : Nat)
    (hv : WF S H0 v) (ht : WF S H0 t0) (hk : t0._size = k0)
    (hsep : t0._small = true ∨ v._small = true ∨ v._buffer ≠ t0._buffer)
    (hx : shared H0 t0 = false) (hcap : k0 + (bound - lo) ≤ capacity S H0 t0)
    (hb : bound ≤ v._size)
    (hcond : ∀ s : Locals T, s.this = v → cond s = decide (s.i < bound))
    (hbody : ∀ (s : Locals T) (x : T), s.this = v →
      (v._small = true ∨ lookup s.h v._buffer = lookup H0 v._buffer) →
      s.tmp._size < capacity S s.h s.tmp → shared s.h s.tmp = false →
      (cdata H0 v)[s.i]? = some (some x) →
      body s = (push_back 1 S s.h s.tmp x).map fun r =>
        { s with i := s.i + 1, h := r.1, tmp := r.2 })
    (fuel : Nat) (hf : bound - lo ≤ fuel) :
    ∃ s', loop cond body fuel ⟨lo, H0, v, t0⟩ = some s' ∧ s'.this = v ∧
      InPlace H0 t0 s'.h s'.tmp ∧ WF S s'.h s'.tmp ∧ s'.tmp._size = k0 + (bound - lo) ∧
      (∀ j, j < k0 → (cdata s'.h s'.tmp)[j]? = (cdata H0 t0)[j]?) ∧
      (∀ j, j < bound - lo → (cdata s'.h s'.tmp)[k0 + j]? = (cdata H0 v)[lo + j]?) := by
  have key := loop_spec cond body
    (fun s => s.this = v ∧ lo ≤ s.i ∧ (s.i ≤ bound ∨ s.i = lo) ∧ InPlace H0 t0 s.h s.tmp ∧
      WF S s.h s.tmp ∧ s.tmp._size = k0 + (s.i - lo) ∧
      (∀ j, j < k0 → (cdata s.h s.tmp)[j]? = (cdata H0 t0)[j]?) ∧
      (∀ j, j < s.i - lo → (cdata s.h s.tmp)[k0 + j]? = (cdata H0 v)[lo + j]?))
    (fun s => bound - s.i)
    (by
      rintro s ⟨i1, i2, i3, i4, i5, i6, i7, i8⟩ hc
      rw [hcond s i1] at hc
      have hlt : s.i < bound := by simpa using hc
      obtain ⟨x, hx'⟩ := hv.init (Nat.lt_of_lt_of_le hlt hb)
      have hcapeq := i4.capacity_eq ht.zero
      have hsh := (i4.shared_eq ht.zero).trans hx
      have hview : v._small = true ∨ lookup s.h v._buffer = lookup H0 v._buffer :=
        i4.other_view (by
          rcases hsep with hs | hs | hs
          · exact Or.inr (Or.inl hs)
          · exact Or.inl hs
          · exact Or.inr (Or.inr (Or.inl hs)))
      have hroom : s.tmp._size < capacity S s.h s.tmp := by rw [hcapeq, i6]; omega
      obtain ⟨h', t', e, a, w, n, c⟩ := push_back_inplace 0 x i5 hroom hsh
      refine ⟨{ s with i := s.i + 1, h := h', tmp := t' }, ?_, ?_, ?_⟩
      · rw [hbody s x i1 hview hroom hsh hx', e]; rfl
      · refine ⟨i1, by simp only; omega, Or.inl (by simp only; omega), i4.trans a, w,
          by simp only [n, i6]; omega, ?_, ?_⟩
        · intro j hj
          simp only [c]
          rw [List.getElem?_set, if_neg (by omega)]
          exact i7 j hj
        · intro j hj
          simp only at hj
          simp only [c]
          rw [List.getElem?_set]
          by_cases he : j = s.i - lo
          · have e1 : s.tmp._size = k0 + j := by omega
            have e2 : lo + j = s.i := by omega
            have hl := i5.cdata_length
            rw [if_pos e1, e2, hx', if_pos (by omega)]
          · rw [if_neg (by omega)]
            exact i8 j (by omega)
      · simp only; omega)
    fuel ⟨lo, H0, v, t0⟩
    ⟨rfl, Nat.le_refl _, Or.inr rfl, InPlace.refl _ _, ht, by simp [hk],
      fun _ _ => rfl, fun j hj => by simp at hj⟩
    (by simp only; omega)
  obtain ⟨s', e, ⟨i1, i2, i3, i4, i5, i6, i7, i8⟩, hc⟩ := key
  rw [hcond s' i1] at hc
  have hge : ¬ s'.i < bound := by simpa using hc
  have hcount : s'.i - lo = bound - lo := by omega
  exact ⟨s', e, i1, i4, i5, by rw [i6, hcount], i7, by rw [← hcount]; exact i8⟩

end CopyLoop

/-! ## pop_back and expand -/

section Rebuild

variable {S : Nat} {h : Heap T} {v : socow_vector T}

theorem index_const_eq {h : Heap T} {v : socow_vector T} {i : Nat} {x : T}
    (hx : (cdata h v)[i]? = some (some x)) : index_const h v i = some x := by
  simp [index_const, getD_eq_join, hx]

/-- A fresh `tmp` does not share a block with a well-formed object of the old
heap. -/
theorem fresh_sep {H : Heap T} {t : socow_vector T} (hv : WF S h v) (hE : Eff h (ctor S) H t) :
    t._small = true ∨ v._small = true ∨ v._buffer ≠ t._buffer := by
  cases hst : t._small with
  | true => exact Or.inl rfl
  | false =>
    right
    cases hs : v._small with
    | true => exact Or.inl rfl
    | false =>
      right
      have := hv.buffer_lt hs
      rcases hE.origin hst with ⟨hc, _⟩ | hge
      · simp [ctor] at hc
      · omega

theorem fresh_view {H : Heap T} {t : socow_vector T} (hv : WF S h v) (hE : Eff h (ctor S) H t) :
    v._small = true ∨ lookup H v._buffer = lookup h v._buffer := by
  cases hs : v._small with
  | true => exact Or.inl rfl
  | false => exact Or.inr (hE.other _ (hv.buffer_lt hs) (Or.inl rfl))

/-- `pop_back()` on a non-empty container: the last element is removed, the
capacity is kept, and the result is not shared. -/
theorem pop_back_spec (d : Nat) (hv : WF S h v) (hn : v._size ≠ 0) :
    ∃ h' v', pop_back (d + 4) S h v = some (h', v') ∧ Eff h v h' v' ∧ WF S h' v' ∧
      v'._size = v._size - 1 ∧ elems h' v' = (elems h v).take (v._size - 1) ∧
      capacity S h' v' = capacity S h v ∧ shared h' v' = false ∧
      (shared h v = false → InPlace h v h' v') ∧
      (shared h v = true → v'._small = false) := by
  cases hx : shared h v with
  | false =>
    obtain ⟨h', v', e, a, w, n, c⟩ := pop_back_excl d hv hn hx
    refine ⟨h', v', e, a.eff (fun hs => hv.buffer_lt hs), w, n, ?_, a.capacity_eq hv.zero,
      (a.shared_eq hv.zero).trans hx, fun _ => a, fun hc => absurd hc (by decide)⟩
    apply List.ext_getElem?
    intro i
    simp only [elems, size, n, c, List.getElem?_take, List.getElem?_set]
    by_cases hi : i < v._size - 1
    · have : i < v._size := by omega
      simp [hi, this, Nat.ne_of_gt hi]
    · simp [hi]
  | true =>
    have hs : v._small = false := by
      cases hs : v._small with
      | true => rw [shared_small hs] at hx; cases hx
      | false => rfl
    obtain ⟨b, hb, _, _, hcS, _⟩ := hv.block hs
    have hcap : capacity S h v = b.capacity := capacity_heap hs hb
    obtain ⟨r, htmp, E1, W1, n1, c1, x1, d1⟩ := ctor_capacity_spec (S := S) h (capacity S h v)
      (fun _ => hv.fits hs)
    have hcase : ¬ capacity S h v ≤ S := by omega
    simp only [hcase, if_false] at c1 d1
    obtain ⟨h1, tmp⟩ := r
    simp only at E1 W1 n1 c1 x1 d1
    have hview1 := fresh_view hv E1
    have hv1 : WF S h1 v := wf_congr hview1 hv
    have hle := hv.size_le_capacity
    have key := copy_loop_spec
      (fun (s : Locals T) => decide (s.i < s.this.size - 1))
      (fun (s : Locals T) =>
        (index_const s.h s.this s.i).bind fun x =>
        (push_back_copy (d + 3) S s.h s.tmp x).bind fun r =>
        some { s with i := s.i + 1, h := r.1, tmp := r.2 })
      0 (v._size - 1) 0 hv1 W1 n1 (fresh_sep hv E1) x1 (by rw [c1]; omega) (by omega)
      (fun s hs' => by simp [hs', size])
      (fun s x hs' hvw hroom hsh hx' => by
        have : (cdata s.h s.this)[s.i]? = some (some x) := by
          rw [hs', cdata_congr hvw]; exact hx'
        simp only [index_const_eq this, Option.some_bind,
          (push_inplace_eq (d + 2) x hroom hsh).2]
        cases push_back 1 S s.h s.tmp x <;> rfl)
      v.size (by simp only [size]; omega)
    obtain ⟨s', e, i1, a, w, n, _, cpy⟩ := key
    have n' : s'.tmp._size = v._size - 1 := by omega
    have cpy' : ∀ j, j < v._size - 1 → (cdata s'.h s'.tmp)[j]? = (cdata h v)[j]? := by
      intro j hj
      have := cpy j (by omega)
      simpa [cdata_congr hview1] using this
    have E2 : Eff h (ctor S) s'.h s'.tmp := E1.then_inplace a W1.zero
    have hview2 : v._small = true ∨ lookup s'.h v._buffer = lookup h v._buffer :=
      fresh_view hv E2
    have hv2 : WF S s'.h v := wf_congr hview2 hv
    obtain ⟨r1, r2, r3, r4, r5, r6⟩ := replace_spec hv E2 w
      (Eff.unchanged (fun hs => hv2.buffer_lt hs)) hv2 rfl
    refine ⟨_, _, ?_, r1, r2, by rw [r3.1, n]; omega, ?_, ?_, r6,
      fun hc => absurd hc (by decide), fun _ => ?_⟩
    · rw [pop_back]
      simp only [hx, if_true, htmp]
      rw [e]
      simp only [Option.some_bind, i1]
    · rw [r4]
      apply List.ext_getElem?
      intro i
      simp only [elems, size, n', List.getElem?_take]
      by_cases hi : i < v._size - 1
      · have : i < v._size := by omega
        simp only [hi, this, if_true, cpy' i hi]
      · simp [hi]
    · rw [r5, a.capacity_eq W1.zero, c1]
    · have : s'.tmp._small = false := by
        rw [a.small]
        have := ctor_capacity_flag htmp
        simpa [hcase] using this
      exact r3.2.1.trans this

/-- `expand(new_capacity)` with `size() ≤ new_capacity`: the elements move to
fresh storage of the requested capacity (inline when it fits), which is not
shared; the former block is released. -/
theorem expand_spec (d : Nat) (n : Nat) (hv : WF S h v) (hn : v._size ≤ n)
    (hf : S < n → Fits T n) :
    ∃ h' v', expand (d + 6) S h v n = some (h', v') ∧ Eff h v h' v' ∧ WF S h' v' ∧
      elems h' v' = elems h v ∧ v'._size = v._size ∧
      capacity S h' v' = (if n ≤ S then S else n) ∧ shared h' v' = false ∧
      v'._small = decide (n ≤ S) := by
  obtain ⟨r, htmp, E1, W1, n1, c1, x1, d1⟩ := ctor_capacity_spec (S := S) h n hf
  have hsm := ctor_capacity_flag htmp
  obtain ⟨h1, tmp⟩ := r
  simp only at E1 W1 n1 c1 x1 d1 hsm
  have hview1 := fresh_view hv E1
  have hv1 : WF S h1 v := wf_congr hview1 hv
  have hcapn : v._size ≤ capacity S h1 tmp := by
    rw [c1]; split <;> omega
  have key := copy_loop_spec
    (fun (s : Locals T) => decide (s.i < s.this.size))
    (fun (s : Locals T) =>
      if shared s.h s.this then
        (index_const s.h s.this s.i).bind fun x =>
        (push_back_copy (d + 5) S s.h s.tmp x).bind fun r =>
        some { s with i := s.i + 1, h := r.1, tmp := r.2 }
      else
        (index_mut (d + 5) S s.h s.this s.i).bind fun r =>
        (index_const r.1 r.2 s.i).bind fun x =>
        (push_back (d + 5) S r.1 s.tmp x).bind fun r2 =>
        some { s with i := s.i + 1, h := r2.1, this := r.2, tmp := r2.2 })
    0 v._size 0 hv1 W1 n1 (fresh_sep hv E1) x1 (by omega) (Nat.le_refl _)
    (fun s hs' => by simp [hs', size])
    (fun s x hs' hvw hroom hsh hx' => by
      have hidx : (cdata s.h s.this)[s.i]? = some (some x) := by
        rw [hs', cdata_congr hvw]; exact hx'
      cases hsv : shared s.h s.this with
      | true =>
        simp only [hsv, if_true, index_const_eq hidx, Option.some_bind,
          (push_inplace_eq (d + 4) x hroom hsh).2]
        cases push_back 1 S s.h s.tmp x <;> rfl
      | false =>
        simp only [hsv, Bool.false_eq_true, if_false, index_mut_excl (d + 3) s.i hsv,
          Option.some_bind, index_const_eq hidx, (push_inplace_eq (d + 4) x hroom hsh).1]
        cases push_back 1 S s.h s.tmp x <;> rfl)
    v.size (by simp only [size]; omega)
  obtain ⟨s', e, i1, a, w, nsz, _, cpy⟩ := key
  have n' : s'.tmp._size = v._size := by omega
  have cpy' : ∀ j, j < v._size → (cdata s'.h s'.tmp)[j]? = (cdata h v)[j]? := by
    intro j hj
    have := cpy j (by omega)
    simpa [cdata_congr hview1] using this
  have E2 : Eff h (ctor S) s'.h s'.tmp := E1.then_inplace a W1.zero
  obtain ⟨h', v', e2, r1, r2, r3, r4, r5, r6⟩ := clear_replace_spec d hv E2 w
  refine ⟨h', v', ?_, r1, r2, ?_, by rw [r3.1, n'], ?_, r6, ?_⟩
  · rw [expand]
    simp only [htmp]
    rw [e]
    simp only [Option.some_bind, i1]
    exact e2
  · rw [r4]
    apply List.ext_getElem?
    intro i
    simp only [elems, size, n', List.getElem?_take]
    by_cases hi : i < v._size
    · simp only [hi, if_true, cpy' i hi]
    · simp [hi]
  · rw [r5, a.capacity_eq W1.zero, c1]
  · rw [r3.2.1, a.small, hsm]

end Rebuild

/-! ## Mutable access, reserve, shrink_to_fit -/

section Accessors

variable {S : Nat} {h : Heap T} {v : socow_vector T}

/-- `unshare()`: afterwards the container is not shared and holds the same
elements with the same capacity; nothing changes when it was not shared. -/
theorem unshare_spec (d : Nat) (hv : WF S h v) :
    ∃ h' v', unshare (d + 7) S h v = some (h', v') ∧ Eff h v h' v' ∧ WF S h' v' ∧
      elems h' v' = elems h v ∧ v'._size = v._size ∧
      capacity S h' v' = capacity S h v ∧ shared h' v' = false ∧
      (shared h v = false → h' = h ∧ v' = v) := by
  cases hx : shared h v with
  | false =>
    exact ⟨h, v, unshare_excl (d + 6) hx, Eff.unchanged (fun hs => hv.buffer_lt hs), hv, rfl, rfl,
      rfl, hx, fun _ => ⟨rfl, rfl⟩⟩
  | true =>
    have hs : v._small = false := by
      cases hs : v._small with
      | true => rw [shared_small hs] at hx; cases hx
      | false => rfl
    obtain ⟨b, hb, _, _, hcS, _⟩ := hv.block hs
    have hcap : capacity S h v = b.capacity := capacity_heap hs hb
    obtain ⟨h', v', e, r1, r2, r3, r4, r5, r6, _⟩ :=
      expand_spec d (capacity S h v) hv hv.size_le_capacity (fun _ => hv.fits hs)
    refine ⟨h', v', ?_, r1, r2, r3, r4, ?_, r6, fun hc => absurd hc (by decide)⟩
    · rw [unshare]; simp only [hx, Bool.not_true, Bool.false_eq_true, if_false]; exact e
    · rw [r5, if_neg (by omega)]

theorem index_mut_eq (d S : Nat) (h : Heap T) (v : socow_vector T) (i : Nat) :
    index_mut (d + 1) S h v i = unshare d S h v := by rw [index_mut]

theorem data_eq (d S : Nat) (h : Heap T) (v : socow_vector T) :
    data (d + 1) S h v = unshare d S h v := by rw [data]

theorem back_eq (d S : Nat) (h : Heap T) (v : socow_vector T) :
    back (d + 2) S h v = unshare d S h v := by rw [back, data]

theorem front_eq (d S : Nat) (h : Heap T) (v : socow_vector T) :
    front (d + 1) S h v = unshare d S h v := by rw [front, data]

theorem begin_eq (d S : Nat) (h : Heap T) (v : socow_vector T) :
    socow_vector.begin (d + 1) S h v = unshare d S h v := by rw [socow_vector.begin, data]

/-- Writing the slot array of an exclusively owned container, size unchanged. -/
theorem write_same_size (hv : WF S h v) (hx : shared h v = false)
    (d : List (Option T)) (hd : d.length = (cdata h v).length)
    (hi : ∀ i, i < v._size → ∃ x, d[i]? = some (some x)) :
    InPlace h v (set_cdata h v d).1 (set_cdata h v d).2 ∧
    WF S (set_cdata h v d).1 (set_cdata h v d).2 ∧
    cdata (set_cdata h v d).1 (set_cdata h v d).2 = d ∧
    (set_cdata h v d).2._size = v._size := by
  obtain ⟨a, w, c⟩ := write_spec hv.zero hx d hd v._size hv.size_le_capacity hi
  have e : ({ (set_cdata h v d).2 with _size := v._size } : socow_vector T)
      = (set_cdata h v d).2 := by
    have := set_cdata_size (h := h) (v := v) d
    cases hr : (set_cdata h v d).2
    simp only [hr] at this
    simp [this]
  rw [e] at a w
  exact ⟨a, w, c, set_cdata_size d⟩

/-- The assignment `v[i] = x` with `i < size()`: element `i` is replaced; a
shared block is left alone and the container gets a private copy. -/
theorem assign_elem_spec (d : Nat) (i : Nat) (x : T) (hv : WF S h v) (hi : i < v._size) :
    ∃ h' v', assign_elem (d + 8) S h v i x = some (h', v') ∧ Eff h v h' v' ∧ WF S h' v' ∧
      elems h' v' = (elems h v).set i (some x) ∧ v'._size = v._size ∧
      capacity S h' v' = capacity S h v ∧ shared h' v' = false := by
  obtain ⟨h1, v1, e, r1, r2, r3, r4, r5, r6, _⟩ := unshare_spec d hv
  have hlen := r2.cdata_length
  have hle := r2.size_le_capacity
  obtain ⟨a, w, c, n⟩ := write_same_size r2 r6 ((cdata h1 v1).set i (some x)) (by simp) (by
    intro k hk
    rw [List.getElem?_set]
    by_cases he : i = k
    · subst he; exact ⟨x, by simp; omega⟩
    · simp only [he, if_false]; exact r2.init hk)
  refine ⟨_, _, ?_, r1.then_inplace a r2.zero, w, ?_, n.trans r4,
    (a.capacity_eq r2.zero).trans r5, (a.shared_eq r2.zero).trans r6⟩
  · rw [assign_elem, index_mut_eq, e]
    simp [size, r4, hi]
  · rw [← r3]
    apply List.ext_getElem?
    intro k
    simp only [elems, size, n, c, List.getElem?_take, List.getElem?_set, List.length_take]
    by_cases hk : k < v1._size
    · by_cases he : i = k
      · subst he; simp [hk]
      · simp [hk, he]
    · have : ¬ i = k := by omega
      simp [hk, this]

/-- `push_back(const T&)`: as `push_back(T&&)`. -/
theorem push_back_copy_spec (d : Nat) (x : T) (hv : WF S h v)
    (hf : v._size = capacity S h v → Fits T (2 * capacity S h v + 1)) :
    ∃ h' v', push_back_copy (d + 7) S h v x = some (h', v') ∧ Eff h v h' v' ∧ WF S h' v' ∧
      elems h' v' = elems h v ++ [some x] ∧ v'._size = v._size + 1 ∧
      capacity S h' v' =
        (if v._size = capacity S h v then 2 * capacity S h v + 1 else capacity S h v) ∧
      shared h' v' = false ∧
      (v._size < capacity S h v → shared h v = false → InPlace h v h' v') := by
  obtain ⟨h', v', e, r⟩ := push_back_spec d x hv hf
  refine ⟨h', v', ?_, r⟩
  by_cases hc : v._size < capacity S h v ∧ shared h v = false
  · rw [(push_inplace_eq (d + 6) x hc.1 hc.2).2, ← (push_inplace_eq (d + 5) x hc.1 hc.2).1]
    exact e
  · rw [push_back_copy]
    have : ¬ ((decide (v.size < capacity S h v) && !shared h v) = true) := by
      simp only [size, Bool.and_eq_true, decide_eq_true_eq, Bool.not_eq_true', not_and,
        Bool.not_eq_false]
      intro hlt
      by_contra hcon
      exact hc ⟨hlt, by simpa using hcon⟩
    rw [if_neg this]
    exact e

/-- `reserve(n)`: the elements are kept and the capacity afterwards is at
least `n`; when `n > size()` the result is not shared. -/
theorem reserve_spec (d : Nat) (n : Nat) (hv : WF S h v)
    (hf : capacity S h v < n → Fits T n) :
    ∃ h' v', reserve (d + 6) S h v n = some (h', v') ∧ Eff h v h' v' ∧ WF S h' v' ∧
      elems h' v' = elems h v ∧ v'._size = v._size ∧ n ≤ capacity S h' v' ∧
      (v._size < n → shared h' v' = false) ∧
      capacity S h' v' =
        (if capacity S h v < n ∨ (v._size < n ∧ shared h v = true)
         then (if n ≤ S then S else n) else capacity S h v) := by
  have hle := hv.size_le_capacity
  by_cases hc : capacity S h v < n ∨ (v._size < n ∧ shared h v = true)
  · have hn : v._size ≤ n := by rcases hc with hc | hc <;> omega
    obtain ⟨h', v', e, r1, r2, r3, r4, r5, r6, _⟩ := expand_spec d n hv hn
      (fun hS => (Nat.lt_or_ge (capacity S h v) n).elim hf (fun hge => hv.fits_le hge hS))
    refine ⟨h', v', ?_, r1, r2, r3, r4, ?_, fun _ => r6, by rw [r5, if_pos hc]⟩
    · rw [reserve]
      have : (decide (capacity S h v < n) || decide (v.size < n) && shared h v) = true := by
        simpa [size] using hc
      rw [if_pos this]; exact e
    · rw [r5]; split <;> omega
  · refine ⟨h, v, ?_, Eff.unchanged (fun hs => hv.buffer_lt hs), hv, rfl, rfl, ?_, ?_,
      by rw [if_neg hc]⟩
    · rw [reserve]
      have : ¬ (decide (capacity S h v < n) || decide (v.size < n) && shared h v) = true := by
        simpa [size] using hc
      rw [if_neg this]
    · omega
    · intro hlt
      by_contra hcon
      exact hc (Or.inr ⟨hlt, by simpa using hcon⟩)

/-- `shrink_to_fit()`: nothing changes when the container is inline or full;
otherwise the elements move to fresh storage for `size()` elements, inline
when `size() ≤ SMALL_SIZE`. -/
theorem shrink_to_fit_spec (d : Nat) (hv : WF S h v) :
    ∃ h' v', shrink_to_fit (d + 6) S h v = some (h', v') ∧ Eff h v h' v' ∧ WF S h' v' ∧
      elems h' v' = elems h v ∧ v'._size = v._size ∧
      (v._small = true ∨ v._size = capacity S h v → h' = h ∧ v' = v) ∧
      (v._small = false → v._size ≠ capacity S h v →
        capacity S h' v' = (if v._size ≤ S then S else v._size) ∧ shared h' v' = false ∧
        v'._small = decide (v._size ≤ S)) := by
  by_cases hc : v._small = true ∨ v._size = capacity S h v
  · refine ⟨h, v, ?_, Eff.unchanged (fun hs => hv.buffer_lt hs), hv, rfl, rfl,
      fun _ => ⟨rfl, rfl⟩, ?_⟩
    · rw [shrink_to_fit]
      have : (v.is_small || decide (v.size = capacity S h v)) = true := by
        simpa [size, is_small] using hc
      rw [if_pos this]
    · intro h1 h2
      rcases hc with hc | hc
      · rw [h1] at hc; cases hc
      · exact absurd hc h2
  · obtain ⟨h', v', e, r1, r2, r3, r4, r5, r6, r7⟩ := expand_spec d v._size hv (Nat.le_refl _)
      (fun hS => hv.fits_le hv.size_le_capacity hS)
    refine ⟨h', v', ?_, r1, r2, r3, r4, fun h1 => absurd h1 hc, fun _ _ => ⟨r5, r6, r7⟩⟩
    rw [shrink_to_fit]
    have : ¬ (v.is_small || decide (v.size = capacity S h v)) = true := by
      simpa [size, is_small] using hc
    rw [if_neg this]; exact e

end Accessors

/-! ## insert -/

section Insert

variable {S : Nat} {h : Heap T} {v : socow_vector T}

theorem getElem?_insert_form (E : List (Option T)) (pos : Nat) (y : Option T)
    (hp : pos ≤ E.length) (k : Nat) :
    (E.take pos ++ [y] ++ E.drop pos)[k]? =
      if k < pos then E[k]? else if k = pos then some y else E[k - 1]? := by
  have hl : (E.take pos).length = pos := by simp; omega
  rw [List.append_assoc, List.getElem?_append, hl]
  by_cases h1 : k < pos
  · simp [h1, List.getElem?_take]
  · rw [if_neg h1, if_neg h1]
    by_cases h2 : k = pos
    · subst h2; simp
    · rw [if_neg h2]
      have : k - pos = (k - pos - 1) + 1 := by omega
      rw [this, List.singleton_append, List.getElem?_cons_succ, List.getElem?_drop]
      congr 1
      omega

/-- The rotation loop of the in-place path of `insert`. -/
theorem insert_loop_spec (d : Nat) {h1 : Heap T} {v1 : socow_vector T} (pos n : Nat)
    (hw : WF S h1 v1) (hx : shared h1 v1 = false) (hn : v1._size = n + 1) (hp : pos ≤ n) :
    ∃ s', loop (fun (s : Cursor T) => decide (s.i < s.this.size))
        (fun s =>
          (swap_elems (d + 2) S s.h s.this pos s.i).bind fun r2 =>
          some { i := s.i + 1, h := r2.1, this := r2.2 })
        v1.size ⟨pos + 1, h1, v1⟩ = some s' ∧
      InPlace h1 v1 s'.h s'.this ∧ WF S s'.h s'.this ∧ s'.this._size = n + 1 ∧
      (∀ k, k < n + 1 → (cdata s'.h s'.this)[k]? =
        if k < pos then (cdata h1 v1)[k]? else if k = pos then (cdata h1 v1)[n]?
        else (cdata h1 v1)[k - 1]?) := by
  have key := loop_spec (fun (s : Cursor T) => decide (s.i < s.this.size))
    (fun s =>
      (swap_elems (d + 2) S s.h s.this pos s.i).bind fun r2 =>
      some { i := s.i + 1, h := r2.1, this := r2.2 })
    (fun s => InPlace h1 v1 s.h s.this ∧ WF S s.h s.this ∧ s.this._size = n + 1 ∧
      pos + 1 ≤ s.i ∧ s.i ≤ n + 1 ∧
      (∀ k, k < n + 1 → (cdata s.h s.this)[k]? =
        if k = pos then (cdata h1 v1)[s.i - 1]?
        else if pos < k ∧ k < s.i then (cdata h1 v1)[k - 1]? else (cdata h1 v1)[k]?))
    (fun s => n + 1 - s.i)
    (by
      rintro s ⟨a, w, sz, l1, l2, ct⟩ hc
      have hlt : s.i < n + 1 := by simpa [size, sz] using hc
      have hxs : shared s.h s.this = false := (a.shared_eq hw.zero).trans hx
      obtain ⟨h', v', e, a2, w2, n2, c2⟩ :=
        swap_elems_excl d pos s.i w (by omega) (by omega) hxs
      have hlen := w.cdata_length
      have hle := w.size_le_capacity
      refine ⟨⟨s.i + 1, h', v'⟩, by simp only [e]; rfl, ⟨a.trans a2, w2, n2.trans sz, by simp only; omega,
        by simp only; omega, ?_⟩, by simp only; omega⟩
      intro k hk
      simp only [c2]
      rw [getElem?_swap_slots _ _ _ _ (by omega) (by omega)]
      by_cases k1 : k = s.i
      · subst k1
        rw [if_pos rfl, ct pos (by omega), if_pos rfl, if_neg (by omega),
          if_pos ⟨by omega, by omega⟩]
      · rw [if_neg k1]
        by_cases k2 : k = pos
        · subst k2
          rw [if_pos rfl, if_pos rfl, ct s.i hlt, if_neg (by omega), if_neg (by omega)]
          simp
        · rw [if_neg k2, if_neg k2, ct k hk, if_neg k2]
          by_cases k3 : pos < k ∧ k < s.i
          · rw [if_pos k3, if_pos ⟨k3.1, by omega⟩]
          · rw [if_neg k3, if_neg (by omega)])
    v1.size ⟨pos + 1, h1, v1⟩
    ⟨InPlace.refl _ _, hw, hn, Nat.le_refl _, by simp only; omega, by
      intro k hk
      by_cases k2 : k = pos
      · subst k2; simp
      · rw [if_neg k2, if_neg (by simp only; omega)]⟩
    (by simp only [size, hn]; omega)
  obtain ⟨s', e, ⟨a, w, sz, l1, l2, ct⟩, hc⟩ := key
  have hge : ¬ s'.i < n + 1 := by simpa [size, sz] using hc
  have hi : s'.i = n + 1 := by omega
  refine ⟨s', e, a, w, sz, ?_⟩
  intro k hk
  rw [ct k hk, hi]
  by_cases k2 : k = pos
  · subst k2; simp
  · rw [if_neg k2]
    by_cases k1 : k < pos
    · rw [if_pos k1, if_neg (by omega)]
    · rw [if_neg k1, if_neg k2, if_pos ⟨by omega, by omega⟩]

/-- `insert(pos, value)` with `pos ≤ size()`: the value is placed at index
`pos` and the elements from `pos` on move up by one; the capacity grows to
`2 * capacity + 1` exactly when the container was full; the result is not
shared, and the iterator returned points to index `pos`. -/
theorem insert_spec (d : Nat) (pos : Nat) (x : T) (hv : WF S h v) (hp : pos ≤ v._size)
    (hf : v._size = capacity S h v → Fits T (2 * capacity S h v + 1)) :
    ∃ h' v', insert (d + 6) S h v pos x = some (h', v', pos) ∧ Eff h v h' v' ∧ WF S h' v' ∧
      elems h' v' = (elems h v).take pos ++ [some x] ++ (elems h v).drop pos ∧
      v'._size = v._size + 1 ∧
      capacity S h' v' =
        (if v._size = capacity S h v then 2 * capacity S h v + 1 else capacity S h v) ∧
      shared h' v' = false ∧
      (v._size ≠ capacity S h v → shared h v = false → InPlace h v h' v') := by
  have hlen := hv.cdata_length
  have hle := hv.size_le_capacity
  have hel := elems_length hv
  by_cases hc : v._size ≠ capacity S h v ∧ shared h v = false
  · -- room and exclusive: push_back, then rotate
    have hcond : (decide (v.size ≠ capacity S h v) && !shared h v) = true := by
      simp only [size, Bool.and_eq_true, decide_eq_true_eq, Bool.not_eq_true']
      exact hc
    obtain ⟨h1, v1, e1, _, w1, el1, n1, c1, x1, ip⟩ := push_back_spec d x hv hf
    have a1 := ip (by omega) hc.2
    obtain ⟨s', e2, a2, w2, n2, ct⟩ := insert_loop_spec (d + 4) pos v._size w1 x1 n1 hp
    have a := a1.trans a2
    refine ⟨s'.h, s'.this, ?_, a.eff (fun hs => hv.buffer_lt hs), w2, ?_, n2, ?_,
      (a.shared_eq hv.zero).trans hc.2, fun _ _ => a⟩
    · rw [socow_vector.insert, if_pos hcond, e1]
      simp only [Option.some_bind]
      rw [e2]
      rfl
    · apply List.ext_getElem?
      intro k
      rw [getElem?_insert_form _ _ _ (by omega), getElem?_elems, n2]
      have hA : ∀ j, j < v._size + 1 → (cdata h1 v1)[j]? = (elems h v ++ [some x])[j]? := by
        intro j hj
        rw [← el1, getElem?_elems, n1, if_pos hj]
      by_cases hk : k < v._size + 1
      · rw [if_pos hk, ct k hk]
        by_cases k1 : k < pos
        · rw [if_pos k1, if_pos k1, hA k hk, List.getElem?_append, hel, if_pos (by omega)]
        · rw [if_neg k1, if_neg k1]
          by_cases k2 : k = pos
          · rw [if_pos k2, if_pos k2, hA _ (by omega), List.getElem?_append, hel,
              if_neg (by omega)]
            simp
          · rw [if_neg k2, if_neg k2, hA _ (by omega), List.getElem?_append, hel,
              if_pos (by omega)]
      · rw [if_neg hk, if_neg (by omega), if_neg (by omega)]
        exact (List.getElem?_eq_none (by omega)).symm
    · rw [a.capacity_eq hv.zero, if_neg hc.1]
  · -- a new block is needed
    have hcond : ¬ (decide (v.size ≠ capacity S h v) && !shared h v) = true := by
      simp only [size, Bool.and_eq_true, decide_eq_true_eq, Bool.not_eq_true']
      exact hc
    obtain ⟨r, htmp, E1, W1, n1, c1, x1, d1⟩ := ctor_capacity_spec (S := S) h
      (if v._size = capacity S h v then 2 * capacity S h v + 1 else capacity S h v)
      (hv.fits_request hf)
    generalize hncap :
      (if v._size = capacity S h v then 2 * capacity S h v + 1 else capacity S h v) = ncap
      at htmp E1 W1 n1 c1 x1 d1
    have hSle := hv.le_capacity
    have hncap_gt : S < ncap := by
      rw [← hncap]
      split
      · omega
      · rename_i hne
        have hsh : shared h v = true := by
          by_contra hcon
          exact hc ⟨hne, by simpa using hcon⟩
        cases hs : v._small with
        | true => rw [shared_small hs] at hsh; cases hsh
        | false =>
          obtain ⟨b, hb, _, _, h3, _⟩ := hv.block hs
          rw [capacity_heap hs hb]; exact h3
    have hncap_ge : v._size + 1 ≤ ncap := by
      rw [← hncap]; split <;> omega
    have hcase : ¬ ncap ≤ S := by omega
    simp only [hcase, if_false] at c1 d1
    obtain ⟨h1, tmp⟩ := r
    simp only at E1 W1 n1 c1 x1 d1
    have hview1 := fresh_view hv E1
    have hlive : tmp._small = false → ∃ b, lookup h1 tmp._buffer = some b := W1.live
    have htz : ({ tmp with _size := 0 } : socow_vector T) = tmp := by
      cases tmp; simp only at n1; subst n1; rfl
    have hcd : cdata h1 v = cdata h v := cdata_congr hview1
    have hother : ∀ dd : List (Option T), cdata (set_cdata h1 tmp dd).1 v = cdata h v := by
      intro dd
      rw [← hcd]
      apply cdata_congr
      cases hs : v._small with
      | true => exact Or.inl rfl
      | false =>
        right
        cases hst : tmp._small with
        | true => rw [set_cdata_small dd hst]
        | false =>
          obtain ⟨b, hb⟩ := hlive hst
          rw [set_cdata_heap dd hst hb, lookup_store]
          have h1' : h.length ≤ tmp._buffer := by
            rcases E1.origin hst with ⟨hc', _⟩ | hge
            · simp [ctor] at hc'
            · exact hge
          have h2' := hv.buffer_lt hs
          have : ¬ v._buffer = tmp._buffer := by omega
          simp [this]
    generalize hdat : ((copy_n (cdata h v) pos (v._size - pos)
      (copy_n (cdata h v) 0 pos (cdata h1 tmp) 0) (pos + 1)).set pos (some x)) = dat
    have hdl : dat.length = ncap := by rw [← hdat]; simp [d1]
    have hd : ∀ k, k < v._size + 1 → dat[k]? =
        if k < pos then (cdata h v)[k]? else if k = pos then some (some x)
        else (cdata h v)[k - 1]? := by
      intro k hk
      rw [← hdat, List.getElem?_set, getElem?_copy_n, getElem?_copy_n]
      simp only [length_copy_n, d1, List.length_replicate]
      by_cases k2 : pos = k
      · subst k2
        simp; omega
      · rw [if_neg k2]
        by_cases k1 : k < pos
        · rw [if_neg (by omega), if_pos (by omega), if_pos k1, getElem?_eq_some_getD (by omega)]
          simp
        · rw [if_pos (by omega), if_neg k1, if_neg (fun e => k2 e.symm),
            getElem?_eq_some_getD (by omega)]
          congr 2
          omega
    have hins : insert (d + 6) S h v pos x =
        some (dtor (set_cdata h1 tmp dat).1
            (socow_vector.swap v { (set_cdata h1 tmp dat).2 with _size := v._size + 1 }).2,
          (socow_vector.swap v { (set_cdata h1 tmp dat).2 with _size := v._size + 1 }).1,
          pos) := by
      rw [socow_vector.insert, if_neg hcond]
      simp only [size, hncap, htmp, ite_self, construct_at, hcd]
      rw [set_cdata_twice hlive, cdata_of_set_cdata_size hlive, hother,
        set_cdata_twice hlive, cdata_of_set_cdata_size hlive, hdat]
    obtain ⟨a, w, c⟩ := write_spec (htz.symm ▸ W1) x1 dat (by rw [hdl, d1]; simp) (v._size + 1)
      (by rw [c1]; exact hncap_ge) (by
        intro k hk
        rw [hd k hk]
        by_cases k1 : k < pos
        · rw [if_pos k1]; exact hv.init (by omega)
        · rw [if_neg k1]
          by_cases k2 : k = pos
          · rw [if_pos k2]; exact ⟨x, rfl⟩
          · rw [if_neg k2]; exact hv.init (by omega))
    have E2 : Eff h (ctor S) (set_cdata h1 tmp dat).1
        { (set_cdata h1 tmp dat).2 with _size := v._size + 1 } :=
      E1.then_inplace a (htz.symm ▸ W1)
    have hv2 : WF S (set_cdata h1 tmp dat).1 v := wf_congr (fresh_view hv E2) hv
    obtain ⟨r1, r2, r3, r4, r5, r6⟩ := replace_spec hv E2 w
      (Eff.unchanged (fun hs => hv2.buffer_lt hs)) hv2 rfl
    refine ⟨_, _, hins, r1, r2, ?_, r3.1, ?_, r6,
      fun hne hs => absurd ⟨hne, hs⟩ hc⟩
    · rw [r4]
      apply List.ext_getElem?
      intro k
      rw [getElem?_insert_form _ _ _ (by omega), getElem?_elems, cdata_set_size, c]
      simp only []
      by_cases hk : k < v._size + 1
      · rw [if_pos hk, hd k hk]
        by_cases k1 : k < pos
        · rw [if_pos k1, if_pos k1, getElem?_elems, if_pos (by omega)]
        · rw [if_neg k1, if_neg k1]
          by_cases k2 : k = pos
          · rw [if_pos k2, if_pos k2]
          · rw [if_neg k2, if_neg k2, getElem?_elems, if_pos (by omega)]
      · rw [if_neg hk, if_neg (by omega), if_neg (by omega)]
        exact (List.getElem?_eq_none (by omega)).symm
    · rw [r5, a.capacity_eq (htz.symm ▸ W1), c1]

end Insert

/-! ## erase -/

section Erase

variable {S : Nat} {h : Heap T} {v : socow_vector T}

theorem getElem?_erase_form (E : List (Option T)) (first last : Nat) (hf : first ≤ last)
    (hl : last ≤ E.length) (k : Nat) :
    (E.take first ++ E.drop last)[k]? =
      if k < first then E[k]? else E[k + (last - first)]? := by
  have hlen : (E.take first).length = first := by simp; omega
  rw [List.getElem?_append, hlen]
  by_cases h1 : k < first
  · simp [h1, List.getElem?_take]
  · rw [if_neg h1, if_neg h1, List.getElem?_drop]
    congr 1
    omega

/-- The first loop of the exclusive path of `erase`: the survivors behind the
range are swapped down over it. -/
theorem erase_shift_spec (d : Nat) (first tail : Nat) (hw : WF S h v)
    (hx : shared h v = false) (hb : first + tail ≤ v._size) :
    ∃ s', loop (fun (s : Cursor T) => decide (s.i + tail ≠ s.this.size))
        (fun s =>
          (swap_elems (d + 2) S s.h s.this s.i (s.i + tail)).bind fun r =>
          some { i := s.i + 1, h := r.1, this := r.2 })
        v.size ⟨first, h, v⟩ = some s' ∧
      InPlace h v s'.h s'.this ∧ WF S s'.h s'.this ∧ s'.this._size = v._size ∧
      (∀ k, k < v._size - tail → (cdata s'.h s'.this)[k]? =
        if k < first then (cdata h v)[k]? else (cdata h v)[k + tail]?) := by
  have key := loop_spec (fun (s : Cursor T) => decide (s.i + tail ≠ s.this.size))
    (fun s =>
      (swap_elems (d + 2) S s.h s.this s.i (s.i + tail)).bind fun r =>
      some { i := s.i + 1, h := r.1, this := r.2 })
    (fun s => InPlace h v s.h s.this ∧ WF S s.h s.this ∧ s.this._size = v._size ∧
      first ≤ s.i ∧ s.i + tail ≤ v._size ∧
      (∀ k, k < first → (cdata s.h s.this)[k]? = (cdata h v)[k]?) ∧
      (∀ k, first ≤ k → k < s.i → (cdata s.h s.this)[k]? = (cdata h v)[k + tail]?) ∧
      (∀ k, s.i + tail ≤ k → (cdata s.h s.this)[k]? = (cdata h v)[k]?))
    (fun s => v._size - (s.i + tail))
    (by
      rintro s ⟨a, w, sz, l1, l2, c1, c2, c3⟩ hc
      have hne : s.i + tail ≠ v._size := by simpa [size, sz] using hc
      have hxs : shared s.h s.this = false := (a.shared_eq hw.zero).trans hx
      obtain ⟨h', v', e, a2, w2, n2, cc⟩ :=
        swap_elems_excl d s.i (s.i + tail) w (by omega) (by omega) hxs
      have hlen := w.cdata_length
      have hle := w.size_le_capacity
      refine ⟨⟨s.i + 1, h', v'⟩, by simp only [e]; rfl, ⟨a.trans a2, w2, n2.trans sz,
        by simp only; omega, by simp only; omega, ?_, ?_, ?_⟩, by simp only; omega⟩
      · intro k hk
        simp only [cc]
        rw [getElem?_swap_slots _ _ _ _ (by omega) (by omega), if_neg (by omega),
          if_neg (by omega)]
        exact c1 k hk
      · intro k hk1 hk2
        simp only at hk2
        simp only [cc]
        rw [getElem?_swap_slots _ _ _ _ (by omega) (by omega)]
        by_cases k1 : k = s.i + tail
        · rw [if_pos k1]
          have ht : tail = 0 := by omega
          have hk : k = s.i := by omega
          rw [c3 s.i (by omega), hk, ht]
          rfl
        · rw [if_neg k1]
          by_cases k2 : k = s.i
          · rw [if_pos k2, c3 _ (Nat.le_refl _), k2]
          · rw [if_neg k2]
            exact c2 k hk1 (by omega)
      · intro k hk
        simp only at hk
        simp only [cc]
        rw [getElem?_swap_slots _ _ _ _ (by omega) (by omega), if_neg (by omega),
          if_neg (by omega)]
        exact c3 k (by omega))
    v.size ⟨first, h, v⟩
    ⟨InPlace.refl _ _, hw, rfl, Nat.le_refl _, hb, fun _ _ => rfl,
      fun k h1 h2 => by simp only at h2; omega, fun _ _ => rfl⟩
    (by simp only [size]; omega)
  obtain ⟨s', e, ⟨a, w, sz, l1, l2, c1, c2, c3⟩, hc⟩ := key
  have hi : s'.i + tail = v._size := by simpa [size, sz] using hc
  refine ⟨s', e, a, w, sz, ?_⟩
  intro k hk
  by_cases k1 : k < first
  · rw [if_pos k1]; exact c1 k k1
  · rw [if_neg k1]; exact c2 k (by omega) (by omega)

/-- The second loop of the exclusive path of `erase`: `tail` calls of
`pop_back`. -/
theorem erase_pop_spec (d : Nat) (tail : Nat) (hw : WF S h v) (hx : shared h v = false)
    (hb : tail ≤ v._size) :
    ∃ s', loop (fun (s : Cursor T) => decide (s.i ≠ 0))
        (fun s =>
          (pop_back (d + 4) S s.h s.this).bind fun r =>
          some { i := s.i - 1, h := r.1, this := r.2 })
        tail ⟨tail, h, v⟩ = some s' ∧
      InPlace h v s'.h s'.this ∧ WF S s'.h s'.this ∧ s'.this._size = v._size - tail ∧
      (∀ k, k < v._size - tail → (cdata s'.h s'.this)[k]? = (cdata h v)[k]?) := by
  have key := loop_spec (fun (s : Cursor T) => decide (s.i ≠ 0))
    (fun s =>
      (pop_back (d + 4) S s.h s.this).bind fun r =>
      some { i := s.i - 1, h := r.1, this := r.2 })
    (fun s => InPlace h v s.h s.this ∧ WF S s.h s.this ∧
      s.this._size = v._size - tail + s.i ∧ s.i ≤ tail ∧
      (∀ k, k < v._size - tail → (cdata s.h s.this)[k]? = (cdata h v)[k]?))
    (fun s => s.i)
    (by
      rintro s ⟨a, w, sz, l1, c1⟩ hc
      have hne : s.i ≠ 0 := by simpa using hc
      have hxs : shared s.h s.this = false := (a.shared_eq hw.zero).trans hx
      obtain ⟨h', v', e, a2, w2, n2, cc⟩ := pop_back_excl d w (by omega) hxs
      refine ⟨⟨s.i - 1, h', v'⟩, by simp only [e]; rfl, ⟨a.trans a2, w2,
        by simp only [n2, sz]; omega, by simp only; omega, ?_⟩, by simp only; omega⟩
      intro k hk
      simp only [cc]
      rw [List.getElem?_set, if_neg (by omega)]
      exact c1 k hk)
    tail ⟨tail, h, v⟩
    ⟨InPlace.refl _ _, hw, by simp only; omega, Nat.le_refl _, fun _ _ => rfl⟩
    (Nat.le_refl _)
  obtain ⟨s', e, ⟨a, w, sz, l1, c1⟩, hc⟩ := key
  have hi : s'.i = 0 := by simpa using hc
  exact ⟨s', e, a, w, by rw [sz, hi]; rfl, c1⟩

/-- `erase(first, last)` with `first ≤ last ≤ size()`: the elements of the
range are removed and the others keep their order; the size drops by
`last - first`, the capacity is kept, the result is not shared and the
iterator returned points to index `first`. -/
theorem erase_spec (d : Nat) (first last : Nat) (hv : WF S h v) (hf : first ≤ last)
    (hl : last ≤ v._size) :
    ∃ h' v', erase (d + 4) S h v first last = some (h', v', first) ∧ Eff h v h' v' ∧
      WF S h' v' ∧ elems h' v' = (elems h v).take first ++ (elems h v).drop last ∧
      v'._size = v._size - (last - first) ∧ capacity S h' v' = capacity S h v ∧
      shared h' v' = false ∧ (shared h v = false → InPlace h v h' v') := by
  have hel := elems_length hv
  have hle := hv.size_le_capacity
  -- the target, slot by slot
  have htarget : ∀ (h' : Heap T) (v' : socow_vector T),
      v'._size = v._size - (last - first) →
      (∀ k, k < v._size - (last - first) → (cdata h' v')[k]? =
        if k < first then (cdata h v)[k]? else (cdata h v)[k + (last - first)]?) →
      elems h' v' = (elems h v).take first ++ (elems h v).drop last := by
    intro h' v' hsz hct
    apply List.ext_getElem?
    intro k
    rw [getElem?_erase_form _ _ _ hf (by omega), getElem?_elems, hsz]
    by_cases hk : k < v._size - (last - first)
    · rw [if_pos hk, hct k hk]
      by_cases k1 : k < first
      · rw [if_pos k1, if_pos k1, getElem?_elems, if_pos (by omega)]
      · rw [if_neg k1, if_neg k1, getElem?_elems, if_pos (by omega)]
    · rw [if_neg hk]
      by_cases k1 : k < first
      · omega
      · rw [if_neg k1]
        exact (List.getElem?_eq_none (by omega)).symm
  cases hx : shared h v with
  | false =>
    obtain ⟨s1, e1, a1, w1, n1, ct1⟩ := erase_shift_spec (d + 2) first (last - first) hv hx
      (by omega)
    have hx1 : shared s1.h s1.this = false := (a1.shared_eq hv.zero).trans hx
    obtain ⟨s2, e2, a2, w2, n2, ct2⟩ := erase_pop_spec d (last - first) w1 hx1 (by omega)
    have a := a1.trans a2
    have hx2 : shared s2.h s2.this = false := (a.shared_eq hv.zero).trans hx
    refine ⟨s2.h, s2.this, ?_, a.eff (fun hs => hv.buffer_lt hs), w2, ?_, by rw [n2, n1],
      a.capacity_eq hv.zero, hx2, fun _ => a⟩
    · rw [erase]
      simp only [hx, Bool.false_eq_true, if_false]
      rw [e1]
      simp only [Option.some_bind]
      rw [e2]
      simp only [Option.some_bind]
      rw [begin_excl (d + 2) hx2]
      rfl
    · apply htarget _ _ (by rw [n2, n1])
      intro k hk
      rw [ct2 k (by omega), ct1 k hk]
  | true =>
    have hs : v._small = false := by
      cases hs : v._small with
      | true => rw [shared_small hs] at hx; cases hx
      | false => rfl
    obtain ⟨b, hb, _, _, hcS, _⟩ := hv.block hs
    have hcap : capacity S h v = b.capacity := capacity_heap hs hb
    obtain ⟨r, htmp, E1, W1, n1, c1, x1, d1⟩ := ctor_capacity_spec (S := S) h (capacity S h v)
      (fun _ => hv.fits hs)
    have hcase : ¬ capacity S h v ≤ S := by omega
    simp only [hcase, if_false] at c1 d1
    obtain ⟨h1, tmp⟩ := r
    simp only at E1 W1 n1 c1 x1 d1
    have hview1 := fresh_view hv E1
    have hv1 : WF S h1 v := wf_congr hview1 hv
    -- first loop: the elements before the range
    have key1 := copy_loop_spec
      (fun (s : Locals T) => decide (s.i < first))
      (fun (s : Locals T) =>
        (index_const s.h s.this s.i).bind fun x =>
        (push_back_copy (d + 4) S s.h s.tmp x).bind fun r =>
        some { s with i := s.i + 1, h := r.1, tmp := r.2 })
      0 first 0 hv1 W1 n1 (fresh_sep hv E1) x1 (by rw [c1]; omega) (by omega)
      (fun s _ => rfl)
      (fun s x hs' hvw hroom hsh hx' => by
        have : (cdata s.h s.this)[s.i]? = some (some x) := by
          rw [hs', cdata_congr hvw]; exact hx'
        simp only [index_const_eq this, Option.some_bind,
          (push_inplace_eq (d + 3) x hroom hsh).2]
        cases push_back 1 S s.h s.tmp x <;> rfl)
      first (by omega)
    obtain ⟨s1, e1, i1, a1, w1, nsz1, _, cpy1⟩ := key1
    have E2 : Eff h (ctor S) s1.h s1.tmp := E1.then_inplace a1 W1.zero
    have hview2 := fresh_view hv E2
    have hv2 : WF S s1.h v := wf_congr hview2 hv
    have hx2 : shared s1.h s1.tmp = false := (a1.shared_eq W1.zero).trans x1
    have hc2 : capacity S s1.h s1.tmp = capacity S h v := (a1.capacity_eq W1.zero).trans c1
    -- second loop: the elements behind the range
    have key2 := copy_loop_spec
      (fun (s : Locals T) => decide (s.i < s.this.size))
      (fun (s : Locals T) =>
        (index_const s.h s.this s.i).bind fun x =>
        (push_back_copy (d + 4) S s.h s.tmp x).bind fun r =>
        some { s with i := s.i + 1, h := r.1, tmp := r.2 })
      (first + (last - first)) v._size first hv2 w1 (by omega) (fresh_sep hv E2) hx2
      (by rw [hc2]; omega) (Nat.le_refl _)
      (fun s hs' => by simp [hs', size])
      (fun s x hs' hvw hroom hsh hx' => by
        have : (cdata s.h s.this)[s.i]? = some (some x) := by
          rw [hs', cdata_congr hvw]; exact hx'
        simp only [index_const_eq this, Option.some_bind,
          (push_inplace_eq (d + 3) x hroom hsh).2]
        cases push_back 1 S s.h s.tmp x <;> rfl)
      v.size (by simp only [size]; omega)
    obtain ⟨s2, e2, i2, a2, w2, nsz2, keep2, cpy2⟩ := key2
    have E3 : Eff h (ctor S) s2.h s2.tmp := E2.then_inplace a2 w1.zero
    have hview3 := fresh_view hv E3
    have hv3 : WF S s2.h v := wf_congr hview3 hv
    obtain ⟨r1, r2, r3, r4, r5, r6⟩ := replace_spec hv E3 w2
      (Eff.unchanged (fun hs => hv3.buffer_lt hs)) hv3 rfl
    have hsz : s2.tmp._size = v._size - (last - first) := by omega
    refine ⟨_, _, ?_, r1, r2, ?_, by rw [r3.1, hsz], ?_, r6,
      fun hc => absurd hc (by decide)⟩
    · rw [erase]
      simp only [hx, if_true, htmp]
      rw [e1]
      simp only [Option.some_bind]
      have hs1 : ({ s1 with i := first + (last - first) } : Locals T)
          = ⟨first + (last - first), s1.h, v, s1.tmp⟩ := by rw [← i1]
      rw [hs1, e2]
      simp only [Option.some_bind, i2]
      rw [begin_excl (d + 2) r6]
      rfl
    · rw [r4]
      apply htarget _ _ hsz
      intro k hk
      by_cases k1 : k < first
      · rw [if_pos k1, keep2 k k1]
        have := cpy1 k (by omega)
        simpa [cdata_congr hview1] using this
      · rw [if_neg k1]
        have := cpy2 (k - first) (by omega)
        have e3 : first + (k - first) = k := by omega
        have e4 : first + (last - first) + (k - first) = k + (last - first) := by omega
        rw [e3, e4, cdata_congr hview2] at this
        exact this
    · rw [r5, (a2.capacity_eq w1.zero).trans hc2]

end Erase

/-! ## Effects and the other objects -/

section Others

variable {S : Nat} {h h' : Heap T} {v v' u : socow_vector T}

theorem ind_small (hs : v._small = true) (p : Nat) : ind v p = 0 := by
  simp [ind, points_to, hs]

theorem ind_heap (hs : v._small = false) (p : Nat) :
    ind v p = if v._buffer = p then 1 else 0 := by
  simp [ind, points_to, hs]

theorem ind_le_one (v : socow_vector T) (p : Nat) : ind v p ≤ 1 := by
  unfold ind; split <;> omega

/-- A block whose contents, capacity and liveness are kept leaves the objects
that reference it well formed, with the same elements and capacity. -/
theorem block_congr (hu : WF S h u)
    (hb : u._small = false → ∀ b, lookup h u._buffer = some b →
      ∃ b', lookup h' u._buffer = some b' ∧ b'.data = b.data ∧ b'.capacity = b.capacity ∧
        1 ≤ b'.refs) :
    WF S h' u ∧ elems h' u = elems h u ∧ capacity S h' u = capacity S h u ∧
      cdata h' u = cdata h u := by
  cases hs : u._small with
  | true =>
    have hv : u._small = true ∨ lookup h' u._buffer = lookup h u._buffer := Or.inl hs
    exact ⟨wf_congr hv hu, elems_congr hv, capacity_congr hv, cdata_congr hv⟩
  | false =>
    obtain ⟨b, hl, h1, h2, h3, h4⟩ := hu.block hs
    obtain ⟨b', hl', e1, e2, e3⟩ := hb hs b hl
    have hc : cdata h' u = cdata h u := by rw [cdata_heap hs hl', cdata_heap hs hl, e1]
    refine ⟨?_, by simp [elems, hc], by rw [capacity_heap hs hl', capacity_heap hs hl, e2],
      hc⟩
    refine WF.of_heap hu.1 hs hl' (by rw [e1, e2]; exact h1) (by rw [e2]; exact h2)
      (by rw [e2]; exact h3) e3 (by rw [e2]; exact hu.fits_block hs hl) ?_
    intro i hi
    rw [e1, ← cdata_heap hs hl]
    exact hu.init hi

/-- A member function of `v` leaves every other object well formed, with the
same elements and capacity, provided a block that `v` has in common with it
has a reference count of at least two. -/
theorem Eff.other_obj (e : Eff h v h' v') (hu : WF S h u)
    (hsh : u._small = false → v._small = false → u._buffer = v._buffer → 2 ≤ rc h v._buffer) :
    WF S h' u ∧ elems h' u = elems h u ∧ capacity S h' u = capacity S h u ∧
      cdata h' u = cdata h u := by
  apply block_congr hu
  intro hs b hb
  have hlt := lookup_lt hb
  by_cases hq : v._small = true ∨ u._buffer ≠ v._buffer
  · rw [e.other _ hlt hq]
    obtain ⟨b0, hl0, _, _, _, h4⟩ := hu.block hs
    rw [hb] at hl0; cases hl0
    exact ⟨b, hb, rfl, rfl, h4⟩
  · simp only [not_or, Bool.not_eq_true, ne_eq, not_not] at hq
    obtain ⟨hsv, hq⟩ := hq
    have h2 := hsh hs hsv hq
    rw [hq] at hb ⊢
    rw [rc_of_lookup hb] at h2
    rcases e.own hsv b hb with ⟨_, _, b', l1, r1, c1, d1⟩ | ⟨_, l1⟩
    · rw [d1 (by omega)] at l1
      exact ⟨b, l1, rfl, rfl, by omega⟩
    · rw [if_neg (by omega)] at l1
      exact ⟨_, l1, rfl, rfl, by simp only; omega⟩

/-- Reference accounting: the count of every block changes by what `v` stops
or starts to contribute. -/
theorem Eff.rc_eq (e : Eff h v h' v') (hv : WF S h v) (p : Nat) :
    rc h' p + ind v p = rc h p + ind v' p := by
  by_cases hp : p < h.length
  · by_cases hq : v._small = true ∨ p ≠ v._buffer
    · have hi : ind v p = 0 := by
        rcases hq with hq | hq
        · exact ind_small hq p
        · cases hs : v._small with
          | true => exact ind_small hs p
          | false => rw [ind_heap hs, if_neg (fun e' => hq e'.symm)]
      have hi' : ind v' p = 0 := by
        cases hs' : v'._small with
        | true => exact ind_small hs' p
        | false =>
          rw [ind_heap hs']
          rcases e.origin hs' with ⟨hs, hb⟩ | hge
          · rcases hq with hq | hq
            · rw [hs] at hq; cases hq
            · rw [if_neg (by rw [hb]; exact fun e' => hq e'.symm)]
          · rw [if_neg (by omega)]
      simp only [rc, e.other p hp hq, hi, hi']
    · simp only [not_or, Bool.not_eq_true, ne_eq, not_not] at hq
      obtain ⟨hs, hq⟩ := hq
      subst hq
      obtain ⟨b, hb, _, _, _, h4⟩ := hv.block hs
      have hi : ind v v._buffer = 1 := by rw [ind_heap hs, if_pos rfl]
      rcases e.own hs b hb with ⟨hs', hb', b', l1, r1, _⟩ | ⟨hne, l1⟩
      · have hi' : ind v' v._buffer = 1 := by rw [ind_heap hs', if_pos hb']
        rw [rc_of_lookup l1, rc_of_lookup hb, hi, hi', r1]
      · have hi' : ind v' v._buffer = 0 := by
          rcases hne with hne | hne
          · exact ind_small hne _
          · cases hs' : v'._small with
            | true => exact ind_small hs' _
            | false => rw [ind_heap hs', if_neg hne]
        rw [rc_of_lookup hb, hi, hi']
        by_cases hr : b.refs ≤ 1
        · rw [if_pos hr] at l1
          rw [rc_of_none l1]; omega
        · rw [if_neg hr] at l1
          rw [rc_of_lookup l1]; simp only; omega
  · have hge : h.length ≤ p := by omega
    have hi : ind v p = 0 := by
      cases hs : v._small with
      | true => exact ind_small hs p
      | false =>
        have := hv.buffer_lt hs
        rw [ind_heap hs, if_neg (by omega)]
    rw [rc_of_none (lookup_ge hge), hi]
    by_cases hq : v'._small = true ∨ p ≠ v'._buffer
    · have hi' : ind v' p = 0 := by
        rcases hq with hq | hq
        · exact ind_small hq p
        · cases hs' : v'._small with
          | true => exact ind_small hs' p
          | false => rw [ind_heap hs', if_neg (fun e' => hq e'.symm)]
      rw [rc_of_none (e.fresh p hge hq), hi']
    · simp only [not_or, Bool.not_eq_true, ne_eq, not_not] at hq
      obtain ⟨hs', hq⟩ := hq
      subst hq
      rw [e.fresh_own hs' hge, ind_heap hs', if_pos rfl]

/-- Live blocks keep a positive reference count. -/
theorem Eff.refs_pos (e : Eff h v h' v') (hv : WF S h v)
    (hp : ∀ p b, lookup h p = some b → 1 ≤ b.refs) :
    ∀ p b, lookup h' p = some b → 1 ≤ b.refs := by
  intro p b hb
  by_cases hlt : p < h.length
  · by_cases hq : v._small = true ∨ p ≠ v._buffer
    · rw [e.other p hlt hq] at hb
      exact hp p b hb
    · simp only [not_or, Bool.not_eq_true, ne_eq, not_not] at hq
      obtain ⟨hs, hq⟩ := hq
      subst hq
      obtain ⟨b0, hb0, _, _, _, h4⟩ := hv.block hs
      rcases e.own hs b0 hb0 with ⟨_, _, b', l1, r1, _⟩ | ⟨_, l1⟩
      · rw [hb] at l1; cases l1
        omega
      · rw [hb] at l1
        by_cases hr : b0.refs ≤ 1
        · rw [if_pos hr] at l1; cases l1
        · rw [if_neg hr] at l1; cases l1
          simp only; omega
  · have hge : h.length ≤ p := by omega
    by_cases hq : v'._small = true ∨ p ≠ v'._buffer
    · rw [e.fresh p hge hq] at hb; cases hb
    · simp only [not_or, Bool.not_eq_true, ne_eq, not_not] at hq
      obtain ⟨hs', hq⟩ := hq
      subst hq
      have := e.fresh_own hs' hge
      rw [rc_of_lookup hb] at this
      omega

end Others

/-! ## Program states -/

namespace World

section Counting

variable {S : Nat}

theorem getD_set_objs (objs : List (Option (socow_vector T))) (a c : Nat)
    (x : Option (socow_vector T)) (ha : a < objs.length) :
    (objs.set a x).getD c none = if c = a then x else objs.getD c none := by
  simp only [List.getD_eq_getElem?_getD, List.getElem?_set]
  by_cases h : a = c
  · subst h; simp [ha]
  · have : ¬ c = a := fun e => h e.symm
    simp [h, this]

theorem get_lt {w : World T} {a : Nat} {v : socow_vector T} (h : w.get a = some v) :
    a < w.objs.length := by
  by_contra hc
  simp only [get, List.getD_eq_getElem?_getD] at h
  rw [List.getElem?_eq_none (by omega)] at h
  cases h

theorem get_eq_getElem {w : World T} {a : Nat} {v : socow_vector T} (h : w.get a = some v)
    (hl : a < w.objs.length) : w.objs[a] = some v := by
  simp only [get, List.getD_eq_getElem?_getD, List.getElem?_eq_getElem hl] at h
  exact h

/-- The counting predicate of `count`. -/
theorem count_eq (w : World T) (p : Nat) :
    w.count p = w.objs.countP (fun o => match o with
      | some v => points_to v p
      | none => false) := rfl

theorem count_set_some {w : World T} {a : Nat} {v : socow_vector T} (hg : w.get a = some v)
    (h' : Heap T) (v' : socow_vector T) (p : Nat) :
    count ⟨h', w.objs.set a (some v')⟩ p + ind v p = w.count p + ind v' p := by
  have hl := get_lt hg
  have he := get_eq_getElem hg hl
  simp only [count_eq]
  rw [List.countP_set _ _ _ _ hl, he]
  have hb := List.boole_getElem_le_countP (fun o : Option (socow_vector T) => match o with
      | some v => points_to v p
      | none => false) w.objs a hl
  rw [he] at hb
  simp only [ind] at hb ⊢
  omega

theorem count_set_none {w : World T} {a : Nat} {v : socow_vector T} (hg : w.get a = some v)
    (h' : Heap T) (p : Nat) :
    count ⟨h', w.objs.set a none⟩ p + ind v p = w.count p := by
  have hl := get_lt hg
  have he := get_eq_getElem hg hl
  simp only [count_eq]
  rw [List.countP_set _ _ _ _ hl, he]
  have hb := List.boole_getElem_le_countP (fun o : Option (socow_vector T) => match o with
      | some v => points_to v p
      | none => false) w.objs a hl
  rw [he] at hb
  simp only [ind] at hb ⊢
  simp only [Bool.false_eq_true, if_false]
  omega

theorem count_append (h h' : Heap T) (objs : List (Option (socow_vector T)))
    (v : socow_vector T) (p : Nat) :
    count ⟨h', objs ++ [some v]⟩ p = count ⟨h, objs⟩ p + ind v p := by
  simp [count_eq, List.countP_append, List.countP_cons, ind]

theorem count_append_none (h h' : Heap T) (objs : List (Option (socow_vector T))) (p : Nat) :
    count ⟨h', objs ++ [none]⟩ p = count ⟨h, objs⟩ p := by
  simp [count_eq, List.countP_append, List.countP_cons]

/-- Two distinct live objects both count. -/
theorem ind_add_le_count {w : World T} {a c : Nat} {v u : socow_vector T}
    (ha : w.get a = some v) (hc : w.get c = some u) (hne : a ≠ c) (p : Nat) :
    ind v p + ind u p ≤ w.count p := by
  have h1 := count_set_none ha w.heap p
  have hc' : World.get ⟨w.heap, w.objs.set a none⟩ c = some u := by
    simp only [get]
    rw [getD_set_objs _ _ _ _ (get_lt ha), if_neg (fun e => hne e.symm)]
    exact hc
  have hl := get_lt hc'
  have he := get_eq_getElem hc' hl
  have hb := List.boole_getElem_le_countP (fun o : Option (socow_vector T) => match o with
      | some v => points_to v p
      | none => false) (w.objs.set a none) c hl
  simp only at he
  rw [he] at hb
  simp only [count_eq, ind] at h1 hb ⊢
  omega

end Counting

end World

/-! ## The invariant is kept -/

namespace World

section Invariant

variable {S : Nat} {w : World T}

theorem get_put_same {a : Nat} {v : socow_vector T} (hg : w.get a = some v)
    (r : Heap T × socow_vector T) : (w.put a r).get a = some r.2 := by
  simp only [get, put]
  rw [getD_set_objs _ _ _ _ (get_lt hg), if_pos rfl]

theorem get_put_other {a c : Nat} {v : socow_vector T} (hg : w.get a = some v)
    (r : Heap T × socow_vector T) (hne : c ≠ a) : (w.put a r).get c = w.get c := by
  simp only [get, put]
  rw [getD_set_objs _ _ _ _ (get_lt hg), if_neg hne]

/-- Two objects that reference the same block make its count at least two. -/
theorem Inv.two_refs (hI : Inv S w) {a c : Nat} {v u : socow_vector T}
    (ha : w.get a = some v) (hc : w.get c = some u) (hne : a ≠ c) :
    u._small = false → v._small = false → u._buffer = v._buffer → 2 ≤ rc w.heap v._buffer := by
  intro hu hv hb
  have := ind_add_le_count ha hc hne v._buffer
  rw [ind_heap hv, if_pos rfl, ind_heap hu, if_pos hb, ← hI.2.1] at this
  exact this

/-- A member function of one object keeps the invariant. -/
theorem Inv.unary (hI : Inv S w) {a : Nat} {v : socow_vector T} (hg : w.get a = some v)
    {h' : Heap T} {v' : socow_vector T} (e : Eff w.heap v h' v') (hw : WF S h' v') :
    Inv S (w.put a (h', v')) := by
  have hv : WF S w.heap v := hI.1 a v hg
  refine ⟨?_, ?_, ?_⟩
  · intro c u hc
    by_cases hca : c = a
    · subst hca
      rw [get_put_same hg] at hc
      cases hc
      exact hw
    · rw [get_put_other hg _ hca] at hc
      exact (e.other_obj (hI.1 c u hc) (hI.two_refs hg hc (fun e' => hca e'.symm))).1
  · intro p
    have h1 := e.rc_eq hv p
    have h2 := count_set_some hg h' v' p
    have h3 := hI.2.1 p
    simp only [put] at h2 ⊢
    omega
  · exact e.refs_pos hv hI.2.2

/-- What the other objects see is unchanged by a member function of one. -/
theorem Inv.unary_others (hI : Inv S w) {a c : Nat} {v u : socow_vector T}
    (hg : w.get a = some v) (hc : w.get c = some u) (hne : a ≠ c)
    {h' : Heap T} {v' : socow_vector T} (e : Eff w.heap v h' v') :
    elems h' u = elems w.heap u ∧ capacity S h' u = capacity S w.heap u := by
  have := e.other_obj (hI.1 c u hc) (hI.two_refs hg hc hne)
  exact ⟨this.2.1, this.2.2.1⟩

theorem inv_init : Inv S (⟨[], []⟩ : World T) := by
  refine ⟨?_, ?_, ?_⟩
  · intro a v h; simp [get] at h
  · intro p; simp [rc, lookup, count]
  · intro p b h; simp [lookup] at h

theorem get_append_lt {h' : Heap T} {x : Option (socow_vector T)} {c : Nat}
    (hc : c < w.objs.length) : World.get ⟨h', w.objs ++ [x]⟩ c = w.get c := by
  simp only [get, List.getD_eq_getElem?_getD, List.getElem?_append, hc, if_true]

theorem get_append_len {h' : Heap T} {x : Option (socow_vector T)} :
    World.get ⟨h', w.objs ++ [x]⟩ w.objs.length = x := by
  simp [get, List.getD_eq_getElem?_getD, List.getElem?_append]

theorem get_append_cases {h' : Heap T} {x : Option (socow_vector T)} {c : Nat}
    {u : socow_vector T} (hg : World.get ⟨h', w.objs ++ [x]⟩ c = some u) :
    (c < w.objs.length ∧ w.get c = some u) ∨ (c = w.objs.length ∧ x = some u) := by
  by_cases hc : c < w.objs.length
  · rw [get_append_lt hc] at hg
    exact Or.inl ⟨hc, hg⟩
  · have hl := get_lt hg
    simp only [List.length_append, List.length_singleton] at hl
    have : c = w.objs.length := by omega
    subst this
    rw [get_append_len] at hg
    exact Or.inr ⟨rfl, hg⟩

/-- A new inline object keeps the invariant. -/
theorem Inv.construct (hI : Inv S w) {v : socow_vector T} (hv : WF S w.heap v)
    (hs : v._small = true) : Inv S ⟨w.heap, w.objs ++ [some v]⟩ := by
  refine ⟨?_, ?_, hI.2.2⟩
  · intro c u hc
    rcases get_append_cases hc with ⟨_, h1⟩ | ⟨_, h1⟩
    · exact hI.1 c u h1
    · cases h1; exact hv
  · intro p
    rw [count_append w.heap, ind_small hs]
    exact hI.2.1 p

/-- An object whose lifetime has ended does not matter. -/
theorem Inv.drop_none {h : Heap T} {objs : List (Option (socow_vector T))}
    (hI : Inv S ⟨h, objs ++ [none]⟩) : Inv S ⟨h, objs⟩ := by
  refine ⟨?_, ?_, hI.2.2⟩
  · intro c u hc
    apply hI.1 c u
    have hl := get_lt hc
    have := @get_append_lt T _ ⟨h, objs⟩ h none c hl
    rw [this]
    exact hc
  · intro p
    have := hI.2.1 p
    rw [count_append_none h] at this
    exact this

/-- The invariant depends on the heap only through the blocks found in it. -/
theorem Inv.heap_congr {h h' : Heap T} {objs : List (Option (socow_vector T))}
    (hI : Inv S ⟨h, objs⟩) (he : ∀ p, lookup h' p = lookup h p) : Inv S ⟨h', objs⟩ := by
  refine ⟨?_, ?_, ?_⟩
  · intro c u hc
    exact wf_congr (Or.inr (he _)) (hI.1 c u hc)
  · intro p
    have := hI.2.1 p
    simp only [rc, he] at this ⊢
    exact this
  · intro p b hb
    rw [he] at hb
    exact hI.2.2 p b hb

end Invariant

end World

/-! ## Copying, swapping and destroying objects in a program state -/

section CopySpec

variable {S : Nat} {h : Heap T} {o : socow_vector T}

/-- `socow_vector(const socow_vector&)`: the copy holds what the source holds;
an inline source is duplicated and the heap is untouched, a heap-backed source
is referenced and the count of its block goes up by one. -/
theorem ctor_copy_spec (ho : WF S h o) :
    Same S o (ctor_copy S h o).2 ∧ (ctor_copy S h o).1.length = h.length ∧
    (o._small = true → (ctor_copy S h o).1 = h) ∧
    (o._small = false → ∃ b, lookup h o._buffer = some b ∧
      ∀ q, lookup (ctor_copy S h o).1 q =
        if q = o._buffer then some { b with refs := b.refs + 1 } else lookup h q) := by
  cases hs : o._small with
  | true =>
    have hle := ho.small_le hs
    have hl := ho.sdata_length
    have e : ctor_copy S h o =
        (h, ⟨o._size, true, copy_n (cdata h o) 0 o._size (List.replicate S none) 0, 0⟩) := by
      simp [ctor_copy, is_small, size, hs]
    rw [e]
    refine ⟨⟨rfl, by simp [hs], by simp, by simp [hs], ?_⟩, rfl, fun _ => rfl,
      fun hc => absurd hc (by decide)⟩
    intro _ i hi
    simp only [getElem?_copy_n, List.length_replicate]
    have : 0 ≤ i ∧ i < 0 + o._size ∧ i < S := by omega
    rw [if_pos this, cdata_small hs, getElem?_eq_some_getD (by omega)]
    simp
  | false =>
    obtain ⟨b, hb, _⟩ := ho.block hs
    refine ⟨?_, ?_, fun hc => absurd hc (by decide), fun _ => ⟨b, hb, lookup_ctor_copy hs hb⟩⟩
    · simp only [ctor_copy, is_small, size, hs, Bool.false_eq_true, if_false]
      exact ⟨rfl, by simp [hs], by simp, fun _ => rfl, fun hc => by rw [hs] at hc; cases hc⟩
    · simp [ctor_copy, is_small, hs]

/-- `~socow_vector()` releases the block of the object. -/
theorem dtor_eff {v : socow_vector T} (hv : WF S h v) : Eff h v (dtor h v) (ctor S) := by
  cases hs : v._small with
  | true =>
    rw [dtor_small hs]
    refine ⟨Nat.le_refl _, fun _ _ _ => rfl, fun p hp _ => lookup_ge hp,
      fun hc => by simp [ctor] at hc, fun hc => by simp [ctor] at hc,
      (fun hc => by rw [hs] at hc; cases hc), Or.inl rfl⟩
  | false =>
    obtain ⟨b, hb, _⟩ := hv.block hs
    refine ⟨by simp, ?_, ?_, fun hc => by simp [ctor] at hc, fun hc => by simp [ctor] at hc, ?_,
      Or.inl length_dtor⟩
    · intro p _ hp
      rw [lookup_dtor hs hb]
      have : p ≠ v._buffer := by
        rcases hp with hp | hp
        · rw [hs] at hp; cases hp
        · exact hp
      rw [if_neg this]
    · intro p hp _
      have := hv.buffer_lt hs
      rw [lookup_dtor hs hb, if_neg (by omega)]
      exact lookup_ge hp
    · intro _ b' hb'
      rw [hb] at hb'; cases hb'
      right
      exact ⟨Or.inl rfl, by rw [lookup_dtor hs hb, if_pos rfl]⟩

end CopySpec

namespace World

section Binary

variable {S : Nat} {w : World T}

/-- Copy construction keeps the invariant. -/
theorem Inv.copy_construct (hI : Inv S w) {src : Nat} {o : socow_vector T}
    (hg : w.get src = some o) :
    Inv S ⟨(ctor_copy S w.heap o).1, w.objs ++ [some (ctor_copy S w.heap o).2]⟩ := by
  have ho := hI.1 src o hg
  obtain ⟨hsame, hlen, hsm, hhp⟩ := ctor_copy_spec ho
  have hblock : ∀ u, WF S w.heap u → WF S (ctor_copy S w.heap o).1 u := by
    intro u hu
    refine (block_congr hu ?_).1
    intro hus b hb
    cases hs : o._small with
    | true => rw [hsm hs]; exact ⟨b, hb, rfl, rfl, hI.2.2 _ b hb⟩
    | false =>
      obtain ⟨bo, hbo, hq⟩ := hhp hs
      rw [hq]
      by_cases he : u._buffer = o._buffer
      · rw [if_pos he]
        rw [he, hbo] at hb; cases hb
        exact ⟨_, rfl, rfl, rfl, by simp⟩
      · rw [if_neg he]
        exact ⟨b, hb, rfl, rfl, hI.2.2 _ b hb⟩
  refine ⟨?_, ?_, ?_⟩
  · intro c u hc
    rcases get_append_cases hc with ⟨_, h1⟩ | ⟨_, h1⟩
    · exact hblock u (hI.1 c u h1)
    · cases h1
      exact hsame.wf_same (hblock o ho)
  · intro p
    rw [count_append w.heap]
    have h3 := hI.2.1 p
    have hi : ind (ctor_copy S w.heap o).2 p = ind o p := by
      simp only [ind, hsame.points_to_eq]
    rw [hi, ← h3]
    cases hs : o._small with
    | true => simp only [hsm hs, ind_small hs]; rfl
    | false =>
      obtain ⟨bo, hbo, hq⟩ := hhp hs
      simp only [rc, hq, ind_heap hs]
      by_cases he : p = o._buffer
      · subst he
        simp [hbo]
      · have : ¬ o._buffer = p := fun e => he e.symm
        simp [he, this]
  · intro p b hb
    cases hs : o._small with
    | true => rw [hsm hs] at hb; exact hI.2.2 p b hb
    | false =>
      obtain ⟨bo, hbo, hq⟩ := hhp hs
      rw [hq] at hb
      by_cases he : p = o._buffer
      · rw [if_pos he] at hb; cases hb; simp
      · rw [if_neg he] at hb; exact hI.2.2 p b hb

/-- Replacing two distinct objects by objects that hold what the other held
keeps the invariant. -/
theorem Inv.exchange (hI : Inv S w) {a b : Nat} {v o v' o' : socow_vector T}
    (ha : w.get a = some v) (hb : w.get b = some o) (hne : a ≠ b)
    (h1 : Same S o v') (h2 : Same S v o') :
    Inv S ⟨w.heap, (w.objs.set a (some v')).set b (some o')⟩ := by
  have hb1 : World.get ⟨w.heap, w.objs.set a (some v')⟩ b = some o := by
    simp only [get]
    rw [getD_set_objs _ _ _ _ (get_lt ha), if_neg (fun e => hne e.symm)]
    exact hb
  refine ⟨?_, ?_, hI.2.2⟩
  · intro c u hc
    simp only [get] at hc
    rw [getD_set_objs _ _ _ _ (by simpa using get_lt hb)] at hc
    by_cases hcb : c = b
    · rw [if_pos hcb] at hc; cases hc
      exact h2.wf_same (hI.1 a v ha)
    · rw [if_neg hcb, getD_set_objs _ _ _ _ (get_lt ha)] at hc
      by_cases hca : c = a
      · rw [if_pos hca] at hc; cases hc
        exact h1.wf_same (hI.1 b o hb)
      · rw [if_neg hca] at hc
        exact hI.1 c u hc
  · intro p
    have c1 := count_set_some ha w.heap v' p
    have c2 := count_set_some hb1 w.heap o' p
    have i1 : ind v' p = ind o p := by simp only [ind, h1.points_to_eq]
    have i2 : ind o' p = ind v p := by simp only [ind, h2.points_to_eq]
    have h3 := hI.2.1 p
    simp only at c2 ⊢
    omega

/-- Ending the lifetime of an inline object keeps the invariant. -/
theorem Inv.kill_small {h : Heap T} {objs : List (Option (socow_vector T))} {a : Nat}
    {u : socow_vector T} (hI : Inv S ⟨h, objs.set a (some u)⟩) (ha : a < objs.length)
    (hs : u._small = true) : Inv S ⟨h, objs.set a none⟩ := by
  have hg : World.get ⟨h, objs.set a (some u)⟩ a = some u := by
    simp only [get]; rw [getD_set_objs _ _ _ _ ha, if_pos rfl]
  refine ⟨?_, ?_, hI.2.2⟩
  · intro c v hc
    apply hI.1 c v
    simp only [get] at hc ⊢
    rw [getD_set_objs _ _ _ _ ha] at hc ⊢
    by_cases hca : c = a
    · rw [if_pos hca] at hc; cases hc
    · rw [if_neg hca] at hc ⊢; exact hc
  · intro p
    have h1 := count_set_none hg h p
    have h3 := hI.2.1 p
    simp only [List.set_set, ind_small hs] at h1
    simp only at h3 ⊢
    omega

/-- Destroying an object keeps the invariant. -/
theorem Inv.destroy (hI : Inv S w) {a : Nat} {v : socow_vector T} (hg : w.get a = some v) :
    Inv S ⟨dtor w.heap v, w.objs.set a none⟩ := by
  have h1 := hI.unary hg (dtor_eff (hI.1 a v hg)) wf_ctor
  exact Inv.kill_small h1 (get_lt hg) rfl

end Binary

end World

/-! ## Objects an operation does not touch -/

namespace World

section Frame

variable {S : Nat} {w : World T}

theorem Keeps.rfl_ (w : World T) (c : Nat) : Keeps S w w c := fun _ h => ⟨h, rfl, rfl⟩

theorem Keeps.chain {w1 w2 w3 : World T} {c : Nat} (a : Keeps S w1 w2 c)
    (b : Keeps S w2 w3 c) : Keeps S w1 w3 c := by
  intro u hu
  obtain ⟨g1, e1, c1⟩ := a u hu
  obtain ⟨g2, e2, c2⟩ := b u g1
  exact ⟨g2, e2.trans e1, c2.trans c1⟩

theorem keeps_unary (hI : Inv S w) {a c : Nat} {v : socow_vector T} (hg : w.get a = some v)
    {h' : Heap T} {v' : socow_vector T} (e : Eff w.heap v h' v') (hne : c ≠ a) :
    Keeps S w (w.put a (h', v')) c := by
  intro u hu
  have := e.other_obj (hI.1 c u hu) (hI.two_refs hg hu (fun e' => hne e'.symm))
  exact ⟨by rw [get_put_other hg _ hne]; exact hu, this.2.1, this.2.2.1⟩

theorem keeps_copy_construct (hI : Inv S w) {src : Nat} {o : socow_vector T}
    (hg : w.get src = some o) (c : Nat) :
    Keeps S w ⟨(ctor_copy S w.heap o).1, w.objs ++ [some (ctor_copy S w.heap o).2]⟩ c := by
  intro u hu
  have ho := hI.1 src o hg
  obtain ⟨_, _, hsm, hhp⟩ := ctor_copy_spec ho
  have hb := @block_congr T _ S w.heap (ctor_copy S w.heap o).1 u (hI.1 c u hu) (by
    intro hus b hb
    cases hs : o._small with
    | true => rw [hsm hs]; exact ⟨b, hb, rfl, rfl, hI.2.2 _ b hb⟩
    | false =>
      obtain ⟨bo, hbo, hq⟩ := hhp hs
      rw [hq]
      by_cases he : u._buffer = o._buffer
      · rw [if_pos he]
        rw [he, hbo] at hb; cases hb
        exact ⟨_, rfl, rfl, rfl, by simp⟩
      · rw [if_neg he]
        exact ⟨b, hb, rfl, rfl, hI.2.2 _ b hb⟩)
  exact ⟨by rw [get_append_lt (get_lt hu)]; exact hu, hb.2.1, hb.2.2.1⟩

theorem keeps_append (w : World T) (x : Option (socow_vector T)) (c : Nat) :
    Keeps S w ⟨w.heap, w.objs ++ [x]⟩ c := by
  intro u hu
  exact ⟨by rw [get_append_lt (get_lt hu)]; exact hu, rfl, rfl⟩

theorem keeps_exchange {a b c : Nat} {x y : Option (socow_vector T)} (ha : a < w.objs.length)
    (hb : b < w.objs.length) (hca : c ≠ a) (hcb : c ≠ b) :
    Keeps S w ⟨w.heap, (w.objs.set a x).set b y⟩ c := by
  intro u hu
  refine ⟨?_, rfl, rfl⟩
  simp only [get] at hu ⊢
  rw [getD_set_objs _ _ _ _ (by simpa using hb), if_neg hcb, getD_set_objs _ _ _ _ ha,
    if_neg hca]
  exact hu

theorem keeps_destroy (hI : Inv S w) {a c : Nat} {v : socow_vector T} (hg : w.get a = some v)
    (hne : c ≠ a) : Keeps S w ⟨dtor w.heap v, w.objs.set a none⟩ c := by
  intro u hu
  have := (dtor_eff (S := S) (hI.1 a v hg)).other_obj (hI.1 c u hu)
    (hI.two_refs hg hu (fun e' => hne e'.symm))
  refine ⟨?_, this.2.1, this.2.2.1⟩
  simp only [get] at hu ⊢
  rw [getD_set_objs _ _ _ _ (get_lt hg), if_neg hne]
  exact hu

theorem keeps_drop {h : Heap T} {objs : List (Option (socow_vector T))}
    {x : Option (socow_vector T)} {c : Nat} (hc : c < objs.length) :
    Keeps S ⟨h, objs ++ [x]⟩ ⟨h, objs⟩ c := by
  intro u hu
  refine ⟨?_, rfl, rfl⟩
  rw [get_append_lt (w := ⟨h, objs⟩) hc] at hu
  exact hu

theorem keeps_heap_congr {h h' : Heap T} {objs : List (Option (socow_vector T))}
    (he : ∀ p, lookup h' p = lookup h p) (c : Nat) : Keeps S ⟨h, objs⟩ ⟨h', objs⟩ c := by
  intro u hu
  exact ⟨hu, elems_congr (Or.inr (he _)), capacity_congr (Or.inr (he _))⟩

end Frame

end World

/-! ## Running operations -/

section DtorAny

variable {S : Nat} {h : Heap T}

/-- `~socow_vector()` seen as a step to any inline object. -/
theorem dtor_eff_small {v : socow_vector T} (hv : WF S h v) (u : socow_vector T)
    (hu : u._small = true) : Eff h v (dtor h v) u := by
  have e := dtor_eff (S := S) hv
  refine ⟨e.len, e.other, fun p hp _ => e.fresh p hp (Or.inl rfl), ?_, ?_, ?_,
    Or.inl length_dtor⟩
  · intro hc
    rw [hu] at hc; cases hc
  · intro hc
    rw [hu] at hc; cases hc
  · intro hs b hb
    rcases e.own hs b hb with ⟨hc, _⟩ | ⟨_, l⟩
    · simp [ctor] at hc
    · exact Or.inr ⟨Or.inl hu, l⟩

theorem clear_not_shared (d : Nat) {v : socow_vector T} (hv : WF S h v) :
    ∃ h' v', clear (d + 5) S h v = some (h', v') ∧ Eff h v h' v' ∧ WF S h' v' ∧
      v'._size = 0 ∧ shared h' v' = false := by
  obtain ⟨h', v', e, r1, r2, r3, _, r5, r6⟩ := clear_spec d hv
  refine ⟨h', v', e, r1, r2, r3, ?_⟩
  cases hx : shared h v with
  | false => exact ((r5 hx).shared_eq hv.zero).trans hx
  | true => exact shared_small (r6 hx)

end DtorAny

namespace World

section Exec

variable {S : Nat} {w : World T}

/-- The result of a member function of one object, put back into the state. -/
theorem Inv.run_unary (hI : Inv S w) {a : Nat} {v : socow_vector T} (hg : w.get a = some v)
    {f : Option (Heap T × socow_vector T)}
    (hf : ∃ h' v', f = some (h', v') ∧ Eff w.heap v h' v' ∧ WF S h' v') :
    ∃ w', (f.map fun r => w.put a r) = some w' ∧ Inv S w' ∧
      ∀ c, ¬ c = a → Keeps S w w' c := by
  obtain ⟨h', v', e, r1, r2⟩ := hf
  exact ⟨w.put a (h', v'), by rw [e]; rfl, hI.unary hg r1 r2,
    fun c hc => keeps_unary hI hg r1 hc⟩

theorem Inv.run_unary_it (hI : Inv S w) {a : Nat} {v : socow_vector T}
    (hg : w.get a = some v) {f : Option (Heap T × socow_vector T × Nat)}
    (hf : ∃ h' v' i, f = some (h', v', i) ∧ Eff w.heap v h' v' ∧ WF S h' v') :
    ∃ w', (f.map fun r => w.put a (r.1, r.2.1)) = some w' ∧ Inv S w' ∧
      ∀ c, ¬ c = a → Keeps S w w' c := by
  obtain ⟨h', v', i, e, r1, r2⟩ := hf
  exact ⟨w.put a (h', v'), by rw [e]; rfl, hI.unary hg r1 r2,
    fun c hc => keeps_unary hI hg r1 hc⟩

/-- Copy assignment `dst = src` between distinct objects: it runs to
completion and keeps the invariant; afterwards `dst` holds what `src` holds,
and no other object changes. -/
theorem Inv.run_copy_assign (d : Nat) (hI : Inv S w) {a b : Nat} {v o : socow_vector T}
    (ha : w.get a = some v) (hb : w.get b = some o) :
    ∃ r, assign_copy (d + 5) S w.heap v o = some r ∧ Inv S (w.put a r) ∧
      (∀ c, c ≠ a → Keeps S w (w.put a r) c) ∧ Same S o r.2 ∧
      elems r.1 r.2 = elems w.heap o ∧ capacity S r.1 r.2 = capacity S w.heap o := by
  have hla := get_lt ha
  have hlb := get_lt hb
  -- the temporary copy, as one more object
  have I1 := hI.copy_construct (S := S) hb
  have K1 := keeps_copy_construct (S := S) hI hb
  obtain ⟨so, _⟩ := ctor_copy_spec (hI.1 b o hb)
  generalize hc : ctor_copy S w.heap o = c at I1 K1 so
  obtain ⟨h1, tmp⟩ := c
  simp only at I1 K1 so
  generalize hw1 : (⟨h1, w.objs ++ [some tmp]⟩ : World T) = w1 at I1 K1
  have hl1 : w1.objs.length = w.objs.length + 1 := by rw [← hw1]; simp
  have ha1 : w1.get a = some v := by rw [← hw1, get_append_lt hla]; exact ha
  have ht1 : w1.get w.objs.length = some tmp := by rw [← hw1]; exact get_append_len
  have hh1 : w1.heap = h1 := by rw [← hw1]
  obtain ⟨h2, v2, e, r1, r2, _⟩ := clear_spec d (I1.1 a v ha1)
  rw [hh1] at e
  have I2 := I1.unary ha1 r1 r2
  have K2 := fun c (hc : c ≠ a) => keeps_unary I1 ha1 r1 hc
  generalize hw2 : w1.put a (h2, v2) = w2 at I2 K2
  have hl2 : w2.objs.length = w.objs.length + 1 := by rw [← hw2]; simp [put, hl1]
  have ha2 : w2.get a = some v2 := by rw [← hw2]; exact get_put_same ha1 _
  have ht2 : w2.get w.objs.length = some tmp := by
    rw [← hw2, get_put_other ha1 _ (by omega)]; exact ht1
  have hh2 : w2.heap = h2 := by rw [← hw2]; rfl
  have wt := I2.1 _ _ ht2
  have wv2 := I2.1 _ _ ha2
  obtain ⟨s1, s2⟩ := swap_spec v2 tmp wv2.sdata_length wt.sdata_length wv2.small_le wt.small_le
  have I3 := I2.exchange ha2 ht2 (by omega) s1 s2
  have K3 := fun c (h1 : c ≠ a) (h2 : c ≠ w.objs.length) =>
    keeps_exchange (S := S) (w := w2) (x := some (socow_vector.swap v2 tmp).1)
      (y := some (socow_vector.swap v2 tmp).2) (a := a) (b := w.objs.length)
      (by omega) (by omega) h1 h2
  generalize hsw : socow_vector.swap v2 tmp = sw at s1 s2 I3 K3
  obtain ⟨v', tmp'⟩ := sw
  simp only at s1 s2 I3 K3
  generalize hw3 : (⟨w2.heap, (w2.objs.set a (some v')).set w.objs.length (some tmp')⟩ :
    World T) = w3 at I3 K3
  have ht3 : w3.get w.objs.length = some tmp' := by
    rw [← hw3]; simp only [get]
    rw [getD_set_objs _ _ _ _ (by simp; omega), if_pos rfl]
  have ha3 : w3.get a = some v' := by
    rw [← hw3]; simp only [get]
    rw [getD_set_objs _ _ _ _ (by simp; omega), if_neg (by omega),
      getD_set_objs _ _ _ _ (by omega), if_pos rfl]
  have hh3 : w3.heap = h2 := by rw [← hw3]; exact hh2
  have I4 := I3.destroy ht3
  have K4 := fun c (hc : c ≠ w.objs.length) => keeps_destroy I3 ht3 hc
  have hlist : w3.objs.set w.objs.length none = w.objs.set a (some v') ++ [none] := by
    rw [← hw3, ← hw2, ← hw1]
    simp only [put]
    rw [List.set_set, List.set_set, List.set_append_left _ _ hla,
      List.set_append_right _ _ (by simp)]
    simp
  rw [hlist, hh3] at I4 K4
  refine ⟨(dtor h2 tmp', v'), ?_, I4.drop_none, ?_, so.compose s1, ?_, ?_⟩
  · simp only [assign_copy, hc, e, Option.some_bind, hsw]
  · intro c hca u hu
    have hcl := get_lt hu
    have hK := ((K1 c).chain (K2 c hca)).chain
      ((K3 c hca (by omega)).chain (K4 c (by omega)))
    exact (hK.chain (keeps_drop (by simpa using hcl))) u hu
  · obtain ⟨_, e4, _⟩ := K4 a (by omega) v' ha3
    obtain ⟨_, e2, _⟩ := K2 w.objs.length (by omega) tmp ht1
    obtain ⟨_, e1, _⟩ := K1 b o hb
    rw [hh3] at e4
    rw [hh2, hh1] at e2
    rw [hh1] at e1
    simp only at e4
    rw [e4, s1.elems_eq, e2, so.elems_eq, e1]
  · obtain ⟨_, _, e4⟩ := K4 a (by omega) v' ha3
    obtain ⟨_, _, e2⟩ := K2 w.objs.length (by omega) tmp ht1
    obtain ⟨_, _, e1⟩ := K1 b o hb
    rw [hh3] at e4
    rw [hh2, hh1] at e2
    rw [hh1] at e1
    simp only at e4
    rw [e4, s1.capacity_same, e2, so.capacity_same, e1]

/-- Move assignment `dst = std::move(src)` between distinct objects: it runs
to completion and keeps the invariant; afterwards `dst` holds what `src`
held, `src` is empty and inline, and no other object changes. -/
theorem Inv.run_move_assign (d : Nat) (hI : Inv S w) {a b : Nat} {v o : socow_vector T}
    (ha : w.get a = some v) (hb : w.get b = some o) (hne : a ≠ b) :
    ∃ r, assign_move (d + 5) S w.heap v o = some r ∧
      Inv S ⟨r.1, (w.objs.set a (some r.2.1)).set b (some r.2.2)⟩ ∧
      (∀ c, c ≠ a → c ≠ b →
        Keeps S w ⟨r.1, (w.objs.set a (some r.2.1)).set b (some r.2.2)⟩ c) ∧
      Same S o r.2.1 ∧ elems r.1 r.2.1 = elems w.heap o ∧
      capacity S r.1 r.2.1 = capacity S w.heap o ∧
      r.2.2._small = true ∧ r.2.2._size = 0 := by
  have hla := get_lt ha
  have hlb := get_lt hb
  obtain ⟨h1, v1, e, r1, r2, r3, r4⟩ := clear_not_shared d (hI.1 a v ha)
  have I1 := hI.unary ha r1 r2
  have K1 := fun c (hc : c ≠ a) => keeps_unary hI ha r1 hc
  generalize hw1 : w.put a (h1, v1) = w1 at I1 K1
  have hl1 : w1.objs.length = w.objs.length := by rw [← hw1]; simp [put]
  have ha1 : w1.get a = some v1 := by rw [← hw1]; exact get_put_same ha _
  have hb1 : w1.get b = some o := by
    rw [← hw1, get_put_other ha _ (fun e' => hne e'.symm)]; exact hb
  have hh1 : w1.heap = h1 := by rw [← hw1]; rfl
  have wo := I1.1 _ _ hb1
  have wv1 := I1.1 _ _ ha1
  obtain ⟨s1, s2⟩ := swap_spec v1 o wv1.sdata_length wo.sdata_length wv1.small_le wo.small_le
  have I2 := I1.exchange ha1 hb1 hne s1 s2
  have K2 := fun c (h1 : c ≠ a) (h2 : c ≠ b) =>
    keeps_exchange (S := S) (w := w1) (x := some (socow_vector.swap v1 o).1)
      (y := some (socow_vector.swap v1 o).2) (a := a) (b := b) (by omega) (by omega) h1 h2
  generalize hsw : socow_vector.swap v1 o = sw at s1 s2 I2 K2
  obtain ⟨v', o'⟩ := sw
  simp only at s1 s2 I2 K2
  have hobjs : (w1.objs.set a (some v')).set b (some o')
      = (w.objs.set a (some v')).set b (some o') := by
    rw [← hw1]; simp only [put, List.set_set]
  rw [hobjs, hh1] at I2 K2
  obtain ⟨_, eo, co⟩ := K1 b (fun e' => hne e'.symm) o hb
  rw [hh1] at eo co
  cases hso : o'._small with
  | true =>
    refine ⟨(h1, v', o'), ?_, I2, fun c h1 h2 => (K1 c h1).chain (K2 c h1 h2), s1, ?_, ?_, hso,
      by rw [s2.1, r3]⟩
    · simp only [assign_move, e, Option.some_bind, hsw, is_small, hso, Bool.not_true,
        Bool.false_eq_true, if_false]
    · rw [s1.elems_eq, eo]
    · rw [s1.capacity_same, co]
  | false =>
    have hb2 : World.get ⟨h1, (w.objs.set a (some v')).set b (some o')⟩ b = some o' := by
      simp only [get]; rw [getD_set_objs _ _ _ _ (by simpa using hlb), if_pos rfl]
    have ha2 : World.get ⟨h1, (w.objs.set a (some v')).set b (some o')⟩ a = some v' := by
      simp only [get]
      rw [getD_set_objs _ _ _ _ (by simpa using hlb), if_neg hne,
        getD_set_objs _ _ _ _ hla, if_pos rfl]
    have wo' := I2.1 _ _ hb2
    have wu : WF S (dtor h1 o') { o' with _small := true } :=
      WF.of_small wo'.sdata_length rfl (by simp only [s2.1, r3]; omega)
        (fun i hi => by simp only [s2.1, r3] at hi; omega)
    have E3 := dtor_eff_small wo' { o' with _small := true } rfl
    have I3 := I2.unary hb2 E3 wu
    have K3 := fun c (hc : c ≠ b) => keeps_unary I2 hb2 E3 hc
    simp only [put, List.set_set] at I3 K3
    have hfree : ∀ p, lookup (free h1 o'._buffer) p = lookup (dtor h1 o') p := by
      intro p
      obtain ⟨bo, hbo, _⟩ := wo'.block hso
      have hsh : shared h1 o' = false := by rw [s2.shared_same]; exact r4
      rw [shared_heap hso hbo] at hsh
      have hr : bo.refs ≤ 1 := by simpa using hsh
      rw [lookup_free, lookup_dtor hso hbo, if_pos hr]
    obtain ⟨_, e3, c3⟩ := (K3 a hne).chain (keeps_heap_congr hfree a) v' ha2
    simp only at e3 c3
    refine ⟨(free h1 o'._buffer, v', { o' with _small := true }), ?_, I3.heap_congr hfree,
      fun c h1 h2 => ((K1 c h1).chain (K2 c h1 h2)).chain
        ((K3 c h2).chain (keeps_heap_congr hfree c)), s1, ?_, ?_, rfl, by
        simp only [s2.1, r3]⟩
    · simp only [assign_move, e, Option.some_bind, hsw, is_small, hso, Bool.not_false, if_true]
    · rw [e3, s1.elems_eq, eo]
    · rw [c3, s1.capacity_same, co]

end Exec

end World

namespace World

section ExecAll

variable {S : Nat} {w : World T}

theorem unshare_some (d : Nat) {h : Heap T} {v : socow_vector T} (hv : WF S h v) :
    ∃ h' v', unshare (d + 7) S h v = some (h', v') ∧ Eff h v h' v' ∧ WF S h' v' := by
  obtain ⟨h', v', e, r1, r2, _⟩ := unshare_spec d hv
  exact ⟨h', v', e, r1, r2⟩

/-- An operation whose precondition holds runs to completion and keeps the
invariant. -/
theorem exec_pre (d : Nat) (hI : Inv S w) (op : Op T) (hp : Pre w op) (hr : Room S w op) :
    ∃ w', exec (d + 9) S w op = some w' ∧ Inv S w' ∧
      ∀ c, ¬ touches op c → Keeps S w w' c := by
  cases op with
  | construct => exact ⟨_, rfl, hI.construct wf_ctor rfl, fun c _ => keeps_append w _ c⟩
  | copy_construct src =>
    obtain ⟨o, ho⟩ := hp
    exact ⟨_, by simp only [exec, ho, Option.some_bind], hI.copy_construct ho,
      fun c _ => keeps_copy_construct hI ho c⟩
  | move_construct src =>
    obtain ⟨o, ho⟩ := hp
    refine ⟨⟨w.heap, w.objs.set src (some (ctor_move S o).2) ++ [some (ctor_move S o).1]⟩,
      by simp only [exec, ho, Option.some_bind], ?_, ?_⟩
    case refine_2 =>
      intro c hc u hu
      simp only [touches] at hc
      refine ⟨?_, rfl, rfl⟩
      have hcl := get_lt hu
      rw [get_append_lt (w := ⟨w.heap, w.objs.set src (some (ctor_move S o).2)⟩)
        (by simpa using hcl)]
      simp only [get] at hu ⊢
      rw [getD_set_objs _ _ _ _ (get_lt ho), if_neg hc]
      exact hu
    have I1 := hI.construct (S := S) (v := ctor S) wf_ctor rfl
    have hl := get_lt ho
    have ha : World.get ⟨w.heap, w.objs ++ [some (ctor S)]⟩ w.objs.length = some (ctor S) :=
      get_append_len
    have hb : World.get ⟨w.heap, w.objs ++ [some (ctor S)]⟩ src = some o := by
      rw [get_append_lt hl]; exact ho
    have wo := hI.1 _ _ ho
    obtain ⟨s1, s2⟩ := swap_spec (ctor S) o (by simp [ctor]) wo.sdata_length
      (fun _ => Nat.zero_le _) wo.small_le
    have I2 := I1.exchange ha hb (by omega) s1 s2
    simp only at I2
    rw [List.set_append_right _ _ (Nat.le_refl _), List.set_append_left _ _ hl] at I2
    simpa [ctor_move] using I2
  | copy_assign dst src =>
    obtain ⟨v, o, hv, ho⟩ := hp
    by_cases he : dst = src
    · exact ⟨w, by simp only [exec, hv, ho, Option.some_bind, he, if_true], hI,
        fun c _ => Keeps.rfl_ w c⟩
    · obtain ⟨r, e, I, K, _⟩ := hI.run_copy_assign (d + 4) hv ho
      exact ⟨_, by simp only [exec, hv, ho, Option.some_bind, he, if_false, e, Option.map_some'],
        I, fun c hc => K c (by simpa [touches] using hc)⟩
  | move_assign dst src =>
    obtain ⟨v, o, hv, ho⟩ := hp
    by_cases he : dst = src
    · exact ⟨w, by simp only [exec, hv, ho, Option.some_bind, he, if_true], hI,
        fun c _ => Keeps.rfl_ w c⟩
    · obtain ⟨r, e, I, K, _⟩ := hI.run_move_assign (d + 4) hv ho he
      exact ⟨_, by simp only [exec, hv, ho, Option.some_bind, he, if_false, e, Option.map_some'],
        I, fun c hc => by
          simp only [touches, not_or] at hc
          exact K c hc.1 hc.2⟩
  | swap a b =>
    obtain ⟨v, o, hv, ho⟩ := hp
    by_cases he : a = b
    · exact ⟨w, by simp only [exec, hv, ho, Option.some_bind, he, if_true], hI,
        fun c _ => Keeps.rfl_ w c⟩
    · have wv := hI.1 _ _ hv
      have wo := hI.1 _ _ ho
      obtain ⟨s1, s2⟩ := swap_spec v o wv.sdata_length wo.sdata_length wv.small_le wo.small_le
      exact ⟨_, by simp only [exec, hv, ho, Option.some_bind, he, if_false],
        hI.exchange hv ho he s1 s2, fun c hc => by
          simp only [touches, not_or] at hc
          exact keeps_exchange (get_lt hv) (get_lt ho) hc.1 hc.2⟩
  | destroy a =>
    obtain ⟨v, hv⟩ := hp
    exact ⟨_, by simp only [exec, hv, Option.some_bind], hI.destroy hv,
      fun c hc => keeps_destroy hI hv (by simpa [touches] using hc)⟩
  | push_back a x =>
    obtain ⟨v, hv⟩ := hp
    simp only [exec, hv, Option.some_bind]
    obtain ⟨h', v', e, r1, r2, _⟩ := push_back_spec (d + 3) x (hI.1 _ _ hv) (hr v hv)
    exact hI.run_unary hv ⟨h', v', e, r1, r2⟩
  | push_back_copy a x =>
    obtain ⟨v, hv⟩ := hp
    simp only [exec, hv, Option.some_bind]
    obtain ⟨h', v', e, r1, r2, _⟩ := push_back_copy_spec (d + 2) x (hI.1 _ _ hv) (hr v hv)
    exact hI.run_unary hv ⟨h', v', e, r1, r2⟩
  | insert a pos x =>
    obtain ⟨v, hv, hpos⟩ := hp
    simp only [exec, hv, Option.some_bind, size, hpos, if_true]
    obtain ⟨h', v', e, r1, r2, _⟩ := insert_spec (d + 3) pos x (hI.1 _ _ hv) hpos (hr v hv)
    exact hI.run_unary_it hv ⟨h', v', pos, e, r1, r2⟩
  | insert_copy a pos x =>
    obtain ⟨v, hv, hpos⟩ := hp
    simp only [exec, hv, Option.some_bind, size, hpos, if_true, insert_copy]
    obtain ⟨h', v', e, r1, r2, _⟩ := insert_spec (d + 3) pos x (hI.1 _ _ hv) hpos (hr v hv)
    exact hI.run_unary_it hv ⟨h', v', pos, e, r1, r2⟩
  | pop_back a =>
    obtain ⟨v, hv, hn⟩ := hp
    simp only [exec, hv, Option.some_bind, size, hn, if_false]
    obtain ⟨h', v', e, r1, r2, _⟩ := pop_back_spec (d + 5) (hI.1 _ _ hv) hn
    exact hI.run_unary hv ⟨h', v', e, r1, r2⟩
  | erase a first last =>
    obtain ⟨v, hv, h1, h2⟩ := hp
    have hc : first ≤ last ∧ last ≤ v._size := ⟨h1, h2⟩
    simp only [exec, hv, Option.some_bind, size, hc, and_self, if_true]
    obtain ⟨h', v', e, r1, r2, _⟩ := erase_spec (d + 5) first last (hI.1 _ _ hv) h1 h2
    exact hI.run_unary_it hv ⟨h', v', first, e, r1, r2⟩
  | erase_at a pos =>
    obtain ⟨v, hv, h1⟩ := hp
    simp only [exec, hv, Option.some_bind, size, h1, if_true, erase_at]
    obtain ⟨h', v', e, r1, r2, _⟩ :=
      erase_spec (d + 5) pos (pos + 1) (hI.1 _ _ hv) (by omega) (by omega)
    exact hI.run_unary_it hv ⟨h', v', pos, e, r1, r2⟩
  | clear a =>
    obtain ⟨v, hv⟩ := hp
    simp only [exec, hv, Option.some_bind]
    obtain ⟨h', v', e, r1, r2, _⟩ := clear_spec (d + 4) (hI.1 _ _ hv)
    exact hI.run_unary hv ⟨h', v', e, r1, r2⟩
  | reserve a n =>
    obtain ⟨v, hv⟩ := hp
    simp only [exec, hv, Option.some_bind]
    obtain ⟨h', v', e, r1, r2, _⟩ := reserve_spec (d + 3) n (hI.1 _ _ hv) (hr v hv)
    exact hI.run_unary hv ⟨h', v', e, r1, r2⟩
  | shrink_to_fit a =>
    obtain ⟨v, hv⟩ := hp
    simp only [exec, hv, Option.some_bind]
    obtain ⟨h', v', e, r1, r2, _⟩ := shrink_to_fit_spec (d + 3) (hI.1 _ _ hv)
    exact hI.run_unary hv ⟨h', v', e, r1, r2⟩
  | assign_elem a i x =>
    obtain ⟨v, hv, hi⟩ := hp
    simp only [exec, hv, Option.some_bind, size, hi, if_true]
    obtain ⟨h', v', e, r1, r2, _⟩ := assign_elem_spec (d + 1) i x (hI.1 _ _ hv) hi
    exact hI.run_unary hv ⟨h', v', e, r1, r2⟩
  | index_mut a i =>
    obtain ⟨v, hv, hi⟩ := hp
    simp only [exec, hv, Option.some_bind, size, hi, if_true]
    rw [index_mut_eq]
    exact hI.run_unary hv (unshare_some (d + 1) (hI.1 _ _ hv))
  | data a =>
    obtain ⟨v, hv⟩ := hp
    simp only [exec, hv, Option.some_bind]
    rw [data_eq]
    exact hI.run_unary hv (unshare_some (d + 1) (hI.1 _ _ hv))
  | front a =>
    obtain ⟨v, hv, hn⟩ := hp
    simp only [exec, hv, Option.some_bind, size, hn, if_false]
    rw [front_eq]
    exact hI.run_unary hv (unshare_some (d + 1) (hI.1 _ _ hv))
  | back a =>
    obtain ⟨v, hv, hn⟩ := hp
    simp only [exec, hv, Option.some_bind, size, hn, if_false]
    rw [back_eq]
    exact hI.run_unary hv (unshare_some d (hI.1 _ _ hv))

/-- An operation that runs to completion had its precondition. -/
theorem pre_of_exec (d : Nat) (op : Op T) {w' : World T} (he : exec d S w op = some w') :
    Pre w op := by
  cases op <;> simp only [exec, Pre] at he ⊢
  case copy_construct src =>
    cases hg : w.get src with
    | none => simp [hg] at he
    | some o => exact ⟨o, rfl⟩
  case move_construct src =>
    cases hg : w.get src with
    | none => simp [hg] at he
    | some o => exact ⟨o, rfl⟩
  case copy_assign dst src =>
    cases hg : w.get dst with
    | none => simp [hg] at he
    | some v =>
      cases hg2 : w.get src with
      | none => simp [hg, hg2] at he
      | some o => exact ⟨v, o, rfl, rfl⟩
  case move_assign dst src =>
    cases hg : w.get dst with
    | none => simp [hg] at he
    | some v =>
      cases hg2 : w.get src with
      | none => simp [hg, hg2] at he
      | some o => exact ⟨v, o, rfl, rfl⟩
  case swap a b =>
    cases hg : w.get a with
    | none => simp [hg] at he
    | some v =>
      cases hg2 : w.get b with
      | none => simp [hg, hg2] at he
      | some o => exact ⟨v, o, rfl, rfl⟩
  case destroy a =>
    cases hg : w.get a with
    | none => simp [hg] at he
    | some v => exact ⟨v, rfl⟩
  case push_back a x =>
    cases hg : w.get a with
    | none => simp [hg] at he
    | some v => exact ⟨v, rfl⟩
  case push_back_copy a x =>
    cases hg : w.get a with
    | none => simp [hg] at he
    | some v => exact ⟨v, rfl⟩
  case insert a pos x =>
    cases hg : w.get a with
    | none => simp [hg] at he
    | some v =>
      refine ⟨v, rfl, ?_⟩
      by_contra hc
      simp [hg, size, hc] at he
  case insert_copy a pos x =>
    cases hg : w.get a with
    | none => simp [hg] at he
    | some v =>
      refine ⟨v, rfl, ?_⟩
      by_contra hc
      simp [hg, size, hc] at he
  case pop_back a =>
    cases hg : w.get a with
    | none => simp [hg] at he
    | some v =>
      refine ⟨v, rfl, ?_⟩
      intro hc
      simp [hg, size, hc] at he
  case erase a first last =>
    cases hg : w.get a with
    | none => simp [hg] at he
    | some v =>
      refine ⟨v, rfl, ?_⟩
      by_contra hc
      simp only [hg, Option.some_bind, size, hc, if_false] at he
      cases he
  case erase_at a pos =>
    cases hg : w.get a with
    | none => simp [hg] at he
    | some v =>
      refine ⟨v, rfl, ?_⟩
      by_contra hc
      simp [hg, size, hc] at he
  case clear a =>
    cases hg : w.get a with
    | none => simp [hg] at he
    | some v => exact ⟨v, rfl⟩
  case reserve a n =>
    cases hg : w.get a with
    | none => simp [hg] at he
    | some v => exact ⟨v, rfl⟩
  case shrink_to_fit a =>
    cases hg : w.get a with
    | none => simp [hg] at he
    | some v => exact ⟨v, rfl⟩
  case assign_elem a i x =>
    cases hg : w.get a with
    | none => simp [hg] at he
    | some v =>
      refine ⟨v, rfl, ?_⟩
      by_contra hc
      simp [hg, size, hc] at he
  case index_mut a i =>
    cases hg : w.get a with
    | none => simp [hg] at he
    | some v =>
      refine ⟨v, rfl, ?_⟩
      by_contra hc
      simp [hg, size, hc] at he
  case data a =>
    cases hg : w.get a with
    | none => simp [hg] at he
    | some v => exact ⟨v, rfl⟩
  case front a =>
    cases hg : w.get a with
    | none => simp [hg] at he
    | some v =>
      refine ⟨v, rfl, ?_⟩
      intro hc
      simp [hg, size, hc] at he
  case back a =>
    cases hg : w.get a with
    | none => simp [hg] at he
    | some v =>
      refine ⟨v, rfl, ?_⟩
      intro hc
      simp [hg, size, hc] at he

/-- A `push_back(T&&)` on a full container that returns had a block for the grown
capacity. -/
theorem fits_of_push_back {d : Nat} {h : Heap T} {v : socow_vector T} {x : T}
    {r : Heap T × socow_vector T} (hv : WF S h v) (e : push_back d S h v x = some r)
    (hfull : v._size = capacity S h v) : Fits T (2 * capacity S h v + 1) := by
  cases d with
  | zero => rw [push_back] at e; cases e
  | succ d =>
    rw [push_back] at e
    have hcond : ¬ ((decide (v.size < capacity S h v) && !shared h v) = true) := by
      simp [size, hfull]
    rw [if_neg hcond] at e
    by_contra hf
    have hS := hv.le_capacity
    have hnone := ctor_capacity_none (S := S) (h := h) (n := 2 * capacity S h v + 1)
      (by omega) hf
    simp only [size, hfull, if_true, hnone] at e
    cases e

/-- A `push_back(const T&)` on a full container that returns had a block for the grown
capacity. -/
theorem fits_of_push_back_copy {d : Nat} {h : Heap T} {v : socow_vector T} {x : T}
    {r : Heap T × socow_vector T} (hv : WF S h v) (e : push_back_copy d S h v x = some r)
    (hfull : v._size = capacity S h v) : Fits T (2 * capacity S h v + 1) := by
  cases d with
  | zero => rw [push_back_copy] at e; cases e
  | succ d =>
    rw [push_back_copy] at e
    have hcond : ¬ ((decide (v.size < capacity S h v) && !shared h v) = true) := by
      simp [size, hfull]
    rw [if_neg hcond] at e
    exact fits_of_push_back hv e hfull

/-- An `insert` on a full container that returns had a block for the grown capacity. -/
theorem fits_of_insert {d : Nat} {h : Heap T} {v : socow_vector T} {pos : Nat} {x : T}
    {r : Heap T × socow_vector T × Nat} (hv : WF S h v)
    (e : socow_vector.insert d S h v pos x = some r)
    (hfull : v._size = capacity S h v) : Fits T (2 * capacity S h v + 1) := by
  rw [socow_vector.insert] at e
  have hcond : ¬ ((decide (v.size ≠ capacity S h v) && !shared h v) = true) := by
    simp [size, hfull]
  rw [if_neg hcond] at e
  by_contra hf
  have hS := hv.le_capacity
  have hnone := ctor_capacity_none (S := S) (h := h) (n := 2 * capacity S h v + 1)
    (by omega) hf
  simp only [size, hfull, if_true, hnone] at e
  cases e

/-- A `reserve` above the capacity that returns had a block for its argument. -/
theorem fits_of_reserve {d : Nat} {h : Heap T} {v : socow_vector T} {n : Nat}
    {r : Heap T × socow_vector T} (hv : WF S h v) (e : reserve d S h v n = some r)
    (hn : capacity S h v < n) : Fits T n := by
  rw [reserve] at e
  have hcond : (decide (capacity S h v < n) || decide (v.size < n) && shared h v) = true := by
    simp [hn]
  rw [if_pos hcond] at e
  by_contra hf
  have hS := hv.le_capacity
  have hnone := ctor_capacity_none (S := S) (h := h) (n := n) (by omega) hf
  cases d with
  | zero => rw [expand] at e; cases e
  | succ d =>
    rw [expand] at e
    simp only [hnone] at e
    cases e

/-- An operation that runs to completion had blocks for its requests. -/
theorem room_of_exec (d : Nat) (hI : Inv S w) (op : Op T) {w' : World T}
    (he : exec d S w op = some w') : Room S w op := by
  cases op <;> simp only [exec, Room] at he ⊢
  case push_back a x =>
    intro v hg hfull
    rw [hg, Option.some_bind] at he
    cases hr : socow_vector.push_back d S w.heap v x with
    | none => rw [hr] at he; cases he
    | some r => exact fits_of_push_back (hI.1 _ _ hg) hr hfull
  case push_back_copy a x =>
    intro v hg hfull
    rw [hg, Option.some_bind] at he
    cases hr : socow_vector.push_back_copy d S w.heap v x with
    | none => rw [hr] at he; cases he
    | some r => exact fits_of_push_back_copy (hI.1 _ _ hg) hr hfull
  case insert a pos x =>
    intro v hg hfull
    rw [hg, Option.some_bind] at he
    split at he
    · cases hr : socow_vector.insert d S w.heap v pos x with
      | none => rw [hr] at he; cases he
      | some r => exact fits_of_insert (hI.1 _ _ hg) hr hfull
    · cases he
  case insert_copy a pos x =>
    intro v hg hfull
    rw [hg, Option.some_bind] at he
    split at he
    · cases hr : socow_vector.insert_copy d S w.heap v pos x with
      | none => rw [hr] at he; cases he
      | some r => exact fits_of_insert (hI.1 _ _ hg) hr hfull
    · cases he
  case reserve a n =>
    intro v hg hn
    rw [hg, Option.some_bind] at he
    cases hr : socow_vector.reserve d S w.heap v n with
    | none => rw [hr] at he; cases he
    | some r => exact fits_of_reserve (hI.1 _ _ hg) hr hn

end ExecAll

end World

namespace World

section Reach

variable {S : Nat} {w : World T}

/-- Every operation keeps the invariant. -/
theorem exec_inv (d : Nat) (hI : Inv S w) (op : Op T) {w' : World T}
    (he : exec (d + 9) S w op = some w') : Inv S w' := by
  obtain ⟨w'', e, I, _⟩ := exec_pre d hI op (pre_of_exec (d + 9) op he)
    (room_of_exec (d + 9) hI op he)
  rw [he] at e
  cases e
  exact I

/-- An operation leaves the objects it does not touch as they are. -/
theorem exec_keeps (d : Nat) (hI : Inv S w) (op : Op T) {w' : World T}
    (he : exec (d + 9) S w op = some w') (c : Nat) (hc : ¬ touches op c) : Keeps S w w' c := by
  obtain ⟨w'', e, _, K⟩ := exec_pre d hI op (pre_of_exec (d + 9) op he)
    (room_of_exec (d + 9) hI op he)
  rw [he] at e
  cases e
  exact K c hc

/-- The invariant holds in every reachable state. -/
theorem reachable_inv (hr : Reachable S w) : Inv S w := by
  induction hr with
  | init => exact inv_init
  | step d op _ he ih => exact exec_inv d ih op he

end Reach

end World

/-! ## Example states are reachable -/

section Examples

open World

theorem ex_inline_reachable : Reachable 2 ex_inline :=
  Reachable.step 0 (.push_back 0 8)
    (Reachable.step 0 (.push_back 0 7)
      (Reachable.step 0 .construct Reachable.init rfl) rfl) rfl

theorem ex_heap_reachable : Reachable 2 ex_heap :=
  Reachable.step 0 (.push_back 0 9) ex_inline_reachable rfl

theorem ex_shared_reachable : Reachable 2 ex_shared :=
  Reachable.step 0 (.copy_construct 0) ex_heap_reachable rfl

theorem ex_two_reachable : Reachable 2 ex_two :=
  Reachable.step 0 (.pop_back 0) ex_heap_reachable rfl

theorem ex_one_reachable : Reachable 2 ex_one :=
  Reachable.step 0 (.pop_back 0) ex_two_reachable rfl

theorem ex_one_shared_reachable : Reachable 2 ex_one_shared :=
  Reachable.step 0 (.copy_construct 0) ex_one_reachable rfl

theorem ex_mixed_reachable : Reachable 2 ex_mixed :=
  Reachable.step 0 (.push_back 1 5) (Reachable.step 0 .construct ex_two_reachable rfl) rfl

end Examples

/-! ## Runs of `push_back` -/

section PushAll

variable {T : Type} [Layout T] {S : Nat} {h : Heap T} {v : socow_vector T}

theorem push_all_append (d : Nat) (xs ys : List T) (s : Heap T × socow_vector T) :
    push_all d S (xs ++ ys) s = (push_all d S xs s).bind (push_all d S ys) := by
  induction xs generalizing s with
  | nil => simp [push_all]
  | cons x xs ih =>
    simp only [List.cons_append, push_all]
    cases push_back d S s.1 s.2 x with
    | none => rfl
    | some r => exact ih r

/-- A run of `push_back` that fits the capacity of an unshared container
happens in place. -/
theorem push_all_spec (d : Nat) (xs : List T) (hv : WF S h v)
    (hc : v._size + xs.length ≤ capacity S h v) (hs : shared h v = false) :
    ∃ h' v', push_all (d + 6) S xs (h, v) = some (h', v') ∧ WF S h' v' ∧
      elems h' v' = elems h v ++ xs.map some ∧ v'._size = v._size + xs.length ∧
      InPlace h v h' v' := by
  induction xs generalizing h v with
  | nil => exact ⟨h, v, rfl, hv, by simp, rfl, InPlace.refl h v⟩
  | cons x xs ih =>
    simp only [List.length_cons] at hc
    obtain ⟨h1, v1, e1, _, w1, l1, n1, c1, s1, p1⟩ := push_back_spec d x hv
      (fun he => absurd he (by omega))
    have ip := p1 (by omega) hs
    have hc1 : capacity S h1 v1 = capacity S h v := ip.capacity_eq hv.zero
    obtain ⟨h2, v2, e2, w2, l2, n2, p2⟩ := ih w1 (by rw [hc1, n1]; omega) s1
    refine ⟨h2, v2, ?_, w2, ?_, ?_, ip.trans p2⟩
    · simp only [push_all, e1, Option.bind_some]; exact e2
    · rw [l2, l1]; simp
    · rw [n2, n1]; simp only [List.length_cons]; omega

end PushAll

/-! ## Positions -/

section Positions

variable {T : Type} [Layout T] {S : Nat} {h h' : Heap T} {v v' : socow_vector T}

/-- Removing the element that was inserted at `pos` gives the list back. -/
theorem take_drop_insert_form {α : Type} (E : List α) (x : α) (pos : Nat) (hp : pos ≤ E.length) :
    (E.take pos ++ [x] ++ E.drop pos).take pos
      ++ (E.take pos ++ [x] ++ E.drop pos).drop (pos + 1) = E := by
  have hl : (E.take pos).length = pos := by simp [hp]
  have e1 : (E.take pos ++ [x] ++ E.drop pos).take pos = E.take pos := by
    rw [List.append_assoc, List.take_append_of_le_length (by omega), List.take_of_length_le
      (by omega)]
  have e2 : (E.take pos ++ [x] ++ E.drop pos).drop (pos + 1) = E.drop pos := by
    have : (E.take pos ++ [x]).length = pos + 1 := by simp [hl]
    rw [← this, List.drop_left]
  rw [e1, e2, List.take_append_drop]

/-- A member function that turns shared storage into private storage releases
one reference of the old block and leaves the rest of it as it was. -/
theorem Eff.released (e : Eff h v h' v') (hv : WF S h v) (hx : shared h v = true)
    (hx' : shared h' v' = false) :
    v.is_small = false ∧ (v'.is_small = true ∨ v'._buffer ≠ v._buffer) ∧
      ∃ b, lookup h v._buffer = some b ∧ 1 < b.refs ∧
        lookup h' v._buffer = some { b with refs := b.refs - 1 } := by
  have hs : v._small = false := by
    cases hs : v._small with
    | true => rw [shared_small hs] at hx; cases hx
    | false => rfl
  obtain ⟨b, hb, _⟩ := hv.block hs
  rw [shared_heap hs hb] at hx
  have hr : 1 < b.refs := of_decide_eq_true hx
  rcases e.own hs b hb with ⟨s', e', b', hb', _, _, hk⟩ | ⟨hne, hl⟩
  · exfalso
    rw [← e', hk hr] at hb'
    rw [shared_heap s' hb'] at hx'
    exact absurd hr (of_decide_eq_false hx')
  · refine ⟨hs, hne, b, hb, hr, ?_⟩
    rw [hl, if_neg (by omega)]

end Positions

/-! ## A copy and what happens to it afterwards -/

namespace World

section Copies

variable {T : Type} [Layout T] {S : Nat} {w0 w : World T} {ia ib : Nat} {a b : socow_vector T}

/-- The state after `b` was made a copy of `a`, by construction or by
assignment: `a` is as before, `b` holds what `a` holds, and a block that only
`a` referenced is now referenced by the two of them. -/
theorem copy_step (d : Nat) (hI : Inv S w0) (ha : w0.get ia = some a)
    (hc : (ib = w0.objs.length ∧ exec (d + 9) S w0 (.copy_construct ia) = some w) ∨
      (ib ≠ ia ∧ exec (d + 9) S w0 (.copy_assign ib ia) = some w)) :
    Inv S w ∧ ia ≠ ib ∧ Keeps S w0 w ia ∧ (∃ b, w.get ib = some b ∧ Same S a b) ∧
      (∀ p, points_to a p = true → w0.count p = 1 → w.count p = 2) := by
  have hla := get_lt ha
  rcases hc with ⟨e, he⟩ | ⟨hne, he⟩
  · refine ⟨exec_inv d hI _ he, by omega, exec_keeps d hI _ he ia (by simp [touches]), ?_, ?_⟩
    all_goals
      simp only [exec, ha, Option.some_bind, Option.some.injEq] at he
      subst he
    · exact ⟨_, by rw [e]; exact get_append_len, (ctor_copy_spec (hI.1 ia a ha)).1⟩
    · intro p hp h1
      rw [count_append w0.heap]
      have : ind (ctor_copy S w0.heap a).2 p = 1 := by
        simp [ind, (ctor_copy_spec (hI.1 ia a ha)).1.points_to_eq p, hp]
      have e0 : count ⟨w0.heap, w0.objs⟩ p = 1 := h1
      omega
  · obtain ⟨v, o, hv, ho⟩ := pre_of_exec _ _ he
    rw [ha] at ho
    cases ho
    have hne' : ia ≠ ib := fun e => hne e.symm
    obtain ⟨r, e, _, _, same, _⟩ := hI.run_copy_assign (d + 4) hv ha
    refine ⟨exec_inv d hI _ he, hne', exec_keeps d hI _ he ia (by simpa [touches] using hne'),
      ?_, ?_⟩
    all_goals
      simp only [exec, hv, ha, Option.some_bind, if_neg hne, e, Option.map_some',
        Option.some.injEq] at he
      subst he
    · exact ⟨r.2, get_put_same hv r, same⟩
    · intro p hp h1
      have hc := count_set_some hv r.1 r.2 p
      have h2 := ind_add_le_count ha hv hne' p
      have h3 : ind r.2 p = 1 := by simp [ind, same.points_to_eq p, hp]
      have h4 : ind a p = 1 := by simp [ind, hp]
      show count ⟨r.1, w0.objs.set ib (some r.2)⟩ p = 2
      omega

/-- A member function applied to `b` leaves another object `a` as it is. -/
theorem run_mutation (hI : Inv S w) (ha : w.get ia = some a) (hb : w.get ib = some b)
    (hne : ia ≠ ib) {f : Option (Heap T × socow_vector T)} {E : List (Option T)}
    (hf : ∃ h' v', f = some (h', v') ∧ Eff w.heap b h' v' ∧ WF S h' v' ∧ elems h' v' = E) :
    ∃ w', (f.map fun r => w.put ib r) = some w' ∧ w'.get ia = some a ∧
      elems w'.heap a = elems w.heap a ∧ ∃ b', w'.get ib = some b' ∧ elems w'.heap b' = E := by
  obtain ⟨h', v', e, r1, _, r3⟩ := hf
  obtain ⟨g, k, _⟩ := keeps_unary hI hb r1 hne a ha
  exact ⟨w.put ib (h', v'), by rw [e]; rfl, g, k, v', get_put_same hb _, r3⟩

end Copies

end World

/-! ## Storage modes after an operation -/

section Modes

variable {T : Type} [Layout T] {S : Nat} {h h' : Heap T} {v v' : socow_vector T}

/-- A heap-backed container has a capacity above `SMALL_SIZE`. -/
theorem WF.heap_capacity (hv : WF S h v) (hs : v._small = false) : S < capacity S h v := by
  obtain ⟨b, hb, _, _, hl, _⟩ := hv.block hs
  rw [capacity_heap hs hb]; exact hl

/-- A container with a capacity other than `SMALL_SIZE` is heap-backed. -/
theorem heap_of_capacity (hc : capacity S h v ≠ S) : v._small = false := by
  cases hs : v._small with
  | false => rfl
  | true => exact absurd (capacity_small hs) hc

/-- The block of a heap-backed container that is not shared has count one. -/
theorem WF.rc_one (hv : WF S h v) (hs : v._small = false) (hx : shared h v = false) :
    rc h v._buffer = 1 := by
  obtain ⟨b, hb, _, _, _, hr⟩ := hv.block hs
  rw [shared_heap hs hb] at hx
  rw [rc_of_lookup hb]
  have := of_decide_eq_false hx
  omega

/-- A shared container is heap-backed and its block has a count above one. -/
theorem WF.shared_iff (hv : WF S h v) :
    shared h v = true ↔ v._small = false ∧ 1 < rc h v._buffer := by
  cases hs : v._small with
  | true => simp [shared_small hs]
  | false =>
    obtain ⟨b, hb, _⟩ := hv.block hs
    rw [shared_heap hs hb, rc_of_lookup hb]
    simp

/-- What a shared container that keeps its capacity looks like after it got
private storage. -/
theorem Eff.privatised (e : Eff h v h' v') (hv : WF S h v) (hw : WF S h' v')
    (hx : shared h v = true) (hx' : shared h' v' = false)
    (hc : capacity S h' v' = capacity S h v) :
    v'.is_small = false ∧ v'._buffer ≠ v._buffer ∧ rc h' v'._buffer = 1 ∧
      ∃ b, lookup h v._buffer = some b ∧ 1 < b.refs ∧
        lookup h' v._buffer = some { b with refs := b.refs - 1 } := by
  obtain ⟨hs, hne, b, hb, hr, hl⟩ := e.released hv hx hx'
  simp only [is_small] at hs hne
  have hs' : v'._small = false :=
    heap_of_capacity (S := S) (h := h') (by rw [hc]; exact Nat.ne_of_gt (hv.heap_capacity hs))
  refine ⟨hs', ?_, hw.rc_one hs' hx', b, hb, hr, hl⟩
  rcases hne with hne | hne
  · rw [hs'] at hne; cases hne
  · exact hne

end Modes

/-! ## Reading elements -/

section Reads

variable {T : Type} [Layout T] {S : Nat} {h h' : Heap T} {v v' : socow_vector T}

/-- Reading slot `i < size()` of `cdata()` gives element `i`. -/
theorem read_elems (hv : WF S h v) {i : Nat} (hi : i < v._size) :
    ∃ x, (cdata h v).getD i none = some x ∧ (elems h v)[i]? = some (some x) := by
  obtain ⟨x, hx⟩ := hv.init hi
  refine ⟨x, ?_, ?_⟩
  · rw [getD_eq_join, hx]; rfl
  · rw [getElem?_elems, if_pos hi, hx]

/-- Containers with the same elements read the same at every index below
`size()`. -/
theorem read_congr (he : elems h' v' = elems h v) (hn : v'._size = v._size) {i : Nat}
    (hi : i < v._size) : (cdata h' v').getD i none = (cdata h v).getD i none := by
  have e := congrArg (fun l => l[i]?) he
  simp only [getElem?_elems, hn, if_pos hi] at e
  rw [getD_eq_join, getD_eq_join, e]

end Reads

/-! ## From heap-backed to inline -/

namespace World

section Demotion

variable {T : Type} [Layout T] {S : Nat} {w w' : World T} {a : Nat} {v v' : socow_vector T}

/-- The object at `a` after a member function of it ran. -/
theorem put_result (hg : w.get a = some v) {r : Heap T × socow_vector T}
    (he : some (w.put a r) = some w') (hv' : w'.get a = some v') :
    v' = r.2 ∧ w'.heap = r.1 := by
  cases he
  rw [get_put_same hg] at hv'
  cases hv'
  exact ⟨rfl, rfl⟩

/-- A member function that does not lower the capacity leaves a heap-backed
container heap-backed. -/
theorem no_demote {f : Option (Heap T × socow_vector T)} (hg : w.get a = some v)
    (he : (f.map fun r => w.put a r) = some w') (hv' : w'.get a = some v')
    (hw : WF S w.heap v) (hs : v._small = false) (hs' : v'._small = true)
    (hf : ∃ h1 v1, f = some (h1, v1) ∧ capacity S w.heap v ≤ capacity S h1 v1) : False := by
  obtain ⟨h1, v1, e, hc⟩ := hf
  rw [e] at he
  obtain ⟨e1, _⟩ := put_result hg he hv'
  subst e1
  have := hw.heap_capacity hs
  rw [capacity_small hs'] at hc
  omega

/-- The same for a member function that returns an iterator as well. -/
theorem no_demote_it {f : Option (Heap T × socow_vector T × Nat)} (hg : w.get a = some v)
    (he : (f.map fun r => w.put a (r.1, r.2.1)) = some w') (hv' : w'.get a = some v')
    (hw : WF S w.heap v) (hs : v._small = false) (hs' : v'._small = true)
    (hf : ∃ h1 v1 i, f = some (h1, v1, i) ∧ capacity S w.heap v ≤ capacity S h1 v1) :
    False := by
  obtain ⟨h1, v1, i, e, hc⟩ := hf
  rw [e] at he
  obtain ⟨e1, _⟩ := put_result hg he hv'
  subst e1
  have := hw.heap_capacity hs
  rw [capacity_small hs'] at hc
  omega

/-- The capacity after `push_back` or `insert` is not below the one before. -/
theorem growth_le {c k n : Nat} (hc : c = if n = k then 2 * k + 1 else k) : k ≤ c := by
  rw [hc]; split <;> omega

end Demotion

end World

/-! ## Blocks with several owners -/

section SharedBlocks

variable {T : Type} [Layout T] {S : Nat} {h h' : Heap T} {v v' o : socow_vector T}

/-- A member function leaves a block with a count above one in place, with
its slots and capacity. -/
theorem Eff.shared_block (e : Eff h v h' v') {p : Nat} {b : buffer T}
    (hb : lookup h p = some b) (hr : 1 < b.refs) :
    ∃ b', lookup h' p = some b' ∧ b'.data = b.data ∧ b'.capacity = b.capacity := by
  have hlt := lookup_lt hb
  by_cases hq : v._small = true ∨ p ≠ v._buffer
  · rw [e.other p hlt hq]
    exact ⟨b, hb, rfl, rfl⟩
  · simp only [not_or, Bool.not_eq_true, ne_eq, not_not] at hq
    obtain ⟨hs, hq⟩ := hq
    subst hq
    rcases e.own hs b hb with ⟨_, _, b', hb', _, _, hk⟩ | ⟨_, hl⟩
    · exact ⟨b', hb', by rw [hk hr], by rw [hk hr]⟩
    · rw [if_neg (by omega)] at hl
      exact ⟨_, hl, rfl, rfl⟩

/-- Copy construction changes no slot and no capacity, and lowers no count. -/
theorem ctor_copy_block (ho : WF S h o) {p : Nat} {b : buffer T} (hb : lookup h p = some b) :
    ∃ b', lookup (ctor_copy S h o).1 p = some b' ∧ b'.data = b.data ∧
      b'.capacity = b.capacity ∧ b.refs ≤ b'.refs := by
  obtain ⟨_, _, hsm, hhp⟩ := ctor_copy_spec ho
  cases hs : o._small with
  | true => rw [hsm hs]; exact ⟨b, hb, rfl, rfl, Nat.le_refl _⟩
  | false =>
    obtain ⟨bo, hbo, hq⟩ := hhp hs
    rw [hq]
    by_cases he : p = o._buffer
    · rw [if_pos he]
      rw [he, hbo] at hb; cases hb
      exact ⟨_, rfl, rfl, rfl, Nat.le_succ _⟩
    · rw [if_neg he]
      exact ⟨b, hb, rfl, rfl, Nat.le_refl _⟩

/-- A well-formed container stays well formed across a copy construction. -/
theorem ctor_copy_wf (ho : WF S h o) {u : socow_vector T} (hu : WF S h u) :
    WF S (ctor_copy S h o).1 u := by
  refine (@block_congr T _ S h (ctor_copy S h o).1 u hu ?_).1
  intro hs b hb
  obtain ⟨b', l, e1, e2, e3⟩ := ctor_copy_block ho hb
  obtain ⟨b0, hb0, _, _, _, hr⟩ := hu.block hs
  rw [hb] at hb0; cases hb0
  exact ⟨b', l, e1, e2, by omega⟩

/-- Copy assignment leaves a block with a count above one in place, with its
slots and capacity. -/
theorem assign_copy_block (d : Nat) (hv : WF S h v) (ho : WF S h o)
    {r : Heap T × socow_vector T} (er : assign_copy (d + 5) S h v o = some r)
    {p : Nat} {b : buffer T} (hb : lookup h p = some b) (hr : 1 < b.refs) :
    ∃ b', lookup r.1 p = some b' ∧ b'.data = b.data ∧ b'.capacity = b.capacity := by
  have w1 := ctor_copy_wf ho hv
  have so := (ctor_copy_spec ho).1
  have wt := so.wf_same (ctor_copy_wf ho ho)
  obtain ⟨h2, v2, e, ef, w2, _, _, ip, sm⟩ := clear_spec d w1
  simp only [assign_copy, e, Option.some_bind, Option.some.injEq] at er
  subst er
  obtain ⟨b1, l1, d1, c1, r1⟩ := ctor_copy_block ho hb
  obtain ⟨b2, l2, d2, c2⟩ := ef.shared_block l1 (by omega)
  obtain ⟨_, s2⟩ := swap_spec (S := S) v2 (ctor_copy S h o).2 w2.sdata_length
    wt.sdata_length w2.small_le wt.small_le
  simp only
  cases hs : (socow_vector.swap v2 (ctor_copy S h o).2).2._small with
  | true => rw [dtor_small hs]; exact ⟨b2, l2, d2.trans d1, c2.trans c1⟩
  | false =>
    have hs2 : v2._small = false := s2.2.1.symm.trans hs
    have hbuf := s2.2.2.2.1 hs2
    have hx : shared (ctor_copy S h o).1 v = false := by
      cases hx : shared (ctor_copy S h o).1 v with
      | false => rfl
      | true => rw [sm hx] at hs2; cases hs2
    have a := ip hx
    have hsv : v._small = false := a.small.symm.trans hs2
    have h1 := w1.rc_one hsv hx
    have hne : p ≠ (socow_vector.swap v2 (ctor_copy S h o).2).2._buffer := by
      intro e'
      rw [hbuf, a.buf] at e'
      rw [← e', rc_of_lookup l1] at h1
      omega
    obtain ⟨bq, hq, _⟩ := (s2.wf_same w2).block hs
    rw [lookup_dtor hs hq, if_neg hne]
    exact ⟨b2, l2, d2.trans d1, c2.trans c1⟩

/-- Move assignment leaves a block with a count above one in place, with its
slots and capacity. -/
theorem assign_move_block (d : Nat) (hv : WF S h v) (ho : WF S h o)
    {r : Heap T × socow_vector T × socow_vector T}
    (er : assign_move (d + 5) S h v o = some r)
    {p : Nat} {b : buffer T} (hb : lookup h p = some b) (hr : 1 < b.refs) :
    ∃ b', lookup r.1 p = some b' ∧ b'.data = b.data ∧ b'.capacity = b.capacity := by
  obtain ⟨h2, v2, e, ef, w2, _, _, ip, sm⟩ := clear_spec d hv
  obtain ⟨b2, l2, d2, c2⟩ := ef.shared_block hb hr
  obtain ⟨_, s2⟩ := swap_spec (S := S) v2 o w2.sdata_length ho.sdata_length w2.small_le
    ho.small_le
  simp only [assign_move, e, Option.some_bind] at er
  cases hs : (socow_vector.swap v2 o).2._small with
  | true =>
    simp only [is_small, hs, Bool.not_true, Bool.false_eq_true, if_false,
      Option.some.injEq] at er
    subst er
    exact ⟨b2, l2, d2, c2⟩
  | false =>
    simp only [is_small, hs, Bool.not_false, if_true, Option.some.injEq] at er
    subst er
    have hs2 : v2._small = false := s2.2.1.symm.trans hs
    have hbuf := s2.2.2.2.1 hs2
    have hx : shared h v = false := by
      cases hx : shared h v with
      | false => rfl
      | true => rw [sm hx] at hs2; cases hs2
    have a := ip hx
    have hsv : v._small = false := a.small.symm.trans hs2
    have h1 := hv.rc_one hsv hx
    have hne : ¬ p = (socow_vector.swap v2 o).2._buffer := by
      intro e'
      rw [hbuf, a.buf] at e'
      rw [← e', rc_of_lookup hb] at h1
      omega
    simp only
    rw [lookup_free, if_neg hne]
    exact ⟨b2, l2, d2, c2⟩

end SharedBlocks

/-! ## Sharers -/

namespace World

section Sharers

variable {T : Type} [Layout T] {S : Nat} {w w' : World T} {a : Nat} {v : socow_vector T}

theorem origin_same (w : World T) : Origin w w :=
  fun c v' g hs => Or.inr ⟨c, v', g, hs, rfl, rfl⟩

theorem quiet_same (w : World T) : Quiet w w :=
  fun _ b hb _ => ⟨b, hb, rfl, rfl⟩

/-- A member function whose result is unshared or unchanged. -/
theorem unary_sharing (hg : w.get a = some v) {h1 : Heap T}
    {v1 : socow_vector T} (e : Eff w.heap v h1 v1) (hw : WF S h1 v1)
    (hx : shared h1 v1 = false ∨ v1 = v) :
    Origin w (w.put a (h1, v1)) ∧ Quiet w (w.put a (h1, v1)) := by
  constructor
  · intro c v' g hs
    by_cases hc : c = a
    · subst hc
      rw [get_put_same hg] at g
      cases g
      rcases hx with hx | hx
      · exact Or.inl (hw.rc_one hs hx)
      · exact Or.inr ⟨c, v, hg, by rw [← hx]; exact hs, by rw [hx], by rw [hx]⟩
    · rw [get_put_other hg _ hc] at g
      exact Or.inr ⟨c, v', g, hs, rfl, rfl⟩
  · intro p b hb hr
    exact e.shared_block hb hr

/-- The same, read off the result of the member function. -/
theorem run_sharing (hg : w.get a = some v)
    {f : Option (Heap T × socow_vector T)}
    (he : (f.map fun r => w.put a r) = some w')
    (hf : ∃ h1 v1, f = some (h1, v1) ∧ Eff w.heap v h1 v1 ∧ WF S h1 v1 ∧
      (shared h1 v1 = false ∨ v1 = v)) :
    Origin w w' ∧ Quiet w w' := by
  obtain ⟨h1, v1, e, r1, r2, r3⟩ := hf
  rw [e] at he
  cases he
  exact unary_sharing hg r1 r2 r3

theorem run_sharing_it (hg : w.get a = some v)
    {f : Option (Heap T × socow_vector T × Nat)}
    (he : (f.map fun r => w.put a (r.1, r.2.1)) = some w')
    (hf : ∃ h1 v1 i, f = some (h1, v1, i) ∧ Eff w.heap v h1 v1 ∧ WF S h1 v1 ∧
      (shared h1 v1 = false ∨ v1 = v)) :
    Origin w w' ∧ Quiet w w' := by
  obtain ⟨h1, v1, i, e, r1, r2, r3⟩ := hf
  rw [e] at he
  cases he
  exact unary_sharing hg r1 r2 r3

/-- Sizes agree among sharers after a step, given where its containers come
from. -/
theorem Agree.step (hA : Agree w) (hI' : Inv S w') (ho : Origin w w') : Agree w' := by
  intro a b va vb ga gb sa sb hbuf
  by_cases hab : a = b
  · subst hab
    rw [ga] at gb
    cases gb
    rfl
  have hcount := ind_add_le_count ga gb hab va._buffer
  have i1 : ind va va._buffer = 1 := by simp [ind, points_to, sa]
  have i2 : ind vb va._buffer = 1 := by simp [ind, points_to, sb, hbuf]
  rw [← hI'.2.1] at hcount
  rcases ho a va ga sa with h1 | ⟨k1, o1, g1, s1, b1, n1⟩
  · omega
  rcases ho b vb gb sb with h2 | ⟨k2, o2, g2, s2, b2, n2⟩
  · rw [← hbuf] at h2; omega
  rw [← n1, ← n2]
  exact hA k1 k2 o1 o2 g1 g2 s1 s2 (by rw [b1, b2, hbuf])

end Sharers

end World

/-! ## Sharing across each operation -/

section ReserveSharing

variable {T : Type} [Layout T] {S : Nat} {h : Heap T} {v : socow_vector T}

/-- After `reserve` the container is unshared or as it was. -/
theorem reserve_sharing (d : Nat) (n : Nat) (hv : WF S h v)
    (hf : capacity S h v < n → Fits T n) :
    ∃ h' v', reserve (d + 6) S h v n = some (h', v') ∧ Eff h v h' v' ∧ WF S h' v' ∧
      (shared h' v' = false ∨ v' = v) := by
  have hle := hv.size_le_capacity
  by_cases hc : capacity S h v < n ∨ (v._size < n ∧ shared h v = true)
  · have hn : v._size ≤ n := by rcases hc with hc | hc <;> omega
    obtain ⟨h', v', e, r1, r2, _, _, _, r6, _⟩ := expand_spec d n hv hn
      (fun hS => (Nat.lt_or_ge (capacity S h v) n).elim hf (fun hge => hv.fits_le hge hS))
    refine ⟨h', v', ?_, r1, r2, Or.inl r6⟩
    rw [reserve]
    have : (decide (capacity S h v < n) || decide (v.size < n) && shared h v) = true := by
      simpa [size] using hc
    rw [if_pos this]; exact e
  · refine ⟨h, v, ?_, Eff.unchanged (fun hs => hv.buffer_lt hs), hv, Or.inr rfl⟩
    rw [reserve]
    have : ¬ (decide (capacity S h v < n) || decide (v.size < n) && shared h v) = true := by
      simpa [size] using hc
    rw [if_neg this]

/-- After `shrink_to_fit` the container is unshared or as it was. -/
theorem shrink_to_fit_sharing (d : Nat) (hv : WF S h v) :
    ∃ h' v', shrink_to_fit (d + 6) S h v = some (h', v') ∧ Eff h v h' v' ∧ WF S h' v' ∧
      (shared h' v' = false ∨ v' = v) := by
  obtain ⟨h', v', e, r1, r2, _, _, u, c⟩ := shrink_to_fit_spec d hv
  refine ⟨h', v', e, r1, r2, ?_⟩
  by_cases hc : v._small = true ∨ v._size = capacity S h v
  · exact Or.inr (u hc).2
  · simp only [not_or, Bool.not_eq_true] at hc
    exact Or.inl (c hc.1 hc.2).2.1

end ReserveSharing

namespace World

section ExecSharing

variable {T : Type} [Layout T] {S : Nat} {w w' : World T}

/-- What an operation does to sharing: where the heap-backed containers of the
new state come from, and that blocks with several owners keep their slots. -/
theorem exec_sharing (d : Nat) (hI : Inv S w) (op : Op T)
    (he : exec (d + 9) S w op = some w') : Origin w w' ∧ Quiet w w' := by
  cases op with
  | construct =>
    simp only [exec, Option.some.injEq] at he
    subst he
    refine ⟨?_, quiet_same w⟩
    intro c v' g hs
    rcases get_append_cases g with ⟨_, g1⟩ | ⟨_, g1⟩
    · exact Or.inr ⟨c, v', g1, hs, rfl, rfl⟩
    · cases g1
      simp [ctor] at hs
  | copy_construct src =>
    obtain ⟨o, ho⟩ := pre_of_exec _ _ he
    have wo := hI.1 _ _ ho
    simp only [exec, ho, Option.some_bind, Option.some.injEq] at he
    subst he
    have so := (ctor_copy_spec wo).1
    constructor
    · intro c v' g hs
      rcases get_append_cases g with ⟨_, g1⟩ | ⟨_, g1⟩
      · exact Or.inr ⟨c, v', g1, hs, rfl, rfl⟩
      · cases g1
        have hso : o._small = false := so.2.1.symm.trans hs
        exact Or.inr ⟨src, o, ho, hso, (so.2.2.2.1 hso).symm, so.1.symm⟩
    · intro p b hb _
      obtain ⟨b', l, e1, e2, _⟩ := ctor_copy_block wo hb
      exact ⟨b', l, e1, e2⟩
  | move_construct src =>
    obtain ⟨o, ho⟩ := pre_of_exec _ _ he
    have wo := hI.1 _ _ ho
    have hl := get_lt ho
    simp only [exec, ho, Option.some_bind, Option.some.injEq] at he
    subst he
    obtain ⟨s1, s2⟩ := swap_spec (ctor S) o (by simp [ctor]) wo.sdata_length
      (fun _ => Nat.zero_le _) wo.small_le
    refine ⟨?_, quiet_same w⟩
    intro c v' g hs
    rcases @get_append_cases T _ ⟨w.heap, w.objs.set src (some (ctor_move S o).2)⟩ w.heap _ c v'
      g with ⟨_, g1⟩ | ⟨_, g1⟩
    · simp only [World.get] at g1
      rw [getD_set_objs _ _ _ _ hl] at g1
      by_cases hc : c = src
      · rw [if_pos hc] at g1
        cases g1
        have : (ctor_move S o).2._small = true := s2.2.1
        rw [this] at hs
        cases hs
      · rw [if_neg hc] at g1
        exact Or.inr ⟨c, v', g1, hs, rfl, rfl⟩
    · cases g1
      have hso : o._small = false := s1.2.1.symm.trans hs
      exact Or.inr ⟨src, o, ho, hso, (s1.2.2.2.1 hso).symm, s1.1.symm⟩
  | copy_assign dst src =>
    obtain ⟨u, o, hu, ho⟩ := pre_of_exec _ _ he
    by_cases e : dst = src
    · simp only [exec, hu, ho, Option.some_bind, if_pos e, Option.some.injEq] at he
      subst he
      exact ⟨origin_same w, quiet_same w⟩
    · obtain ⟨r, er, _, _, same, _⟩ := hI.run_copy_assign (d + 4) hu ho
      simp only [exec, hu, ho, Option.some_bind, if_neg e, er, Option.map_some',
        Option.some.injEq] at he
      subst he
      constructor
      · intro c v' g hs
        by_cases hc : c = dst
        · subst hc
          rw [get_put_same hu] at g
          cases g
          have hso : o._small = false := same.2.1.symm.trans hs
          exact Or.inr ⟨src, o, ho, hso, (same.2.2.2.1 hso).symm, same.1.symm⟩
        · rw [get_put_other hu _ hc] at g
          exact Or.inr ⟨c, v', g, hs, rfl, rfl⟩
      · intro p b hb hr
        exact assign_copy_block (d + 4) (hI.1 _ _ hu) (hI.1 _ _ ho) er hb hr
  | move_assign dst src =>
    obtain ⟨u, o, hu, ho⟩ := pre_of_exec _ _ he
    by_cases e : dst = src
    · simp only [exec, hu, ho, Option.some_bind, if_pos e, Option.some.injEq] at he
      subst he
      exact ⟨origin_same w, quiet_same w⟩
    · obtain ⟨r, er, _, _, same, _, _, sm, _⟩ := hI.run_move_assign (d + 4) hu ho e
      simp only [exec, hu, ho, Option.some_bind, if_neg e, er, Option.map_some',
        Option.some.injEq] at he
      subst he
      constructor
      · intro c v' g hs
        simp only [World.get] at g
        rw [getD_set_objs _ _ _ _ (by simpa using get_lt ho)] at g
        by_cases hc : c = src
        · rw [if_pos hc] at g
          cases g
          rw [sm] at hs
          cases hs
        · rw [if_neg hc, getD_set_objs _ _ _ _ (get_lt hu)] at g
          by_cases hc' : c = dst
          · rw [if_pos hc'] at g
            cases g
            have hso : o._small = false := same.2.1.symm.trans hs
            exact Or.inr ⟨src, o, ho, hso, (same.2.2.2.1 hso).symm, same.1.symm⟩
          · rw [if_neg hc'] at g
            exact Or.inr ⟨c, v', g, hs, rfl, rfl⟩
      · intro p b hb hr
        exact assign_move_block (d + 4) (hI.1 _ _ hu) (hI.1 _ _ ho) er hb hr
  | swap a b =>
    obtain ⟨u, o, hu, ho⟩ := pre_of_exec _ _ he
    by_cases e : a = b
    · simp only [exec, hu, ho, Option.some_bind, if_pos e, Option.some.injEq] at he
      subst he
      exact ⟨origin_same w, quiet_same w⟩
    · have wu := hI.1 _ _ hu
      have wo := hI.1 _ _ ho
      obtain ⟨s1, s2⟩ := swap_spec (S := S) u o wu.sdata_length wo.sdata_length
        wu.small_le wo.small_le
      simp only [exec, hu, ho, Option.some_bind, if_neg e, Option.some.injEq] at he
      subst he
      refine ⟨?_, quiet_same w⟩
      intro c v' g hs
      simp only [World.get] at g
      rw [getD_set_objs _ _ _ _ (by simpa using get_lt ho)] at g
      by_cases hc : c = b
      · rw [if_pos hc] at g
        cases g
        have hsu : u._small = false := s2.2.1.symm.trans hs
        exact Or.inr ⟨a, u, hu, hsu, (s2.2.2.2.1 hsu).symm, s2.1.symm⟩
      · rw [if_neg hc, getD_set_objs _ _ _ _ (get_lt hu)] at g
        by_cases hc' : c = a
        · rw [if_pos hc'] at g
          cases g
          have hso : o._small = false := s1.2.1.symm.trans hs
          exact Or.inr ⟨b, o, ho, hso, (s1.2.2.2.1 hso).symm, s1.1.symm⟩
        · rw [if_neg hc'] at g
          exact Or.inr ⟨c, v', g, hs, rfl, rfl⟩
  | destroy a =>
    obtain ⟨u, hu⟩ := pre_of_exec _ _ he
    simp only [exec, hu, Option.some_bind, Option.some.injEq] at he
    subst he
    constructor
    · intro c v' g hs
      simp only [World.get] at g
      rw [getD_set_objs _ _ _ _ (get_lt hu)] at g
      by_cases hc : c = a
      · rw [if_pos hc] at g
        cases g
      · rw [if_neg hc] at g
        exact Or.inr ⟨c, v', g, hs, rfl, rfl⟩
    · intro p b hb hr
      exact (dtor_eff (S := S) (hI.1 _ _ hu)).shared_block hb hr
  | push_back a x =>
    obtain ⟨u, hu⟩ := pre_of_exec _ _ he
    have hR := room_of_exec _ hI _ he
    simp only [exec, hu, Option.some_bind] at he
    obtain ⟨h1, v1, e, r1, r2, _, _, _, r7, _⟩ := push_back_spec (d + 3) x (hI.1 _ _ hu) (hR u hu)
    exact run_sharing hu he ⟨h1, v1, e, r1, r2, Or.inl r7⟩
  | push_back_copy a x =>
    obtain ⟨u, hu⟩ := pre_of_exec _ _ he
    have hR := room_of_exec _ hI _ he
    simp only [exec, hu, Option.some_bind] at he
    obtain ⟨h1, v1, e, r1, r2, _, _, _, r7, _⟩ := push_back_copy_spec (d + 2) x (hI.1 _ _ hu) (hR u hu)
    exact run_sharing hu he ⟨h1, v1, e, r1, r2, Or.inl r7⟩
  | insert a pos x =>
    obtain ⟨u, hu, hpos⟩ := pre_of_exec _ _ he
    have hR := room_of_exec _ hI _ he
    simp only [exec, hu, Option.some_bind, size, hpos, if_true] at he
    obtain ⟨h1, v1, e, r1, r2, _, _, _, r7, _⟩ := insert_spec (d + 3) pos x (hI.1 _ _ hu) hpos
      (hR u hu)
    exact run_sharing_it hu he ⟨h1, v1, pos, e, r1, r2, Or.inl r7⟩
  | insert_copy a pos x =>
    obtain ⟨u, hu, hpos⟩ := pre_of_exec _ _ he
    have hR := room_of_exec _ hI _ he
    simp only [exec, hu, Option.some_bind, size, hpos, if_true, insert_copy] at he
    obtain ⟨h1, v1, e, r1, r2, _, _, _, r7, _⟩ := insert_spec (d + 3) pos x (hI.1 _ _ hu) hpos
      (hR u hu)
    exact run_sharing_it hu he ⟨h1, v1, pos, e, r1, r2, Or.inl r7⟩
  | pop_back a =>
    obtain ⟨u, hu, hn⟩ := pre_of_exec _ _ he
    simp only [exec, hu, Option.some_bind, size, hn, if_false] at he
    obtain ⟨h1, v1, e, r1, r2, _, _, _, r7, _⟩ := pop_back_spec (d + 5) (hI.1 _ _ hu) hn
    exact run_sharing hu he ⟨h1, v1, e, r1, r2, Or.inl r7⟩
  | erase a first last =>
    obtain ⟨u, hu, h1, h2⟩ := pre_of_exec _ _ he
    have hc : first ≤ last ∧ last ≤ u._size := ⟨h1, h2⟩
    simp only [exec, hu, Option.some_bind, size, hc, and_self, if_true] at he
    obtain ⟨h1, v1, e, r1, r2, _, _, _, r7, _⟩ :=
      erase_spec (d + 5) first last (hI.1 _ _ hu) h1 h2
    exact run_sharing_it hu he ⟨h1, v1, first, e, r1, r2, Or.inl r7⟩
  | erase_at a pos =>
    obtain ⟨u, hu, h1⟩ := pre_of_exec _ _ he
    simp only [exec, hu, Option.some_bind, size, h1, if_true, erase_at] at he
    obtain ⟨h1, v1, e, r1, r2, _, _, _, r7, _⟩ :=
      erase_spec (d + 5) pos (pos + 1) (hI.1 _ _ hu) (by omega) (by omega)
    exact run_sharing_it hu he ⟨h1, v1, pos, e, r1, r2, Or.inl r7⟩
  | clear a =>
    obtain ⟨u, hu⟩ := pre_of_exec _ _ he
    simp only [exec, hu, Option.some_bind] at he
    obtain ⟨h1, v1, e, r1, r2, _, r4⟩ := clear_not_shared (d + 4) (hI.1 _ _ hu)
    exact run_sharing hu he ⟨h1, v1, e, r1, r2, Or.inl r4⟩
  | reserve a n =>
    obtain ⟨u, hu⟩ := pre_of_exec _ _ he
    have hR := room_of_exec _ hI _ he
    simp only [exec, hu, Option.some_bind] at he
    exact run_sharing hu he (reserve_sharing (d + 3) n (hI.1 _ _ hu) (hR u hu))
  | shrink_to_fit a =>
    obtain ⟨u, hu⟩ := pre_of_exec _ _ he
    simp only [exec, hu, Option.some_bind] at he
    exact run_sharing hu he (shrink_to_fit_sharing (d + 3) (hI.1 _ _ hu))
  | assign_elem a i x =>
    obtain ⟨u, hu, hi⟩ := pre_of_exec _ _ he
    simp only [exec, hu, Option.some_bind, size, hi, if_true] at he
    obtain ⟨h1, v1, e, r1, r2, _, _, _, r7⟩ := assign_elem_spec (d + 1) i x (hI.1 _ _ hu) hi
    exact run_sharing hu he ⟨h1, v1, e, r1, r2, Or.inl r7⟩
  | index_mut a i =>
    obtain ⟨u, hu, hi⟩ := pre_of_exec _ _ he
    simp only [exec, hu, Option.some_bind, size, hi, if_true] at he
    rw [index_mut_eq] at he
    obtain ⟨h1, v1, e, r1, r2, _, _, _, r7, _⟩ := unshare_spec (d + 1) (hI.1 _ _ hu)
    exact run_sharing hu he ⟨h1, v1, e, r1, r2, Or.inl r7⟩
  | data a =>
    obtain ⟨u, hu⟩ := pre_of_exec _ _ he
    simp only [exec, hu, Option.some_bind] at he
    rw [data_eq] at he
    obtain ⟨h1, v1, e, r1, r2, _, _, _, r7, _⟩ := unshare_spec (d + 1) (hI.1 _ _ hu)
    exact run_sharing hu he ⟨h1, v1, e, r1, r2, Or.inl r7⟩
  | front a =>
    obtain ⟨u, hu, hn⟩ := pre_of_exec _ _ he
    simp only [exec, hu, Option.some_bind, size, hn, if_false] at he
    rw [front_eq] at he
    obtain ⟨h1, v1, e, r1, r2, _, _, _, r7, _⟩ := unshare_spec (d + 1) (hI.1 _ _ hu)
    exact run_sharing hu he ⟨h1, v1, e, r1, r2, Or.inl r7⟩
  | back a =>
    obtain ⟨u, hu, hn⟩ := pre_of_exec _ _ he
    simp only [exec, hu, Option.some_bind, size, hn, if_false] at he
    rw [back_eq] at he
    obtain ⟨h1, v1, e, r1, r2, _, _, _, r7, _⟩ := unshare_spec d (hI.1 _ _ hu)
    exact run_sharing hu he ⟨h1, v1, e, r1, r2, Or.inl r7⟩

/-- Sharers agree on the size in every reachable state. -/
theorem reachable_agree (hr : Reachable S w) : Agree w := by
  induction hr with
  | init =>
    intro a b va vb ga
    simp [World.get] at ga
  | step d op hr' he ih =>
    exact ih.step (exec_inv d (reachable_inv hr') op he)
      (exec_sharing d (reachable_inv hr') op he).1

end ExecSharing

end World

/-! ## Allocation failure -/

section AllocFailure

variable {T : Type} [Layout T] {S : Nat} {h h' : Heap T} {v v' : socow_vector T} {ok : Bool}

/-- A member function allocates at most one block. -/
theorem Eff.length_le (e : Eff h v h' v') : h'.length ≤ h.length + 1 := by
  rcases e.alloc with h0 | ⟨h0, _⟩ <;> omega

/-- A member function that leaves the container inline allocated nothing. -/
theorem Eff.length_small (e : Eff h v h' v') (hs : v'._small = true) :
    h'.length = h.length := by
  rcases e.alloc with h0 | ⟨_, h1, _⟩
  · exact h0
  · rw [hs] at h1; cases h1

/-- A call that runs without reaching the allocator. -/
theorem Safe.of_done {res : Option (Outcome T)} {f : Option (Heap T × socow_vector T)}
    {s : Heap T × socow_vector T} (hr : res = some (.done s)) (hf : f = some s)
    (hl : s.1.length = h.length) : Safe ok h v res f := by
  refine ⟨.done s, hr, (fun s' hc => by cases hc), ?_⟩
  intro s' hc
  cases hc
  exact ⟨hf, by omega, fun _ => hl⟩

/-- A call whose first statement is the construction of `tmp` with a capacity
above `SMALL_SIZE`. -/
theorem Safe.of_alloc {res : Option (Outcome T)} {f : Option (Heap T × socow_vector T)}
    {s : Heap T × socow_vector T} {n : Nat} (hn : S < n) (hr : res = some (.done s))
    (hf : f = some s) (hl : s.1.length ≤ h.length + 1) :
    Safe ok h v
      (match ctor_capacity_try ok S h n with
        | none => some (.bad_alloc (h, v))
        | some _ => res) f := by
  cases ok with
  | true =>
    simp only [ctor_capacity_try, if_neg (Nat.not_le_of_lt hn), if_true]
    refine ⟨.done s, hr, (fun s' hc => by cases hc), ?_⟩
    intro s' hc
    cases hc
    exact ⟨hf, hl, fun hc => by cases hc⟩
  | false =>
    simp only [ctor_capacity_try, if_neg (Nat.not_le_of_lt hn), Bool.false_eq_true, if_false]
    refine ⟨.bad_alloc (h, v), rfl, ?_, fun s' hc => by cases hc⟩
    intro s' hc
    cases hc
    exact ⟨rfl, rfl⟩

/-- The capacity asked for by the reallocating branch of `push_back` and
`insert` is above `SMALL_SIZE`. -/
theorem realloc_capacity_gt (hv : WF S h v)
    (hc : ¬ (v._size ≠ capacity S h v ∧ shared h v = false)) :
    S < (if v.size = capacity S h v then 2 * capacity S h v + 1 else capacity S h v) := by
  have hle := hv.le_capacity
  simp only [size]
  split
  · omega
  · rename_i hne
    have hsh : shared h v = true := by
      by_contra hcon
      exact hc ⟨hne, by simpa using hcon⟩
    exact hv.heap_capacity (hv.shared_iff.1 hsh).1

/-- `expand` under a failing allocator. -/
theorem expand_try_safe (d n : Nat) (hv : WF S h v) (hn : v._size ≤ n)
    (hf : S < n → Fits T n) :
    Safe ok h v (expand_try ok (d + 6) S h v n) (expand (d + 6) S h v n) := by
  obtain ⟨h', v', e, ef, _, _, _, _, _, sm⟩ := expand_spec d n hv hn hf
  unfold expand_try
  by_cases hc : n ≤ S
  · simp only [ctor_capacity_try, if_pos hc]
    exact Safe.of_done (by rw [e]; rfl) e (ef.length_small (by rw [sm]; exact decide_eq_true hc))
  · exact Safe.of_alloc (by omega) (by rw [e]; rfl) e ef.length_le

/-- `unshare` under a failing allocator. -/
theorem unshare_try_safe (d : Nat) (hv : WF S h v) :
    Safe ok h v (unshare_try ok (d + 7) S h v) (unshare (d + 7) S h v) := by
  cases hx : shared h v with
  | false =>
    have e : unshare (d + 7) S h v = some (h, v) := unshare_excl (d + 6) hx
    exact Safe.of_done (by simp [unshare_try, hx]) e rfl
  | true =>
    have e : unshare (d + 7) S h v = expand (d + 6) S h v (capacity S h v) := by
      rw [unshare]; simp [hx]
    have e' : unshare_try ok (d + 7) S h v = expand_try ok (d + 6) S h v (capacity S h v) := by
      rw [unshare_try]; simp [hx]
    rw [e, e']
    exact expand_try_safe d _ hv hv.size_le_capacity
      (fun hS => hv.fits_le (Nat.le_refl _) hS)

/-- `push_back(T&&)` under a failing allocator. -/
theorem push_back_try_safe (d : Nat) (x : T) (hv : WF S h v)
    (hf : v._size = capacity S h v → Fits T (2 * capacity S h v + 1)) :
    Safe ok h v (push_back_try ok (d + 6) S h v x) (push_back (d + 6) S h v x) := by
  obtain ⟨h', v', e, ef, _, _, _, _, _, ip⟩ := push_back_spec d x hv hf
  have hle := hv.size_le_capacity
  unfold push_back_try
  by_cases hc : v._size < capacity S h v ∧ shared h v = false
  · have : (decide (v.size < capacity S h v) && !shared h v) = true := by
      simpa [size] using hc
    rw [if_pos this]
    exact Safe.of_done (by rw [e]; rfl) e (ip hc.1 hc.2).len
  · have : ¬ (decide (v.size < capacity S h v) && !shared h v) = true := by
      simpa [size] using hc
    rw [if_neg this]
    exact Safe.of_alloc (realloc_capacity_gt hv (fun hcon => hc ⟨by omega, hcon.2⟩))
      (by rw [e]; rfl) e ef.length_le

/-- `push_back(const T&)` under a failing allocator. -/
theorem push_back_copy_try_safe (d : Nat) (x : T) (hv : WF S h v)
    (hf : v._size = capacity S h v → Fits T (2 * capacity S h v + 1)) :
    Safe ok h v (push_back_copy_try ok (d + 7) S h v x) (push_back_copy (d + 7) S h v x) := by
  obtain ⟨h', v', e, ef, _, _, _, _, _, ip⟩ := push_back_copy_spec d x hv hf
  by_cases hc : v._size < capacity S h v ∧ shared h v = false
  · have : (decide (v.size < capacity S h v) && !shared h v) = true := by
      simpa [size] using hc
    rw [push_back_copy_try, if_pos this]
    exact Safe.of_done (by rw [e]; rfl) e (ip hc.1 hc.2).len
  · have : ¬ (decide (v.size < capacity S h v) && !shared h v) = true := by
      simpa [size] using hc
    have e' : push_back_copy (d + 7) S h v x = push_back (d + 6) S h v x := by
      rw [push_back_copy, if_neg this]
    rw [push_back_copy_try, if_neg this, e']
    exact push_back_try_safe d x hv hf

/-- `insert` under a failing allocator. -/
theorem insert_try_safe (d pos : Nat) (x : T) (hv : WF S h v) (hp : pos ≤ v._size)
    (hf : v._size = capacity S h v → Fits T (2 * capacity S h v + 1)) :
    Safe ok h v (insert_try ok (d + 6) S h v pos x)
      ((socow_vector.insert (d + 6) S h v pos x).map fun r => (r.1, r.2.1)) := by
  obtain ⟨h', v', e, ef, _, _, _, _, _, ip⟩ := insert_spec d pos x hv hp hf
  unfold insert_try
  by_cases hc : v._size ≠ capacity S h v ∧ shared h v = false
  · have : (decide (v.size ≠ capacity S h v) && !shared h v) = true := by
      simpa [size] using hc
    rw [if_pos this]
    exact Safe.of_done (by rw [e]; rfl) (by rw [e]; rfl) (ip hc.1 hc.2).len
  · have : ¬ (decide (v.size ≠ capacity S h v) && !shared h v) = true := by
      simpa [size] using hc
    rw [if_neg this]
    exact Safe.of_alloc (realloc_capacity_gt hv hc) (by rw [e]; rfl) (by rw [e]; rfl)
      ef.length_le

/-- `pop_back` under a failing allocator. -/
theorem pop_back_try_safe (d : Nat) (hv : WF S h v) (hn : v._size ≠ 0) :
    Safe ok h v (pop_back_try ok (d + 4) S h v) (pop_back (d + 4) S h v) := by
  obtain ⟨h', v', e, ef, _, _, _, _, _, ip, _⟩ := pop_back_spec d hv hn
  unfold pop_back_try
  cases hx : shared h v with
  | false =>
    simp only [Bool.false_eq_true, if_false]
    exact Safe.of_done (by rw [e]; rfl) e (ip hx).len
  | true =>
    simp only [if_true]
    exact Safe.of_alloc (hv.heap_capacity (hv.shared_iff.1 hx).1) (by rw [e]; rfl) e
      ef.length_le

/-- `erase` under a failing allocator. -/
theorem erase_try_safe (d first last : Nat) (hv : WF S h v) (hf : first ≤ last)
    (hl : last ≤ v._size) :
    Safe ok h v (erase_try ok (d + 4) S h v first last)
      ((erase (d + 4) S h v first last).map fun r => (r.1, r.2.1)) := by
  obtain ⟨h', v', e, ef, _, _, _, _, _, ip⟩ := erase_spec d first last hv hf hl
  unfold erase_try
  cases hx : shared h v with
  | false =>
    simp only [Bool.false_eq_true, if_false]
    exact Safe.of_done (by rw [e]; rfl) (by rw [e]; rfl) (ip hx).len
  | true =>
    simp only [if_true]
    exact Safe.of_alloc (hv.heap_capacity (hv.shared_iff.1 hx).1) (by rw [e]; rfl)
      (by rw [e]; rfl) ef.length_le

/-- `reserve` under a failing allocator. -/
theorem reserve_try_safe (d n : Nat) (hv : WF S h v)
    (hf : capacity S h v < n → Fits T n) :
    Safe ok h v (reserve_try ok (d + 6) S h v n) (reserve (d + 6) S h v n) := by
  have hle := hv.size_le_capacity
  by_cases hc : capacity S h v < n ∨ (v._size < n ∧ shared h v = true)
  · have : (decide (capacity S h v < n) || decide (v.size < n) && shared h v) = true := by
      simpa [size] using hc
    rw [reserve_try, reserve, if_pos this, if_pos this]
    exact expand_try_safe d n hv (by rcases hc with hc | hc <;> omega)
      (fun hS => (Nat.lt_or_ge (capacity S h v) n).elim hf (fun hge => hv.fits_le hge hS))
  · have : ¬ (decide (capacity S h v < n) || decide (v.size < n) && shared h v) = true := by
      simpa [size] using hc
    rw [reserve_try, reserve, if_neg this, if_neg this]
    exact Safe.of_done rfl rfl rfl

/-- `shrink_to_fit` under a failing allocator. -/
theorem shrink_to_fit_try_safe (d : Nat) (hv : WF S h v) :
    Safe ok h v (shrink_to_fit_try ok (d + 6) S h v) (shrink_to_fit (d + 6) S h v) := by
  by_cases hc : (v.is_small || decide (v.size = capacity S h v)) = true
  · rw [shrink_to_fit_try, shrink_to_fit, if_pos hc, if_pos hc]
    exact Safe.of_done rfl rfl rfl
  · rw [shrink_to_fit_try, shrink_to_fit, if_neg hc, if_neg hc]
    exact expand_try_safe d _ hv (Nat.le_refl _)
      (fun hS => hv.fits_le hv.size_le_capacity hS)

end AllocFailure

/-! ## Isolation of a copy under every operation -/

section Isolation

open World

variable {T : Type} [Layout T] {S : Nat} {w0 w : World T} {ia : Nat} {a : socow_vector T}

/-- An operation that does not name `ia` as an object it modifies leaves it alone. -/
theorem World.leaves_of_pre (d : Nat) (hI : Inv S w) (ga : w.get ia = some a)
    (ea : elems w.heap a = elems w0.heap a) (op : Op T) (hp : Pre w op) (hr : Room S w op)
    (ht : ¬ touches op ia) : Leaves d S w0 w ia a op := by
  obtain ⟨w', e, _, K⟩ := exec_pre d hI op hp hr
  obtain ⟨g, k, _⟩ := K ia ht a ga
  exact ⟨w', e, g, k.trans ea⟩

/-- A live block is referenced by a live object. -/
theorem World.Inv.referenced (hI : Inv S w) {p : Nat} {b : buffer T}
    (hb : lookup w.heap p = some b) : ∃ c v, w.get c = some v ∧ points_to v p = true := by
  have h1 := hI.2.2 p b hb
  have h2 := hI.2.1 p
  rw [rc_of_lookup hb, count_eq] at h2
  have hpos : 0 < w.objs.countP (fun o => match o with
      | some v => points_to v p
      | none => false) := by omega
  obtain ⟨o, ho, hq⟩ := List.countP_pos_iff.mp hpos
  cases o with
  | none => cases hq
  | some v =>
    obtain ⟨c, hc, e⟩ := List.getElem_of_mem ho
    refine ⟨c, v, ?_, hq⟩
    simp only [World.get, List.getD_eq_getElem?_getD, List.getElem?_eq_getElem hc, e]
    rfl

end Isolation

/-! ## The claims -/

section Claims

open World

/-- C2. Reference-count invariant: in every state reachable from the empty
state through the public operations, a live block's `refs` field equals the
number of live containers that reference it and that number is at least one;
an address without a live block (never allocated, or freed) is referenced by no
container.  Hence a block is live exactly as long as some container references
it: it is neither leaked nor freed early. -/
theorem refcount_invariant (S : Nat) (w : World T) (hr : Reachable S w) (p : Nat) :
    match lookup w.heap p with
    | some b => b.refs = w.count p ∧ 1 ≤ w.count p
    | none => w.count p = 0 := by
  have hI := reachable_inv hr
  have h1 := hI.2.1 p
  cases hb : lookup w.heap p with
  | none =>
    simp only []
    rw [rc_of_none hb] at h1
    exact h1.symm
  | some b =>
    simp only []
    rw [rc_of_lookup hb] at h1
    have := hI.2.2 p b hb
    exact ⟨h1, by omega⟩

theorem refcount_invariant_witness :
    Reachable 2 ex_shared ∧
    (match lookup ex_shared.heap 0 with
     | some b => b.refs = ex_shared.count 0 ∧ 1 ≤ ex_shared.count 0
     | none => ex_shared.count 0 = 0) :=
  ⟨ex_shared_reachable, refcount_invariant 2 ex_shared ex_shared_reachable 0⟩

/-- C5. `size() ≤ capacity()` holds for every live container in every state
reachable from the empty state through the public operations. -/
theorem size_le_capacity_invariant (S : Nat) (w : World T) (hr : Reachable S w) (a : Nat)
    (v : socow_vector T) (hv : w.get a = some v) : v.size ≤ capacity S w.heap v :=
  ((reachable_inv hr).1 a v hv).size_le_capacity

theorem size_le_capacity_invariant_witness :
    Reachable 2 ex_shared ∧ ex_shared.get 1 = some ⟨3, false, [none, none], 0⟩ ∧
    (⟨3, false, [none, none], 0⟩ : socow_vector Nat).size
      ≤ capacity 2 ex_shared.heap ⟨3, false, [none, none], 0⟩ :=
  ⟨ex_shared_reachable, rfl,
    size_le_capacity_invariant 2 ex_shared ex_shared_reachable 1 _ rfl⟩

/-- C3. Copy construction: the copy has the size and the elements of the source,
and the source keeps its elements.  From a heap-backed source no element is
copied: the copy references the source's block, whose count goes up by exactly
one, nothing is allocated and every block keeps its slots and capacity.  From
an inline source the elements are duplicated into the copy's own inline array
and the heap is untouched. -/
theorem copy_construct_spec (S : Nat) (h : Heap T) (a : socow_vector T) (ha : WF S h a) :
    (ctor_copy S h a).2.size = a.size ∧
    elems (ctor_copy S h a).1 (ctor_copy S h a).2 = elems h a ∧
    elems (ctor_copy S h a).1 a = elems h a ∧
    (a.is_small = false →
      (ctor_copy S h a).2.is_small = false ∧ (ctor_copy S h a).2._buffer = a._buffer ∧
      rc (ctor_copy S h a).1 a._buffer = rc h a._buffer + 1 ∧
      (ctor_copy S h a).1.length = h.length ∧
      (∀ q b, lookup h q = some b →
        ∃ b', lookup (ctor_copy S h a).1 q = some b' ∧ b'.data = b.data ∧
          b'.capacity = b.capacity ∧ (q ≠ a._buffer → b' = b))) ∧
    (a.is_small = true →
      (ctor_copy S h a).2.is_small = true ∧ (ctor_copy S h a).1 = h ∧
      elems (ctor_copy S h a).1 (ctor_copy S h a).2
        = (ctor_copy S h a).2._sdata.take a.size) := by
  obtain ⟨hsame, hlen, hsm, hhp⟩ := ctor_copy_spec ha
  have hkeep : ∀ q b, lookup h q = some b →
      ∃ b', lookup (ctor_copy S h a).1 q = some b' ∧ b'.data = b.data ∧
        b'.capacity = b.capacity ∧ (q ≠ a._buffer → b' = b) := by
    intro q b hb
    cases hs : a._small with
    | true => rw [hsm hs]; exact ⟨b, hb, rfl, rfl, fun _ => rfl⟩
    | false =>
      obtain ⟨bo, hbo, hq⟩ := hhp hs
      rw [hq]
      by_cases he : q = a._buffer
      · rw [if_pos he]
        rw [he, hbo] at hb; cases hb
        exact ⟨_, rfl, rfl, rfl, fun hc => absurd he hc⟩
      · rw [if_neg he]
        exact ⟨b, hb, rfl, rfl, fun _ => rfl⟩
  have hview := @block_congr T _ S h (ctor_copy S h a).1 a ha (by
    intro hs b hb
    obtain ⟨b', l, e1, e2, _⟩ := hkeep _ b hb
    obtain ⟨bo, hbo, hq⟩ := hhp hs
    refine ⟨b', l, e1, e2, ?_⟩
    rw [hq, if_pos rfl] at l
    cases l
    simp)
  refine ⟨hsame.1, ?_, hview.2.1, ?_, ?_⟩
  · rw [hsame.elems_eq]; exact hview.2.1
  · intro hs
    simp only [is_small] at hs
    obtain ⟨bo, hbo, hq⟩ := hhp hs
    refine ⟨hsame.2.1.trans hs, hsame.2.2.2.1 hs, ?_, hlen, hkeep⟩
    rw [rc_of_lookup hbo, rc_of_lookup (by rw [hq, if_pos rfl])]
  · intro hs
    simp only [is_small] at hs
    refine ⟨hsame.2.1.trans hs, hsm hs, ?_⟩
    simp only [elems, size, hsame.1]
    rw [cdata_small (hsame.2.1.trans hs)]

theorem copy_construct_spec_witness :
    WF 2 ex_heap.heap (⟨3, false, [none, none], 0⟩ : socow_vector Nat) ∧
    rc (ctor_copy 2 ex_heap.heap (⟨3, false, [none, none], 0⟩ : socow_vector Nat)).1 0
      = rc ex_heap.heap 0 + 1 :=
  ⟨by decide,
    ((copy_construct_spec 2 ex_heap.heap ⟨3, false, [none, none], 0⟩ (by decide)).2.2.2.1
      rfl).2.2.1⟩

/-- C6. Small-buffer promotion: a default-constructed container is inline and
empty; after `k ≤ S` calls of `push_back` it is still inline, with capacity `S`
and the pushed elements, and the heap is as before; the push after `S` elements
moves it to a heap block of capacity `2 * S + 1` with reference count one that
holds the earlier elements followed by the new one, when the byte count of a
block for `2 * S + 1` elements is a value of `std::size_t`. -/
theorem small_buffer_promotion (d S : Nat) (h : Heap T) (xs : List T) (x : T) :
    (ctor S : socow_vector T).is_small = true ∧ (ctor S : socow_vector T).size = 0 ∧
    (xs.length ≤ S →
      ∃ h1 v1, push_all (d + 6) S xs (h, ctor S) = some (h1, v1) ∧
        v1.is_small = true ∧ capacity S h1 v1 = S ∧ v1.size = xs.length ∧
        elems h1 v1 = xs.map some ∧ (∀ p, lookup h1 p = lookup h p)) ∧
    (xs.length = S → Fits T (2 * S + 1) →
      ∃ h2 v2, push_all (d + 6) S (xs ++ [x]) (h, ctor S) = some (h2, v2) ∧
        v2.is_small = false ∧ capacity S h2 v2 = 2 * S + 1 ∧ rc h2 v2._buffer = 1 ∧
        v2.size = S + 1 ∧ elems h2 v2 = (xs ++ [x]).map some) := by
  have hw : WF S h (ctor S : socow_vector T) := wf_ctor
  have hcap : capacity S h (ctor S : socow_vector T) = S := capacity_small rfl
  have hel : elems h (ctor S : socow_vector T) = [] := by simp [elems, size, ctor]
  have small : xs.length ≤ S →
      ∃ h1 v1, push_all (d + 6) S xs (h, ctor S) = some (h1, v1) ∧ WF S h1 v1 ∧
        v1._small = true ∧ capacity S h1 v1 = S ∧ v1._size = xs.length ∧
        elems h1 v1 = xs.map some ∧ (∀ p, lookup h1 p = lookup h p) := by
    intro hl
    obtain ⟨h1, v1, e1, w1, l1, n1, ip⟩ :=
      push_all_spec d xs hw (by rw [hcap]; simpa [ctor] using hl) (shared_small rfl)
    refine ⟨h1, v1, e1, w1, ip.small, ?_, ?_, ?_, fun p => ip.other p (Or.inl rfl)⟩
    · rw [ip.capacity_eq hw.zero, hcap]
    · rw [n1]; simp [ctor]
    · rw [l1, hel]; rfl
  refine ⟨rfl, rfl, ?_, ?_⟩
  · intro hl
    obtain ⟨h1, v1, e1, _, s1, c1, n1, l1, o1⟩ := small hl
    exact ⟨h1, v1, e1, s1, c1, n1, l1, o1⟩
  · intro hl hfit
    obtain ⟨h1, v1, e1, w1, s1, c1, n1, l1, _⟩ := small (Nat.le_of_eq hl)
    obtain ⟨h2, v2, e2, _, w2, l2, n2, c2, s2, _⟩ := push_back_spec d x w1
      (fun _ => by rw [c1]; exact hfit)
    rw [if_pos (by rw [c1, n1, hl]), c1] at c2
    have hs2 : v2._small = false := by
      cases hs : v2._small with
      | false => rfl
      | true => rw [capacity_small hs] at c2; omega
    refine ⟨h2, v2, ?_, hs2, c2, ?_, ?_, ?_⟩
    · rw [push_all_append, e1]
      simp [push_all, e2]
    · obtain ⟨b, hb, _, _, _, hr⟩ := w2.block hs2
      rw [shared_heap hs2 hb] at s2
      rw [rc_of_lookup hb]
      have := of_decide_eq_false s2
      omega
    · simp only [size]; rw [n2, n1, hl]
    · rw [l2, l1]; simp

/-- C10. `swap` between two distinct containers, whatever their storage
modes: the heap is left as it is (no block changes contents or reference
count), and afterwards each container holds exactly what the other held: its
size, its mode, its elements, its capacity and, when heap-backed, its block.
With `S = 4`, swapping an inline container of size 2 with a heap-backed one of
size 6 leaves the former inline one heap-backed with size 6 and the other's
block, and the other inline with size 2 and the first one's elements. -/
theorem swap_exchanges (d S : Nat) (w : World T) (ia ib : Nat) (a b : socow_vector T)
    (ha : w.get ia = some a) (hb : w.get ib = some b) (hne : ia ≠ ib)
    (hwa : WF S w.heap a) (hwb : WF S w.heap b) :
    ∃ a' b' w', exec d S w (.swap ia ib) = some w' ∧ w'.heap = w.heap ∧
      w'.get ia = some a' ∧ w'.get ib = some b' ∧
      (a'.size = b.size ∧ a'.is_small = b.is_small ∧ elems w.heap a' = elems w.heap b ∧
        capacity S w.heap a' = capacity S w.heap b ∧
        (b.is_small = false → a'._buffer = b._buffer) ∧ WF S w.heap a') ∧
      (b'.size = a.size ∧ b'.is_small = a.is_small ∧ elems w.heap b' = elems w.heap a ∧
        capacity S w.heap b' = capacity S w.heap a ∧
        (a.is_small = false → b'._buffer = a._buffer) ∧ WF S w.heap b') ∧
      (S = 4 → a.is_small = true → a.size = 2 → b.is_small = false → b.size = 6 →
        a'.is_small = false ∧ a'.size = 6 ∧ a'._buffer = b._buffer ∧
        b'.is_small = true ∧ b'.size = 2 ∧ b'._sdata.take 2 = a._sdata.take 2) := by
  obtain ⟨s1, s2⟩ := swap_spec (S := S) a b hwa.sdata_length hwb.sdata_length
    hwa.small_le hwb.small_le
  have la := get_lt ha
  have lb := get_lt hb
  refine ⟨(socow_vector.swap a b).1, (socow_vector.swap a b).2,
    ⟨w.heap, (w.objs.set ia (some (socow_vector.swap a b).1)).set ib
      (some (socow_vector.swap a b).2)⟩, ?_, rfl, ?_, ?_, ?_, ?_, ?_⟩
  · simp only [exec, ha, hb, Option.bind_some, if_neg hne]
    rfl
  · simp only [World.get]
    rw [getD_set_objs _ _ _ _ (by simpa using lb), if_neg hne, getD_set_objs _ _ _ _ la,
      if_pos rfl]
  · simp only [World.get]
    rw [getD_set_objs _ _ _ _ (by simpa using lb), if_pos rfl]
  · exact ⟨s1.1, s1.2.1, s1.elems_eq, s1.capacity_same, s1.2.2.2.1, s1.wf_same hwb⟩
  · exact ⟨s2.1, s2.2.1, s2.elems_eq, s2.capacity_same, s2.2.2.2.1, s2.wf_same hwa⟩
  · intro _ as an bs bn
    simp only [is_small, size] at as an bs bn
    refine ⟨s1.2.1.trans bs, s1.1.trans bn, s1.2.2.2.1 bs, s2.2.1.trans as, s2.1.trans an, ?_⟩
    have e := s2.elems_eq (h := w.heap)
    simp only [elems, size] at e
    rw [cdata_small (s2.2.1.trans as), cdata_small as, s2.1, an] at e
    exact e

/-- An inline container of size 2 and a heap-backed one of size 6, `S = 4`. -/
theorem swap_exchanges_witness :
    ∃ a' b' w', exec 0 4
        (⟨[some ⟨9, 1, [some 1, some 2, some 3, some 4, some 5, some 6, none, none, none]⟩],
          [some ⟨2, true, [some 7, some 8, none, none], 0⟩,
            some ⟨6, false, [none, none, none, none], 0⟩]⟩ : World Nat) (.swap 0 1)
          = some w' ∧
      w'.get 0 = some a' ∧ w'.get 1 = some b' ∧
      a'.is_small = false ∧ a'.size = 6 ∧ a'._buffer = 0 ∧
      b'.is_small = true ∧ b'.size = 2 ∧ b'._sdata.take 2 = [some 7, some 8] := by
  obtain ⟨a', b', w', e, _, ga, gb, _, _, hx⟩ := swap_exchanges 0 4
    (⟨[some ⟨9, 1, [some 1, some 2, some 3, some 4, some 5, some 6, none, none, none]⟩],
      [some ⟨2, true, [some 7, some 8, none, none], 0⟩,
        some ⟨6, false, [none, none, none, none], 0⟩]⟩ : World Nat) 0 1
    ⟨2, true, [some 7, some 8, none, none], 0⟩ ⟨6, false, [none, none, none, none], 0⟩
    rfl rfl (by decide) (by decide) (by decide)
  exact ⟨a', b', w', e, ga, gb, hx rfl rfl rfl rfl rfl⟩

/-- C8. `insert(pos, x)` with `pos ≤ size()` returns; the container then holds
the elements before `pos`, then `x`, then the elements from `pos` on, its size
is one more, and the returned iterator points to index `pos`.  The overload
taking `const T&` does the same.  Without sharing and with spare capacity the
update is in place (same storage, same capacity); without sharing and with no
spare capacity the new capacity is `2 * capacity() + 1`; with sharing the
container gets private storage and the old block keeps its contents with one
reference fewer.  On a full container the byte count of a block for
`2 * capacity() + 1` elements is taken to be a value of `std::size_t`. -/
theorem insert_correct (d S : Nat) (h : Heap T) (v : socow_vector T) (pos : Nat) (x : T)
    (hv : WF S h v) (hp : pos ≤ v.size)
    (hf : v.size = capacity S h v → Fits T (2 * capacity S h v + 1)) :
    ∃ h' v', socow_vector.insert (d + 9) S h v pos x = some (h', v', pos) ∧
      insert_copy (d + 9) S h v pos x = some (h', v', pos) ∧
      WF S h' v' ∧ v'.size = v.size + 1 ∧
      elems h' v' = (elems h v).take pos ++ [some x] ++ (elems h v).drop pos ∧
      shared h' v' = false ∧
      (shared h v = false → v.size < capacity S h v →
        InPlace h v h' v' ∧ capacity S h' v' = capacity S h v) ∧
      (shared h v = false → v.size = capacity S h v →
        capacity S h' v' = 2 * capacity S h v + 1) ∧
      (shared h v = true →
        (v'.is_small = true ∨ v'._buffer ≠ v._buffer) ∧
        ∃ b, lookup h v._buffer = some b ∧
          lookup h' v._buffer = some { b with refs := b.refs - 1 }) := by
  obtain ⟨h', v', e, ef, w, l, n, c, s, ip⟩ := insert_spec (d + 3) pos x hv hp hf
  refine ⟨h', v', e, ?_, w, n, l, s, ?_, ?_, ?_⟩
  · rw [insert_copy]; exact e
  · intro hx hc
    simp only [size] at hc
    exact ⟨ip (by omega) hx, by rw [c, if_neg (by omega)]⟩
  · intro _ hc
    simp only [size] at hc
    rw [c, if_pos hc]
  · intro hx
    obtain ⟨_, hne, b, hb, _, hl⟩ := ef.released hv hx s
    exact ⟨hne, b, hb, hl⟩

/-- Insertion of `42` at index 1 into a container that shares its block. -/
theorem insert_correct_witness :
    ∃ h' v', socow_vector.insert (0 + 9) 2 ex_shared.heap ⟨3, false, [none, none], 0⟩ 1 42
        = some (h', v', 1) ∧
      elems h' v' = [some 7, some 42, some 8, some 9] ∧ v'.size = 4 := by
  obtain ⟨h', v', e, _, _, n, l, _⟩ := insert_correct 0 2 ex_shared.heap
    ⟨3, false, [none, none], 0⟩ 1 42 (by decide) (by decide) (by decide)
  exact ⟨h', v', e, l, n⟩

/-- C9. `erase(first, last)` with `first ≤ last ≤ size()` returns, so its loops
terminate; the container then holds the elements before `first` followed by
the elements from `last` on, its size is lower by `last - first`, its capacity
is as before, and the returned iterator points to index `first`.  Without
sharing the update is in place; with sharing the container gets private
storage and the old block keeps its contents with one reference fewer.  For
the empty range the elements are as before. -/
theorem erase_correct (d S : Nat) (h : Heap T) (v : socow_vector T) (first last : Nat)
    (hv : WF S h v) (hf : first ≤ last) (hl : last ≤ v.size) :
    ∃ h' v', erase (d + 9) S h v first last = some (h', v', first) ∧
      WF S h' v' ∧ v'.size = v.size - (last - first) ∧
      elems h' v' = (elems h v).take first ++ (elems h v).drop last ∧
      capacity S h' v' = capacity S h v ∧ shared h' v' = false ∧
      (shared h v = false → InPlace h v h' v') ∧
      (shared h v = true →
        (v'.is_small = true ∨ v'._buffer ≠ v._buffer) ∧
        ∃ b, lookup h v._buffer = some b ∧
          lookup h' v._buffer = some { b with refs := b.refs - 1 }) ∧
      (first = last → elems h' v' = elems h v) := by
  obtain ⟨h', v', e, ef, w, l, n, c, s, ip⟩ := erase_spec (d + 5) first last hv hf hl
  refine ⟨h', v', e, w, n, l, c, s, ip, ?_, ?_⟩
  · intro hx
    obtain ⟨_, hne, b, hb, _, hk⟩ := ef.released hv hx s
    exact ⟨hne, b, hb, hk⟩
  · intro he
    rw [l, he, List.take_append_drop]

/-- Erasing indices 1 and 2 of the exclusively owned `7, 8, 9`. -/
theorem erase_correct_witness :
    ∃ h' v', erase (0 + 9) 2 ex_heap.heap ⟨3, false, [none, none], 0⟩ 1 3 = some (h', v', 1) ∧
      elems h' v' = [some 7] ∧ v'.size = 1 := by
  obtain ⟨h', v', e, _, n, l, _⟩ := erase_correct 0 2 ex_heap.heap
    ⟨3, false, [none, none], 0⟩ 1 3 (by decide) (by decide) (by decide)
  exact ⟨h', v', e, l, n⟩

/-- C7. Insert/erase round trip: for a container in any storage state, a
position `pos ≤ size()` and a value `x`, `it = insert(begin + pos, x)` followed
by `erase(it)` returns and leaves the container with its original elements,
whether `begin` is the `const` one or the mutable one, which unshares first.  On
a full container the byte count of a block for `2 * capacity() + 1` elements is
taken to be a value of `std::size_t`. -/
theorem insert_erase_round_trip (d S : Nat) (h : Heap T) (v : socow_vector T) (pos : Nat)
    (x : T) (hv : WF S h v) (hp : pos ≤ v.size)
    (hf : v.size = capacity S h v → Fits T (2 * capacity S h v + 1)) :
    (∃ h1 v1 it, socow_vector.insert (d + 9) S h v pos x = some (h1, v1, it) ∧
      ∃ h2 v2 it2, erase_at (d + 9) S h1 v1 it = some (h2, v2, it2) ∧
        elems h2 v2 = elems h v ∧ v2.size = v.size ∧ WF S h2 v2) ∧
    (∃ h0 v0, socow_vector.begin (d + 9) S h v = some (h0, v0) ∧
      ∃ h1 v1 it, socow_vector.insert (d + 9) S h0 v0 pos x = some (h1, v1, it) ∧
      ∃ h2 v2 it2, erase_at (d + 9) S h1 v1 it = some (h2, v2, it2) ∧
        elems h2 v2 = elems h v ∧ v2.size = v.size ∧ WF S h2 v2) := by
  have key : ∀ (h : Heap T) (v : socow_vector T), WF S h v → pos ≤ v._size →
      (v._size = capacity S h v → Fits T (2 * capacity S h v + 1)) →
      ∃ h1 v1 it, socow_vector.insert (d + 9) S h v pos x = some (h1, v1, it) ∧
        ∃ h2 v2 it2, erase_at (d + 9) S h1 v1 it = some (h2, v2, it2) ∧
          elems h2 v2 = elems h v ∧ v2.size = v.size ∧ WF S h2 v2 := by
    intro h v hv hp hf
    obtain ⟨h1, v1, e1, _, w1, l1, n1, _⟩ := insert_spec (d + 3) pos x hv hp hf
    obtain ⟨h2, v2, e2, _, w2, l2, n2, _⟩ :=
      erase_spec (d + 5) pos (pos + 1) w1 (Nat.le_succ pos) (by omega)
    refine ⟨h1, v1, pos, e1, h2, v2, pos, ?_, ?_, ?_, w2⟩
    · rw [erase_at]; exact e2
    · rw [l2, l1]
      exact take_drop_insert_form _ _ _ (by rw [elems_length hv]; exact hp)
    · simp only [size]; omega
  refine ⟨key h v hv hp hf, ?_⟩
  obtain ⟨h0, v0, e0, _, w0, l0, n0, c0, _⟩ := unshare_spec (d + 1) hv
  obtain ⟨h1, v1, it, e1, h2, v2, it2, e2, l2, n2, w2⟩ := key h0 v0 w0 (by rw [n0]; exact hp)
    (by rw [n0, c0]; exact hf)
  refine ⟨h0, v0, ?_, h1, v1, it, e1, h2, v2, it2, e2, l2.trans l0, ?_, w2⟩
  · rw [begin_eq]; exact e0
  · rw [n2]; exact n0

/-- The round trip at index 1 of a container that shares its block. -/
theorem insert_erase_round_trip_witness :
    ∃ h1 v1 it, socow_vector.insert (0 + 9) 2 ex_shared.heap ⟨3, false, [none, none], 0⟩ 1 42
        = some (h1, v1, it) ∧
      ∃ h2 v2 it2, erase_at (0 + 9) 2 h1 v1 it = some (h2, v2, it2) ∧
        elems h2 v2 = [some 7, some 8, some 9] :=
  (insert_erase_round_trip 0 2 ex_shared.heap ⟨3, false, [none, none], 0⟩ 1 42 (by decide)
    (by decide) (by decide)).1.imp fun _ h1 => h1.imp fun _ h2 => h2.imp fun _ h3 =>
      ⟨h3.1, h3.2.imp fun _ h4 => h4.imp fun _ h5 => h5.imp fun _ h6 => ⟨h6.1, h6.2.1⟩⟩

/-- C1. Copy-on-write isolation: in a reachable state let `b` become a copy of
the container `a`, by copy construction or by copy assignment.  Then `b` holds
the elements of `a`, and each of `b[i] = x` (for `i < size()`), `b.push_back(x)`
with an rvalue and `b.push_back(x)` with a `const` reference returns, changes
`b` as asked, and leaves the object `a`, hence its size, and every element of
`a` as they were.  For `push_back` on a full `b` the byte count of a block for
`2 * capacity() + 1` elements is taken to be a value of `std::size_t`. -/
theorem cow_isolation (d S : Nat) (w0 w : World T) (ia ib : Nat) (a : socow_vector T)
    (i : Nat) (x : T) (hr : Reachable S w0) (ha : w0.get ia = some a)
    (hc : (ib = w0.objs.length ∧ exec (d + 9) S w0 (.copy_construct ia) = some w) ∨
      (ib ≠ ia ∧ exec (d + 9) S w0 (.copy_assign ib ia) = some w)) :
    w.get ia = some a ∧ elems w.heap a = elems w0.heap a ∧
    (∃ b, w.get ib = some b ∧ b.size = a.size ∧ elems w.heap b = elems w0.heap a) ∧
    (i < a.size →
      ∃ w', exec (d + 9) S w (.assign_elem ib i x) = some w' ∧
        w'.get ia = some a ∧ elems w'.heap a = elems w0.heap a ∧
        ∃ b', w'.get ib = some b' ∧ elems w'.heap b' = (elems w0.heap a).set i (some x)) ∧
    (Room S w (.push_back ib x) →
      ∃ w', exec (d + 9) S w (.push_back ib x) = some w' ∧
        w'.get ia = some a ∧ elems w'.heap a = elems w0.heap a ∧
        ∃ b', w'.get ib = some b' ∧ elems w'.heap b' = elems w0.heap a ++ [some x]) ∧
    (Room S w (.push_back_copy ib x) →
      ∃ w', exec (d + 9) S w (.push_back_copy ib x) = some w' ∧
        w'.get ia = some a ∧ elems w'.heap a = elems w0.heap a ∧
        ∃ b', w'.get ib = some b' ∧ elems w'.heap b' = elems w0.heap a ++ [some x]) := by
  obtain ⟨hI, hne, hk, ⟨b, hb, same⟩, _⟩ := copy_step d (reachable_inv hr) ha hc
  obtain ⟨ga, ea, _⟩ := hk a ha
  have hwb := hI.1 ib b hb
  have eb : elems w.heap b = elems w0.heap a := same.elems_eq.trans ea
  refine ⟨ga, ea, ⟨b, hb, same.1, eb⟩, ?_, ?_, ?_⟩
  · intro hi
    have hi' : i < b._size := by rw [same.1]; exact hi
    obtain ⟨h', v', e, r1, r2, r3, _⟩ := assign_elem_spec (d + 1) i x hwb hi'
    obtain ⟨w', e', g, k, r⟩ := run_mutation hI ga hb hne
      ⟨h', v', e, r1, r2, r3.trans (by rw [eb])⟩
    refine ⟨w', ?_, g, k.trans ea, r⟩
    simp only [exec, hb, Option.some_bind, size, if_pos hi']
    exact e'
  · intro hR
    obtain ⟨h', v', e, r1, r2, r3, _⟩ := push_back_spec (d + 3) x hwb (hR b hb)
    obtain ⟨w', e', g, k, r⟩ := run_mutation hI ga hb hne
      ⟨h', v', e, r1, r2, r3.trans (by rw [eb])⟩
    refine ⟨w', ?_, g, k.trans ea, r⟩
    simp only [exec, hb, Option.some_bind]
    exact e'
  · intro hR
    obtain ⟨h', v', e, r1, r2, r3, _⟩ := push_back_copy_spec (d + 2) x hwb (hR b hb)
    obtain ⟨w', e', g, k, r⟩ := run_mutation hI ga hb hne
      ⟨h', v', e, r1, r2, r3.trans (by rw [eb])⟩
    refine ⟨w', ?_, g, k.trans ea, r⟩
    simp only [exec, hb, Option.some_bind]
    exact e'

/-- The copy of `7, 8, 9` made by copy construction, then `b[1] = 42`. -/
theorem cow_isolation_witness :
    Reachable 2 ex_heap ∧ exec (0 + 9) 2 ex_heap (.copy_construct 0) = some ex_shared ∧
    ∃ w', exec (0 + 9) 2 ex_shared (.assign_elem 1 1 42) = some w' ∧
      w'.get 0 = some ⟨3, false, [none, none], 0⟩ ∧
      elems w'.heap ⟨3, false, [none, none], 0⟩ = [some 7, some 8, some 9] ∧
      ∃ b', w'.get 1 = some b' ∧ elems w'.heap b' = [some 7, some 42, some 9] :=
  ⟨ex_heap_reachable, rfl,
    (cow_isolation 0 2 ex_heap ex_shared 0 1 ⟨3, false, [none, none], 0⟩ 1 42
      ex_heap_reachable rfl (Or.inl ⟨rfl, rfl⟩)).2.2.2.1 (by decide)⟩

/-- C4. Reference counting across a copy: let `a` be heap-backed with a block
of reference count one, in a reachable state.  After `b` becomes a copy of `a`,
by copy construction or by copy assignment into any other container, the count
of the block is two.  After `b` is then destroyed, or assigned the value of a
container that does not reference the block of `a`, the count is one again and
`a` has the elements it had. -/
theorem refcount_copy_release (d S : Nat) (w0 w : World T) (ia ib : Nat) (a : socow_vector T)
    (hr : Reachable S w0) (ha : w0.get ia = some a) (hs : a.is_small = false)
    (h1 : rc w0.heap a._buffer = 1)
    (hc : (ib = w0.objs.length ∧ exec (d + 9) S w0 (.copy_construct ia) = some w) ∨
      (ib ≠ ia ∧ exec (d + 9) S w0 (.copy_assign ib ia) = some w)) :
    rc w.heap a._buffer = 2 ∧
    (∃ w', exec (d + 9) S w (.destroy ib) = some w' ∧ rc w'.heap a._buffer = 1 ∧
      w'.get ia = some a ∧ elems w'.heap a = elems w0.heap a) ∧
    (∀ ic c, ic ≠ ib → w.get ic = some c → points_to c a._buffer = false →
      ∃ w', exec (d + 9) S w (.copy_assign ib ic) = some w' ∧ rc w'.heap a._buffer = 1 ∧
        w'.get ia = some a ∧ elems w'.heap a = elems w0.heap a) := by
  have hI0 := reachable_inv hr
  obtain ⟨hI, hne, hk, ⟨b, hb, same⟩, hcount⟩ := copy_step d hI0 ha hc
  obtain ⟨ga, ea, _⟩ := hk a ha
  simp only [is_small] at hs
  have hpa : points_to a a._buffer = true := by simp [points_to, hs]
  have c2 : w.count a._buffer = 2 := hcount _ hpa (by rw [← hI0.2.1]; exact h1)
  have hib : ind b a._buffer = 1 := by simp [ind, same.points_to_eq, hpa]
  refine ⟨by rw [hI.2.1]; exact c2, ?_, ?_⟩
  · obtain ⟨w', e, I, K⟩ := exec_pre d hI (.destroy ib) ⟨b, hb⟩ trivial
    obtain ⟨g, k, _⟩ := K ia (by simpa [touches] using hne) a ga
    refine ⟨w', e, ?_, g, k.trans ea⟩
    rw [I.2.1]
    simp only [exec, hb, Option.some_bind, Option.some.injEq] at e
    subst e
    have := count_set_none hb (dtor w.heap b) a._buffer
    omega
  · intro ic c hic hgc hpc
    obtain ⟨w', e, I, K⟩ := exec_pre d hI (.copy_assign ib ic) ⟨b, c, hb, hgc⟩ trivial
    obtain ⟨g, k, _⟩ := K ia (by simpa [touches] using hne) a ga
    refine ⟨w', e, ?_, g, k.trans ea⟩
    rw [I.2.1]
    obtain ⟨r, er, _, _, sr, _⟩ := hI.run_copy_assign (d + 4) hb hgc
    have hbc : ¬ ib = ic := fun e' => hic e'.symm
    simp only [exec, hb, hgc, Option.some_bind, if_neg hbc, er, Option.map_some',
      Option.some.injEq] at e
    subst e
    have := count_set_some hb r.1 r.2 a._buffer
    have h0 : ind r.2 a._buffer = 0 := by simp [ind, sr.points_to_eq, hpc]
    have e' : (w.put ib r).count a._buffer = count ⟨r.1, w.objs.set ib (some r.2)⟩ a._buffer :=
      rfl
    omega

/-- The block of `7, 8, 9` has count two after the copy construction and count
one after the copy is destroyed. -/
theorem refcount_copy_release_witness :
    Reachable 2 ex_heap ∧ rc ex_heap.heap 0 = 1 ∧
    exec (0 + 9) 2 ex_heap (.copy_construct 0) = some ex_shared ∧
    rc ex_shared.heap 0 = 2 ∧
    ∃ w', exec (0 + 9) 2 ex_shared (.destroy 1) = some w' ∧ rc w'.heap 0 = 1 ∧
      w'.get 0 = some ⟨3, false, [none, none], 0⟩ ∧
      elems w'.heap ⟨3, false, [none, none], 0⟩ = [some 7, some 8, some 9] :=
  ⟨ex_heap_reachable, rfl, rfl,
    (refcount_copy_release 0 2 ex_heap ex_shared 0 1 ⟨3, false, [none, none], 0⟩
      ex_heap_reachable rfl rfl rfl (Or.inl ⟨rfl, rfl⟩)).1,
    (refcount_copy_release 0 2 ex_heap ex_shared 0 1 ⟨3, false, [none, none], 0⟩
      ex_heap_reachable rfl rfl rfl (Or.inl ⟨rfl, rfl⟩)).2.1⟩

/-- With `SMALL_SIZE = 2`: pushing `7, 8` and then `9` ends heap-backed with
capacity 5. -/
theorem small_buffer_promotion_witness :
    ∃ h2 v2, push_all (0 + 6) 2 ([7, 8] ++ [9]) (([] : Heap Nat), ctor 2) = some (h2, v2) ∧
      v2.is_small = false ∧ capacity 2 h2 v2 = 2 * 2 + 1 ∧ rc h2 v2._buffer = 1 ∧
      v2.size = 2 + 1 ∧ elems h2 v2 = ([7, 8] ++ [9]).map some :=
  (small_buffer_promotion 0 2 [] [7, 8] 9).2.2.2 rfl (by decide)

/-- C11. Unshare on mutable access: the mutable `operator[]` and the mutable
`data()` return, and leave the elements and the capacity as they were.  On a
shared container (heap-backed, block count above one) the container afterwards
references another block, with count one, while the old block keeps its
contents and capacity and has a count lower by exactly one.  On a container
that is not shared (inline, or block count one) the call changes nothing. -/
theorem unshare_on_mutable_access (d S : Nat) (h : Heap T) (v : socow_vector T) (i : Nat)
    (hv : WF S h v) :
    ∃ h' v', index_mut (d + 9) S h v i = some (h', v') ∧ data (d + 9) S h v = some (h', v') ∧
      elems h' v' = elems h v ∧ v'.size = v.size ∧ capacity S h' v' = capacity S h v ∧
      (shared h v = true →
        v'.is_small = false ∧ v'._buffer ≠ v._buffer ∧ rc h' v'._buffer = 1 ∧
        ∃ b, lookup h v._buffer = some b ∧ 1 < b.refs ∧
          lookup h' v._buffer = some { b with refs := b.refs - 1 }) ∧
      (shared h v = false → h' = h ∧ v' = v) ∧
      (shared h v = true ↔ v.is_small = false ∧ 1 < rc h v._buffer) := by
  obtain ⟨h', v', e, ef, w, l, n, c, s, u⟩ := unshare_spec (d + 1) hv
  refine ⟨h', v', ?_, ?_, l, n, c, fun hx => ef.privatised hv w hx s c, u, hv.shared_iff⟩
  · rw [index_mut_eq]; exact e
  · rw [data_eq]; exact e

/-- The mutable `operator[]` on one of two containers that share `7, 8, 9`. -/
theorem unshare_on_mutable_access_witness :
    ∃ h' v', index_mut (0 + 9) 2 ex_shared.heap ⟨3, false, [none, none], 0⟩ 1 = some (h', v') ∧
      elems h' v' = [some 7, some 8, some 9] ∧ v'._buffer ≠ 0 ∧ rc h' v'._buffer = 1 ∧
      lookup h' 0 = some ⟨5, 1, [some 7, some 8, some 9, none, none]⟩ := by
  obtain ⟨h', v', e, _, l, _, _, s, _⟩ := unshare_on_mutable_access 0 2 ex_shared.heap
    ⟨3, false, [none, none], 0⟩ 1 (by decide)
  obtain ⟨_, hne, hr, b, hb, _, hl⟩ := s rfl
  cases hb
  exact ⟨h', v', e, l, hne, hr, hl⟩

/-- C13. `push_back(x)`, with an rvalue and with a `const` reference, returns
on a container in any storage state; the container then holds its former
elements followed by `x`, and its size is one more.  When the container is not
shared and `size() < capacity()`, the element is constructed in place: storage
mode, block and capacity are as before, no block is allocated, and no other
block changes.  On a full container the byte count of a block for
`2 * capacity() + 1` elements is taken to be a value of `std::size_t`. -/
theorem push_back_correct (d S : Nat) (h : Heap T) (v : socow_vector T) (x : T)
    (hv : WF S h v) (hf : v.size = capacity S h v → Fits T (2 * capacity S h v + 1)) :
    (∃ h' v', push_back (d + 9) S h v x = some (h', v') ∧
      elems h' v' = elems h v ++ [some x] ∧ v'.size = v.size + 1 ∧ WF S h' v' ∧
      (shared h v = false → v.size < capacity S h v →
        InPlace h v h' v' ∧ v'.is_small = v.is_small ∧ v'._buffer = v._buffer ∧
        capacity S h' v' = capacity S h v)) ∧
    (∃ h' v', push_back_copy (d + 9) S h v x = some (h', v') ∧
      elems h' v' = elems h v ++ [some x] ∧ v'.size = v.size + 1 ∧ WF S h' v' ∧
      (shared h v = false → v.size < capacity S h v →
        InPlace h v h' v' ∧ v'.is_small = v.is_small ∧ v'._buffer = v._buffer ∧
        capacity S h' v' = capacity S h v)) := by
  obtain ⟨h1, v1, e1, _, w1, l1, n1, _, _, p1⟩ := push_back_spec (d + 3) x hv hf
  obtain ⟨h2, v2, e2, _, w2, l2, n2, _, _, p2⟩ := push_back_copy_spec (d + 2) x hv hf
  refine ⟨⟨h1, v1, e1, l1, n1, w1, ?_⟩, ⟨h2, v2, e2, l2, n2, w2, ?_⟩⟩
  · intro hx hc
    have ip := p1 hc hx
    exact ⟨ip, ip.small, ip.buf, ip.capacity_eq hv.zero⟩
  · intro hx hc
    have ip := p2 hc hx
    exact ⟨ip, ip.small, ip.buf, ip.capacity_eq hv.zero⟩

/-- Pushing `9` onto the exclusively owned heap-backed `7, 8, 9` of capacity 5. -/
theorem push_back_correct_witness :
    ∃ h' v', push_back (0 + 9) 2 ex_heap.heap ⟨3, false, [none, none], 0⟩ 9 = some (h', v') ∧
      elems h' v' = [some 7, some 8, some 9, some 9] ∧ v'.size = 4 ∧
      v'.is_small = false ∧ v'._buffer = 0 ∧ capacity 2 h' v' = 5 := by
  obtain ⟨h', v', e, l, n, _, p⟩ := (push_back_correct 0 2 ex_heap.heap
    ⟨3, false, [none, none], 0⟩ 9 (by decide) (by decide)).1
  obtain ⟨_, s, b, c⟩ := p rfl (by decide)
  exact ⟨h', v', e, l, n, s, b, c⟩

/-- C14. Growth policy: `push_back` (both overloads) and `insert` (both
overloads, at any position `pos ≤ size()`) return, in any storage state; when
called with `size() == capacity()` the capacity afterwards is exactly
`2 * capacity() + 1`, and when called with `size() < capacity()` the capacity
is unchanged, also when the block was shared and private storage had to be
allocated.  On a full container the byte count of a block for
`2 * capacity() + 1` elements is taken to be a value of `std::size_t`. -/
theorem growth_policy (d S : Nat) (h : Heap T) (v : socow_vector T) (pos : Nat) (x : T)
    (hv : WF S h v) (hp : pos ≤ v.size)
    (hf : v.size = capacity S h v → Fits T (2 * capacity S h v + 1)) :
    (∃ h' v', push_back (d + 9) S h v x = some (h', v') ∧
      (v.size = capacity S h v → capacity S h' v' = 2 * capacity S h v + 1) ∧
      (v.size < capacity S h v → capacity S h' v' = capacity S h v)) ∧
    (∃ h' v', push_back_copy (d + 9) S h v x = some (h', v') ∧
      (v.size = capacity S h v → capacity S h' v' = 2 * capacity S h v + 1) ∧
      (v.size < capacity S h v → capacity S h' v' = capacity S h v)) ∧
    (∃ h' v' it, socow_vector.insert (d + 9) S h v pos x = some (h', v', it) ∧
      (v.size = capacity S h v → capacity S h' v' = 2 * capacity S h v + 1) ∧
      (v.size < capacity S h v → capacity S h' v' = capacity S h v)) ∧
    (∃ h' v' it, insert_copy (d + 9) S h v pos x = some (h', v', it) ∧
      (v.size = capacity S h v → capacity S h' v' = 2 * capacity S h v + 1) ∧
      (v.size < capacity S h v → capacity S h' v' = capacity S h v)) ∧
    (v.size = capacity S h v ∨ v.size < capacity S h v) := by
  obtain ⟨h1, v1, e1, _, _, _, _, c1, _⟩ := push_back_spec (d + 3) x hv hf
  obtain ⟨h2, v2, e2, _, _, _, _, c2, _⟩ := push_back_copy_spec (d + 2) x hv hf
  obtain ⟨h3, v3, e3, _, _, _, _, c3, _⟩ := insert_spec (d + 3) pos x hv hp hf
  have key : ∀ {c : Nat}, c = (if v._size = capacity S h v then 2 * capacity S h v + 1
      else capacity S h v) →
      (v.size = capacity S h v → c = 2 * capacity S h v + 1) ∧
      (v.size < capacity S h v → c = capacity S h v) := by
    intro c hc
    simp only [size]
    constructor
    · intro he; rw [hc, if_pos he]
    · intro hl; rw [hc, if_neg (by omega)]
  refine ⟨⟨h1, v1, e1, key c1⟩, ⟨h2, v2, e2, key c2⟩, ⟨h3, v3, pos, e3, key c3⟩,
    ⟨h3, v3, pos, by rw [insert_copy]; exact e3, key c3⟩, ?_⟩
  have := hv.size_le_capacity
  simp only [size]
  omega

/-- A shared block of capacity 5 holding 3 elements: the private storage that
`push_back` allocates has capacity 5 as well. -/
theorem growth_policy_witness :
    ∃ h' v', push_back (0 + 9) 2 ex_shared.heap ⟨3, false, [none, none], 0⟩ 9 = some (h', v') ∧
      capacity 2 h' v' = 5 := by
  obtain ⟨h', v', e, _, c⟩ := (growth_policy 0 2 ex_shared.heap
    ⟨3, false, [none, none], 0⟩ 0 9 (by decide) (by decide) (by decide)).1
  exact ⟨h', v', e, c (by decide)⟩

/-- C15. `pop_back` on a non-empty container returns and leaves all elements
but the last; `clear` returns and leaves no element.  On a container that is
not shared both work in place: storage mode, block and capacity are as before.
On a shared container the old block keeps its contents with a count lower by
exactly one, and the container gets private storage: after `pop_back` another
block of the same capacity with count one, after `clear` the empty inline
storage. -/
theorem pop_back_clear_correct (d S : Nat) (h : Heap T) (v : socow_vector T)
    (hv : WF S h v) :
    (v.size ≠ 0 →
      ∃ h' v', pop_back (d + 9) S h v = some (h', v') ∧
        elems h' v' = (elems h v).take (v.size - 1) ∧ v'.size = v.size - 1 ∧
        (shared h v = false →
          InPlace h v h' v' ∧ v'.is_small = v.is_small ∧ v'._buffer = v._buffer ∧
          capacity S h' v' = capacity S h v) ∧
        (shared h v = true →
          capacity S h' v' = capacity S h v ∧
          v'.is_small = false ∧ v'._buffer ≠ v._buffer ∧ rc h' v'._buffer = 1 ∧
          ∃ b, lookup h v._buffer = some b ∧ 1 < b.refs ∧
            lookup h' v._buffer = some { b with refs := b.refs - 1 })) ∧
    (∃ h' v', clear (d + 9) S h v = some (h', v') ∧
        elems h' v' = [] ∧ v'.size = 0 ∧
        (shared h v = false →
          InPlace h v h' v' ∧ v'.is_small = v.is_small ∧ v'._buffer = v._buffer ∧
          capacity S h' v' = capacity S h v) ∧
        (shared h v = true →
          v'.is_small = true ∧ capacity S h' v' = S ∧
          ∃ b, lookup h v._buffer = some b ∧ 1 < b.refs ∧
            lookup h' v._buffer = some { b with refs := b.refs - 1 })) := by
  constructor
  · intro hn
    obtain ⟨h', v', e, ef, w, n, l, c, s, ip, _⟩ := pop_back_spec (d + 5) hv hn
    refine ⟨h', v', e, l, n, ?_, ?_⟩
    · intro hx
      exact ⟨ip hx, (ip hx).small, (ip hx).buf, c⟩
    · intro hx
      exact ⟨c, ef.privatised hv w hx s c⟩
  · obtain ⟨h', v', e, ef, w, n, _, ip, sm⟩ := clear_spec (d + 4) hv
    refine ⟨h', v', e, ?_, n, ?_, ?_⟩
    · simp [elems, size, n]
    · intro hx
      exact ⟨ip hx, (ip hx).small, (ip hx).buf, (ip hx).capacity_eq hv.zero⟩
    · intro hx
      obtain ⟨_, _, b, hb, hr, hl⟩ := ef.released hv hx (shared_small (sm hx))
      exact ⟨sm hx, capacity_small (sm hx), b, hb, hr, hl⟩

/-- Both calls on one of two containers that share `7, 8, 9`. -/
theorem pop_back_clear_correct_witness :
    (∃ h' v', pop_back (0 + 9) 2 ex_shared.heap ⟨3, false, [none, none], 0⟩ = some (h', v') ∧
      elems h' v' = [some 7, some 8] ∧ v'._buffer ≠ 0 ∧ capacity 2 h' v' = 5 ∧
      lookup h' 0 = some ⟨5, 1, [some 7, some 8, some 9, none, none]⟩) ∧
    (∃ h' v', clear (0 + 9) 2 ex_shared.heap ⟨3, false, [none, none], 0⟩ = some (h', v') ∧
      elems h' v' = [] ∧ v'.is_small = true ∧
      lookup h' 0 = some ⟨5, 1, [some 7, some 8, some 9, none, none]⟩) := by
  obtain ⟨p, c⟩ := pop_back_clear_correct 0 2 ex_shared.heap ⟨3, false, [none, none], 0⟩
    (by decide)
  constructor
  · obtain ⟨h', v', e, l, _, _, s⟩ := p (by decide)
    obtain ⟨c1, _, hne, _, b, hb, _, hl⟩ := s rfl
    cases hb
    exact ⟨h', v', e, l, hne, c1, hl⟩
  · obtain ⟨h', v', e, l, _, _, s⟩ := c
    obtain ⟨sm, _, b, hb, _, hl⟩ := s rfl
    cases hb
    exact ⟨h', v', e, l, sm, hl⟩

/-- C16, as stated, fails: not for every `n`.  The heap-backed container with `7, 8, 9`
in a block of capacity 5 is a reachable state (`SMALL_SIZE = 2`, elements of 4 bytes, a block
header of 16 bytes).  The block that `reserve(2 ^ 62)` requests for `2 ^ 62` elements has
`16 + 4 * 2 ^ 62` bytes, which is 16 as a `std::size_t`: no block holds the three elements,
let alone `2 ^ 62`, and the call has no result, whatever the bound on its steps. -/
theorem reserve_wraps_counterexample :
    Reachable 2 ex_heap ∧ ex_heap.get 0 = some ⟨3, false, [none, none], 0⟩ ∧
    WF 2 ex_heap.heap (⟨3, false, [none, none], 0⟩ : socow_vector Nat) ∧
    buffer_bytes Nat (2 ^ 62) = 16 ∧
    ∀ d, reserve d 2 ex_heap.heap (⟨3, false, [none, none], 0⟩ : socow_vector Nat) (2 ^ 62)
      = none := by
  refine ⟨ex_heap_reachable, rfl, by decide, by decide, ?_⟩
  intro d
  have hnone : ctor_capacity 2 ex_heap.heap (2 ^ 62)
      = (none : Option (Heap Nat × socow_vector Nat)) :=
    ctor_capacity_none (by decide) (by decide)
  have hcond : (decide (capacity 2 ex_heap.heap (⟨3, false, [none, none], 0⟩ : socow_vector Nat)
      < 2 ^ 62) || decide ((⟨3, false, [none, none], 0⟩ : socow_vector Nat).size < 2 ^ 62) &&
      shared ex_heap.heap (⟨3, false, [none, none], 0⟩ : socow_vector Nat)) = true := by
    decide
  rw [reserve, if_pos hcond]
  cases d with
  | zero => rw [expand]
  | succ d => rw [expand, hnone]

/-- C16, amended.  Let `n ≤ capacity()`, or let the byte count
`sizeof(buffer) + sizeof(T) * n` of a block for `n` elements be a value of `std::size_t`.
Then `reserve(n)` returns; afterwards the elements are as before and `capacity() ≥ n`; if
`n > size()` the container is not shared afterwards (it is inline or its block has count
one), also when no increase of the capacity was needed. -/
theorem reserve_correct (d S : Nat) (h : Heap T) (v : socow_vector T) (n : Nat)
    (hv : WF S h v) (hf : capacity S h v < n → Fits T n) :
    ∃ h' v', reserve (d + 9) S h v n = some (h', v') ∧
      elems h' v' = elems h v ∧ v'.size = v.size ∧ n ≤ capacity S h' v' ∧
      (v.size < n →
        shared h' v' = false ∧ (v'.is_small = true ∨ rc h' v'._buffer = 1)) := by
  obtain ⟨h', v', e, _, w, l, s, c, x, _⟩ := reserve_spec (d + 3) n hv hf
  refine ⟨h', v', e, l, s, c, fun hn => ⟨x hn, ?_⟩⟩
  cases hs : v'._small with
  | true => exact Or.inl hs
  | false => exact Or.inr (w.rc_one hs (x hn))

/-- A shared block of capacity 5 with 3 elements: `reserve(4)` needs no larger
capacity and still makes the storage private. -/
theorem reserve_correct_witness :
    ∃ h' v', reserve (0 + 9) 2 ex_shared.heap ⟨3, false, [none, none], 0⟩ 4 = some (h', v') ∧
      elems h' v' = [some 7, some 8, some 9] ∧ 4 ≤ capacity 2 h' v' ∧ shared h' v' = false := by
  obtain ⟨h', v', e, l, _, c, x⟩ := reserve_correct 0 2 ex_shared.heap
    ⟨3, false, [none, none], 0⟩ 4 (by decide) (by decide)
  exact ⟨h', v', e, l, c, (x (by decide)).1⟩

/-- C12, as stated, fails: on one of two containers that share the block of
`7, 8, 9` (a reachable state), the mutable `front()` and the mutable `back()`
leave the container with another block, and the count of the block it
referenced before is no longer what it was. -/
theorem front_back_unshare_counterexample :
    Reachable 2 ex_shared ∧ ex_shared.get 1 = some ⟨3, false, [none, none], 0⟩ ∧
    shared ex_shared.heap (⟨3, false, [none, none], 0⟩ : socow_vector Nat) = true ∧
    (∃ h' v', front (0 + 9) 2 ex_shared.heap ⟨3, false, [none, none], 0⟩ = some (h', v') ∧
      v'._buffer ≠ 0 ∧ rc h' 0 ≠ rc ex_shared.heap 0) ∧
    (∃ h' v', back (0 + 9) 2 ex_shared.heap ⟨3, false, [none, none], 0⟩ = some (h', v') ∧
      v'._buffer ≠ 0 ∧ rc h' 0 ≠ rc ex_shared.heap 0) :=
  ⟨ex_shared_reachable, rfl, rfl, ⟨_, _, rfl, by decide, by decide⟩,
    ⟨_, _, rfl, by decide, by decide⟩⟩

/-- C12, amended.  On a non-empty container the `const` overloads of `front()`
and `back()` only read: they return the first and the last element, of a
shared block too.  The mutable overloads go through the mutable `data()`,
which unshares: they return, keep elements, size and capacity, and refer to
the same first and last element; on a shared container the container
afterwards references another block, with count one, and the old block keeps
its contents with a count lower by exactly one; on a container that is not
shared they change nothing. -/
theorem front_back_access (d S : Nat) (h : Heap T) (v : socow_vector T) (hv : WF S h v)
    (hn : v.size ≠ 0) :
    (∃ x, front_const h v = some x ∧ (elems h v)[0]? = some (some x)) ∧
    (∃ y, back_const h v = some y ∧ (elems h v)[v.size - 1]? = some (some y)) ∧
    (∃ h' v', front (d + 9) S h v = some (h', v') ∧
      elems h' v' = elems h v ∧ v'.size = v.size ∧ capacity S h' v' = capacity S h v ∧
      front_const h' v' = front_const h v ∧
      (shared h v = true →
        v'.is_small = false ∧ v'._buffer ≠ v._buffer ∧ rc h' v'._buffer = 1 ∧
        ∃ b, lookup h v._buffer = some b ∧ 1 < b.refs ∧
          lookup h' v._buffer = some { b with refs := b.refs - 1 }) ∧
      (shared h v = false → h' = h ∧ v' = v)) ∧
    (∃ h' v', back (d + 9) S h v = some (h', v') ∧
      elems h' v' = elems h v ∧ v'.size = v.size ∧ capacity S h' v' = capacity S h v ∧
      back_const h' v' = back_const h v ∧
      (shared h v = true →
        v'.is_small = false ∧ v'._buffer ≠ v._buffer ∧ rc h' v'._buffer = 1 ∧
        ∃ b, lookup h v._buffer = some b ∧ 1 < b.refs ∧
          lookup h' v._buffer = some { b with refs := b.refs - 1 }) ∧
      (shared h v = false → h' = h ∧ v' = v)) := by
  simp only [size] at hn
  have h0 : 0 < v._size := Nat.pos_of_ne_zero hn
  have h1 : v._size - 1 < v._size := by omega
  refine ⟨read_elems hv h0, read_elems hv h1, ?_, ?_⟩
  · obtain ⟨h', v', e, ef, w, l, n, c, s, u⟩ := unshare_spec (d + 1) hv
    refine ⟨h', v', ?_, l, n, c, read_congr l n h0, fun hx => ef.privatised hv w hx s c, u⟩
    rw [front_eq]; exact e
  · obtain ⟨h', v', e, ef, w, l, n, c, s, u⟩ := unshare_spec d hv
    refine ⟨h', v', ?_, l, n, c, ?_, fun hx => ef.privatised hv w hx s c, u⟩
    · rw [back_eq]; exact e
    · simp only [back_const, size, n]
      exact read_congr l n h1

/-- The accesses on one of two containers that share `7, 8, 9`. -/
theorem front_back_access_witness :
    front_const ex_shared.heap (⟨3, false, [none, none], 0⟩ : socow_vector Nat) = some 7 ∧
    back_const ex_shared.heap (⟨3, false, [none, none], 0⟩ : socow_vector Nat) = some 9 ∧
    ∃ h' v', back (0 + 9) 2 ex_shared.heap ⟨3, false, [none, none], 0⟩ = some (h', v') ∧
      back_const h' v' = some 9 ∧ v'._buffer ≠ 0 ∧ rc h' v'._buffer = 1 := by
  obtain ⟨_, _, _, h', v', e, _, _, _, r, s, _⟩ := front_back_access 0 2 ex_shared.heap
    ⟨3, false, [none, none], 0⟩ (by decide) (by decide)
  obtain ⟨_, hne, hr, _⟩ := s rfl
  exact ⟨rfl, rfl, h', v', e, r, hne, hr⟩

/-- C17, as stated, fails: one of two containers that share a block of
capacity 5 with 3 elements (a reachable state) has a lower capacity after
`reserve(4)`. -/
theorem reserve_shrinks_counterexample :
    Reachable 2 ex_shared ∧ ex_shared.get 1 = some ⟨3, false, [none, none], 0⟩ ∧
    ∃ h' v', reserve (0 + 9) 2 ex_shared.heap ⟨3, false, [none, none], 0⟩ 4 = some (h', v') ∧
      capacity 2 h' v' < capacity 2 ex_shared.heap ⟨3, false, [none, none], 0⟩ :=
  ⟨ex_shared_reachable, rfl, _, _, rfl, by decide⟩

/-- C17, amended.  Let `n ≤ capacity()`, or let the byte count
`sizeof(buffer) + sizeof(T) * n` of a block for `n` elements be a value of `std::size_t`.
Then `reserve(n)` returns, and the capacity afterwards is at
least the capacity before whenever the container is not shared, or
`n ≤ size()`, or `n ≥ capacity()`.  For a shared container with
`size() < n < capacity()` the private storage is sized by `n`: the capacity
afterwards is the larger of `n` and `SMALL_SIZE`, which is below the capacity
before. -/
theorem reserve_capacity (d S : Nat) (h : Heap T) (v : socow_vector T) (n : Nat)
    (hv : WF S h v) (hf : capacity S h v < n → Fits T n) :
    ∃ h' v', reserve (d + 9) S h v n = some (h', v') ∧
      (shared h v = false ∨ n ≤ v.size ∨ capacity S h v ≤ n →
        capacity S h v ≤ capacity S h' v') ∧
      (shared h v = true → v.size < n → n < capacity S h v →
        capacity S h' v' = max n S ∧ capacity S h' v' < capacity S h v) := by
  obtain ⟨h', v', e, _, _, _, _, _, _, c⟩ := reserve_spec (d + 3) n hv hf
  have hle := hv.le_capacity
  have hsh : shared h v = true → S < capacity S h v := fun hx =>
    hv.heap_capacity (hv.shared_iff.1 hx).1
  refine ⟨h', v', e, ?_, ?_⟩
  · intro hc
    simp only [size] at hc
    rw [c]
    split
    · rename_i hcond
      rcases hcond with h1 | ⟨h1, h2⟩
      · rw [if_neg (by omega)]; omega
      · have := hsh h2
        rcases hc with h3 | h3 | h3
        · rw [h2] at h3; cases h3
        · omega
        · rw [if_neg (by omega)]; exact h3
    · exact Nat.le_refl _
  · intro hx hn hc
    simp only [size] at hn
    have := hsh hx
    rw [c, if_pos (Or.inr ⟨hn, hx⟩)]
    split
    · rename_i h1
      rw [Nat.max_eq_right h1]
      exact ⟨rfl, this⟩
    · rename_i h1
      rw [Nat.max_eq_left (by omega)]
      exact ⟨rfl, hc⟩

/-- The capacity of a shared container before and after `reserve(4)`. -/
theorem reserve_capacity_witness :
    ∃ h' v', reserve (0 + 9) 2 ex_shared.heap ⟨3, false, [none, none], 0⟩ 4 = some (h', v') ∧
      capacity 2 h' v' = max 4 2 := by
  obtain ⟨h', v', e, _, c⟩ := reserve_capacity 0 2 ex_shared.heap
    ⟨3, false, [none, none], 0⟩ 4 (by decide) (by decide)
  exact ⟨h', v', e, (c rfl (by decide) (by decide)).1⟩

/-- C18, as stated, fails: a heap-backed container with one element in a
block of capacity 5 (a reachable state, `SMALL_SIZE = 2`) is inline after
`shrink_to_fit()`, with a capacity that differs from its size. -/
theorem shrink_to_fit_counterexample :
    Reachable 2 ex_one ∧ ex_one.get 0 = some ⟨1, false, [none, none], 0⟩ ∧
    (⟨1, false, [none, none], 0⟩ : socow_vector Nat).is_small = false ∧
    (⟨1, false, [none, none], 0⟩ : socow_vector Nat).size
      < capacity 2 ex_one.heap ⟨1, false, [none, none], 0⟩ ∧
    ∃ h' v', shrink_to_fit (0 + 9) 2 ex_one.heap ⟨1, false, [none, none], 0⟩ = some (h', v') ∧
      capacity 2 h' v' ≠ v'.size ∧ v'.is_small = true :=
  ⟨ex_one_reachable, rfl, rfl, by decide, _, _, rfl, by decide, rfl⟩

/-- C18, amended.  `shrink_to_fit()` returns and keeps elements and size.  It
changes nothing when the container is inline or `size() == capacity()`.
Otherwise (heap-backed, `size() < capacity()`) the container is not shared
afterwards: when `size() > SMALL_SIZE` it holds a block of count one with
`capacity() == size()` exactly; when `size() ≤ SMALL_SIZE`, zero included, it
is inline, with `capacity() == SMALL_SIZE`. -/
theorem shrink_to_fit_correct (d S : Nat) (h : Heap T) (v : socow_vector T)
    (hv : WF S h v) :
    ∃ h' v', shrink_to_fit (d + 9) S h v = some (h', v') ∧
      elems h' v' = elems h v ∧ v'.size = v.size ∧
      (v.is_small = true ∨ v.size = capacity S h v → h' = h ∧ v' = v) ∧
      (v.is_small = false → v.size < capacity S h v →
        shared h' v' = false ∧
        (S < v.size →
          v'.is_small = false ∧ capacity S h' v' = v'.size ∧ rc h' v'._buffer = 1) ∧
        (v.size ≤ S → v'.is_small = true ∧ capacity S h' v' = S)) := by
  obtain ⟨h', v', e, _, w, l, n, u, c⟩ := shrink_to_fit_spec (d + 3) hv
  refine ⟨h', v', e, l, n, u, ?_⟩
  intro hs hc
  simp only [is_small, size] at hs hc ⊢
  obtain ⟨c1, c2, c3⟩ := c hs (by omega)
  refine ⟨c2, ?_, ?_⟩
  · intro hgt
    have hs' : v'._small = false := by rw [c3]; exact decide_eq_false (by omega)
    refine ⟨hs', ?_, w.rc_one hs' c2⟩
    rw [c1, if_neg (by omega), n]
  · intro hle
    refine ⟨by rw [c3]; exact decide_eq_true hle, ?_⟩
    rw [c1, if_pos hle]

/-- Shrinking heap-backed containers with 1 and with 3 elements in blocks of
capacity 5, `SMALL_SIZE = 2`. -/
theorem shrink_to_fit_correct_witness :
    (∃ h' v', shrink_to_fit (0 + 9) 2 ex_one.heap ⟨1, false, [none, none], 0⟩ = some (h', v') ∧
      elems h' v' = [some 7] ∧ v'.is_small = true ∧ capacity 2 h' v' = 2) ∧
    (∃ h' v', shrink_to_fit (0 + 9) 2 ex_heap.heap ⟨3, false, [none, none], 0⟩
        = some (h', v') ∧
      elems h' v' = [some 7, some 8, some 9] ∧ v'.is_small = false ∧ capacity 2 h' v' = 3) := by
  constructor
  · obtain ⟨h', v', e, l, _, _, c⟩ := shrink_to_fit_correct 0 2 ex_one.heap
      ⟨1, false, [none, none], 0⟩ (by decide)
    obtain ⟨s, k⟩ := (c rfl (by decide)).2.2 (by decide)
    exact ⟨h', v', e, l, s, k⟩
  · obtain ⟨h', v', e, l, n, _, c⟩ := shrink_to_fit_correct 0 2 ex_heap.heap
      ⟨3, false, [none, none], 0⟩ (by decide)
    obtain ⟨s, k, _⟩ := (c rfl (by decide)).2.1 (by decide)
    exact ⟨h', v', e, l, s, k.trans n⟩

/-- C20. Move semantics, in a reachable state with a live container `s`.
Move construction of a new container from `s` returns; the new container has
the elements `s` had, and `s` is empty and inline.  Move assignment
`t = std::move(s)` to another live container `t` returns; `t` has the
elements `s` had, and `s` is empty and inline.  In both cases every other
live container is the same object with the same elements and capacity, and
the count of every block is the number of live containers that reference
it, with no live block of count zero. -/
theorem move_semantics (d S : Nat) (w : World T) (js : Nat) (s : socow_vector T)
    (hr : Reachable S w) (hs : w.get js = some s) :
    (∃ w' t' s', exec (d + 9) S w (.move_construct js) = some w' ∧
      w'.get w.objs.length = some t' ∧ w'.get js = some s' ∧
      elems w'.heap t' = elems w.heap s ∧ t'.size = s.size ∧
      s'.is_small = true ∧ s'.size = 0 ∧
      (∀ c, c ≠ js → Keeps S w w' c) ∧
      (∀ p, rc w'.heap p = w'.count p) ∧ (∀ p b, lookup w'.heap p = some b → 1 ≤ b.refs)) ∧
    (∀ jt t, jt ≠ js → w.get jt = some t →
      ∃ w' t' s', exec (d + 9) S w (.move_assign jt js) = some w' ∧
        w'.get jt = some t' ∧ w'.get js = some s' ∧
        elems w'.heap t' = elems w.heap s ∧ t'.size = s.size ∧
        s'.is_small = true ∧ s'.size = 0 ∧
        (∀ c, c ≠ jt → c ≠ js → Keeps S w w' c) ∧
        (∀ p, rc w'.heap p = w'.count p) ∧
        (∀ p b, lookup w'.heap p = some b → 1 ≤ b.refs)) := by
  have hI := reachable_inv hr
  have hl := get_lt hs
  have ws := hI.1 _ _ hs
  constructor
  · obtain ⟨w', e, I, K⟩ := exec_pre d hI (.move_construct js) ⟨s, hs⟩ trivial
    obtain ⟨s1, s2⟩ := swap_spec (ctor S) s (by simp [ctor]) ws.sdata_length
      (fun _ => Nat.zero_le _) ws.small_le
    refine ⟨w', (ctor_move S s).1, (ctor_move S s).2, e, ?_, ?_, ?_, s1.1, s2.2.1, s2.1,
      fun c hc => K c (by simpa [touches] using hc), I.2.1, I.2.2⟩
    all_goals
      simp only [exec, hs, Option.some_bind, Option.some.injEq] at e
      subst e
    · have := @get_append_len T _ ⟨w.heap, w.objs.set js (some (ctor_move S s).2)⟩ w.heap
        (some (ctor_move S s).1)
      simpa using this
    · rw [@get_append_lt T _ ⟨w.heap, w.objs.set js (some (ctor_move S s).2)⟩ w.heap _ js
        (by simpa using hl)]
      simp only [World.get]
      rw [getD_set_objs _ _ _ _ hl, if_pos rfl]
    · exact s1.elems_eq
  · intro jt t hne ht
    have hlt := get_lt ht
    obtain ⟨r, e, I, K, same, el, _, sm, sz⟩ := hI.run_move_assign (d + 4) ht hs hne
    refine ⟨⟨r.1, (w.objs.set jt (some r.2.1)).set js (some r.2.2)⟩, r.2.1, r.2.2, ?_, ?_, ?_,
      el, same.1, sm, sz, K, I.2.1, I.2.2⟩
    · simp only [exec, ht, hs, Option.some_bind, if_neg hne, e, Option.map_some']
    · simp only [World.get]
      rw [getD_set_objs _ _ _ _ (by simpa using hl), if_neg hne, getD_set_objs _ _ _ _ hlt,
        if_pos rfl]
    · simp only [World.get]
      rw [getD_set_objs _ _ _ _ (by simpa using hl), if_pos rfl]

/-- Move construction from one of two containers that share `7, 8, 9`. -/
theorem move_semantics_witness :
    Reachable 2 ex_shared ∧
    ∃ w' t' s', exec (0 + 9) 2 ex_shared (.move_construct 1) = some w' ∧
      w'.get 2 = some t' ∧ w'.get 1 = some s' ∧
      elems w'.heap t' = [some 7, some 8, some 9] ∧ s'.is_small = true ∧ s'.size = 0 ∧
      Keeps 2 ex_shared w' 0 ∧ rc w'.heap 0 = w'.count 0 := by
  obtain ⟨w', t', s', e, g1, g2, l, _, sm, sz, K, R, _⟩ :=
    (move_semantics 0 2 ex_shared 1 ⟨3, false, [none, none], 0⟩ ex_shared_reachable rfl).1
  exact ⟨ex_shared_reachable, w', t', s', e, g1, g2, l, sm, sz, K 0 (by decide), R 0⟩

/-- C19, as stated, fails, with `SMALL_SIZE = 2`.  A heap-backed container
holding `7, 8` in a block of capacity 5 (a reachable state) is inline after
`shrink_to_fit()` and still holds `7, 8`.  One of two containers that share
the block of `7` is inline after `reserve(2)` and still holds `7`.  A
heap-backed container swapped with an inline one that holds `5` is inline
afterwards, with size one. -/
theorem demotion_counterexample :
    Reachable 2 ex_two ∧ ex_two.get 0 = some ⟨2, false, [none, none], 0⟩ ∧
    (∃ w' v', exec (0 + 9) 2 ex_two (.shrink_to_fit 0) = some w' ∧ w'.get 0 = some v' ∧
      v'.is_small = true ∧ v'.size = 2 ∧ elems w'.heap v' = [some 7, some 8]) ∧
    Reachable 2 ex_one_shared ∧ ex_one_shared.get 1 = some ⟨1, false, [none, none], 0⟩ ∧
    (∃ w' v', exec (0 + 9) 2 ex_one_shared (.reserve 1 2) = some w' ∧ w'.get 1 = some v' ∧
      v'.is_small = true ∧ v'.size = 1 ∧ elems w'.heap v' = [some 7]) ∧
    Reachable 2 ex_mixed ∧ ex_mixed.get 0 = some ⟨2, false, [none, none], 0⟩ ∧
    (∃ w' v', exec (0 + 9) 2 ex_mixed (.swap 0 1) = some w' ∧ w'.get 0 = some v' ∧
      v'.is_small = true ∧ v'.size = 1) :=
  ⟨ex_two_reachable, rfl,
    ⟨⟨[none], [some ⟨2, true, [some 7, some 8], 0⟩]⟩, ⟨2, true, [some 7, some 8], 0⟩,
      by decide!, rfl, rfl, rfl, rfl⟩,
    ex_one_shared_reachable, rfl,
    ⟨⟨[some ⟨5, 1, [some 7, none, none, none, none]⟩],
        [some ⟨1, false, [none, none], 0⟩, some ⟨1, true, [some 7, none], 0⟩]⟩,
      ⟨1, true, [some 7, none], 0⟩, by decide!, rfl, rfl, rfl, rfl⟩,
    ex_mixed_reachable, rfl,
    ⟨⟨[some ⟨5, 1, [some 7, some 8, none, none, none]⟩],
        [some ⟨1, true, [some 5, none], 0⟩, some ⟨2, false, [none, none], 0⟩]⟩,
      ⟨1, true, [some 5, none], 0⟩, rfl, rfl, rfl, rfl⟩⟩

/-- C19, amended.  Let an operation run in a reachable state, and let a
container be heap-backed before it and inline after it.  Then one of three
things holds.  Its size afterwards is 0.  Or the operation was `reserve(n)`
on it while it was shared, with `size() < n ≤ SMALL_SIZE`, or
`shrink_to_fit()` on it, and it keeps its at most `SMALL_SIZE` elements, now
in the inline array.  Or the operation gave it the contents of another
container, which was inline: a `swap` with that one, or a copy or move
assignment from it. -/
theorem demotion_cases (d S : Nat) (w w' : World T) (op : Op T) (c : Nat)
    (v v' : socow_vector T) (hr : Reachable S w) (he : exec (d + 9) S w op = some w')
    (hv : w.get c = some v) (hv' : w'.get c = some v') (hs : v.is_small = false)
    (hs' : v'.is_small = true) :
    v'.size = 0 ∨
    (((∃ n, op = .reserve c n ∧ shared w.heap v = true ∧ v.size < n ∧ n ≤ S) ∨
        op = .shrink_to_fit c) ∧
      v'.size = v.size ∧ v'.size ≤ S ∧ elems w'.heap v' = elems w.heap v) ∨
    (∃ k o, k ≠ c ∧ w.get k = some o ∧ o.is_small = true ∧
      (op = .swap c k ∨ op = .swap k c ∨ op = .copy_assign c k ∨ op = .move_assign c k) ∧
      v'.size = o.size ∧ elems w'.heap v' = elems w.heap o) := by
  have hI := reachable_inv hr
  simp only [is_small, size] at hs hs' ⊢
  have stay : w'.get c = some v → False := by
    intro g
    rw [hv'] at g
    cases g
    rw [hs] at hs'
    cases hs'
  by_cases ht : touches op c
  swap
  · exact absurd (exec_keeps d hI op he c ht v hv).1 stay
  have hw := hI.1 _ _ hv
  have hl := get_lt hv
  cases op with
  | construct => exact absurd ht (by simp [touches])
  | copy_construct src => exact absurd ht (by simp [touches])
  | move_construct src =>
    simp only [touches] at ht
    subst ht
    simp only [exec, hv, Option.some_bind, Option.some.injEq] at he
    subst he
    rw [@get_append_lt T _ ⟨w.heap, w.objs.set c (some (ctor_move S v).2)⟩ w.heap _ c
      (by simpa using hl)] at hv'
    simp only [World.get] at hv'
    rw [getD_set_objs _ _ _ _ hl, if_pos rfl] at hv'
    cases hv'
    obtain ⟨_, s2⟩ := swap_spec (ctor S) v (by simp [ctor]) hw.sdata_length
      (fun _ => Nat.zero_le _) hw.small_le
    exact Or.inl s2.1
  | copy_assign dst src =>
    simp only [touches] at ht
    subst ht
    obtain ⟨u, o, hu, ho⟩ := pre_of_exec _ _ he
    rw [hv] at hu
    cases hu
    by_cases e : c = src
    · simp only [exec, hv, ho, Option.some_bind, if_pos e, Option.some.injEq] at he
      subst he
      exact absurd hv stay
    · obtain ⟨r, er, _, _, same, el, _⟩ := hI.run_copy_assign (d + 4) hv ho
      simp only [exec, hv, ho, Option.some_bind, if_neg e, er, Option.map_some'] at he
      obtain ⟨e1, e2⟩ := put_result hv he hv'
      subst e1
      exact Or.inr (Or.inr ⟨src, o, fun e' => e e'.symm, ho, same.2.1.symm.trans hs',
        Or.inr (Or.inr (Or.inl rfl)), same.1, by rw [e2]; exact el⟩)
  | move_assign dst src =>
    obtain ⟨u, o, hu, ho⟩ := pre_of_exec _ _ he
    by_cases e : dst = src
    · simp only [exec, hu, ho, Option.some_bind, if_pos e, Option.some.injEq] at he
      subst he
      exact absurd hv stay
    · obtain ⟨r, er, _, _, same, el, _, _, sz⟩ := hI.run_move_assign (d + 4) hu ho e
      simp only [exec, hu, ho, Option.some_bind, if_neg e, er, Option.map_some',
        Option.some.injEq] at he
      subst he
      simp only [World.get] at hv'
      simp only [touches] at ht
      rcases ht with ht | ht
      · subst ht
        rw [hv] at hu
        cases hu
        rw [getD_set_objs _ _ _ _ (by simpa using get_lt ho), if_neg e,
          getD_set_objs _ _ _ _ hl, if_pos rfl] at hv'
        cases hv'
        exact Or.inr (Or.inr ⟨src, o, fun e' => e e'.symm, ho, same.2.1.symm.trans hs',
          Or.inr (Or.inr (Or.inr rfl)), same.1, el⟩)
      · subst ht
        rw [getD_set_objs _ _ _ _ (by simpa using hl), if_pos rfl] at hv'
        cases hv'
        exact Or.inl sz
  | swap a b =>
    obtain ⟨u, o, hu, ho⟩ := pre_of_exec _ _ he
    by_cases e : a = b
    · simp only [exec, hu, ho, Option.some_bind, if_pos e, Option.some.injEq] at he
      subst he
      exact absurd hv stay
    · have wu := hI.1 _ _ hu
      have wo := hI.1 _ _ ho
      obtain ⟨s1, s2⟩ := swap_spec (S := S) u o wu.sdata_length wo.sdata_length
        wu.small_le wo.small_le
      simp only [exec, hu, ho, Option.some_bind, if_neg e, Option.some.injEq] at he
      subst he
      simp only [World.get] at hv'
      simp only [touches] at ht
      rcases ht with ht | ht
      · subst ht
        rw [hv] at hu
        cases hu
        rw [getD_set_objs _ _ _ _ (by simpa using get_lt ho), if_neg e,
          getD_set_objs _ _ _ _ hl, if_pos rfl] at hv'
        cases hv'
        exact Or.inr (Or.inr ⟨b, o, fun e' => e e'.symm, ho, s1.2.1.symm.trans hs',
          Or.inl rfl, s1.1, s1.elems_eq⟩)
      · subst ht
        rw [hv] at ho
        cases ho
        rw [getD_set_objs _ _ _ _ (by simpa using hl), if_pos rfl] at hv'
        cases hv'
        exact Or.inr (Or.inr ⟨a, u, e, hu, s2.2.1.symm.trans hs',
          Or.inr (Or.inl rfl), s2.1, s2.elems_eq⟩)
  | destroy a =>
    simp only [touches] at ht
    subst ht
    simp only [exec, hv, Option.some_bind, Option.some.injEq] at he
    subst he
    simp only [World.get] at hv'
    rw [getD_set_objs _ _ _ _ hl, if_pos rfl] at hv'
    cases hv'
  | push_back a x =>
    simp only [touches] at ht
    subst ht
    have hR := room_of_exec _ hI _ he
    simp only [exec, hv, Option.some_bind] at he
    obtain ⟨h1, v1, e, _, _, _, _, k, _⟩ := push_back_spec (d + 3) x hw (hR v hv)
    exact (no_demote hv he hv' hw hs hs' ⟨h1, v1, e, growth_le k⟩).elim
  | push_back_copy a x =>
    simp only [touches] at ht
    subst ht
    have hR := room_of_exec _ hI _ he
    simp only [exec, hv, Option.some_bind] at he
    obtain ⟨h1, v1, e, _, _, _, _, k, _⟩ := push_back_copy_spec (d + 2) x hw (hR v hv)
    exact (no_demote hv he hv' hw hs hs' ⟨h1, v1, e, growth_le k⟩).elim
  | insert a pos x =>
    simp only [touches] at ht
    subst ht
    obtain ⟨u, hu, hpos⟩ := pre_of_exec _ _ he
    rw [hv] at hu
    cases hu
    have hR := room_of_exec _ hI _ he
    simp only [exec, hv, Option.some_bind, size, hpos, if_true] at he
    obtain ⟨h1, v1, e, _, _, _, _, k, _⟩ := insert_spec (d + 3) pos x hw hpos (hR v hv)
    exact (no_demote_it hv he hv' hw hs hs' ⟨h1, v1, pos, e, growth_le k⟩).elim
  | insert_copy a pos x =>
    simp only [touches] at ht
    subst ht
    obtain ⟨u, hu, hpos⟩ := pre_of_exec _ _ he
    rw [hv] at hu
    cases hu
    have hR := room_of_exec _ hI _ he
    simp only [exec, hv, Option.some_bind, size, hpos, if_true, insert_copy] at he
    obtain ⟨h1, v1, e, _, _, _, _, k, _⟩ := insert_spec (d + 3) pos x hw hpos (hR v hv)
    exact (no_demote_it hv he hv' hw hs hs' ⟨h1, v1, pos, e, growth_le k⟩).elim
  | pop_back a =>
    simp only [touches] at ht
    subst ht
    obtain ⟨u, hu, hn⟩ := pre_of_exec _ _ he
    rw [hv] at hu
    cases hu
    simp only [exec, hv, Option.some_bind, size, hn, if_false] at he
    obtain ⟨h1, v1, e, _, _, _, _, k, _⟩ := pop_back_spec (d + 5) hw hn
    exact (no_demote hv he hv' hw hs hs' ⟨h1, v1, e, Nat.le_of_eq k.symm⟩).elim
  | erase a first last =>
    simp only [touches] at ht
    subst ht
    obtain ⟨u, hu, h1, h2⟩ := pre_of_exec _ _ he
    rw [hv] at hu
    cases hu
    have hc : first ≤ last ∧ last ≤ v._size := ⟨h1, h2⟩
    simp only [exec, hv, Option.some_bind, size, hc, and_self, if_true] at he
    obtain ⟨h1, v1, e, _, _, _, _, k, _⟩ := erase_spec (d + 5) first last hw h1 h2
    exact (no_demote_it hv he hv' hw hs hs' ⟨h1, v1, first, e, Nat.le_of_eq k.symm⟩).elim
  | erase_at a pos =>
    simp only [touches] at ht
    subst ht
    obtain ⟨u, hu, h1⟩ := pre_of_exec _ _ he
    rw [hv] at hu
    cases hu
    simp only [exec, hv, Option.some_bind, size, h1, if_true, erase_at] at he
    obtain ⟨h1, v1, e, _, _, _, _, k, _⟩ :=
      erase_spec (d + 5) pos (pos + 1) hw (by omega) (by omega)
    exact (no_demote_it hv he hv' hw hs hs' ⟨h1, v1, pos, e, Nat.le_of_eq k.symm⟩).elim
  | clear a =>
    simp only [touches] at ht
    subst ht
    simp only [exec, hv, Option.some_bind] at he
    obtain ⟨h1, v1, e, _, _, n, _⟩ := clear_spec (d + 4) hw
    rw [e] at he
    obtain ⟨e1, _⟩ := put_result hv he hv'
    subst e1
    exact Or.inl n
  | reserve a n =>
    simp only [touches] at ht
    subst ht
    have hR := room_of_exec _ hI _ he
    simp only [exec, hv, Option.some_bind] at he
    obtain ⟨h1, v1, e, _, w1, l, n1, _, _, k⟩ := reserve_spec (d + 3) n hw (hR v hv)
    rw [e] at he
    obtain ⟨e1, e2⟩ := put_result hv he hv'
    subst e1
    have hcap := hw.heap_capacity hs
    rw [capacity_small hs'] at k
    have hcond : capacity S w.heap v < n ∨ (v._size < n ∧ shared w.heap v = true) := by
      by_contra hc
      rw [if_neg hc] at k
      omega
    rw [if_pos hcond] at k
    have hn : n ≤ S := by
      by_contra hc
      rw [if_neg hc] at k
      omega
    have hsh : v._size < n ∧ shared w.heap v = true := by
      rcases hcond with h1 | h1
      · omega
      · exact h1
    exact Or.inr (Or.inl ⟨Or.inl ⟨n, rfl, hsh.2, hsh.1, hn⟩, n1, w1.small_le hs',
      by rw [e2]; exact l⟩)
  | shrink_to_fit a =>
    simp only [touches] at ht
    subst ht
    simp only [exec, hv, Option.some_bind] at he
    obtain ⟨h1, v1, e, _, w1, l, n1, _⟩ := shrink_to_fit_spec (d + 3) hw
    rw [e] at he
    obtain ⟨e1, e2⟩ := put_result hv he hv'
    subst e1
    exact Or.inr (Or.inl ⟨Or.inr rfl, n1, w1.small_le hs', by rw [e2]; exact l⟩)
  | assign_elem a i x =>
    simp only [touches] at ht
    subst ht
    obtain ⟨u, hu, hi⟩ := pre_of_exec _ _ he
    rw [hv] at hu
    cases hu
    simp only [exec, hv, Option.some_bind, size, hi, if_true] at he
    obtain ⟨h1, v1, e, _, _, _, _, k, _⟩ := assign_elem_spec (d + 1) i x hw hi
    exact (no_demote hv he hv' hw hs hs' ⟨h1, v1, e, Nat.le_of_eq k.symm⟩).elim
  | index_mut a i =>
    simp only [touches] at ht
    subst ht
    obtain ⟨u, hu, hi⟩ := pre_of_exec _ _ he
    rw [hv] at hu
    cases hu
    simp only [exec, hv, Option.some_bind, size, hi, if_true] at he
    rw [index_mut_eq] at he
    obtain ⟨h1, v1, e, _, _, _, _, k, _⟩ := unshare_spec (d + 1) hw
    exact (no_demote hv he hv' hw hs hs' ⟨h1, v1, e, Nat.le_of_eq k.symm⟩).elim
  | data a =>
    simp only [touches] at ht
    subst ht
    simp only [exec, hv, Option.some_bind] at he
    rw [data_eq] at he
    obtain ⟨h1, v1, e, _, _, _, _, k, _⟩ := unshare_spec (d + 1) hw
    exact (no_demote hv he hv' hw hs hs' ⟨h1, v1, e, Nat.le_of_eq k.symm⟩).elim
  | front a =>
    simp only [touches] at ht
    subst ht
    obtain ⟨u, hu, hn⟩ := pre_of_exec _ _ he
    rw [hv] at hu
    cases hu
    simp only [exec, hv, Option.some_bind, size, hn, if_false] at he
    rw [front_eq] at he
    obtain ⟨h1, v1, e, _, _, _, _, k, _⟩ := unshare_spec (d + 1) hw
    exact (no_demote hv he hv' hw hs hs' ⟨h1, v1, e, Nat.le_of_eq k.symm⟩).elim
  | back a =>
    simp only [touches] at ht
    subst ht
    obtain ⟨u, hu, hn⟩ := pre_of_exec _ _ he
    rw [hv] at hu
    cases hu
    simp only [exec, hv, Option.some_bind, size, hn, if_false] at he
    rw [back_eq] at he
    obtain ⟨h1, v1, e, _, _, _, _, k, _⟩ := unshare_spec d hw
    exact (no_demote hv he hv' hw hs hs' ⟨h1, v1, e, Nat.le_of_eq k.symm⟩).elim

/-- The container of `ex_two` keeps `7, 8` inline after `shrink_to_fit()`. -/
theorem demotion_cases_witness :
    Reachable 2 ex_two ∧
    exec (0 + 9) 2 ex_two (.shrink_to_fit 0)
      = some ⟨[none], [some ⟨2, true, [some 7, some 8], 0⟩]⟩ ∧
    (⟨2, true, [some 7, some 8], 0⟩ : socow_vector Nat).size
      = (⟨2, false, [none, none], 0⟩ : socow_vector Nat).size ∧
    (⟨2, true, [some 7, some 8], 0⟩ : socow_vector Nat).size ≤ 2 ∧
    elems [none] (⟨2, true, [some 7, some 8], 0⟩ : socow_vector Nat)
      = elems ex_two.heap ⟨2, false, [none, none], 0⟩ := by
  refine ⟨ex_two_reachable, by decide!, ?_⟩
  rcases demotion_cases 0 2 ex_two ⟨[none], [some ⟨2, true, [some 7, some 8], 0⟩]⟩
    (.shrink_to_fit 0) 0 ⟨2, false, [none, none], 0⟩ ⟨2, true, [some 7, some 8], 0⟩
    ex_two_reachable (by decide!) rfl rfl rfl rfl with h | ⟨_, h⟩ | ⟨k, o, _, _, _, h, _⟩
  · exact absurd h (by decide)
  · exact h
  · rcases h with h | h | h | h <;> cases h

/-- C21. Sharers agree: in every reachable state, two containers that
reference the same block have the same size and hence the same elements; and
no operation changes the slots or the capacity of a block whose count is
above one: the block is still there afterwards, with the same slots. -/
theorem sharers_agree (d S : Nat) (w : World T) (hr : Reachable S w) :
    (∀ a b va vb, w.get a = some va → w.get b = some vb → va.is_small = false →
      vb.is_small = false → va._buffer = vb._buffer →
      va.size = vb.size ∧ elems w.heap va = elems w.heap vb) ∧
    (∀ op w', exec (d + 9) S w op = some w' →
      ∀ p b, lookup w.heap p = some b → 1 < b.refs →
        ∃ b', lookup w'.heap p = some b' ∧ b'.data = b.data ∧ b'.capacity = b.capacity) := by
  constructor
  · intro a b va vb ga gb sa sb hbuf
    simp only [is_small, size] at sa sb ⊢
    have hn := reachable_agree hr a b va vb ga gb sa sb hbuf
    refine ⟨hn, ?_⟩
    simp only [elems, size, cdata, is_small, sa, sb, hbuf, hn, Bool.false_eq_true, if_false]
  · intro op w' he
    exact (exec_sharing d (reachable_inv hr) op he).2

/-- Two containers share `7, 8, 9`; `b[0] = 42` on one of them leaves the
shared block with its slots. -/
theorem sharers_agree_witness :
    Reachable 2 ex_shared ∧
    elems ex_shared.heap (⟨3, false, [none, none], 0⟩ : socow_vector Nat)
      = [some 7, some 8, some 9] ∧
    exec (0 + 9) 2 ex_shared (.assign_elem 1 0 42)
      = some ⟨[some ⟨5, 1, [some 7, some 8, some 9, none, none]⟩,
          some ⟨5, 1, [some 42, some 8, some 9, none, none]⟩],
        [some ⟨3, false, [none, none], 0⟩, some ⟨3, false, [none, none], 1⟩]⟩ ∧
    ∃ b', lookup [some ⟨5, 1, [some 7, some 8, some 9, none, none]⟩,
        some ⟨5, 1, [some 42, some 8, some 9, none, none]⟩] 0 = some b' ∧
      b'.data = [some 7, some 8, some 9, none, none] ∧ b'.capacity = 5 :=
  ⟨ex_shared_reachable,
    ((sharers_agree 0 2 ex_shared ex_shared_reachable).1 0 1 ⟨3, false, [none, none], 0⟩
      ⟨3, false, [none, none], 0⟩ rfl rfl rfl rfl rfl).2,
    by decide!,
    (sharers_agree 0 2 ex_shared ex_shared_reachable).2 (.assign_elem 1 0 42)
      ⟨[some ⟨5, 1, [some 7, some 8, some 9, none, none]⟩,
          some ⟨5, 1, [some 42, some 8, some 9, none, none]⟩],
        [some ⟨3, false, [none, none], 0⟩, some ⟨3, false, [none, none], 1⟩]⟩
      (by decide!) 0 ⟨5, 2, [some 7, some 8, some 9, none, none]⟩ rfl (by decide)⟩

/-- C22. Strong guarantee on allocation failure.  Each of `push_back` (both
overloads), `insert` (both overloads), `reserve`, `shrink_to_fit`, `pop_back`,
`erase` and the unsharing mutable accesses `operator[]` and `data()` ends,
whether the allocator succeeds or throws.  When the call leaves with
`std::bad_alloc`, the heap and the container are exactly those of the call,
hence elements, size, capacity, mode and every reference count are as before.
When the call returns, it returns what it returns with an allocator that
always succeeds; that run allocates at most one block, and none at all in a
call that returns although the allocator throws.  For `push_back` and `insert`
on a full container the byte count of a block for `2 * capacity() + 1` elements,
and for `reserve(n)` with `n > capacity()` that of a block for `n` elements, is
taken to be a value of `std::size_t`. -/
theorem alloc_failure_strong_guarantee (d S : Nat) (ok : Bool) (h : Heap T)
    (v : socow_vector T) (x : T) (pos i n first last : Nat) (hv : WF S h v) :
    ((v.size = capacity S h v → Fits T (2 * capacity S h v + 1)) →
      Safe ok h v (push_back_try ok (d + 9) S h v x) (push_back (d + 9) S h v x)) ∧
    ((v.size = capacity S h v → Fits T (2 * capacity S h v + 1)) →
      Safe ok h v (push_back_copy_try ok (d + 9) S h v x)
        (push_back_copy (d + 9) S h v x)) ∧
    (pos ≤ v.size → (v.size = capacity S h v → Fits T (2 * capacity S h v + 1)) →
      Safe ok h v (insert_try ok (d + 9) S h v pos x)
        ((socow_vector.insert (d + 9) S h v pos x).map fun r => (r.1, r.2.1)) ∧
      Safe ok h v (insert_copy_try ok (d + 9) S h v pos x)
        ((insert_copy (d + 9) S h v pos x).map fun r => (r.1, r.2.1))) ∧
    ((capacity S h v < n → Fits T n) →
      Safe ok h v (reserve_try ok (d + 9) S h v n) (reserve (d + 9) S h v n)) ∧
    Safe ok h v (shrink_to_fit_try ok (d + 9) S h v) (shrink_to_fit (d + 9) S h v) ∧
    (v.size ≠ 0 → Safe ok h v (pop_back_try ok (d + 9) S h v) (pop_back (d + 9) S h v)) ∧
    (first ≤ last → last ≤ v.size →
      Safe ok h v (erase_try ok (d + 9) S h v first last)
        ((erase (d + 9) S h v first last).map fun r => (r.1, r.2.1))) ∧
    Safe ok h v (index_mut_try ok (d + 9) S h v i) (index_mut (d + 9) S h v i) ∧
    Safe ok h v (data_try ok (d + 9) S h v) (data (d + 9) S h v) := by
  refine ⟨push_back_try_safe (d + 3) x hv, push_back_copy_try_safe (d + 2) x hv,
    fun hp hg =>
      ⟨insert_try_safe (d + 3) pos x hv hp hg, insert_try_safe (d + 3) pos x hv hp hg⟩,
    reserve_try_safe (d + 3) n hv, shrink_to_fit_try_safe (d + 3) hv,
    fun hn => pop_back_try_safe (d + 5) hv hn,
    fun hf hl => erase_try_safe (d + 5) first last hv hf hl, ?_, ?_⟩
  · rw [index_mut_try, index_mut_eq]
    exact unshare_try_safe (d + 1) hv
  · rw [data_try, data_eq]
    exact unshare_try_safe (d + 1) hv

/-- With a failing allocator, `push_back` on one of two containers that share
`7, 8, 9` leaves with `std::bad_alloc` and changes nothing, and `push_back` on
the only owner of a block with room returns. -/
theorem alloc_failure_strong_guarantee_witness :
    Safe false ex_shared.heap (⟨3, false, [none, none], 0⟩ : socow_vector Nat)
      (push_back_try false (0 + 9) 2 ex_shared.heap ⟨3, false, [none, none], 0⟩ 9)
      (push_back (0 + 9) 2 ex_shared.heap ⟨3, false, [none, none], 0⟩ 9) ∧
    push_back_try false (0 + 9) 2 ex_shared.heap (⟨3, false, [none, none], 0⟩ : socow_vector Nat)
        9 = some (.bad_alloc (ex_shared.heap, ⟨3, false, [none, none], 0⟩)) ∧
    push_back_try false (0 + 9) 2 ex_heap.heap (⟨3, false, [none, none], 0⟩ : socow_vector Nat)
        9 = some (.done ([some ⟨5, 1, [some 7, some 8, some 9, some 9, none]⟩],
          ⟨4, false, [none, none], 0⟩)) :=
  ⟨(alloc_failure_strong_guarantee 0 2 false ex_shared.heap ⟨3, false, [none, none], 0⟩ 9
      0 0 0 0 0 (by decide)).1 (by decide), rfl, rfl⟩

/-- C31. Copy-on-write isolation for the remaining mutators: in a reachable state let `b`
become a copy of the container `a`, by copy construction or by copy assignment.  Then each of
`b.insert` (of an rvalue or a `const` reference), `b.erase` (of one position or of a range),
`b.pop_back`, `b.clear`, `b.reserve`, `b.shrink_to_fit`, a swap of `b` with a third container, a
move from `b` (move construction, or move assignment to a third container) and the mutable
`front`, `back`, `operator[]`, `data`, `begin` and `end` of `b` runs to completion and leaves the
object `a`, hence its size, and every element of `a` as they were.  For `insert` on a full `b`
the byte count of a block for `2 * capacity() + 1` elements, and for `reserve(n)` with
`n > capacity()` that of a block for `n` elements, is taken to be a value of `std::size_t`. -/
theorem cow_isolation_mutators (d S : Nat) (w0 w : World T) (ia ib : Nat)
    (a : socow_vector T) (hr : Reachable S w0) (ha : w0.get ia = some a)
    (hc : (ib = w0.objs.length ∧ exec (d + 9) S w0 (.copy_construct ia) = some w) ∨
      (ib ≠ ia ∧ exec (d + 9) S w0 (.copy_assign ib ia) = some w)) :
    (∀ pos x, pos ≤ a.size → Room S w (.insert ib pos x) →
      Leaves d S w0 w ia a (.insert ib pos x) ∧
      Leaves d S w0 w ia a (.insert_copy ib pos x)) ∧
    (∀ pos, pos < a.size → Leaves d S w0 w ia a (.erase_at ib pos)) ∧
    (∀ first last, first ≤ last → last ≤ a.size →
      Leaves d S w0 w ia a (.erase ib first last)) ∧
    (a.size ≠ 0 → Leaves d S w0 w ia a (.pop_back ib) ∧ Leaves d S w0 w ia a (.front ib) ∧
      Leaves d S w0 w ia a (.back ib)) ∧
    Leaves d S w0 w ia a (.clear ib) ∧
    (∀ n, Room S w (.reserve ib n) → Leaves d S w0 w ia a (.reserve ib n)) ∧
    Leaves d S w0 w ia a (.shrink_to_fit ib) ∧
    (∀ ic c, ic ≠ ia → w.get ic = some c →
      Leaves d S w0 w ia a (.swap ib ic) ∧ Leaves d S w0 w ia a (.swap ic ib) ∧
      Leaves d S w0 w ia a (.move_assign ic ib)) ∧
    Leaves d S w0 w ia a (.move_construct ib) ∧
    (∀ i, i < a.size → Leaves d S w0 w ia a (.index_mut ib i)) ∧
    Leaves d S w0 w ia a (.data ib) ∧
    (∃ b, w.get ib = some b ∧
      LeavesBy w0 w ia a ib (socow_vector.begin (d + 9) S w.heap b) ∧
      LeavesBy w0 w ia a ib (socow_vector.end_ (d + 9) S w.heap b)) := by
  obtain ⟨hI, hne, hk, ⟨b, hb, same⟩, _⟩ := copy_step d (reachable_inv hr) ha hc
  obtain ⟨ga, ea, _⟩ := hk a ha
  have hsz : b._size = a._size := same.1
  have hne' : ¬ ia = ib := hne
  have L := fun op hp hR ht => @leaves_of_pre T _ S w0 w ia a d hI ga ea op hp hR ht
  refine ⟨fun pos x hp hR => ⟨L _ ⟨b, hb, by rw [hsz]; exact hp⟩ hR hne',
      L _ ⟨b, hb, by rw [hsz]; exact hp⟩ hR hne'⟩,
    fun pos hp => L _ ⟨b, hb, by rw [hsz]; exact hp⟩ trivial hne',
    fun first last h1 h2 => L _ ⟨b, hb, h1, by rw [hsz]; exact h2⟩ trivial hne',
    fun h0 => ⟨L _ ⟨b, hb, by rw [hsz]; exact h0⟩ trivial hne',
      L _ ⟨b, hb, by rw [hsz]; exact h0⟩ trivial hne',
      L _ ⟨b, hb, by rw [hsz]; exact h0⟩ trivial hne'⟩,
    L _ ⟨b, hb⟩ trivial hne', fun n hR => L _ ⟨b, hb⟩ hR hne', L _ ⟨b, hb⟩ trivial hne',
    fun ic c hic gc => ⟨L _ ⟨b, c, hb, gc⟩ trivial (by simp only [touches]; omega),
      L _ ⟨c, b, gc, hb⟩ trivial (by simp only [touches]; omega),
      L _ ⟨c, b, gc, hb⟩ trivial (by simp only [touches]; omega)⟩,
    L _ ⟨b, hb⟩ trivial hne', fun i hi => L _ ⟨b, hb, by rw [hsz]; exact hi⟩ trivial hne',
    L _ ⟨b, hb⟩ trivial hne', b, hb, ?_, ?_⟩
  · obtain ⟨h', v', e, r1, _⟩ := unshare_spec (d + 1) (hI.1 ib b hb)
    obtain ⟨g, k, _⟩ := keeps_unary hI hb r1 hne a ga
    exact ⟨(h', v'), by rw [begin_eq]; exact e, g, k.trans ea⟩
  · obtain ⟨h', v', e, r1, _⟩ := unshare_spec (d + 1) (hI.1 ib b hb)
    obtain ⟨g, k, _⟩ := keeps_unary hI hb r1 hne a ga
    exact ⟨(h', v'), by rw [socow_vector.end_, data_eq]; exact e, g, k.trans ea⟩

/-- The copy of `7, 8, 9` made by copy construction, then `b.erase(begin() + 1)`. -/
theorem cow_isolation_mutators_witness :
    Reachable 2 ex_heap ∧ exec (0 + 9) 2 ex_heap (.copy_construct 0) = some ex_shared ∧
    Leaves 0 2 ex_heap ex_shared 0 ⟨3, false, [none, none], 0⟩ (.erase_at 1 1) :=
  ⟨ex_heap_reachable, rfl,
    (cow_isolation_mutators 0 2 ex_heap ex_shared 0 1 ⟨3, false, [none, none], 0⟩
      ex_heap_reachable rfl (Or.inl ⟨rfl, rfl⟩)).2.1 1 (by decide)⟩

/-- C32. Heap blocks are larger than the inline array.  The private capacity constructor, the
one place that allocates, allocates exactly when the requested capacity exceeds `SMALL_SIZE`,
and the block has that capacity; a request above `SMALL_SIZE` whose byte count is not a value
of `std::size_t` has no block of that capacity and no result.  In every reachable state every live block has a capacity
above `SMALL_SIZE`, a container is inline iff `capacity() == SMALL_SIZE`, a heap-backed
container has `capacity() > SMALL_SIZE`, and `capacity() ≥ SMALL_SIZE` always. -/
theorem heap_capacity_above_small (S : Nat) (w : World T) (hr : Reachable S w) :
    (∀ (h : Heap T) n,
      ((S < n → Fits T n) →
        ∃ r, ctor_capacity S h n = some r ∧
          (r.1 = h ∨ (r.1.length = h.length + 1 ∧ S < n ∧
            lookup r.1 h.length = some ⟨n, 1, List.replicate n none⟩)) ∧
          (r.1 = h ↔ n ≤ S)) ∧
      (S < n → ¬ Fits T n → ctor_capacity S h n = none)) ∧
    (∀ p b, lookup w.heap p = some b → S < b.capacity) ∧
    (∀ c v, w.get c = some v →
      (v.is_small = true ↔ capacity S w.heap v = S) ∧
      (v.is_small = false → S < capacity S w.heap v) ∧ S ≤ capacity S w.heap v) := by
  have hI := reachable_inv hr
  refine ⟨fun h n => ⟨fun hf => ?_, fun hn hf => ctor_capacity_none hn hf⟩,
    fun p b hb => ?_, fun c v hg => ?_⟩
  · by_cases hn : n ≤ S
    · exact ⟨_, ctor_capacity_small hn, Or.inl rfl, fun _ => hn, fun _ => rfl⟩
    · have hn' : S < n := by omega
      refine ⟨_, ctor_capacity_heap hn' (hf hn'),
        Or.inr ⟨by simp, hn', by rw [lookup_append, if_pos rfl]⟩, fun e => ?_,
        fun h' => absurd h' hn⟩
      have := congrArg List.length e
      simp at this
  · obtain ⟨c, v, hg, hp⟩ := hI.referenced hb
    simp only [points_to, Bool.and_eq_true, Bool.not_eq_true', beq_iff_eq] at hp
    obtain ⟨b', hb', _, _, hl, _⟩ := (hI.1 c v hg).block hp.1
    rw [hp.2, hb] at hb'
    cases hb'
    exact hl
  · have hv := hI.1 c v hg
    simp only [is_small]
    cases hs : v._small with
    | true =>
      have hcap : capacity S w.heap v = S := capacity_small hs
      exact ⟨⟨fun _ => hcap, fun _ => rfl⟩, (fun h' => by cases h'), by omega⟩
    | false =>
      have hcap := hv.heap_capacity hs
      exact ⟨⟨(fun h' => by cases h'), fun h' => by omega⟩, fun _ => hcap, by omega⟩

/-- The shared block of `ex_shared` has five slots, above `SMALL_SIZE = 2`. -/
theorem heap_capacity_above_small_witness :
    Reachable 2 ex_shared ∧ ∀ p b, lookup ex_shared.heap p = some b → 2 < b.capacity :=
  ⟨ex_shared_reachable, (heap_capacity_above_small 2 ex_shared ex_shared_reachable).2.1⟩

end Claims

end Socow

/-! ## Type lists: the metafunctions -/

namespace tl

variable {α : Type}

theorem concat_cons (l : Ty α) (ls : List (Ty α)) :
    concat (l :: ls) = (concat ls).bind (plus l) := rfl

theorem concat_apps (ps : List (Template × List (Ty α))) :
    concat (ps.map fun p => Ty.app p.1 p.2) =
      some (.app ((ps.head?.map Prod.fst).getD .type_list) (ps.map Prod.snd).flatten) := by
  induction ps with
  | nil => rfl
  | cons p ps ih =>
    rw [List.map_cons, concat_cons, ih]
    simp [plus]

theorem expand_some {β γ : Type} (g : β → γ) (xs : List β) :
    expand (xs.map fun x => some (g x)) = some (xs.map g) := by
  induction xs with
  | nil => rfl
  | cons x xs ih => simp [expand, ih]

theorem leaves_pack_eq (xs : List (Ty α)) : leaves_pack xs = (xs.map leaves).flatten := by
  induction xs with
  | nil => rfl
  | cons x xs ih => simp [leaves_pack, ih]

mutual
theorem flatten_eq : ∀ x : Ty α, flatten x = some (.app (outer x) (leaves x))
  | .atom a => rfl
  | .index n => rfl
  | .app L Types => by
    have h := flatten_pack_eq Types
    have hc := concat_apps (Types.map fun x => (outer x, leaves x))
    rw [List.map_map] at hc
    simp only [flatten, h, Option.some_bind]
    rw [show (fun x => Ty.app (outer x) (leaves x)) =
      ((fun p : Template × List (Ty α) => Ty.app p.1 p.2) ∘ fun x => (outer x, leaves x)) from rfl,
      hc]
    simp [apply, outer, leaves, leaves_pack_eq, List.map_map, Function.comp_def]
theorem flatten_pack_eq : ∀ xs : List (Ty α),
    flatten_pack xs = some (xs.map fun x => .app (outer x) (leaves x))
  | [] => rfl
  | x :: xs => by
    simp [flatten_pack, flatten_eq x, flatten_pack_eq xs]
end

mutual
theorem leaves_is_leaf : ∀ x : Ty α, ∀ y ∈ leaves x, is_leaf y
  | .atom a => by intro y hy; simp [leaves] at hy; subst hy; trivial
  | .index n => by intro y hy; simp [leaves] at hy; subst hy; trivial
  | .app L Types => by
    intro y hy
    rw [leaves] at hy
    exact leaves_pack_is_leaf Types y hy
theorem leaves_pack_is_leaf : ∀ xs : List (Ty α), ∀ y ∈ leaves_pack xs, is_leaf y
  | [] => by intro y hy; simp [leaves_pack] at hy
  | x :: xs => by
    intro y hy
    simp only [leaves_pack, List.mem_append] at hy
    rcases hy with hy | hy
    · exact leaves_is_leaf x y hy
    · exact leaves_pack_is_leaf xs y hy
end

theorem leaves_of_leaf (x : Ty α) (h : is_leaf x) : leaves x = [x] := by
  cases x with
  | atom a => rfl
  | index n => rfl
  | app L Types => exact h.elim

theorem leaves_pack_of_leaves (xs : List (Ty α)) (h : ∀ y ∈ xs, is_leaf y) :
    leaves_pack xs = xs := by
  induction xs with
  | nil => rfl
  | cons x xs ih =>
    rw [leaves_pack, leaves_of_leaf x (h x (List.mem_cons_self _ _)),
      ih fun y hy => h y (List.mem_cons_of_mem _ hy)]
    rfl

/-! ### slice -/

/-- The elements at the indices from `lo` up to `hi`, of a list whose first index is `k`. -/
theorem slice_window (L : Template) (lo hi : Nat) (xs : List (Ty α)) (k : Nat) :
    expand ((((xs.enumFrom k).map fun p =>
        (L, if lo ≤ p.1 ∧ p.1 < hi then [Ty.app L [.index p.1, p.2]] else [])).map
          Prod.snd).flatten.map second) =
      some ((xs.drop (lo - k)).take (hi - max lo k)) := by
  induction xs generalizing k with
  | nil => simp [expand]
  | cons x xs ih =>
    simp only [List.enumFrom_cons, List.map_cons, List.flatten_cons, List.map_append]
    have ih' := ih (k + 1)
    by_cases h1 : lo ≤ k
    · by_cases h2 : k < hi
      · rw [if_pos ⟨h1, h2⟩]
        have e1 : lo - (k + 1) = 0 := by omega
        have e2 : lo - k = 0 := by omega
        have e3 : hi - max lo k = (hi - max lo (k + 1)) + 1 := by
          rw [max_eq_right h1, max_eq_right (by omega)]; omega
        rw [e1] at ih'
        rw [e2, e3]
        simp only [List.map_cons, List.map_nil, List.cons_append, List.nil_append, expand, second,
          Option.some_bind, ih', List.drop_zero, Option.map_some', List.take_succ_cons,
          List.append_eq, List.nil_append]
      · rw [if_neg (fun h => h2 h.2)]
        have e3 : hi - max lo k = 0 := by rw [max_eq_right h1]; omega
        have e4 : hi - max lo (k + 1) = 0 := by rw [max_eq_right (by omega)]; omega
        rw [e4] at ih'
        rw [e3]
        simpa using ih'
    · rw [if_neg (fun h => h1 h.1)]
      have e1 : lo - k = (lo - (k + 1)) + 1 := by omega
      have e3 : max lo (k + 1) = max lo k := by
        rw [max_eq_left (by omega), max_eq_left (by omega)]
      rw [e3] at ih'
      rw [e1]
      simpa using ih'

theorem slice_singles (L : Template) (Start Len : Nat) (xs : List (Ty α)) (k : Nat) :
    (((xs.enumFrom k).map fun p => Ty.app L [.index p.1, p.2]).map fun Type_ =>
        (slice_comp Start Len Type_).map fun value =>
          conditional value (Ty.app L [Type_]) (.app L [])) =
      (((xs.enumFrom k).map fun p =>
        (L, if Start ≤ p.1 ∧ p.1 < (Start + Len) % SIZE_RANGE
          then [Ty.app L [.index p.1, p.2]] else [])).map fun q => some (Ty.app q.1 q.2)) := by
  rw [List.map_map, List.map_map]
  apply List.map_congr_left
  intro p _
  simp only [Function.comp, slice_comp, get_index, Option.map_some']
  by_cases h : Start ≤ p.1 ∧ p.1 < (Start + Len) % SIZE_RANGE
  · rw [if_pos h]; simp [h.1, h.2, conditional]
  · rw [if_neg h]
    rcases not_and_or.mp h with h | h <;> simp [h, conditional]

theorem slice_range (L : Template) (xs : List (Ty α)) (Start Len : Nat) :
    slice (.app L xs) Start Len =
      some (.app L ((xs.drop Start).take ((Start + Len) % SIZE_RANGE - Start))) := by
  cases xs with
  | nil => simp [slice, enumerate, List.enum, filter, transform, expand]
  | cons x xs =>
    have hs := slice_singles L Start Len (x :: xs) 0
    have hw := slice_window L Start ((Start + Len) % SIZE_RANGE) (x :: xs) 0
    have hc := concat_apps (((x :: xs).enumFrom 0).map fun p =>
        (L, if Start ≤ p.1 ∧ p.1 < (Start + Len) % SIZE_RANGE
          then [Ty.app L [.index p.1, p.2]] else []))
    rw [Nat.sub_zero, Nat.max_zero] at hw
    have hf : filter (slice_comp Start Len)
        (.app L (((x :: xs).enumFrom 0).map fun p => Ty.app L [.index p.1, p.2])) =
        (expand ((((x :: xs).enumFrom 0).map fun p => Ty.app L [.index p.1, p.2]).map
          fun Type_ => (slice_comp Start Len Type_).map fun value =>
            conditional value (Ty.app L [Type_]) (.app L []))).bind concat := rfl
    simp only [slice, enumerate, List.enum, Option.some_bind]
    rw [hf, hs, expand_some, Option.some_bind, hc]
    simp only [List.enumFrom_cons, List.map_cons, List.head?_cons, Option.map_some',
      Option.getD_some, Option.some_bind, transform]
    simp only [List.enumFrom_cons, List.map_cons] at hw
    rw [hw]
    rfl

/-- The slice without wrap-around of `Start + Len`. -/
theorem slice_eq (L : Template) (xs : List (Ty α)) (Start Len : Nat)
    (h : Start + Len < SIZE_RANGE) :
    slice (.app L xs) Start Len = some (.app L ((xs.drop Start).take Len)) := by
  rw [slice_range, Nat.mod_eq_of_lt h, Nat.add_sub_cancel_left]

/-! ### merge and merge_sort -/

theorem StrictWeakOrder.asymm {Compare : Ty α → Ty α → Bool} (hc : StrictWeakOrder Compare)
    {a b : Ty α} (h : Compare a b = true) : Compare b a = false := by
  cases h' : Compare b a with
  | false => rfl
  | true => have := hc.trans a b a h h'; rw [hc.irrefl a] at this; cases this

theorem StrictWeakOrder.neg_trans {Compare : Ty α → Ty α → Bool} (hc : StrictWeakOrder Compare)
    {a b c : Ty α} (h1 : Compare a b = false) (h2 : Compare b c = false) :
    Compare a c = false := by
  cases h : Compare a c with
  | false => rfl
  | true =>
    cases hba : Compare b a with
    | true => have := hc.trans b a c hba h; rw [h2] at this; cases this
    | false =>
      cases hcb : Compare c b with
      | true => have := hc.trans a c b h hcb; rw [h1] at this; cases this
      | false => have := (hc.incomp a b c h1 hba h2 hcb).1; rw [h] at this; cases this

theorem merge_nil_right (Compare : Ty α → Ty α → Bool) (d : Nat) (L : Template)
    (xs : List (Ty α)) : merge Compare (d + 1) (.app L xs) (.app L []) = some (.app L xs) := by
  cases xs <;> simp [merge]

theorem merge_nil_left (Compare : Ty α → Ty α → Bool) (d : Nat) (L : Template)
    (ys : List (Ty α)) : merge Compare (d + 1) (.app L []) (.app L ys) = some (.app L ys) := by
  cases ys <;> simp [merge]

theorem merge_cons (Compare : Ty α → Ty α → Bool) (d : Nat) (L : Template) (a b : Ty α)
    (xs ys : List (Ty α)) :
    merge Compare (d + 1) (.app L (a :: xs)) (.app L (b :: ys)) =
      if Compare a b = true then
        (merge Compare d (.app L xs) (.app L (b :: ys))).bind fun r => concat [.app L [a], r]
      else
        (merge Compare d (.app L (a :: xs)) (.app L ys)).bind fun r => concat [.app L [b], r] := by
  cases h : Compare a b <;> simp [merge, h]

theorem concat_head (L : Template) (a : Ty α) (zs : List (Ty α)) :
    concat [.app L [a], .app L zs] = some (.app L (a :: zs)) := by
  simp [concat, plus]

/-- With instantiation depth beyond the total length, `merge` returns a permutation of
`xs ++ ys`, which is sorted when both lists are. -/
theorem merge_spec (Compare : Ty α → Ty α → Bool) (L : Template) (d : Nat)
    (xs ys : List (Ty α)) (hd : xs.length + ys.length < d) :
    ∃ zs, merge Compare d (.app L xs) (.app L ys) = some (.app L zs) ∧ zs.Perm (xs ++ ys) ∧
      (StrictWeakOrder Compare → Sorted Compare xs → Sorted Compare ys → Sorted Compare zs) := by
  induction d generalizing xs ys with
  | zero => omega
  | succ d ih =>
    cases xs with
    | nil => exact ⟨ys, merge_nil_left _ _ _ _, by simp, fun _ _ h => h⟩
    | cons a xs =>
      cases ys with
      | nil => exact ⟨a :: xs, merge_nil_right _ _ _ _, by simp, fun _ h _ => h⟩
      | cons b ys =>
        rw [merge_cons]
        simp only [List.length_cons] at hd
        by_cases h : Compare a b = true
        · obtain ⟨zs, hz, hp, hs⟩ := ih xs (b :: ys) (by simp only [List.length_cons]; omega)
          refine ⟨a :: zs, by rw [if_pos h, hz, Option.some_bind, concat_head], by simpa using hp, ?_⟩
          intro hc hx hy
          have hx' := List.pairwise_cons.mp hx
          have hy' := List.pairwise_cons.mp hy
          refine List.pairwise_cons.mpr ⟨?_, hs hc hx'.2 hy⟩
          intro z hz'
          rcases List.mem_append.mp (hp.mem_iff.mp hz') with hm | hm
          · exact hx'.1 z hm
          · rcases List.mem_cons.mp hm with rfl | hm
            · exact hc.asymm h
            · cases hza : Compare z a with
              | false => rfl
              | true =>
                have := hc.trans z a b hza h
                rw [hy'.1 z hm] at this; cases this
        · obtain ⟨zs, hz, hp, hs⟩ := ih (a :: xs) ys (by simp only [List.length_cons]; omega)
          have h' : Compare a b = false := by simpa using h
          refine ⟨b :: zs, by rw [if_neg h, hz, Option.some_bind, concat_head], ?_, ?_⟩
          · refine (List.Perm.cons b hp).trans ?_
            exact (@List.perm_middle _ b (a :: xs) ys).symm
          intro hc hx hy
          have hx' := List.pairwise_cons.mp hx
          have hy' := List.pairwise_cons.mp hy
          refine List.pairwise_cons.mpr ⟨?_, hs hc hx hy'.2⟩
          intro z hz'
          rcases List.mem_append.mp (hp.mem_iff.mp hz') with hm | hm
          · rcases List.mem_cons.mp hm with rfl | hm
            · exact h'
            · exact hc.neg_trans (hx'.1 z hm) h'
          · exact hy'.1 z hm

theorem merge_sort_cons3 (Compare : Ty α → Ty α → Bool) (d : Nat) (L : Template) (a b c : Ty α)
    (xs : List (Ty α)) :
    merge_sort Compare (d + 1) (.app L (a :: b :: c :: xs)) =
      (slice (.app L (a :: b :: c :: xs)) 0 ((a :: b :: c :: xs).length / 2)).bind fun l1 =>
      (merge_sort Compare d l1).bind fun sorted1 =>
      (slice (.app L (a :: b :: c :: xs)) ((a :: b :: c :: xs).length / 2)
        ((a :: b :: c :: xs).length - (a :: b :: c :: xs).length / 2)).bind fun l2 =>
      (merge_sort Compare d l2).bind fun sorted2 =>
      merge Compare d sorted1 sorted2 := by
  simp [merge_sort]

/-- With instantiation depth beyond the length, `merge_sort` returns a sorted permutation. -/
theorem merge_sort_spec (Compare : Ty α → Ty α → Bool) (L : Template) (d : Nat)
    (xs : List (Ty α)) (hn : xs.length < SIZE_RANGE) (hd : xs.length + 2 ≤ d) :
    ∃ zs, merge_sort Compare d (.app L xs) = some (.app L zs) ∧ zs.Perm xs ∧
      (StrictWeakOrder Compare → Sorted Compare zs) := by
  induction d generalizing xs with
  | zero => omega
  | succ d ih =>
    match xs, hn, hd with
    | [], _, _ => exact ⟨[], rfl, List.Perm.refl _, fun _ => List.Pairwise.nil⟩
    | [a], _, _ => exact ⟨[a], rfl, List.Perm.refl _, fun _ => List.pairwise_singleton _ _⟩
    | [a, b], _, _ =>
      cases h : Compare a b with
      | true =>
        refine ⟨[a, b], by simp [merge_sort, h, conditional], List.Perm.refl _, fun hc => ?_⟩
        exact List.pairwise_pair.mpr (hc.asymm h)
      | false =>
        refine ⟨[b, a], by simp [merge_sort, h, conditional], List.Perm.swap _ _ _, fun _ => ?_⟩
        exact List.pairwise_pair.mpr h
    | a :: b :: c :: xs, hn, hd =>
      generalize hl : a :: b :: c :: xs = l at hn hd ⊢
      have hlen : 3 ≤ l.length := by rw [← hl]; simp
      have e1 : slice (.app L l) 0 (l.length / 2) = some (.app L (l.take (l.length / 2))) := by
        rw [slice_eq L l 0 _ (by omega)]; rfl
      have e2 : slice (.app L l) (l.length / 2) (l.length - l.length / 2) =
          some (.app L (l.drop (l.length / 2))) := by
        rw [slice_eq L l _ _ (by omega), List.take_of_length_le (by simp)]
      obtain ⟨z1, h1, p1, s1⟩ := ih (l.take (l.length / 2)) (by simp; omega)
        (by simp; omega)
      obtain ⟨z2, h2, p2, s2⟩ := ih (l.drop (l.length / 2)) (by simp; omega)
        (by simp; omega)
      obtain ⟨zs, hz, hp, hs⟩ := merge_spec Compare L d z1 z2 (by
        rw [p1.length_eq, p2.length_eq]; simp; omega)
      refine ⟨zs, ?_, ?_, fun hc => hs hc (s1 hc) (s2 hc)⟩
      · rw [← hl, merge_sort_cons3, hl, e1, Option.some_bind, h1, Option.some_bind, e2,
          Option.some_bind, h2, Option.some_bind, hz]
      · refine hp.trans ((p1.append p2).trans ?_)
        rw [List.take_append_drop]

/-! ### The test comparison -/

theorem compare_prim_swo : StrictWeakOrder compare_prim := by
  refine ⟨fun a => ?_, fun a b c => ?_, fun a b c => ?_⟩
  · simp [compare_prim]
  · simp only [compare_prim, decide_eq_true_eq]; omega
  · simp only [compare_prim, decide_eq_false_iff_not]; omega

theorem sorted_int_long : Sorted compare_prim [.atom .int, .atom .long] := by
  simp [Sorted, compare_prim, rank, Prim.rank]

theorem sorted_double_long : Sorted compare_prim [.atom .double, .atom .long] := by
  simp [Sorted, compare_prim, rank, Prim.rank]

/-! ## Type lists: the claims -/

/-- C23: `tl::merge_sort<List, Compare>`: for every type list (of fewer than `2 ^ 64` types,
the range of `count`) and every `Compare` that is a strict weak ordering, at every instantiation
depth beyond the length the metafunction returns a list in the same template that is a
permutation of the input and in which no element is followed by one that `Compare` orders
strictly before it; the halves have the lengths `n / 2` and `n - n / 2` (see `merge_sort`), and
`[long, double, int, long]` sorts to `[int, double, long, long]`. -/
theorem merge_sort_correct (Compare : Ty α → Ty α → Bool) (hc : StrictWeakOrder Compare)
    (L : Template) (xs : List (Ty α)) (d : Nat) (hn : xs.length < SIZE_RANGE)
    (hd : xs.length + 2 ≤ d) :
    (∃ zs, merge_sort Compare d (.app L xs) = some (.app L zs) ∧ zs.Perm xs ∧
      Sorted Compare zs) ∧
    merge_sort compare_prim 6
        (.app .type_list [.atom .long, .atom .double, .atom .int, .atom .long]) =
      some (.app .type_list [.atom .int, .atom .double, .atom .long, .atom .long]) := by
  obtain ⟨zs, h, hp, hs⟩ := merge_sort_spec Compare L d xs hn hd
  exact ⟨⟨zs, h, hp, hs hc⟩, rfl⟩

theorem merge_sort_correct_witness :
    StrictWeakOrder compare_prim ∧
    [Ty.atom Prim.long, .atom .double, .atom .int].length < SIZE_RANGE ∧
    (∃ zs, merge_sort compare_prim 5 (.app (.named 0) [.atom .long, .atom .double, .atom .int]) =
        some (.app (.named 0) zs) ∧
      zs.Perm [.atom .long, .atom .double, .atom .int] ∧ Sorted compare_prim zs) :=
  ⟨compare_prim_swo, by decide,
    (merge_sort_correct compare_prim compare_prim_swo (.named 0)
      [.atom .long, .atom .double, .atom .int] 5 (by decide) (by decide)).1⟩

/-- C24: `tl::merge<L1, L2, Compare>`: for every two lists of one list template that are each
sorted with respect to a strict weak ordering `Compare`, at every instantiation depth beyond the
total length the result is sorted with respect to `Compare` and is a permutation of `L1 ++ L2`;
merging with an empty list returns the other list and merging two empty lists returns the empty
list; `merge([int, long], [double, long]) = [int, double, long, long]`. -/
theorem merge_correct (Compare : Ty α → Ty α → Bool) (hc : StrictWeakOrder Compare)
    (L : Template) (xs ys : List (Ty α)) (d : Nat) (hd : xs.length + ys.length < d)
    (hx : Sorted Compare xs) (hy : Sorted Compare ys) :
    (∃ zs, merge Compare d (.app L xs) (.app L ys) = some (.app L zs) ∧ Sorted Compare zs ∧
      zs.Perm (xs ++ ys)) ∧
    merge Compare d (.app L xs) (.app L []) = some (.app L xs) ∧
    merge Compare d (.app L []) (.app L ys) = some (.app L ys) ∧
    merge Compare d (.app L []) (.app L []) = some (.app L []) ∧
    merge compare_prim 5 (.app .type_list [.atom .int, .atom .long])
        (.app .type_list [.atom .double, .atom .long]) =
      some (.app .type_list [.atom .int, .atom .double, .atom .long, .atom .long]) := by
  obtain ⟨zs, h, hp, hs⟩ := merge_spec Compare L d xs ys hd
  obtain ⟨e, rfl⟩ : ∃ e, d = e + 1 := ⟨d - 1, by omega⟩
  exact ⟨⟨zs, h, hs hc hx hy, hp⟩, merge_nil_right _ _ _ _, merge_nil_left _ _ _ _,
    merge_nil_left _ _ _ _, rfl⟩

theorem merge_correct_witness :
    StrictWeakOrder compare_prim ∧
    Sorted compare_prim [.atom .int, .atom .long] ∧
    Sorted compare_prim [.atom .double, .atom .long] ∧
    ∃ zs, merge compare_prim 5 (.app (.named 1) [.atom .int, .atom .long])
        (.app (.named 1) [.atom .double, .atom .long]) = some (.app (.named 1) zs) ∧
      Sorted compare_prim zs ∧
      zs.Perm ([.atom .int, .atom .long] ++ [.atom .double, .atom .long]) :=
  ⟨compare_prim_swo, sorted_int_long, sorted_double_long,
    (merge_correct compare_prim compare_prim_swo (.named 1) [.atom .int, .atom .long]
      [.atom .double, .atom .long] 5 (by decide) sorted_int_long sorted_double_long).1⟩

/-- C25, counterexample: the sum `Start + Len` is computed in `std::size_t`.
`slice<[int, long, double], 1, 2 ^ 64 - 1>` is the empty list, while the elements at the indices
from 1 up to `1 + (2 ^ 64 - 1)`, that is `take Len (drop Start List)`, are `[long, double]`. -/
theorem slice_wraps_counterexample :
    slice (.app .type_list [.atom Prim.int, .atom .long, .atom .double]) 1 (2 ^ 64 - 1) =
      some (.app .type_list []) ∧
    ([Ty.atom Prim.int, .atom .long, .atom .double].drop 1).take (2 ^ 64 - 1) =
      [.atom .long, .atom .double] ∧
    slice (.app .type_list [.atom Prim.int, .atom .long, .atom .double]) 1 (2 ^ 64 - 1) ≠
      some (.app .type_list
        (([Ty.atom Prim.int, .atom .long, .atom .double].drop 1).take (2 ^ 64 - 1))) := by
  refine ⟨by rw [slice_range]; rfl, rfl, ?_⟩
  rw [slice_range]
  intro h
  cases h

/-- C25 (amended): when `Start + Len` does not wrap around in `std::size_t`,
`tl::slice<List, Start, Len>` is the list, in the same template, of the elements of `List` at
the indices `i` with `Start ≤ i < Start + Len` in their original order, that is
`take Len (drop Start List)`; the third parameter is a length, not an end index:
`slice([int, long, double, float], 1, 1) = [long]`. -/
theorem slice_correct (L : Template) (xs : List (Ty α)) (Start Len : Nat)
    (h : Start + Len < SIZE_RANGE) :
    slice (.app L xs) Start Len = some (.app L ((xs.drop Start).take Len)) ∧
    (∀ i, ((xs.drop Start).take Len)[i]? = if i < Len then xs[Start + i]? else none) ∧
    slice (.app .type_list [.atom Prim.int, .atom .long, .atom .double, .atom .float]) 1 1 =
      some (.app .type_list [.atom .long]) := by
  refine ⟨slice_eq L xs Start Len h, fun i => ?_, rfl⟩
  rw [List.getElem?_take]
  split
  · rw [List.getElem?_drop]
  · rfl

theorem slice_correct_witness :
    1 + 2 < SIZE_RANGE ∧
    slice (.app (.named 2) [.atom Prim.int, .atom .long, .atom .double, .atom .float]) 1 2 =
      some (.app (.named 2)
        (([Ty.atom Prim.int, .atom .long, .atom .double, .atom .float].drop 1).take 2)) :=
  ⟨by decide, (slice_correct (.named 2)
    [.atom Prim.int, .atom .long, .atom .double, .atom .float] 1 2 (by decide)).1⟩

/-- C26: `tl::flatten<List>`: for every nested list the result is a single-level list, in the
outermost list template, of the non-list leaves in left-to-right depth-first order; flattening
is idempotent; `flatten([[double], [[int, long]]]) = [double, int, long]`. -/
theorem flatten_correct (L : Template) (Types : List (Ty α)) :
    flatten (.app L Types) = some (.app L (leaves (.app L Types))) ∧
    (∀ y ∈ leaves (.app L Types), is_leaf y) ∧
    (flatten (.app L Types)).bind flatten = flatten (.app L Types) ∧
    flatten (.app .type_list [.app (.named 0) [.atom Prim.double],
        .app .type_list [.app (.named 0) [.atom .int, .atom .long]]]) =
      some (.app .type_list [.atom .double, .atom .int, .atom .long]) := by
  refine ⟨flatten_eq _, leaves_is_leaf _, ?_, rfl⟩
  rw [flatten_eq, Option.some_bind, flatten_eq]
  simp only [outer, leaves]
  rw [leaves_pack_of_leaves _ (leaves_pack_is_leaf Types)]

end tl

/-! ## Ring buffer: the class invariant -/

namespace circular_buffer

variable {T : Type}

theorem reachable_run {b b' : circular_buffer T} (ops : List (Op T)) (hr : Reachable b)
    (h : run b ops = some b') : Reachable b' := by
  induction ops generalizing b with
  | nil => simp only [run, Option.some.injEq] at h; exact h ▸ hr
  | cons op ops ih =>
    simp only [run] at h
    cases he : exec b op with
    | none => rw [he] at h; cases h
    | some b1 => rw [he] at h; exact ih (Reachable.step op hr he) h

theorem ex_full_reachable : Reachable ex_full :=
  reachable_run [.push_back 1, .push_back 2, .push_back 3] Reachable.ctor (by decide)

theorem Shape.ring_refl (b : circular_buffer T) : Shape b b := ⟨rfl, rfl, rfl, rfl⟩

theorem Shape.ring_trans {a b c : circular_buffer T} (h1 : Shape a b) (h2 : Shape b c) :
    Shape a c :=
  ⟨h2.1.trans h1.1, h2.2.1.trans h1.2.1, h2.2.2.1.trans h1.2.2.1, h2.2.2.2.trans h1.2.2.2⟩

theorem Shape.inv {b b' : circular_buffer T} (h : Shape b b') (hi : Inv b) : Inv b' :=
  ⟨by rw [h.2.1, h.2.2.1]; exact hi.size_le, by rw [h.1, h.2.2.1]; exact hi.offset_lt,
    by rw [h.2.2.2, h.2.2.1]; exact hi.data_length⟩

theorem assign_index_shape (b : circular_buffer T) (i : Nat) (x : Option T) :
    Shape b (b.assign_index i x) := ⟨rfl, rfl, rfl, by simp [assign_index]⟩

theorem swap_index_shape (b : circular_buffer T) (i j : Nat) : Shape b (b.swap_index i j) :=
  (assign_index_shape b i _).ring_trans (assign_index_shape _ j _)

theorem swap_up_loop_shape (next n : Nat) (b : circular_buffer T) :
    Shape b (swap_up_loop next n b) := by
  induction n generalizing next b with
  | zero => exact Shape.ring_refl b
  | succ n ih => exact (swap_index_shape b _ _).ring_trans (ih _ _)

theorem swap_down_loop_shape (next n : Nat) (b : circular_buffer T) :
    Shape b (swap_down_loop next n b) := by
  induction n generalizing next b with
  | zero => exact Shape.ring_refl b
  | succ n ih => exact (swap_index_shape b _ _).ring_trans (ih _ _)

theorem erase_back_loop_shape (pref len i n : Nat) (b : circular_buffer T) :
    Shape b (erase_back_loop pref len i n b) := by
  induction n generalizing i b with
  | zero => exact Shape.ring_refl b
  | succ n ih => exact (swap_index_shape b _ _).ring_trans (ih _ _)

theorem erase_front_loop_shape (len i : Nat) (b : circular_buffer T) :
    Shape b (erase_front_loop len i b) := by
  induction i generalizing b with
  | zero => exact Shape.ring_refl b
  | succ n ih => exact (swap_index_shape b _ _).ring_trans (ih _)

theorem destroy_shape (b : circular_buffer T) : Shape b b.destroy := by
  unfold destroy
  generalize List.range b._size = l
  induction l generalizing b with
  | nil => exact Shape.ring_refl b
  | cons i l ih => exact (assign_index_shape b i none).ring_trans (ih _)

theorem uninitialized_copy_length (other : circular_buffer T) (capacity : Nat)
    (data : List (Option T)) : (uninitialized_copy other capacity data).length = data.length := by
  unfold uninitialized_copy
  generalize List.range other._size = l
  induction l generalizing data with
  | nil => rfl
  | cons i l ih => rw [List.foldl_cons, ih]; simp

theorem insert_front_loop_fields (b : circular_buffer T) (i : Nat) (tmp : circular_buffer T)
    (h : i ≤ tmp._offset) :
    (insert_front_loop b i tmp)._offset = tmp._offset - i ∧
      (insert_front_loop b i tmp)._size = tmp._size + i ∧
      (insert_front_loop b i tmp)._capacity = tmp._capacity ∧
      (insert_front_loop b i tmp)._data.length = tmp._data.length := by
  induction i generalizing tmp with
  | zero => exact ⟨rfl, rfl, rfl, rfl⟩
  | succ i ih =>
    have h0 : tmp._offset ≠ 0 := by omega
    have o1 : (push_front_in tmp (b.index i))._offset = tmp._offset - 1 := by
      simp [push_front_in, h0]
    have s1 : (push_front_in tmp (b.index i))._size = tmp._size + 1 := rfl
    have c1 : (push_front_in tmp (b.index i))._capacity = tmp._capacity := rfl
    have d1 : (push_front_in tmp (b.index i))._data.length = tmp._data.length := by
      simp [push_front_in]
    have := ih (push_front_in tmp (b.index i)) (by rw [o1]; omega)
    rw [o1, s1, c1, d1] at this
    refine ⟨by rw [insert_front_loop, this.1]; omega, by rw [insert_front_loop, this.2.1]; omega,
      by rw [insert_front_loop, this.2.2.1], by rw [insert_front_loop, this.2.2.2]⟩

theorem insert_back_loop_fields (b : circular_buffer T) (i n : Nat) (tmp : circular_buffer T) :
    (insert_back_loop b i n tmp)._offset = tmp._offset ∧
      (insert_back_loop b i n tmp)._size = tmp._size + n ∧
      (insert_back_loop b i n tmp)._capacity = tmp._capacity ∧
      (insert_back_loop b i n tmp)._data.length = tmp._data.length := by
  induction n generalizing i tmp with
  | zero => exact ⟨rfl, rfl, rfl, rfl⟩
  | succ n ih =>
    have d1 : (push_back_in tmp (b.index i))._data.length = tmp._data.length := by
      simp [push_back_in]
    have := ih (i + 1) (push_back_in tmp (b.index i))
    rw [d1] at this
    refine ⟨by rw [insert_back_loop, this.1]; rfl, by rw [insert_back_loop, this.2.1]; simp [push_back_in]; omega,
      by rw [insert_back_loop, this.2.2.1]; rfl, by rw [insert_back_loop, this.2.2.2]⟩

theorem insert_back_loop_first (b : circular_buffer T) (i n : Nat) (tmp : circular_buffer T)
    (ho : tmp._offset = 0) (hs : 1 ≤ tmp._size) (hc : tmp._size + n ≤ tmp._capacity) :
    (insert_back_loop b i n tmp)._data.getD 0 none = tmp._data.getD 0 none := by
  induction n generalizing i tmp with
  | zero => rfl
  | succ n ih =>
    have hlt : ¬ tmp._size ≥ tmp._capacity := by omega
    have d1 : (push_back_in tmp (b.index i))._data = tmp._data.set tmp._size (b.index i) := by
      simp only [push_back_in, ho, Nat.zero_add, if_neg hlt]
    rw [insert_back_loop, ih (i + 1) (push_back_in tmp (b.index i)) ho
      (by simp [push_back_in]) (by simp only [push_back_in]; omega), d1]
    simp only [List.getD_eq_getElem?_getD]
    rw [List.getElem?_set_ne (by omega)]

theorem reserve_ctor (n : Nat) :
    reserve (ctor : circular_buffer T) (n + 1) = ⟨0, 0, n + 1, List.replicate (n + 1) none⟩ := rfl

/-- What `insert` does to a full buffer. -/
theorem insert_full (b : circular_buffer T) (pref : Nat) (val : T) (hp : pref ≤ b._size)
    (hf : b._size = b._capacity) :
    ∃ b', b.insert pref val = some b' ∧ b'._offset = 0 ∧ b'._size = b._size + 1 ∧
      b'._capacity = 2 * b._capacity + 1 ∧ b'._data.length = 2 * b._capacity + 1 ∧
      (pref = 0 → b'._data.getD 0 none = some val) := by
  refine ⟨_, by rw [insert, if_pos hp, if_pos hf], ?_⟩
  rw [reserve_ctor]
  have hb := insert_back_loop_fields b pref (b._size - pref)
    (insert_front_loop b pref ⟨pref, 0 + 1, 2 * b._capacity + 1,
      (List.replicate (2 * b._capacity + 1) none).set pref (some val)⟩)
  have hfr := insert_front_loop_fields b pref ⟨pref, 0 + 1, 2 * b._capacity + 1,
      (List.replicate (2 * b._capacity + 1) (none : Option T)).set pref (some val)⟩
      (Nat.le_refl _)
  simp only [List.length_set, List.length_replicate] at hfr
  rw [hfr.1, hfr.2.1, hfr.2.2.1, hfr.2.2.2] at hb
  refine ⟨by rw [hb.1]; omega, by rw [hb.2.1]; omega, hb.2.2.1, hb.2.2.2, ?_⟩
  intro h0
  subst h0
  rw [insert_front_loop, insert_back_loop_first b 0 _ _ rfl (by simp) (by simp only []; omega)]
  simp

/-- What `insert` does to a buffer with a free slot, nearer to the front. -/
theorem insert_front (b : circular_buffer T) (pref : Nat) (val : T) (hp : pref ≤ b._size)
    (hf : b._size ≠ b._capacity) (h : pref < b._size - pref) :
    b.insert pref val = some (swap_up_loop 1 pref (push_front_in b (some val))) := by
  rw [insert, if_pos hp, if_neg hf, if_pos h]

/-- What `insert` does to a buffer with a free slot, nearer to the back. -/
theorem insert_back (b : circular_buffer T) (pref : Nat) (val : T) (hp : pref ≤ b._size)
    (hf : b._size ≠ b._capacity) (h : ¬ pref < b._size - pref) :
    b.insert pref val = some (swap_down_loop b._size (b._size - pref)
      (push_back_in b (some val))) := by
  rw [insert, if_pos hp, if_neg hf, if_neg h]
  simp [push_back_in]

theorem push_front_in_inv (b : circular_buffer T) (x : Option T) (hi : Inv b)
    (hf : b._size ≠ b._capacity) : Inv (push_front_in b x) := by
  have h1 := hi.size_le
  have h2 := hi.offset_lt
  have h3 := hi.data_length
  refine ⟨by simp only [push_front_in]; omega, fun _ => ?_, by simp [push_front_in, h3]⟩
  simp only [push_front_in]
  split <;> omega

theorem push_back_in_inv (b : circular_buffer T) (x : Option T) (hi : Inv b)
    (hf : b._size ≠ b._capacity) : Inv (push_back_in b x) := by
  have h1 := hi.size_le
  have h2 := hi.offset_lt
  have h3 := hi.data_length
  exact ⟨by simp only [push_back_in]; omega, fun hc => h2 hc, by simp [push_back_in, h3]⟩

/-- Where `insert` is defined, and what it does to the size and the capacity. -/
theorem ring_insert_spec (b : circular_buffer T) (pref : Nat) (val : T) (hp : pref ≤ b._size) :
    ∃ b', b.insert pref val = some b' ∧ b'._size = b._size + 1 ∧
      (b._size = b._capacity → b'._capacity = 2 * b._capacity + 1) ∧
      (b._size ≠ b._capacity → b'._capacity = b._capacity) ∧ (Inv b → Inv b') := by
  by_cases hf : b._size = b._capacity
  · obtain ⟨b', h, ho, hs, hc, hd, _⟩ := insert_full b pref val hp hf
    exact ⟨b', h, hs, fun _ => hc, fun h' => (h' hf).elim,
      fun _ => ⟨by omega, fun _ => by omega, by omega⟩⟩
  · by_cases h : pref < b._size - pref
    · have hsh := swap_up_loop_shape 1 pref (push_front_in b (some val))
      exact ⟨_, insert_front b pref val hp hf h, by rw [hsh.2.1]; rfl,
        fun h' => (hf h').elim, fun _ => by rw [hsh.2.2.1]; rfl,
        fun hi => hsh.inv (push_front_in_inv b _ hi hf)⟩
    · have hsh := swap_down_loop_shape b._size (b._size - pref) (push_back_in b (some val))
      exact ⟨_, insert_back b pref val hp hf h, by rw [hsh.2.1]; rfl,
        fun h' => (hf h').elim, fun _ => by rw [hsh.2.2.1]; rfl,
        fun hi => hsh.inv (push_back_in_inv b _ hi hf)⟩

theorem insert_inv {b b' : circular_buffer T} (pref : Nat) (val : T) (hi : Inv b)
    (h : b.insert pref val = some b') : Inv b' := by
  by_cases hp : pref ≤ b._size
  · obtain ⟨b1, h1, _, _, _, hinv⟩ := ring_insert_spec b pref val hp
    rw [h1] at h
    cases h
    exact hinv hi
  · rw [insert, if_neg hp] at h
    cases h

theorem pop_back_inv {b b' : circular_buffer T} (hi : Inv b) (h : b.pop_back = some b') :
    Inv b' := by
  unfold pop_back at h
  split at h
  · cases h
  · cases h
    have h1 := hi.size_le
    exact ⟨by simp only [assign_index]; omega, hi.offset_lt,
      by simp [assign_index, hi.data_length]⟩

theorem pop_front_inv {b b' : circular_buffer T} (hi : Inv b) (h : b.pop_front = some b') :
    Inv b' := by
  unfold pop_front at h
  split at h
  · cases h
  · cases h
    have h1 := hi.size_le
    have h2 := hi.offset_lt
    refine ⟨by simp only [assign_index]; omega, fun hc => ?_,
      by simp [assign_index, hi.data_length]⟩
    simp only [assign_index] at hc ⊢
    split <;> omega

theorem repeat_pop_inv (pop : circular_buffer T → Option (circular_buffer T))
    (hpop : ∀ b b', Inv b → pop b = some b' → Inv b') (n : Nat) {b b' : circular_buffer T}
    (hi : Inv b) (h : repeat_pop pop n b = some b') : Inv b' := by
  induction n generalizing b with
  | zero => simp only [repeat_pop, Option.some.injEq] at h; exact h ▸ hi
  | succ n ih =>
    simp only [repeat_pop] at h
    cases hp : pop b with
    | none => rw [hp] at h; cases h
    | some b1 => rw [hp] at h; exact ih (hpop b b1 hi hp) h

theorem erase_inv {b b' : circular_buffer T} (pref len : Nat) (hi : Inv b)
    (h : b.erase pref len = some b') : Inv b' := by
  unfold erase at h
  split at h
  · simp only at h
    split at h
    · exact repeat_pop_inv pop_back (fun _ _ => pop_back_inv) len
        ((erase_back_loop_shape _ _ _ _ b).inv hi) h
    · exact repeat_pop_inv pop_front (fun _ _ => pop_front_inv) len
        ((erase_front_loop_shape _ _ b).inv hi) h
  · cases h

theorem reserve_inv (b : circular_buffer T) (n : Nat) (hi : Inv b) : Inv (b.reserve n) := by
  unfold reserve
  split
  · exact hi
  · have h1 := hi.size_le
    exact ⟨by simp only [ctor_capacity]; omega, fun hc => hc,
      by simp [ctor_capacity, uninitialized_copy_length]⟩

theorem ctor_copy_inv (b : circular_buffer T) (hi : Inv b) : Inv (ctor_copy b) :=
  ⟨hi.size_le, fun hc => hc, by simp [ctor_copy, uninitialized_copy_length]⟩

theorem clear_inv (b : circular_buffer T) (hi : Inv b) : Inv b.clear := by
  have hs := destroy_shape b
  exact ⟨Nat.zero_le _, by simp only [clear]; rw [hs.1, hs.2.2.1]; exact hi.offset_lt,
    by simp only [clear]; rw [hs.2.2.2, hs.2.2.1]; exact hi.data_length⟩

theorem ring_exec_inv {b b' : circular_buffer T} (op : Op T) (hi : Inv b)
    (h : exec b op = some b') : Inv b' := by
  cases op with
  | push_back val => exact insert_inv _ val hi h
  | push_front val => exact insert_inv _ val hi h
  | pop_back => exact pop_back_inv hi h
  | pop_front => exact pop_front_inv hi h
  | reserve n => cases h; exact reserve_inv b n hi
  | insert pos val => exact insert_inv pos val hi h
  | erase first len => exact erase_inv first len hi h
  | clear => cases h; exact clear_inv b hi
  | copy => cases h; exact ctor_copy_inv b hi
  | moved_from => cases h; exact ⟨Nat.le_refl _, fun hc => hc, rfl⟩

theorem ring_reachable_inv {b : circular_buffer T} (hr : Reachable b) : Inv b := by
  induction hr with
  | ctor => exact ⟨Nat.le_refl _, fun hc => hc, rfl⟩
  | step op _ he ih => exact ring_exec_inv op ih he

end circular_buffer

/-! ## Dense matrix: pointers -/

namespace matrix

variable {T : Type} [Layout T]

theorem to_ptrdiff_eq {x : Int} (h1 : -2 ^ 63 ≤ x) (h2 : x < 2 ^ 63) : to_ptrdiff x = x := by
  unfold to_ptrdiff
  omega

/-- The pointer to element `i + n` from the pointer to element `i`, inside the address
space. -/
theorem ptr_add_elem (i : Nat) (n : Int) (h0 : 0 ≤ (i : Int) + n)
    (h1 : ((i : Int) + n).toNat * Layout.sizeof_T T < 2 ^ 64) :
    ptr_add T (i * Layout.sizeof_T T) n = ((i : Int) + n).toNat * Layout.sizeof_T T := by
  unfold ptr_add
  have e : ((i * Layout.sizeof_T T : Nat) : Int) + n * (Layout.sizeof_T T : Int) =
      (((i : Int) + n).toNat * Layout.sizeof_T T : Nat) := by
    push_cast
    rw [Int.toNat_of_nonneg h0]
    ring
  rw [e, Int.emod_eq_of_lt (by positivity) (by exact_mod_cast h1), Int.toNat_ofNat]

theorem ptr_add_nat (i n : Nat) (h : (i + n) * Layout.sizeof_T T < 2 ^ 64) :
    ptr_add T (i * Layout.sizeof_T T) (n : Int) = (i + n) * Layout.sizeof_T T := by
  have e : ((i : Int) + (n : Int)).toNat = i + n := by omega
  rw [ptr_add_elem i n (by omega) (by rw [e]; exact h), e]

theorem ptr_add_zero_nat (n : Nat) (h : n * Layout.sizeof_T T < 2 ^ 64) :
    ptr_add T 0 (n : Int) = n * Layout.sizeof_T T := by
  have := ptr_add_nat (T := T) 0 n (by rw [Nat.zero_add]; exact h)
  rw [Nat.zero_mul, Nat.zero_add] at this
  exact this

theorem load_elem (m : matrix T) (i : Nat) :
    m.load (i * Layout.sizeof_T T) = m._data.get? i := by
  have hs := Layout.sizeof_T_pos (T := T)
  rw [load, if_pos (Nat.mul_mod_left _ _), Nat.mul_div_cancel _ hs]

theorem store_elem (m : matrix T) (i : Nat) (x : T) (h : i < m._data.length) :
    m.store (i * Layout.sizeof_T T) x = some { m with _data := m._data.set i x } := by
  have hs := Layout.sizeof_T_pos (T := T)
  rw [store, Nat.mul_div_cancel _ hs, if_pos ⟨Nat.mul_mod_left _ _, h⟩]

/-- The difference of the pointers to the elements `i + n` and `i`. -/
theorem ptr_diff_elem (p : Nat) (n : Int)
    (h1 : -2 ^ 63 ≤ n * (Layout.sizeof_T T : Int)) (h2 : n * (Layout.sizeof_T T : Int) < 2 ^ 63) :
    ptr_diff T (ptr_add T p n) p = n := by
  have hs := Layout.sizeof_T_pos (T := T)
  have key : to_ptrdiff (((((p : Int) + n * (Layout.sizeof_T T : Int)) % 2 ^ 64).toNat : Int) -
      (p : Int)) = n * (Layout.sizeof_T T : Int) := by
    generalize n * (Layout.sizeof_T T : Int) = x at h1 h2
    unfold to_ptrdiff
    omega
  unfold ptr_diff ptr_add
  rw [key, Int.mul_tdiv_cancel _ (by omega)]

/-! ## Dense matrix: the product -/

theorem index_lt {r k i t : Nat} (hi : i < r) (ht : t < k) : i * k + t < r * k := by
  have : (i + 1) * k ≤ r * k := Nat.mul_le_mul_right k hi
  rw [Nat.add_mul, Nat.one_mul] at this
  omega

theorem index_inj {c i j i' j' : Nat} (hj : j < c) (hj' : j' < c)
    (h : i * c + j = i' * c + j') : i = i' ∧ j = j' := by
  have hc : 0 < c := by omega
  have h1 := congrArg (fun x => x / c) h
  have h2 := congrArg (fun x => x % c) h
  simp only [Nat.add_comm (_ * c), Nat.add_mul_div_right _ _ hc, Nat.add_mul_mod_self_right,
    Nat.div_eq_of_lt hj, Nat.div_eq_of_lt hj', Nat.mod_eq_of_lt hj, Nat.mod_eq_of_lt hj',
    Nat.zero_add] at h1 h2
  exact ⟨h1, h2⟩

/-- The bytes in front of element `n` of an array of `r * k` elements. -/
theorem Dim.offset {m : matrix T} {r k : Nat} (hm : Dim m r k) {n : Nat} (hn : n ≤ r * k) :
    n * Layout.sizeof_T T < 2 ^ 63 := by
  have h1 : n * Layout.sizeof_T T ≤ r * k * Layout.sizeof_T T := Nat.mul_le_mul_right _ hn
  have h2 := hm.bytes
  rw [Nat.mul_comm] at h2
  omega

theorem Dim.count {m : matrix T} {r k : Nat} (hm : Dim m r k) : r * k < 2 ^ 63 := by
  have hs := Layout.sizeof_T_pos (T := T)
  have h1 := hm.offset (Nat.le_refl _)
  have h2 : r * k * 1 ≤ r * k * Layout.sizeof_T T := Nat.mul_le_mul_left _ hs
  omega

theorem Dim.read [Zero T] {m : matrix T} {r k : Nat} (hm : Dim m r k) {i t : Nat}
    (hi : i < r) (ht : t < k) : m._data.get? (i * k + t) = some (m.entry i t) := by
  have hlt : i * k + t < m._data.length := by rw [hm.data]; exact index_lt hi ht
  rw [entry, hm.cols, List.getD_eq_getElem?_getD, List.get?_eq_getElem?,
    List.getElem?_eq_getElem hlt]
  rfl

/-- The pointer to element `(i, t)`. -/
theorem Dim.elem_ptr {m : matrix T} {r k : Nat} (hm : Dim m r k) {n : Nat} (hn : n ≤ r * k) :
    ptr_add T m.data (((n % SIZE_RANGE : Nat) : Nat) : Int) = n * Layout.sizeof_T T := by
  have h1 := hm.count
  have h2 := hm.offset hn
  rw [SIZE_RANGE, Nat.mod_eq_of_lt (by omega), matrix.data, ptr_add_zero_nat n (by omega)]

theorem Dim.get_eq [Zero T] {m : matrix T} {r k : Nat} (hm : Dim m r k) {i t : Nat}
    (hi : i < r) (ht : t < k) : m.get i t = some (m.entry i t) := by
  have hlt := index_lt hi ht
  rw [matrix.get, if_pos ⟨by rw [hm.rows]; exact hi, by rw [hm.cols]; exact ht⟩, hm.cols,
    hm.elem_ptr (Nat.le_of_lt hlt), load_elem, hm.read hi ht]

theorem Dim.row_begin_eq {m : matrix T} {r k : Nat} (hm : Dim m r k) {i : Nat} (hi : i < r) :
    m.row_begin i = some (i * k * Layout.sizeof_T T) := by
  have hle : i * k ≤ r * k := Nat.mul_le_mul_right k (Nat.le_of_lt hi)
  rw [row_begin, if_pos (by rw [hm.rows]; exact hi), hm.cols, hm.elem_ptr hle]

theorem Dim.row_end_eq {m : matrix T} {r k : Nat} (hm : Dim m r k) {i : Nat} (hi : i < r) :
    m.row_end i = some ((i * k + k) * Layout.sizeof_T T) := by
  have hle : i * k + k ≤ r * k := by
    have : (i + 1) * k ≤ r * k := Nat.mul_le_mul_right k hi
    rw [Nat.add_mul, Nat.one_mul] at this
    exact this
  have := hm.offset hle
  rw [row_end, hm.row_begin_eq hi, Option.map_some', hm.cols, ptr_add_nat _ _ (by omega)]

theorem Dim.col_begin_eq {m : matrix T} {r k : Nat} (hm : Dim m r k) {j : Nat} (hj : j < k) :
    m.col_begin j = some ⟨0, k, j⟩ := by
  rw [col_begin, if_pos (by rw [hm.cols]; exact hj), hm.cols]
  rfl

/-- The loop of `std::inner_product` from position `t` of row `row` with `n` positions
left. -/
theorem inner_product_eq [Zero T] [Add T] [Mul T] {left right : matrix T} {r k c : Nat}
    (hl : Dim left r k) (hr : Dim right k c) {row col : Nat} (hrow : row < r) (hcol : col < c)
    (n t fuel : Nat) (acc : T) (h : t + n = k) (hf : n < fuel) :
    inner_product left right fuel ((row * k + t) * Layout.sizeof_T T)
        ((row * k + k) * Layout.sizeof_T T) ⟨t * c * Layout.sizeof_T T, c, col⟩ acc =
      some ((List.range' t n).foldl
        (fun acc s => acc + left.entry row s * right.entry s col) acc) := by
  have hs := Layout.sizeof_T_pos (T := T)
  induction n generalizing t fuel acc with
  | zero =>
    obtain ⟨fuel, rfl⟩ : ∃ f, fuel = f + 1 := ⟨fuel - 1, by omega⟩
    have e : t = k := by omega
    rw [inner_product, if_pos (by rw [e])]
    rfl
  | succ n ih =>
    obtain ⟨fuel, rfl⟩ : ∃ f, fuel = f + 1 := ⟨fuel - 1, by omega⟩
    have ht : t < k := by omega
    have hne : ¬ (row * k + t) * Layout.sizeof_T T = (row * k + k) * Layout.sizeof_T T := by
      intro e
      have := Nat.eq_of_mul_eq_mul_right hs e
      omega
    have h1 : row * k + t + 1 ≤ r * k := index_lt hrow ht
    have h2 : t * c + col ≤ k * c := Nat.le_of_lt (index_lt ht hcol)
    have h3 : t * c + c ≤ k * c := by
      have : (t + 1) * c ≤ k * c := Nat.mul_le_mul_right c ht
      rw [Nat.add_mul, Nat.one_mul] at this
      exact this
    have b1 := hl.offset h1
    have b2 := hr.offset h2
    have b3 := hr.offset h3
    have e1 : ptr_add T ((row * k + t) * Layout.sizeof_T T) 1 =
        (row * k + (t + 1)) * Layout.sizeof_T T := by
      have := ptr_add_nat (T := T) (row * k + t) 1 (by omega)
      rw [Nat.add_assoc] at this
      exact this
    have e2 : (⟨t * c * Layout.sizeof_T T, c, col⟩ : col_iterator T).deref right =
        some (right.entry t col) := by
      rw [col_iterator.deref]
      simp only []
      rw [ptr_add_nat _ _ (by omega), load_elem, hr.read ht hcol]
    have e3 : (⟨t * c * Layout.sizeof_T T, c, col⟩ : col_iterator T).incr =
        ⟨(t + 1) * c * Layout.sizeof_T T, c, col⟩ := by
      rw [col_iterator.incr]
      simp only []
      rw [ptr_add_nat _ _ (by omega), Nat.add_mul t 1 c, Nat.one_mul]
    rw [inner_product, if_neg hne, load_elem, hl.read hrow ht, Option.some_bind, e2,
      Option.some_bind, e1, e3, ih (t + 1) fuel _ (by omega) (by omega), List.range'_succ,
      List.foldl_cons]

theorem inner_product_dot [Zero T] [Add T] [Mul T] {left right : matrix T} {r k c : Nat}
    (hl : Dim left r k) (hr : Dim right k c) {row col : Nat} (hrow : row < r) (hcol : col < c)
    {fuel : Nat} (hf : k < fuel) :
    inner_product left right fuel (row * k * Layout.sizeof_T T)
        ((row * k + k) * Layout.sizeof_T T) ⟨0, c, col⟩ 0 =
      some (dot left right k row col) := by
  have := inner_product_eq hl hr hrow hcol k 0 fuel 0 (by omega) hf
  rw [Nat.add_zero, Nat.zero_mul, Nat.zero_mul] at this
  rw [this, dot, List.range_eq_range']

theorem set_spec [Zero T] {res : matrix T} {r c : Nat} (hd : Dim res r c) {row col : Nat}
    (hrow : row < r) (hcol : col < c) (x : T) :
    ∃ res', res.set row col x = some res' ∧ Dim res' r c ∧
      ∀ i j, i < r → j < c →
        res'.entry i j = if i = row ∧ j = col then x else res.entry i j := by
  have hlt : row * c + col < res._data.length := by rw [hd.data]; exact index_lt hrow hcol
  refine ⟨{ res with _data := res._data.set (row * c + col) x }, ?_,
    ⟨hd.rows, hd.cols, by simp [hd.data], hd.bytes⟩, ?_⟩
  · have e : ptr_add T res.data (((row * res._cols + col) % SIZE_RANGE : Nat) : Int) =
        (row * c + col) * Layout.sizeof_T T := by
      rw [hd.cols]
      exact hd.elem_ptr (Nat.le_of_lt (index_lt hrow hcol))
    rw [set, if_pos ⟨by rw [hd.rows]; exact hrow, by rw [hd.cols]; exact hcol⟩, e,
      store_elem _ _ _ hlt]
  · intro i j _ hj
    simp only [entry, List.getD_eq_getElem?_getD, hd.cols]
    by_cases h : i = row ∧ j = col
    · rw [if_pos h, h.1, h.2, List.getElem?_set_self hlt]; rfl
    · rw [if_neg h, List.getElem?_set_ne]
      intro he
      have := index_inj hcol hj he
      exact h ⟨this.1.symm, this.2.symm⟩

theorem mul_cols_spec [Zero T] [Add T] [Mul T] {left right : matrix T} {r k c : Nat}
    (hl : Dim left r k) (hr : Dim right k c) {row : Nat} (hrow : row < r) {fuel : Nat}
    (hf : k < fuel) (n col : Nat) (res : matrix T) (hd : Dim res r c) (h : col + n ≤ c) :
    ∃ res', mul_cols fuel left right row col n res = some res' ∧ Dim res' r c ∧
      ∀ i j, i < r → j < c →
        res'.entry i j =
          if i = row ∧ col ≤ j ∧ j < col + n then dot left right k row j else res.entry i j := by
  induction n generalizing col res with
  | zero => exact ⟨res, rfl, hd, fun i j _ _ => by rw [if_neg (by omega)]⟩
  | succ n ih =>
    have hcol : col < c := by omega
    obtain ⟨r1, h1, d1, e1⟩ := set_spec hd hrow hcol (dot left right k row col)
    obtain ⟨r2, h2, d2, e2⟩ := ih (col + 1) r1 d1 (by omega)
    refine ⟨r2, ?_, d2, ?_⟩
    · rw [mul_cols, hl.row_begin_eq hrow, Option.some_bind, hl.row_end_eq hrow,
        Option.some_bind, hr.col_begin_eq hcol, Option.some_bind,
        inner_product_dot hl hr hrow hcol hf, Option.some_bind, h1, Option.some_bind, h2]
    · intro i j hi hj
      rw [e2 i j hi hj, e1 i j hi hj]
      by_cases ha : i = row ∧ col + 1 ≤ j ∧ j < col + 1 + n
      · rw [if_pos ha, if_pos ⟨ha.1, by omega, by omega⟩]
      · rw [if_neg ha]
        by_cases hb : i = row ∧ j = col
        · rw [if_pos hb, if_pos ⟨hb.1, by omega, by omega⟩, hb.2]
        · rw [if_neg hb, if_neg]
          intro hc
          rcases hc with ⟨hc1, hc2, hc3⟩
          by_cases hjc : j = col
          · exact hb ⟨hc1, hjc⟩
          · exact ha ⟨hc1, by omega, by omega⟩

theorem mul_rows_spec [Zero T] [Add T] [Mul T] {left right : matrix T} {r k c : Nat}
    (hl : Dim left r k) (hr : Dim right k c) {fuel : Nat} (hf : k < fuel) (n row : Nat)
    (res : matrix T) (hd : Dim res r c) (h : row + n ≤ r) :
    ∃ res', mul_rows fuel left right row n res = some res' ∧ Dim res' r c ∧
      ∀ i j, i < r → j < c →
        res'.entry i j =
          if row ≤ i ∧ i < row + n then dot left right k i j else res.entry i j := by
  induction n generalizing row res with
  | zero => exact ⟨res, rfl, hd, fun i j _ _ => by rw [if_neg (by omega)]⟩
  | succ n ih =>
    have hrow : row < r := by omega
    obtain ⟨r1, h1, d1, e1⟩ := mul_cols_spec hl hr hrow hf c 0 res hd (by omega)
    obtain ⟨r2, h2, d2, e2⟩ := ih (row + 1) r1 d1 (by omega)
    refine ⟨r2, ?_, d2, ?_⟩
    · rw [mul_rows, hr.cols, h1, Option.some_bind, h2]
    · intro i j hi hj
      rw [e2 i j hi hj, e1 i j hi hj]
      by_cases ha : row + 1 ≤ i ∧ i < row + 1 + n
      · rw [if_pos ha, if_pos ⟨by omega, by omega⟩]
      · rw [if_neg ha]
        by_cases hb : i = row
        · rw [if_pos ⟨hb, Nat.zero_le _, by omega⟩, if_pos ⟨by omega, by omega⟩, hb]
        · rw [if_neg (fun hc => hb hc.1), if_neg (by omega)]

theorem ctor_dim [Zero T] {r c : Nat} (hr : 0 < r) (hc : 0 < c)
    (h : Layout.sizeof_T T * (r * c) < 2 ^ 63) : Dim (ctor r c : matrix T) r c := by
  have hs := Layout.sizeof_T_pos (T := T)
  have h1 : 1 * (r * c) ≤ Layout.sizeof_T T * (r * c) := Nat.mul_le_mul_right _ hs
  have hlt : r * c < 2 ^ 64 := by omega
  have h0 : ¬ (r * c) % SIZE_RANGE = 0 := by
    rw [SIZE_RANGE, Nat.mod_eq_of_lt hlt]
    exact Nat.ne_of_gt (Nat.mul_pos hr hc)
  simp only [ctor, if_neg h0]
  exact ⟨rfl, rfl, by rw [List.length_replicate, SIZE_RANGE, Nat.mod_eq_of_lt hlt], h⟩

/-- The product of an `r × k` and a `k × c` matrix. -/
theorem mul_spec [Zero T] [Add T] [Mul T] {left right : matrix T} {r k c : Nat}
    (hl : Dim left r k) (hr : Dim right k c) (h0 : 0 < r) (h1 : 0 < c)
    (h : Layout.sizeof_T T * (r * c) < 2 ^ 63) {fuel : Nat} (hf : k < fuel) :
    ∃ res, mul fuel left right = some res ∧ Dim res r c ∧
      ∀ i j, i < r → j < c → res.entry i j = dot left right k i j := by
  obtain ⟨res, h2, d2, e2⟩ :=
    mul_rows_spec hl hr hf r 0 (ctor r c) (ctor_dim h0 h1 h) (by omega)
  refine ⟨res, ?_, d2, ?_⟩
  · rw [mul, if_pos (by rw [hl.cols, hr.rows]), hl.rows, hr.cols, h2]
  · intro i j hi hj
    rw [e2 i j hi hj, if_pos ⟨Nat.zero_le _, by omega⟩]

/-- A matrix object with `r` rows and `k` columns, whose array has `size()` elements, when
these take fewer than `2 ^ 63` bytes. -/
theorem Dim.of_size {m : matrix T} {r k : Nat} (hr : m._rows = r) (hk : m._cols = k)
    (hd : m._data.length = m.size) (hb : Layout.sizeof_T T * (r * k) < 2 ^ 63) : Dim m r k := by
  have hs := Layout.sizeof_T_pos (T := T)
  have h1 : 1 * (r * k) ≤ Layout.sizeof_T T * (r * k) := Nat.mul_le_mul_right _ hs
  refine ⟨hr, hk, ?_, hb⟩
  rw [hd, size, hr, hk, SIZE_RANGE, Nat.mod_eq_of_lt (by omega)]

/-- In a semiring the accumulated value is the sum of the products. -/
theorem dot_eq_sum {R : Type} [Semiring R] (A B : matrix R) (k i j : Nat) :
    dot A B k i j = ((List.range k).map fun t => A.entry i t * B.entry t j).sum := by
  rw [dot, List.sum_eq_foldl, List.foldl_map]

theorem mul_cols_none [Zero T] [Add T] [Mul T] (fuel : Nat) (left right : matrix T)
    (row col n : Nat) (res : matrix T) (hres : res._rows = 0) (hn : 0 < n) :
    mul_cols fuel left right row col n res = none := by
  obtain ⟨n, rfl⟩ : ∃ n', n = n' + 1 := ⟨n - 1, by omega⟩
  have hset : ∀ x, res.set row col x = none := fun x => by
    rw [set, if_neg (by rw [hres]; omega)]
  rw [mul_cols]
  cases left.row_begin row with
  | none => rfl
  | some first1 =>
    rw [Option.some_bind]
    cases left.row_end row with
    | none => rfl
    | some last1 =>
      rw [Option.some_bind]
      cases right.col_begin col with
      | none => rfl
      | some first2 =>
        rw [Option.some_bind]
        cases inner_product left right fuel first1 last1 first2 0 with
        | none => rfl
        | some x => rw [Option.some_bind, hset, Option.none_bind]

theorem mul_rows_none [Zero T] [Add T] [Mul T] (fuel : Nat) (left right : matrix T)
    (row n : Nat) (res : matrix T) (hres : res._rows = 0) (hn : 0 < n)
    (hc : 0 < right._cols) : mul_rows fuel left right row n res = none := by
  obtain ⟨n, rfl⟩ : ∃ n', n = n' + 1 := ⟨n - 1, by omega⟩
  rw [mul_rows, mul_cols_none fuel left right row 0 right._cols res hres hc]
  rfl

/-! ## Dense matrix: the claims -/

/-- C29, counterexample: the product of a matrix with `2 ^ 32` rows and one column and a
matrix with one row and `2 ^ 32` columns has `2 ^ 64` entries; `size()` of the result is 0, the
result is built with no rows, no columns and no array, and the first store to it fails. -/
theorem matrix_product_counterexample :
    ex_tall._rows = 2 ^ 32 ∧ ex_tall._cols = 1 ∧ ex_tall._data.length = ex_tall.size ∧
    ex_wide._rows = 1 ∧ ex_wide._cols = 2 ^ 32 ∧ ex_wide._data.length = ex_wide.size ∧
    (ctor (2 ^ 32) (2 ^ 32) : matrix Int) = ⟨0, 0, []⟩ ∧
    ∀ fuel, mul fuel ex_tall ex_wide = none := by
  have h0 : (2 ^ 32 * 2 ^ 32) % SIZE_RANGE = 0 := by decide
  have hc : (ctor (2 ^ 32) (2 ^ 32) : matrix Int) = ⟨0, 0, []⟩ := by
    simp only [ctor, h0, if_true]
    rfl
  refine ⟨rfl, rfl, ?_, rfl, rfl, ?_, hc, fun fuel => ?_⟩
  · show (List.replicate (2 ^ 32) (0 : Int)).length = (2 ^ 32 * 1) % SIZE_RANGE
    rw [List.length_replicate]
    decide
  · show (List.replicate (2 ^ 32) (0 : Int)).length = (1 * 2 ^ 32) % SIZE_RANGE
    rw [List.length_replicate]
    decide
  · rw [mul, if_pos (show ex_tall._cols = ex_wide._rows from rfl)]
    have e : (ctor ex_tall._rows ex_wide._cols : matrix Int) = ⟨0, 0, []⟩ := hc
    rw [e]
    exact mul_rows_none fuel ex_tall ex_wide 0 _ _ rfl (by decide) (by decide)

/-- C29 (amended): for matrices `A` with `r ≥ 1` rows and `k` columns and `B` with `k` rows and
`c ≥ 1` columns over an element type `T`, where the arrays of `A`, of `B` and of the product
take fewer than `2 ^ 63` bytes, `A * B` returns a matrix with `r` rows and `c` columns whose
entry `(i, j)` is the sum over `t < k` of `A(i, t) * B(t, j)` in the arithmetic of `T`,
accumulated from `T()` in the order of `t`; element `(i, j)` of a matrix is
`data[i * cols + j]`; and `A *= B` leaves the same matrix in `A`. -/
theorem matrix_product [Zero T] [Add T] [Mul T] (A B : matrix T) (r k c fuel : Nat)
    (hAr : A._rows = r) (hAc : A._cols = k) (hAd : A._data.length = A.size)
    (hBr : B._rows = k) (hBc : B._cols = c) (hBd : B._data.length = B.size)
    (hr : 0 < r) (hc : 0 < c)
    (hbA : Layout.sizeof_T T * (r * k) < 2 ^ 63) (hbB : Layout.sizeof_T T * (k * c) < 2 ^ 63)
    (hbP : Layout.sizeof_T T * (r * c) < 2 ^ 63) (hf : k < fuel) :
    (∃ P, mul fuel A B = some P ∧ P._rows = r ∧ P._cols = c ∧ P._data.length = r * c ∧
      (∀ i j, i < r → j < c →
        P.get i j = some (dot A B k i j) ∧ P._data.get? (i * P._cols + j) = P.get i j) ∧
      mul_assign fuel A B = some P) ∧
    (∀ i t, i < r → t < k →
      A.get i t = some (A.entry i t) ∧ A._data.get? (i * A._cols + t) = A.get i t) ∧
    (∀ t j, t < k → j < c →
      B.get t j = some (B.entry t j) ∧ B._data.get? (t * B._cols + j) = B.get t j) := by
  have hA := Dim.of_size hAr hAc hAd hbA
  have hB := Dim.of_size hBr hBc hBd hbB
  obtain ⟨P, h, hd, he⟩ := mul_spec hA hB hr hc hbP hf
  refine ⟨⟨P, h, hd.rows, hd.cols, hd.data, fun i j hi hj => ⟨?_, ?_⟩, ?_⟩,
    fun i t hi ht => ⟨hA.get_eq hi ht, by rw [hA.get_eq hi ht, hAc, hA.read hi ht]⟩,
    fun t j ht hj => ⟨hB.get_eq ht hj, by rw [hB.get_eq ht hj, hBc, hB.read ht hj]⟩⟩
  · rw [hd.get_eq hi hj, he i j hi hj]
  · rw [hd.get_eq hi hj, hd.cols, hd.read hi hj]
  · rw [mul_assign, h]; rfl

theorem matrix_product_witness :
    ex_a._rows = 2 ∧ ex_a._cols = 3 ∧ ex_a._data.length = ex_a.size ∧
    ex_b._rows = 3 ∧ ex_b._cols = 2 ∧ ex_b._data.length = ex_b.size ∧
    Layout.sizeof_T Int * (2 * 3) < 2 ^ 63 ∧ Layout.sizeof_T Int * (3 * 2) < 2 ^ 63 ∧
    Layout.sizeof_T Int * (2 * 2) < 2 ^ 63 ∧
    ∃ P, mul 4 ex_a ex_b = some P ∧ P._rows = 2 ∧ P._cols = 2 ∧ P._data.length = 2 * 2 ∧
      (∀ i j, i < 2 → j < 2 →
        P.get i j = some (dot ex_a ex_b 3 i j) ∧ P._data.get? (i * P._cols + j) = P.get i j) ∧
      mul_assign 4 ex_a ex_b = some P :=
  ⟨rfl, rfl, by decide, rfl, rfl, by decide, by decide, by decide, by decide,
    (matrix_product ex_a ex_b 2 3 2 4 rfl rfl (by decide) rfl rfl (by decide) (by decide)
      (by decide) (by decide) (by decide) (by decide) (by decide)).1⟩

/-! ## Dense matrix: iterators -/

theorem Dim.get_data {m : matrix T} {r k : Nat} (hm : Dim m r k) {i t : Nat}
    (hi : i < r) (ht : t < k) : m.get i t = m._data.get? (i * k + t) := by
  rw [matrix.get, if_pos ⟨by rw [hm.rows]; exact hi, by rw [hm.cols]; exact ht⟩, hm.cols,
    hm.elem_ptr (Nat.le_of_lt (index_lt hi ht)), load_elem]

theorem Dim.data_some {m : matrix T} {r k : Nat} (hm : Dim m r k) {i t : Nat}
    (hi : i < r) (ht : t < k) : ∃ x, m._data.get? (i * k + t) = some x := by
  have hlt : i * k + t < m._data.length := by rw [hm.data]; exact index_lt hi ht
  exact ⟨m._data.get ⟨i * k + t, hlt⟩, List.get?_eq_get hlt⟩

/-- A step of a column iterator whose product with the number of columns is a
`std::ptrdiff_t`. -/
theorem col_iterator.add_step (it : col_iterator T) (n : Int) (hc : it._cols < 2 ^ 63)
    (h1 : -2 ^ 63 ≤ n * (it._cols : Int)) (h2 : n * (it._cols : Int) < 2 ^ 63) :
    it.add n = { it with _current := ptr_add T it._current (n * (it._cols : Int)) } := by
  rw [col_iterator.add, to_ptrdiff_eq (x := (it._cols : Int)) (by omega) (by omega),
    to_ptrdiff_eq h1 h2]

theorem ptr_add_neg (p : Nat) (w : Int) (hp : p < 2 ^ 64) :
    ptr_add T (ptr_add T p w) (-w) = p := by
  unfold ptr_add
  rw [Int.neg_mul]
  generalize w * (Layout.sizeof_T T : Int) = x
  omega

/-- A product with `sizeof(T)` that is a `std::ptrdiff_t`. -/
theorem bound_of_bytes {y : Int} (h1 : -2 ^ 63 ≤ y * (Layout.sizeof_T T : Int))
    (h2 : y * (Layout.sizeof_T T : Int) < 2 ^ 63) : -2 ^ 63 ≤ y ∧ y < 2 ^ 63 := by
  have hs : (1 : Int) ≤ (Layout.sizeof_T T : Int) := by
    have := Layout.sizeof_T_pos (T := T)
    omega
  rcases Int.le_total 0 y with hy | hy
  · have : y * 1 ≤ y * (Layout.sizeof_T T : Int) := Int.mul_le_mul_of_nonneg_left hs hy
    omega
  · have : y * (Layout.sizeof_T T : Int) ≤ y * 1 := Int.mul_le_mul_of_nonpos_left hy hs
    omega

theorem col_iterator.add_nat (it : col_iterator T) (n : Nat) (hc : it._cols < 2 ^ 63)
    (h : n * it._cols < 2 ^ 63) :
    it.add (n : Int) =
      { it with _current := ptr_add T it._current ((n * it._cols : Nat) : Int) } := by
  have e : (n : Int) * (it._cols : Int) = ((n * it._cols : Nat) : Int) :=
    (Int.natCast_mul n it._cols).symm
  rw [col_iterator.add_step it n hc (by rw [e]; omega) (by rw [e]; omega), e]

theorem col_iterator.diff_eq (left right : col_iterator T) (hc0 : 0 < left._cols)
    (hc : left._cols < 2 ^ 63) :
    left.diff right =
      some ((ptr_diff T left._current right._current).tdiv (left._cols : Int)) := by
  have e : to_ptrdiff (left._cols : Int) = (left._cols : Int) :=
    to_ptrdiff_eq (by omega) (by omega)
  have h1 : ¬ to_ptrdiff (left._cols : Int) = 0 := by rw [e]; omega
  have h2 : ¬ (ptr_diff T left._current right._current = -2 ^ 63 ∧
      to_ptrdiff (left._cols : Int) = -1) := by
    rw [e]; omega
  rw [col_iterator.diff, if_neg h1, if_neg h2, e]

/-- The difference of the pointers to the elements `i + n` and `i` of an array. -/
theorem ptr_diff_nat (i n : Nat) (h : (i + n) * Layout.sizeof_T T < 2 ^ 63) :
    ptr_diff T ((i + n) * Layout.sizeof_T T) (i * Layout.sizeof_T T) = (n : Int) := by
  have h1 : n * Layout.sizeof_T T ≤ (i + n) * Layout.sizeof_T T :=
    Nat.mul_le_mul_right _ (Nat.le_add_left n i)
  have e : ((n : Int) * (Layout.sizeof_T T : Int)) = ((n * Layout.sizeof_T T : Nat) : Int) :=
    (Int.natCast_mul _ _).symm
  rw [← ptr_add_nat i n (by omega)]
  exact ptr_diff_elem _ _ (by rw [e]; omega) (by rw [e]; omega)

/-- C40, counterexample: on a matrix of `int` with three columns the step `n = 2 ^ 61` of a
column iterator moves the pointer by `3 * 2 ^ 61` elements, which are `3 * 2 ^ 63` bytes; the
address wraps, and `(it + n) - it` is not `n`. -/
theorem col_iterator_diff_counterexample :
    ex_a._rows = 2 ∧ ex_a._cols = 3 ∧
    ∃ it, ex_a.col_begin 0 = some it ∧
      (it.add (2 ^ 61)).diff it = some (-768614336404564650) ∧
      (it.add (2 ^ 61)).diff it ≠ some (2 ^ 61) :=
  ⟨rfl, rfl, ⟨0, 3, 0⟩, rfl, by decide, by decide⟩

/-- C40 (amended): for every matrix `m` with `R` rows and `C` columns whose array takes fewer
than `2 ^ 63` bytes, every `r < R` and `c < C`, the iterators `col_begin(c)`, `col_end(c)`,
`row_begin(r)` and `row_end(r)` exist, `*(m.col_begin(c) + r)` and `m.row_begin(r)[c]` both
denote element `m(r, c)`, which is `data[r * cols + c]`, `col_end(c) - col_begin(c) == R` and
`row_end(r) - row_begin(r) == C`; for every column iterator `it` of `m` and every integer `n`,
`it + n - n == it`; and `(it + n) - it == n` when `n * C * sizeof(T)` is a value of
`std::ptrdiff_t`. -/
theorem matrix_iteration (m : matrix T) (R C : Nat) (hR : m._rows = R) (hC : m._cols = C)
    (hd : m._data.length = m.size) (hb : Layout.sizeof_T T * (R * C) < 2 ^ 63)
    (r c : Nat) (hr : r < R) (hc : c < C) :
    (∃ cb ce rb re x, m.col_begin c = some cb ∧ m.col_end c = some ce ∧
      m.row_begin r = some rb ∧ m.row_end r = some re ∧
      m._data.get? (r * m._cols + c) = some x ∧ m.get r c = some x ∧
      (cb.add r).deref m = some x ∧ m.load (ptr_add T rb c) = some x ∧
      ce.diff cb = some (R : Int) ∧ ptr_diff T re rb = (C : Int)) ∧
    (∀ it : col_iterator T, it._cols = m._cols → it._current < SIZE_RANGE → ∀ n : Int,
      (it.add n).sub n = it ∧ ((it.add n).sub n).eq it = true ∧
      (-2 ^ 63 ≤ n * (C : Int) * (Layout.sizeof_T T : Int) →
        n * (C : Int) * (Layout.sizeof_T T : Int) < 2 ^ 63 → (it.add n).diff it = some n)) := by
  have hm := Dim.of_size hR hC hd hb
  have hcount := hm.count
  have hC0 : 0 < C := by omega
  have hC63 : C < 2 ^ 63 := by
    have : C ≤ R * C := Nat.le_mul_of_pos_left C (by omega)
    omega
  have hR63 : R < 2 ^ 63 := by
    have : R ≤ R * C := Nat.le_mul_of_pos_right R (by omega)
    omega
  have hsub : ∀ it : col_iterator T, it._current < SIZE_RANGE → ∀ n : Int,
      (it.add n).sub n = it := by
    intro it hit n
    cases it with
    | mk p k j =>
      simp only [col_iterator.add, col_iterator.sub]
      rw [ptr_add_neg p _ hit]
  obtain ⟨x, hx⟩ := hm.data_some hr hc
  have hrC : r * C ≤ R * C := Nat.mul_le_mul_right C (Nat.le_of_lt hr)
  have hrc : r * C + c < R * C := index_lt hr hc
  have hrCC : r * C + C ≤ R * C := by
    have : (r + 1) * C ≤ R * C := Nat.mul_le_mul_right C hr
    rw [Nat.add_mul, Nat.one_mul] at this
    exact this
  have o1 := hm.offset (Nat.le_of_lt hrc)
  have o2 := hm.offset hrC
  have o3 := hm.offset (Nat.le_refl (R * C))
  have o4 := hm.offset hrCC
  have hce : m.col_end c = some ⟨R * C * Layout.sizeof_T T, C, c⟩ := by
    have e1 : to_ptrdiff (R : Int) = (R : Int) := to_ptrdiff_eq (by omega) (by omega)
    have e2 := col_iterator.add_nat (⟨0, C, c⟩ : col_iterator T) R hC63
      (show R * C < 2 ^ 63 from hcount)
    have e3 : ptr_add T 0 ((R * C : Nat) : Int) = R * C * Layout.sizeof_T T :=
      ptr_add_zero_nat _ (by omega)
    rw [col_end, hm.col_begin_eq hc, Option.map_some', hR, e1, e2]
    simp only []
    rw [e3]
  have hadd : (⟨0, C, c⟩ : col_iterator T).add (r : Int) =
      ⟨r * C * Layout.sizeof_T T, C, c⟩ := by
    have e2 := col_iterator.add_nat (⟨0, C, c⟩ : col_iterator T) r hC63
      (show r * C < 2 ^ 63 by omega)
    have e3 : ptr_add T 0 ((r * C : Nat) : Int) = r * C * Layout.sizeof_T T :=
      ptr_add_zero_nat _ (by omega)
    rw [e2]
    simp only []
    rw [e3]
  refine ⟨⟨⟨0, C, c⟩, ⟨R * C * Layout.sizeof_T T, C, c⟩, r * C * Layout.sizeof_T T,
    (r * C + C) * Layout.sizeof_T T, x, hm.col_begin_eq hc, hce, hm.row_begin_eq hr,
    hm.row_end_eq hr, by rw [hC]; exact hx, by rw [hm.get_data hr hc]; exact hx, ?_, ?_, ?_, ?_⟩,
    fun it hit hcur n => ⟨hsub it hcur n, ?_, fun h1 h2 => ?_⟩⟩
  · rw [hadd, col_iterator.deref]
    simp only []
    rw [ptr_add_nat _ _ (by omega), load_elem]
    exact hx
  · rw [ptr_add_nat _ _ (by omega), load_elem]
    exact hx
  · have e := ptr_diff_nat (T := T) 0 (R * C) (by rw [Nat.zero_add]; omega)
    rw [Nat.zero_add, Nat.zero_mul] at e
    rw [col_iterator.diff_eq _ _ hC0 hC63]
    simp only []
    rw [e, Int.natCast_mul, Int.mul_tdiv_cancel _ (by omega)]
  · exact ptr_diff_nat (r * C) C (by omega)
  · rw [hsub it hcur n, col_iterator.eq]
    exact decide_eq_true rfl
  · have hitc : it._cols = C := by rw [hit, hC]
    have hb2 := bound_of_bytes (T := T) h1 h2
    rw [col_iterator.add_step _ _ (by rw [hitc]; exact hC63) (by rw [hitc]; exact hb2.1)
      (by rw [hitc]; exact hb2.2), col_iterator.diff_eq _ _ (by rw [hitc]; exact hC0)
      (by rw [hitc]; exact hC63)]
    simp only []
    rw [hitc, ptr_diff_elem _ _ h1 h2, Int.mul_tdiv_cancel _ (by omega)]

theorem matrix_iteration_witness :
    ex_a._rows = 2 ∧ ex_a._cols = 3 ∧ ex_a._data.length = ex_a.size ∧
    Layout.sizeof_T Int * (2 * 3) < 2 ^ 63 ∧
    ∃ cb ce rb re x, ex_a.col_begin 2 = some cb ∧ ex_a.col_end 2 = some ce ∧
      ex_a.row_begin 1 = some rb ∧ ex_a.row_end 1 = some re ∧
      ex_a._data.get? (1 * ex_a._cols + 2) = some x ∧ ex_a.get 1 2 = some x ∧
      (cb.add (1 : Nat)).deref ex_a = some x ∧ ex_a.load (ptr_add Int rb (2 : Nat)) = some x ∧
      ce.diff cb = some ((2 : Nat) : Int) ∧ ptr_diff Int re rb = ((3 : Nat) : Int) :=
  ⟨rfl, rfl, by decide, by decide,
    (matrix_iteration ex_a 2 3 rfl rfl (by decide) (by decide) 1 2 (by decide) (by decide)).1⟩

/-- Example: with `unsigned int` elements, whose arithmetic is modulo `2 ^ 32`, the product of
the one-by-one matrices `(65536)` and `(65536)` is `(0)`. -/
theorem product_wraps_example :
    mul 2 (⟨1, 1, [65536]⟩ : matrix (ZMod 4294967296)) ⟨1, 1, [65536]⟩ = some ⟨1, 1, [0]⟩ := by
  decide

end matrix

/-! ## Plain vector: push_back -/

namespace vector

variable {T : Type}

theorem take_set_self (l : List (Option T)) (i : Nat) (a : Option T) :
    (l.set i a).take i = l.take i := by
  rw [List.set_take, List.set_eq_of_length_le (by simp)]

theorem take_succ_set (l : List (Option T)) (i : Nat) (a : Option T) (h : i < l.length) :
    (l.set i a).take (i + 1) = l.take i ++ [a] := by
  rw [List.take_succ, take_set_self, List.getElem?_set_self h]
  rfl

/-- A push into a free slot. -/
theorem push_back_room (ok : Bool) (d : Nat) (v : vector T) (value : T)
    (h : v._size < v._capacity) :
    push_back ok (d + 1) v value =
      some (.done { v with _data := v._data.set v._size (some value), _size := v._size + 1 }) := by
  rw [push_back, if_pos h]

theorem slots_push (v : vector T) (value : T) (h : v._size < v._data.length) :
    slots { v with _data := v._data.set v._size (some value), _size := v._size + 1 } =
      v.slots ++ [some value] := by
  simp only [slots]
  exact take_succ_set _ _ _ h

theorem Inv.slot_read {v : vector T} (hi : Inv v) {i : Nat} (h : i < v._size) :
    ∃ x, v._data.getD i none = some x ∧ v._data.take (i + 1) = v._data.take i ++ [some x] := by
  obtain ⟨x, hx⟩ := hi.constructed i h
  rw [List.get?_eq_getElem?] at hx
  refine ⟨x, by rw [List.getD_eq_getElem?_getD, hx]; rfl, by rw [List.take_succ, hx]; rfl⟩

theorem vector_copy_loop_spec (ok : Bool) (d : Nat) (v : vector T) (hv : Inv v) (n i : Nat)
    (tmp : vector T) (hn : i + n = v._size) (hs : tmp._size = i)
    (hc : v._size ≤ tmp._capacity) (hl : tmp._data.length = tmp._capacity)
    (he : tmp.slots = v._data.take i) :
    ∃ tmp', copy_loop (push_back ok (d + 1)) v i n tmp = some (.done tmp') ∧
      tmp'._size = v._size ∧ tmp'._capacity = tmp._capacity ∧
      tmp'._data.length = tmp._capacity ∧ tmp'.slots = v.slots := by
  induction n generalizing i tmp with
  | zero =>
    refine ⟨tmp, rfl, by omega, rfl, hl, ?_⟩
    rw [he, slots, ← hn, Nat.add_zero]
  | succ n ih =>
    obtain ⟨x, hx, ht⟩ := hv.slot_read (show i < v._size by omega)
    have hroom : tmp._size < tmp._capacity := by omega
    obtain ⟨tmp', h1, h2, h3, h4, h5⟩ := ih (i + 1)
      { tmp with _data := tmp._data.set tmp._size (some x), _size := tmp._size + 1 }
      (by omega) (by simp only [hs]) hc (by simp [hl])
      (by rw [slots_push tmp x (by omega), he, ht])
    refine ⟨tmp', ?_, h2, h3, by simpa using h4, h5⟩
    rw [copy_loop, hx]
    simp only [push_back_room ok d tmp x hroom]
    exact h1

/-- Growth of a full vector when the allocation succeeds. -/
theorem push_back_grow (d : Nat) (v : vector T) (hv : Inv v) (value : T)
    (hf : ¬ v._size < v._capacity) :
    ∃ v', push_back true (d + 3) v value = some (.done v') ∧ v'._size = v._size + 1 ∧
      v'._capacity = 2 * v._capacity + 1 ∧ v'._data.length = 2 * v._capacity + 1 ∧
      v'.slots = v.slots ++ [some value] := by
  have hle := hv.size_le
  obtain ⟨tmp, h1, h2, h3, h4, h5⟩ := vector_copy_loop_spec true d v hv v._size 0
    ⟨0, 2 * v._capacity + 1, List.replicate (2 * v._capacity + 1) none⟩ (by omega) rfl
    (by simp only []; omega) (by simp) (by simp [slots])
  simp only at h3 h4
  have hroom : tmp._size < tmp._capacity := by omega
  refine ⟨{ tmp with _data := tmp._data.set tmp._size (some value), _size := tmp._size + 1 },
    ?_, by simp only [h2], h3, by simp [h4], ?_⟩
  · rw [push_back, if_neg hf]
    simp only [copy_reserve, ctor_capacity, if_true, h1, push_back_room true (d + 1) tmp value hroom]
  · rw [slots_push tmp value (by omega), h5]

/-- A full vector when the allocation fails. -/
theorem push_back_fail (d : Nat) (v : vector T) (value : T) (hf : ¬ v._size < v._capacity) :
    push_back false (d + 2) v value = some (.bad_alloc v) := by
  rw [push_back, if_neg hf]
  simp [copy_reserve, ctor_capacity]

theorem inv_of_slots {v v' : vector T} (hv : Inv v) (value : T) (hs : v'._size = v._size + 1)
    (hc : v'._size ≤ v'._capacity) (hl : v'._data.length = v'._capacity)
    (he : v'.slots = v.slots ++ [some value]) : Inv v' := by
  refine ⟨hc, hl, fun i hi => ?_⟩
  have h1 : v'._data.get? i = v'.slots[i]? := by
    rw [slots, List.getElem?_take_of_lt hi, List.get?_eq_getElem?]
  have hlen : v.slots.length = v._size := by
    rw [slots, List.length_take, hv.data_length]; exact Nat.min_eq_left hv.size_le
  rw [h1, he]
  by_cases h : i < v._size
  · obtain ⟨x, hx⟩ := hv.constructed i h
    refine ⟨x, ?_⟩
    rw [List.getElem?_append_left (by omega), slots, List.getElem?_take_of_lt h,
      ← List.get?_eq_getElem?, hx]
  · refine ⟨value, ?_⟩
    have : i = v.slots.length := by omega
    rw [this, List.getElem?_append_right (Nat.le_refl _)]
    simp

theorem elems_of_slots {v v' : vector T} (value : T) (he : v'.slots = v.slots ++ [some value]) :
    v'.elems = v.elems ++ [value] := by
  simp [elems, he, List.filterMap_append]

theorem ex_full_inv : Inv ex_full :=
  ⟨by decide, rfl, fun i hi => by
    have h : i < 2 := hi
    match i, h with
    | 0, _ => exact ⟨7, rfl⟩
    | 1, _ => exact ⟨8, rfl⟩⟩

/-! ## Plain vector: the claim -/

/-- C30: at every call depth of three or more, `vector::push_back(x)` on a vector in a valid
state returns when `operator new` succeeds, and results in the sequence `old ++ [x]`; when
`size == capacity` beforehand the new capacity is `2 * capacity + 1`, otherwise the capacity is
unchanged and nothing is allocated; and if the allocation for the larger buffer fails, the call
ends with `std::bad_alloc` and the vector is unchanged. -/
theorem vector_push_back_growth (d : Nat) (v : vector T) (hv : Inv v) (x : T) :
    (∃ v', push_back true (d + 3) v x = some (.done v') ∧ Inv v' ∧
      v'.elems = v.elems ++ [x] ∧ v'._size = v._size + 1 ∧
      (v._size = v._capacity → v'._capacity = 2 * v._capacity + 1) ∧
      (v._size < v._capacity →
        v'._capacity = v._capacity ∧ push_back false (d + 3) v x = some (.done v'))) ∧
    (v._size = v._capacity → push_back false (d + 3) v x = some (.bad_alloc v)) := by
  have hle := hv.size_le
  refine ⟨?_, fun hf => push_back_fail (d + 1) v x (by omega)⟩
  by_cases hf : v._size < v._capacity
  · have hs := slots_push v x (by rw [hv.data_length]; exact hf)
    refine ⟨_, push_back_room true (d + 2) v x hf,
      inv_of_slots hv x rfl (by simp only []; omega) (by simp [hv.data_length]) hs,
      elems_of_slots x hs, rfl, fun h => by omega,
      fun _ => ⟨rfl, push_back_room false (d + 2) v x hf⟩⟩
  · obtain ⟨v', h, hs, hc, hl, he⟩ := push_back_grow d v hv x hf
    exact ⟨v', h, inv_of_slots hv x hs (by omega) (by omega) he, elems_of_slots x he, hs,
      fun _ => hc, fun h' => (hf h').elim⟩

theorem vector_push_back_growth_witness :
    Inv ex_full ∧
    (∃ v', push_back true 3 ex_full 9 = some (.done v') ∧ Inv v' ∧
      v'.elems = ex_full.elems ++ [9] ∧ v'._size = ex_full._size + 1 ∧
      (ex_full._size = ex_full._capacity → v'._capacity = 2 * ex_full._capacity + 1) ∧
      (ex_full._size < ex_full._capacity →
        v'._capacity = ex_full._capacity ∧ push_back false 3 ex_full 9 = some (.done v'))) ∧
    (ex_full._size = ex_full._capacity → push_back false 3 ex_full 9 = some (.bad_alloc ex_full)) :=
  ⟨ex_full_inv, vector_push_back_growth 0 ex_full ex_full_inv 9⟩

end vector

/-! ## Bit set: words -/

section BitsetLemmas

open bitset_utils

namespace bitset_utils

theorem sub_eq {a b : Nat} (h : b ≤ a) (ha : a < SIZE_RANGE) : sub a b = a - b := by
  have hb : b < SIZE_RANGE := by omega
  unfold sub
  rw [Nat.mod_eq_of_lt hb, show a + SIZE_RANGE - b = a - b + SIZE_RANGE by omega,
    Nat.add_mod_right, Nat.mod_eq_of_lt (by omega)]

theorem add_eq {a b : Nat} (h : a + b < SIZE_RANGE) : add a b = a + b := Nat.mod_eq_of_lt h

theorem mul_eq {a b : Nat} (h : a * b < SIZE_RANGE) : mul a b = a * b := Nat.mod_eq_of_lt h

theorem shl_eq (x : Nat) {n : Nat} (h : n < 64) : shl x n = some ((x <<< n) % 2 ^ 64) := by
  simp [shl, word_size, SIZE_RANGE, h]

theorem shr_eq (x : Nat) {n : Nat} (h : n < 64) : shr x n = some (x >>> n) := by
  simp [shr, word_size, h]

theorem testBit_shl (x n p : Nat) :
    ((x <<< n) % 2 ^ 64).testBit p = true ↔ p < 64 ∧ n ≤ p ∧ x.testBit (p - n) = true := by
  rw [Nat.testBit_mod_two_pow, Nat.testBit_shiftLeft]
  simp only [Bool.and_eq_true, decide_eq_true_eq, ge_iff_le]

theorem testBit_shr (x n p : Nat) : (x >>> n).testBit p = x.testBit (n + p) :=
  Nat.testBit_shiftRight x

theorem testBit_ones (p : Nat) : (2 ^ 64 - 1).testBit p = true ↔ p < 64 := by
  rw [Nat.testBit_two_pow_sub_one]
  simp only [decide_eq_true_eq]

theorem testBit_compl (x p : Nat) :
    (compl x).testBit p = true ↔ (x.testBit p = true ↔ ¬ p < 64) := by
  have := testBit_ones p
  simp only [compl, mask, SIZE_RANGE, Nat.testBit_xor]
  cases h1 : x.testBit p <;> cases h2 : (2 ^ 64 - 1).testBit p <;> simp_all

theorem lt_of_testBit {x : Nat} (h : ∀ p, x.testBit p = true → p < 64) : x < 2 ^ 64 := by
  by_contra hc
  obtain ⟨p, hp, hx⟩ := Nat.ge_two_pow_implies_high_bit_true (Nat.le_of_not_lt hc)
  have := h p hx
  omega

end bitset_utils

namespace bitset_view

/-- The word `mask(l, r)` has the bits with the indices from `l` up to `r`. -/
theorem mask_spec {l r : Nat} (hl : l < 64) (hr1 : 1 ≤ r) (hr : r ≤ 64) :
    ∃ m, mask l r = some m ∧ ∀ p, m.testBit p = true ↔ 64 - r ≤ p ∧ p + l < 64 := by
  have e : sub word_size r = 64 - r := sub_eq hr (by decide)
  refine ⟨(((bitset_utils.mask <<< l) % 2 ^ 64) >>> l >>> (64 - r) <<< (64 - r)) % 2 ^ 64, by
    simp only [mask, e, shl_eq _ hl, shr_eq _ hl, shr_eq _ (show 64 - r < 64 by omega),
      shl_eq _ (show 64 - r < 64 by omega), Option.some_bind], fun p => ?_⟩
  rw [testBit_shl, testBit_shr, testBit_shr, testBit_shl]
  simp only [bitset_utils.mask, SIZE_RANGE, testBit_ones]
  omega

theorem submask_spec (x : Nat) {l r : Nat} (hl : l < 64) (hr1 : 1 ≤ r) (hr : r ≤ 64) :
    ∃ m, submask x l r = some m ∧
      ∀ p, m.testBit p = true ↔ x.testBit p = true ∧ 64 - r ≤ p ∧ p + l < 64 := by
  obtain ⟨m, hm, hp⟩ := mask_spec hl hr1 hr
  exact ⟨x &&& m, by rw [submask, hm]; rfl, fun p => by
    rw [Nat.testBit_and, Bool.and_eq_true, hp]⟩

end bitset_view

/-! ## Bit set: words of a view -/

namespace bitset

theorem bit_at_word (data : List Nat) (k j : Nat) (hj : j < 64) :
    bit_at data (64 * k + j) = (data.getD k 0).testBit (63 - j) := by
  unfold bit_at
  rw [show (64 * k + j) / 64 = k by omega, show (64 * k + j) % 64 = j by omega]

theorem get?_getD {data : List Nat} {k : Nat} (hk : k < data.length) :
    data.get? k = some (data.getD k 0) := by
  rw [List.get?_eq_getElem?, List.getD_eq_getElem?_getD, List.getElem?_eq_getElem hk]
  rfl

end bitset

namespace bitset_view

open bitset

theorem size_eq {data : List Nat} {v : bitset_view} (hv : Valid data v) :
    v.size = v._r_offset - v._l_offset := sub_eq hv.le hv.lt

/-- The parameters that `get_nth_word` and `set_nth_word` compute for word `ind`. -/
theorem word_params {data : List Nat} {v : bitset_view} (hv : Valid data v) {ind : Nat}
    (hi : ind * 64 < v._r_offset - v._l_offset) :
    min word_size (sub v.size (mul ind word_size)) =
      min 64 (v._r_offset - v._l_offset - ind * 64) := by
  have h1 := hv.lt
  have h2 := hv.le
  rw [size_eq hv, word_size, mul_eq (by omega), sub_eq (by omega) (by omega)]

/-- The word `get_nth_word(ind)`: its bit with index `j` is bit `64 * ind + j` of the view for
`j` below the number of bits read, and 0 above. -/
theorem get_nth_word_spec {data : List Nat} {v : bitset_view} (hv : Valid data v) {ind : Nat}
    (hi : ind * 64 < v._r_offset - v._l_offset) :
    ∃ w, get_nth_word data v ind = some w ∧
      ∀ p, w.testBit p = true ↔
        p < 64 ∧ 63 - p < min 64 (v._r_offset - v._l_offset - ind * 64) ∧
          bit data v (ind * 64 + (63 - p)) = true := by
  have hle := hv.le
  have hin := hv.inside
  have hp := word_params hv hi
  unfold get_nth_word
  simp only [hp]
  generalize hread : min 64 (v._r_offset - v._l_offset - ind * 64) = read
  have r1 : 1 ≤ read := by omega
  have r2 : read ≤ 64 := by omega
  have r3 : v._l_offset + ind * 64 + read ≤ v._r_offset := by omega
  simp only [word_ind, offset, word_size]
  have hl : v._l_offset % 64 < 64 := Nat.mod_lt _ (by decide)
  have hL : v._l_offset = 64 * (v._l_offset / 64) + v._l_offset % 64 :=
    (Nat.div_add_mod _ _).symm
  generalize v._l_offset / 64 = lw at hL ⊢
  generalize v._l_offset % 64 = l at hL hl ⊢
  have hbit : ∀ j, bit data v (ind * 64 + j) = bit_at data (64 * (lw + ind) + (l + j)) := by
    intro j
    rw [bit, hL]
    congr 1
    omega
  by_cases hc : l + read ≤ 64
  · rw [if_pos hc]
    have hk : lw + ind < data.length := by omega
    obtain ⟨m, hm, hmb⟩ := submask_spec (data.getD (lw + ind) 0) hl (show 1 ≤ l + read by omega) hc
    refine ⟨(m <<< l) % 2 ^ 64, by
      rw [get?_getD hk, Option.some_bind, hm, Option.some_bind, shl_eq _ hl], fun p => ?_⟩
    rw [testBit_shl, hmb]
    constructor
    · rintro ⟨h1, h2, h3, h4, h5⟩
      refine ⟨h1, by omega, ?_⟩
      rw [hbit, bit_at_word _ _ _ (by omega), show 63 - (l + (63 - p)) = p - l by omega]
      exact h3
    · rintro ⟨h1, h2, h3⟩
      rw [hbit, bit_at_word _ _ _ (by omega), show 63 - (l + (63 - p)) = p - l by omega] at h3
      exact ⟨h1, by omega, h3, by omega, by omega⟩
  · rw [if_neg hc]
    have hk : lw + ind + 1 < data.length := by omega
    have hk0 : lw + ind < data.length := by omega
    have hl0 : 0 < l := by omega
    obtain ⟨m0, hm0, hb0⟩ := submask_spec (data.getD (lw + ind) 0) hl (by decide)
      (Nat.le_refl 64)
    obtain ⟨m1, hm1, hb1⟩ := submask_spec (data.getD (lw + ind + 1) 0) (show 0 < 64 by decide)
      (show 1 ≤ l + read - 64 by omega) (show l + read - 64 ≤ 64 by omega)
    refine ⟨((m0 <<< l) % 2 ^ 64) ||| (m1 >>> (64 - l)), by
      rw [get?_getD hk0, Option.some_bind, get?_getD hk, Option.some_bind, hm0,
        Option.some_bind, shl_eq _ hl, Option.some_bind, hm1, Option.some_bind,
        shr_eq _ (show 64 - l < 64 by omega)]
      rfl, fun p => ?_⟩
    rw [Nat.testBit_or, Bool.or_eq_true, testBit_shl, testBit_shr, hb0, hb1]
    constructor
    · rintro (⟨h1, h2, h3, h4, h5⟩ | ⟨h3, h4, h5⟩)
      · refine ⟨h1, by omega, ?_⟩
        rw [hbit, bit_at_word _ _ _ (by omega), show 63 - (l + (63 - p)) = p - l by omega]
        exact h3
      · refine ⟨by omega, by omega, ?_⟩
        rw [hbit, show 64 * (lw + ind) + (l + (63 - p)) = 64 * (lw + ind + 1) + (l + (63 - p) - 64)
          by omega, bit_at_word _ _ _ (by omega),
          show 63 - (l + (63 - p) - 64) = 64 - l + p by omega]
        exact h3
    · rintro ⟨h1, h2, h3⟩
      by_cases hlp : l ≤ p
      · left
        rw [hbit, bit_at_word _ _ _ (by omega), show 63 - (l + (63 - p)) = p - l by omega] at h3
        exact ⟨h1, hlp, h3, by omega, by omega⟩
      · right
        rw [hbit, show 64 * (lw + ind) + (l + (63 - p)) = 64 * (lw + ind + 1) + (l + (63 - p) - 64)
          by omega, bit_at_word _ _ _ (by omega),
          show 63 - (l + (63 - p) - 64) = 64 - l + p by omega] at h3
        exact ⟨h3, by omega, by omega⟩

end bitset_view

/-! ## Bit set: single bits -/

namespace bitset_reference

open bitset

theorem and_max_bit (x : Nat) : x &&& max_bit > 0 ↔ x.testBit 63 = true := by
  constructor
  · intro h
    obtain ⟨i, hi⟩ := Nat.ne_zero_implies_bit_true (Nat.ne_of_gt h)
    rw [Nat.testBit_and, Bool.and_eq_true, max_bit, Nat.testBit_two_pow] at hi
    have : 63 = i := of_decide_eq_true hi.2
    rw [this]
    exact hi.1
  · intro h
    apply Nat.pos_of_ne_zero
    intro h0
    have : (x &&& max_bit).testBit 63 = true := by
      rw [Nat.testBit_and, h, max_bit, Nat.testBit_two_pow_self]
      rfl
    rw [h0, Nat.zero_testBit] at this
    cases this

/-- The conversion to `bool` of the reference to bit `q` reads the stored bit. -/
theorem get_index (data : List Nat) (q : Nat) (hq : q / 64 < data.length) :
    (bitset.index q).get data = some (bit_at data q) := by
  have ho : q % 64 < 64 := Nat.mod_lt _ (by decide)
  simp only [bitset.index, get, offset, word_ind, word_size, get?_getD hq, Option.some_bind,
    shl_eq _ ho, Option.map_some', Option.some.injEq]
  rw [bit_at, Bool.eq_iff_iff, decide_eq_true_iff, and_max_bit, testBit_shl]
  constructor
  · rintro ⟨_, _, h⟩; exact h
  · intro h; exact ⟨by decide, by omega, h⟩

theorem getD_set (data : List Nat) (k k' x : Nat) (hk : k < data.length) :
    (data.set k x).getD k' 0 = if k' = k then x else data.getD k' 0 := by
  simp only [List.getD_eq_getElem?_getD]
  by_cases h : k' = k
  · rw [if_pos h, h, List.getElem?_set_self (by simpa using hk)]; rfl
  · rw [if_neg h, List.getElem?_set_ne (fun e => h e.symm)]

/-- The assignment through the reference to bit `q` stores the bit and leaves the others. -/
theorem assign_index (data : List Nat) (q : Nat) (x : Bool) (hq : q / 64 < data.length) :
    ∃ data', (bitset.index q).assign data x = some data' ∧ data'.length = data.length ∧
      ∀ i, bit_at data' i = if i = q then x else bit_at data i := by
  have ho : q % 64 < 64 := Nat.mod_lt _ (by decide)
  have hg := get_index data q hq
  unfold assign
  rw [hg, Option.some_bind]
  by_cases hx : bit_at data q = x
  · refine ⟨data, by simp [hx], rfl, fun i => ?_⟩
    by_cases hi : i = q
    · rw [if_pos hi, hi, hx]
    · rw [if_neg hi]
  · have hne : (bit_at data q != x) = true := by simpa using hx
    have e1 : sub (sub word_size (bitset.index q)._offset) 1 = 63 - q % 64 := by
      simp only [bitset.index, offset, word_size]
      rw [sub_eq (show q % 64 ≤ 64 by omega) (by decide),
        sub_eq (show 1 ≤ 64 - q % 64 by omega) (by unfold SIZE_RANGE; omega)]
      omega
    refine ⟨data.set (q / 64) (data.getD (q / 64) 0 ^^^ ((1 <<< (63 - q % 64)) % 2 ^ 64)), ?_,
      by simp, fun i => ?_⟩
    · rw [if_pos hne, e1, shl_eq _ (by omega)]
      simp only [bitset.index, word_ind, word_size, get?_getD hq, Option.some_bind,
        Option.map_some']
    · have hbit : ∀ p, ((1 <<< (63 - q % 64)) % 2 ^ 64).testBit p = true ↔ p = 63 - q % 64 := by
        intro p
        rw [testBit_shl]
        constructor
        · rintro ⟨_, h2, h3⟩
          by_contra hc
          have : p - (63 - q % 64) ≠ 0 := by omega
          rw [Nat.testBit_one_eq_true_iff_self_eq_zero] at h3
          exact this h3
        · intro h
          subst h
          exact ⟨by omega, Nat.le_refl _, by rw [Nat.sub_self]; rfl⟩
      unfold bit_at
      rw [getD_set _ _ _ _ hq]
      by_cases hi : i = q
      · rw [if_pos hi, hi, if_pos rfl, Nat.testBit_xor]
        have hb := (hbit (63 - q % 64)).mpr rfl
        rw [hb]
        have hx' : (data.getD (q / 64) 0).testBit (63 - q % 64) = bit_at data q := rfl
        rw [hx']
        cases hbq : bit_at data q <;> cases x <;> simp_all
      · rw [if_neg hi]
        by_cases hw : i / 64 = q / 64
        · rw [if_pos hw, Nat.testBit_xor, hw]
          have hb : ((1 <<< (63 - q % 64)) % 2 ^ 64).testBit (63 - i % 64) = false := by
            rw [Bool.eq_false_iff]
            intro hc
            have := (hbit _).mp hc
            have : i % 64 < 64 := Nat.mod_lt _ (by decide)
            omega
          rw [hb, Bool.xor_false]
        · rw [if_neg hw]

end bitset_reference

/-! ## Bit set: strings -/

namespace bitset_view

open bitset

/-- The character that `to_string` writes for a bit. -/
theorem to_string_loop_spec (data : List Nat) (n o : Nat) (h1 : o + n ≤ 64 * data.length)
    (h2 : o + n < SIZE_RANGE) :
    to_string_loop data ⟨o⟩ n =
      some ((List.range n).map fun k => if bit_at data (o + k) then '1' else '0') := by
  induction n generalizing o with
  | zero => rfl
  | succ n ih =>
    have hq : o / 64 < data.length := by omega
    have hg : (bitset_iterator.deref ⟨o⟩).get data = some (bit_at data o) :=
      bitset_reference.get_index data o hq
    have hp : bitset_iterator.plus ⟨o⟩ 1 = ⟨o + 1⟩ := by
      simp only [bitset_iterator.plus, add_eq (show o + 1 < SIZE_RANGE by omega)]
    rw [to_string_loop, hg, Option.some_bind, hp, ih (o + 1) (by omega) (by omega),
      Option.map_some', List.range_succ_eq_map, List.map_cons, List.map_map]
    simp only [Nat.add_zero, Option.some.injEq, List.cons.injEq, true_and]
    apply List.map_congr_left
    intro k _
    simp only [Function.comp, Nat.succ_eq_add_one]
    rw [show o + 1 + k = o + (k + 1) by omega]

theorem to_string_spec {data : List Nat} {v : bitset_view} (hv : Valid data v) :
    to_string data v =
      some ((List.range (v._r_offset - v._l_offset)).map fun k =>
        if bit data v k then '1' else '0') := by
  have h1 := hv.le
  have h2 := hv.lt
  have h3 := hv.inside
  rw [to_string, begin, size_eq hv, to_string_loop_spec data _ _ (by omega) (by omega)]
  rfl

end bitset_view

namespace bitset

theorem word_cnt_ge (size : Nat) : size ≤ 64 * word_cnt ⟨size, []⟩ := by
  simp only [word_cnt, word_size]
  split <;> omega

theorem ctor_size_data (size : Nat) : (ctor_size size)._data.length = word_cnt ⟨size, []⟩ := by
  simp [ctor_size]

theorem bit_at_zeros (n i : Nat) : bit_at (List.replicate n 0) i = false := by
  unfold bit_at
  have : (List.replicate n 0).getD (i / 64) 0 = 0 := by
    rw [List.getD_eq_getElem?_getD]
    by_cases h : i / 64 < n
    · rw [List.getElem?_eq_getElem (by simpa using h), List.getElem_replicate]; rfl
    · rw [List.getElem?_eq_none (by simpa using h)]; rfl
  rw [this, Nat.zero_testBit]

theorem char_value (c : Char) :
    decide ((c.toNat : Int) - ('0'.toNat : Int) ≠ 0) = decide (c ≠ '0') := by
  rw [decide_eq_decide]
  constructor
  · intro h e
    rw [e] at h
    exact h (Int.sub_self _)
  · intro h e
    apply h
    have h2 : c.toNat = '0'.toNat := by omega
    exact Char.ext (UInt32.ext h2)

theorem to_int_eq {j : Nat} (h : j < 2 ^ 31) : to_int (j : Int) = (j : Int) := by
  unfold to_int
  omega

theorem to_size_t_eq (j : Nat) (h : j < 2 ^ 64) : to_size_t (j : Int) = j := by
  unfold to_size_t
  omega

/-- The loop of the string constructor stores one bit for each of the first `2 ^ 31`
characters: the counter `2 ^ 31 - 1` is incremented to `-2 ^ 31`, which is converted to
`2 ^ 64 - 2 ^ 31`, and the loop leaves. -/
theorem ctor_string_loop_spec (str : List Char) (n j fuel : Nat) (data : List Nat)
    (hL : j + n = min str.length (2 ^ 31)) (hlen : str.length ≤ 2 ^ 64 - 2 ^ 31)
    (hd : str.length ≤ 64 * data.length) (hf : n < fuel) :
    ∃ data', ctor_string_loop str fuel (to_int (j : Int)) data = some data' ∧
      data'.length = data.length ∧
      ∀ q, bit_at data' q =
        if j ≤ q ∧ q < j + n then decide (str.getD q '0' ≠ '0') else bit_at data q := by
  induction n generalizing j fuel data with
  | zero =>
    obtain ⟨fuel, rfl⟩ : ∃ f, fuel = f + 1 := ⟨fuel - 1, by omega⟩
    refine ⟨data, ?_, rfl, fun q => by rw [if_neg (by omega)]⟩
    have hexit : ¬ to_size_t (to_int (j : Int)) < str.length := by
      unfold to_size_t to_int
      omega
    rw [ctor_string_loop, if_neg hexit]
  | succ n ih =>
    obtain ⟨fuel, rfl⟩ : ∃ f, fuel = f + 1 := ⟨fuel - 1, by omega⟩
    have hj : j < 2 ^ 31 := by omega
    have hjl : j < str.length := by omega
    have e1 : to_int (j : Int) = (j : Int) := to_int_eq hj
    have e2 : to_size_t (j : Int) = j := to_size_t_eq j (by omega)
    have e3 : to_int ((j : Int) + 1) = to_int ((j + 1 : Nat) : Int) := by
      rw [Int.natCast_add]; rfl
    obtain ⟨d1, a1, l1, b1⟩ := bitset_reference.assign_index data j
      (decide (((str.getD j '0').toNat : Int) - ('0'.toNat : Int) ≠ 0)) (by omega)
    obtain ⟨d2, a2, l2, b2⟩ := ih (j + 1) fuel d1 (by omega) (by rw [l1]; exact hd) (by omega)
    refine ⟨d2, ?_, by rw [l2, l1], fun q => ?_⟩
    · rw [ctor_string_loop, e1, e2, if_pos hjl, a1, Option.some_bind, e3, a2]
    · rw [b2, b1]
      by_cases hq : j + 1 ≤ q ∧ q < j + 1 + n
      · rw [if_pos hq, if_pos (by omega)]
      · rw [if_neg hq]
        by_cases hi : q = j
        · rw [if_pos hi, if_pos (by omega), hi, char_value]
        · rw [if_neg hi, if_neg (by omega)]

/-- The bitset of a string. -/
theorem ctor_string_spec (str : List Char) (h : str.length < 2 ^ 63) :
    ∃ b, ctor_string str = some b ∧ b._size = str.length ∧
      b._data.length = word_cnt ⟨str.length, []⟩ ∧
      ∀ q, bit_at b._data q =
        (decide (q < str.length ∧ q < 2 ^ 31) && decide (str.getD q '0' ≠ '0')) := by
  obtain ⟨d, e, l, hb⟩ := ctor_string_loop_spec str (min str.length (2 ^ 31)) 0
    (str.length + 1) (ctor_size str.length)._data (by omega) (by omega)
    (by rw [ctor_size_data]; have := word_cnt_ge str.length; omega) (by omega)
  refine ⟨{ ctor_size str.length with _data := d }, ?_, rfl,
    by rw [← ctor_size_data]; exact l, fun q => ?_⟩
  · have e0 : to_int ((0 : Nat) : Int) = 0 := by unfold to_int; omega
    rw [e0] at e
    rw [ctor_string]
    simp only [e]
    rfl
  · rw [hb q]
    by_cases hq : q < str.length ∧ q < 2 ^ 31
    · rw [if_pos ⟨Nat.zero_le _, by omega⟩, decide_eq_true hq, Bool.true_and]
    · rw [if_neg (by omega), decide_eq_false hq, Bool.false_and, ctor_size, bit_at_zeros]

end bitset

namespace bitset

theorem word_cnt_eq (b : bitset) : b.word_cnt = (b._size + 63) / 64 := by
  simp only [word_cnt, word_size]
  split <;> omega

theorem view_valid (b : bitset) (hd : b._data.length = b.word_cnt) (hs : b._size < SIZE_RANGE) :
    bitset_view.Valid b._data b.view := by
  have := word_cnt_eq b
  exact ⟨Nat.zero_le _, hs, by
    show b._size ≤ 64 * b._data.length
    omega⟩

theorem bit_at_append (data : List Nat) (n i : Nat) :
    bit_at (data ++ List.replicate n 0) i = (decide (i / 64 < data.length) && bit_at data i) := by
  unfold bit_at
  simp only [List.getD_eq_getElem?_getD]
  by_cases h : i / 64 < data.length
  · rw [List.getElem?_append_left h]
    simp [h]
  · rw [List.getElem?_append_right (by omega)]
    have : (List.replicate n 0)[i / 64 - data.length]?.getD 0 = 0 := by
      by_cases h' : i / 64 - data.length < n
      · rw [List.getElem?_eq_getElem (by simpa using h'), List.getElem_replicate]; rfl
      · rw [List.getElem?_eq_none (by simpa using h')]; rfl
    rw [this, Nat.zero_testBit]
    simp [h]

/-- The operator `<<=` copies the words, so the appended bits that fall into the last old word
are the bits that this word held behind the old size. -/
theorem shl_assign_spec (b : bitset) (k : Nat) (hd : b._data.length = b.word_cnt)
    (hs : b._size + k < SIZE_RANGE) :
    ∃ b', b.shl_assign k = some b' ∧ b'._size = b._size + k ∧
      b'._data.length = b'.word_cnt ∧
      ∀ i, bit_at b'._data i = (decide (i < 64 * b.word_cnt) && bit_at b._data i) := by
  have h1 := word_cnt_eq b
  have h2 := word_cnt_eq ⟨b._size + k, []⟩
  simp only at h2
  have hle : b.word_cnt ≤ word_cnt ⟨b._size + k, []⟩ := by omega
  have ht : ctor_value (add b._size k) false = ctor_size (b._size + k) := by
    simp [ctor_value, add_eq hs]
  refine ⟨⟨b._size + k, b._data ++ List.replicate (word_cnt ⟨b._size + k, []⟩ - b.word_cnt) 0⟩,
    ?_, rfl, ?_, fun i => ?_⟩
  · rw [shl_assign, ht, copy_n, if_pos ⟨by omega, by rw [ctor_size_data]; exact hle⟩]
    simp only [Option.map_some', ctor_size, Option.some.injEq, bitset.mk.injEq, true_and]
    rw [List.take_of_length_le (by omega), List.drop_replicate]
  · have : word_cnt ⟨b._size + k,
        b._data ++ List.replicate (word_cnt ⟨b._size + k, []⟩ - b.word_cnt) 0⟩ =
        word_cnt ⟨b._size + k, []⟩ := rfl
    rw [this, List.length_append, List.length_replicate]
    omega
  · rw [bit_at_append, hd]
    congr 1
    rw [decide_eq_decide]
    omega

end bitset

namespace bitset_view

/-- The view `subview(offset, count)` of a view with fewer than `2 ^ 63` bits. -/
theorem subview_spec {data : List Nat} {v : bitset_view} (hv : Valid data v)
    (hn : v._r_offset - v._l_offset < 2 ^ 63) {offset count : Nat} (ho : offset < SIZE_RANGE)
    (hc : count < SIZE_RANGE) :
    v.subview offset count =
      ⟨v._l_offset + min offset (v._r_offset - v._l_offset),
        v._l_offset + min (offset + count) (v._r_offset - v._l_offset)⟩ := by
  have h1 := hv.le
  have h2 := hv.lt
  have hS : SIZE_RANGE = 2 ^ 64 := rfl
  unfold subview
  rw [size_eq hv]
  simp only [ctor_range, end_, begin, bitset_iterator.plus]
  by_cases hoff : offset ≥ v._r_offset - v._l_offset
  · rw [if_pos hoff]
    congr 1 <;> omega
  · rw [if_neg hoff]
    have e1 : add v._l_offset offset = v._l_offset + offset := add_eq (by omega)
    by_cases hsum : offset + count < v._r_offset - v._l_offset
    · have e2 : add offset count = offset + count := add_eq (by omega)
      have e3 : add (v._l_offset + offset) count = v._l_offset + offset + count :=
        add_eq (by omega)
      rw [if_pos ⟨by rw [e2]; exact hsum, by omega, by omega⟩, e1, e3]
      congr 1 <;> omega
    · rw [if_neg, e1]
      · congr 1 <;> omega
      · rintro ⟨h3, _, h5⟩
        have e2 : add offset count = offset + count := add_eq (by omega)
        rw [e2] at h3
        exact hsum h3

end bitset_view

/-! ## Bit set: all, any, count -/

namespace bitset_view

open bitset

theorem words_count_eq {data : List Nat} {v : bitset_view} (hv : Valid data v) :
    v.words_count = (v._r_offset - v._l_offset + 63) / 64 := by
  simp only [words_count, size_eq hv, word_size]
  split <;> omega

/-- Counting the bits of one word of the view. -/
theorem popcount_word {data : List Nat} {v : bitset_view} {i read w : Nat} (hr : read ≤ 64)
    (hw : ∀ p, w.testBit p = true ↔ p < 64 ∧ 63 - p < read ∧
      bit data v (i * 64 + (63 - p)) = true) :
    popcount w = (List.range read).countP fun j => bit data v (i * 64 + j) := by
  unfold popcount
  have hsplit : List.range word_size = List.range (read + (64 - read)) := by
    rw [word_size]; congr 1; omega
  rw [hsplit, List.range_add, List.countP_append, List.countP_map]
  have h2 : (List.range (64 - read)).countP
      ((fun j => w.testBit (63 - j)) ∘ fun x => read + x) = 0 := by
    rw [List.countP_eq_zero]
    intro x hx' hx
    simp only [Function.comp] at hx
    have hx2 : x < 64 - read := List.mem_range.mp hx'
    have := (hw _).mp hx
    omega
  rw [h2, Nat.add_zero]
  apply List.countP_congr
  intro j hj
  have hj' : j < read := List.mem_range.mp hj
  rw [hw, show 63 - (63 - j) = j by omega]
  constructor
  · intro h; exact h.2.2
  · intro h; exact ⟨by omega, hj', h⟩

theorem countP_range_add (f : Nat → Bool) (a b : Nat) :
    (List.range (a + b)).countP f =
      (List.range a).countP f + (List.range b).countP fun j => f (a + j) := by
  rw [List.range_add, List.countP_append, List.countP_map]
  rfl

theorem countP_range_le (f : Nat → Bool) (a : Nat) : (List.range a).countP f ≤ a := by
  have := List.countP_le_length f (l := List.range a)
  rwa [List.length_range] at this

theorem count_loop_spec {data : List Nat} {v : bitset_view} (hv : Valid data v) (k i : Nat)
    (hk : i + k = v.words_count) :
    count_loop data v i k
        ((List.range (min (v._r_offset - v._l_offset) (i * 64))).countP (bit data v)) =
      some ((List.range (v._r_offset - v._l_offset)).countP (bit data v)) := by
  have hW := words_count_eq hv
  have hlt := hv.lt
  induction k generalizing i with
  | zero =>
    rw [count_loop, show min (v._r_offset - v._l_offset) (i * 64) = v._r_offset - v._l_offset
      by omega]
  | succ k ih =>
    have hi : i * 64 < v._r_offset - v._l_offset := by omega
    obtain ⟨w, e, hw⟩ := get_nth_word_spec hv hi
    have hp := popcount_word (show min 64 (v._r_offset - v._l_offset - i * 64) ≤ 64 by omega) hw
    have hsplit := countP_range_add (bit data v) (i * 64)
      (min 64 (v._r_offset - v._l_offset - i * 64))
    have hbound := countP_range_le (bit data v) (i * 64 +
      min 64 (v._r_offset - v._l_offset - i * 64))
    have hnext : min (v._r_offset - v._l_offset) ((i + 1) * 64) =
        i * 64 + min 64 (v._r_offset - v._l_offset - i * 64) := by omega
    rw [count_loop, e, Option.some_bind,
      show min (v._r_offset - v._l_offset) (i * 64) = i * 64 by omega, hp,
      add_eq (by rw [← hsplit]; omega), ← hsplit, ← hnext]
    exact ih (i + 1) (by omega)

theorem any_loop_spec {data : List Nat} {v : bitset_view} (hv : Valid data v) (k i : Nat)
    (hk : i + k = v.words_count) :
    ∃ b, any_loop data v i k = some b ∧
      (b = true ↔ ∃ j, i * 64 ≤ j ∧ j < v._r_offset - v._l_offset ∧ bit data v j = true) := by
  have hW := words_count_eq hv
  induction k generalizing i with
  | zero =>
    refine ⟨false, rfl, ?_⟩
    constructor
    · intro h; cases h
    · rintro ⟨j, h1, h2, _⟩; omega
  | succ k ih =>
    have hi : i * 64 < v._r_offset - v._l_offset := by omega
    obtain ⟨w, e, hw⟩ := get_nth_word_spec hv hi
    rw [any_loop, e, Option.some_bind]
    by_cases hpos : w > 0
    · rw [if_pos hpos]
      obtain ⟨p, hp⟩ := Nat.ne_zero_implies_bit_true (Nat.ne_of_gt hpos)
      obtain ⟨h1, h2, h3⟩ := (hw p).mp hp
      exact ⟨true, rfl, fun _ => ⟨i * 64 + (63 - p), by omega, by omega, h3⟩, fun _ => rfl⟩
    · rw [if_neg hpos]
      have hw0 : w = 0 := by omega
      have key : (∃ j, (i + 1) * 64 ≤ j ∧ j < v._r_offset - v._l_offset ∧ bit data v j = true) ↔
          ∃ j, i * 64 ≤ j ∧ j < v._r_offset - v._l_offset ∧ bit data v j = true := by
        constructor
        · rintro ⟨j, h1, h2, h3⟩; exact ⟨j, by omega, h2, h3⟩
        · rintro ⟨j, h1, h2, h3⟩
          by_cases hj : (i + 1) * 64 ≤ j
          · exact ⟨j, hj, h2, h3⟩
          · exfalso
            have a1 : 63 - (j - i * 64) < 64 := by omega
            have a2 : 63 - (63 - (j - i * 64)) <
                min 64 (v._r_offset - v._l_offset - i * 64) := by omega
            have a3 : bit data v (i * 64 + (63 - (63 - (j - i * 64)))) = true := by
              rw [show i * 64 + (63 - (63 - (j - i * 64))) = j by omega]; exact h3
            have a4 := (hw (63 - (j - i * 64))).mpr ⟨a1, a2, a3⟩
            rw [hw0, Nat.zero_testBit] at a4
            cases a4
      obtain ⟨b, eb, hb⟩ := ih (i + 1) (by omega)
      exact ⟨b, eb, hb.trans key⟩

theorem all_loop_spec {data : List Nat} {v : bitset_view} (hv : Valid data v) (k i : Nat)
    (hk : i + k = v.words_count) :
    ∃ b, all_loop data v i k = some b ∧
      (b = true ↔ ∀ j, i * 64 ≤ j → j < v._r_offset - v._l_offset → bit data v j = true) := by
  have hW := words_count_eq hv
  induction k generalizing i with
  | zero =>
    refine ⟨true, rfl, ?_⟩
    constructor
    · intro _ j h1 h2; omega
    · intro _; rfl
  | succ k ih =>
    have hi : i * 64 < v._r_offset - v._l_offset := by omega
    obtain ⟨w, e, hw⟩ := get_nth_word_spec hv hi
    have hsz := word_params hv hi
    obtain ⟨full, ef, hf⟩ := submask_spec bitset_utils.mask (show 0 < 64 by decide)
      (show 1 ≤ min 64 (v._r_offset - v._l_offset - i * 64) by omega)
      (show min 64 (v._r_offset - v._l_offset - i * 64) ≤ 64 by omega)
    rw [all_loop]
    simp only [hsz, e, ef, Option.some_bind]
    by_cases hne : w ≠ full
    · rw [if_pos hne]
      refine ⟨false, rfl, ?_⟩
      constructor
      · intro h; cases h
      · intro hall
        exfalso
        apply hne
        apply Nat.eq_of_testBit_eq
        intro p
        rw [Bool.eq_iff_iff, hw, hf, bitset_utils.mask, SIZE_RANGE, testBit_ones]
        constructor
        · rintro ⟨h1, h2, _⟩; exact ⟨h1, by omega, by omega⟩
        · rintro ⟨h1, h2, _⟩
          exact ⟨h1, by omega, hall _ (by omega) (by omega)⟩
    · rw [if_neg hne]
      have heq : w = full := by
        by_contra hc
        exact hne hc
      have key : (∀ j, (i + 1) * 64 ≤ j → j < v._r_offset - v._l_offset →
            bit data v j = true) ↔
          ∀ j, i * 64 ≤ j → j < v._r_offset - v._l_offset → bit data v j = true := by
        constructor
        · intro h j h1 h2
          by_cases hj : (i + 1) * 64 ≤ j
          · exact h j hj h2
          · have hbit : full.testBit (63 - (j - i * 64)) = true := by
              rw [hf, bitset_utils.mask, SIZE_RANGE, testBit_ones]
              exact ⟨by omega, by omega, by omega⟩
            rw [← heq] at hbit
            have := ((hw _).mp hbit).2.2
            rwa [show i * 64 + (63 - (63 - (j - i * 64))) = j by omega] at this
        · intro h j h1 h2
          exact h j (by omega) h2
      obtain ⟨b, eb, hb⟩ := ih (i + 1) (by omega)
      exact ⟨b, eb, hb.trans key⟩

end bitset_view

/-! ## Bit set: writing the words of a view -/

namespace bitset

theorem bit_at_set (data : List Nat) (k x q : Nat) (hk : k < data.length) :
    bit_at (data.set k x) q = if q / 64 = k then x.testBit (63 - q % 64) else bit_at data q := by
  unfold bit_at
  rw [bitset_reference.getD_set _ _ _ _ hk]
  by_cases h : q / 64 = k
  · rw [if_pos h, if_pos h]
  · rw [if_neg h, if_neg h]

theorem testBit_high {x p : Nat} (hx : x < 2 ^ 64) (hp : 64 ≤ p) : x.testBit p = false :=
  Nat.testBit_lt_two_pow (Nat.lt_of_lt_of_le hx (Nat.pow_le_pow_right (by decide) hp))

end bitset

namespace bitset_view

open bitset

/-- The bits of the word `(w & ~m) | y`. -/
theorem testBit_merge (w m y p : Nat) (hp : p < 64) :
    ((w &&& compl m) ||| y).testBit p = true ↔
      (w.testBit p = true ∧ ¬ m.testBit p = true) ∨ y.testBit p = true := by
  rw [Nat.testBit_or, Bool.or_eq_true, Nat.testBit_and, Bool.and_eq_true, testBit_compl]
  constructor
  · rintro (⟨h1, h2⟩ | h)
    · exact Or.inl ⟨h1, fun hm => (h2.mp hm) hp⟩
    · exact Or.inr h
  · rintro (⟨h1, h2⟩ | h)
    · exact Or.inl ⟨h1, fun hm => (h2 hm).elim, fun hc => (hc hp).elim⟩
    · exact Or.inr h

/-- The call `set_nth_word(ind, word)` stores the leading bits of `word` in the bits of the view
that belong to word `ind` and leaves every other bit of the array. -/
theorem set_nth_word_spec {data : List Nat} {v : bitset_view} (hv : Valid data v) {ind : Nat}
    (hi : ind * 64 < v._r_offset - v._l_offset) {word : Nat} (hword : word < 2 ^ 64) :
    ∃ data', set_nth_word data v ind word = some data' ∧ data'.length = data.length ∧
      ∀ q, bit_at data' q =
        if v._l_offset + ind * 64 ≤ q ∧
            q < v._l_offset + ind * 64 + min 64 (v._r_offset - v._l_offset - ind * 64) then
          word.testBit (63 - (q - (v._l_offset + ind * 64)))
        else bit_at data q := by
  have hle := hv.le
  have hin := hv.inside
  have hp := word_params hv hi
  unfold set_nth_word
  simp only [hp]
  generalize hread : min 64 (v._r_offset - v._l_offset - ind * 64) = write
  have r1 : 1 ≤ write := by omega
  have r2 : write ≤ 64 := by omega
  have r3 : v._l_offset + ind * 64 + write ≤ v._r_offset := by omega
  simp only [word_ind, offset, word_size]
  have hl : v._l_offset % 64 < 64 := Nat.mod_lt _ (by decide)
  have hL : v._l_offset = 64 * (v._l_offset / 64) + v._l_offset % 64 :=
    (Nat.div_add_mod _ _).symm
  generalize v._l_offset / 64 = lw at hL ⊢
  generalize v._l_offset % 64 = l at hL hl ⊢
  by_cases hc : l + write ≤ 64
  · rw [if_pos hc]
    have hk : lw + ind < data.length := by omega
    obtain ⟨m, hm, hmb⟩ := mask_spec hl (show 1 ≤ l + write by omega) hc
    obtain ⟨x, hx, hxb⟩ := submask_spec word (show 0 < 64 by decide)
      (show 1 ≤ l + write - l by omega) (show l + write - l ≤ 64 by omega)
    refine ⟨data.set (lw + ind) ((data.getD (lw + ind) 0 &&& compl m) ||| (x >>> l)), by
      rw [get?_getD hk, Option.some_bind, hm, Option.some_bind, hx, Option.some_bind,
        shr_eq _ hl]
      rfl, by simp, fun q => ?_⟩
    rw [bit_at_set _ _ _ _ hk]
    have hq : q % 64 < 64 := Nat.mod_lt _ (by decide)
    by_cases hw : q / 64 = lw + ind
    · rw [if_pos hw]
      by_cases hr : v._l_offset + ind * 64 ≤ q ∧ q < v._l_offset + ind * 64 + write
      · rw [if_pos hr, Bool.eq_iff_iff, testBit_merge _ _ _ _ (by omega), hmb, testBit_shr, hxb,
          show l + (63 - q % 64) = 63 - (q - (v._l_offset + ind * 64)) by omega]
        constructor
        · rintro (⟨_, h2⟩ | ⟨h, _⟩)
          · exact absurd ⟨by omega, by omega⟩ h2
          · exact h
        · intro h; exact Or.inr ⟨h, by omega, by omega⟩
      · rw [if_neg hr, Bool.eq_iff_iff, testBit_merge _ _ _ _ (by omega), hmb, testBit_shr, hxb]
        unfold bit_at
        rw [hw]
        constructor
        · rintro (⟨h1, _⟩ | ⟨_, h2, h3⟩)
          · exact h1
          · exfalso; apply hr; omega
        · intro h; exact Or.inl ⟨h, fun hc' => hr (by omega)⟩
    · rw [if_neg hw, if_neg (by omega)]
  · rw [if_neg hc]
    have hk : lw + ind + 1 < data.length := by omega
    have hk0 : lw + ind < data.length := by omega
    have hl0 : 0 < l := by omega
    obtain ⟨m0, hm0, hb0⟩ := mask_spec hl (show 1 ≤ 64 by decide) (Nat.le_refl 64)
    obtain ⟨m1, hm1, hb1⟩ := mask_spec (show 0 < 64 by decide)
      (show 1 ≤ l + write - 64 by omega) (show l + write - 64 ≤ 64 by omega)
    obtain ⟨y1, hy1, hyb⟩ := submask_spec ((word <<< (64 - l)) % 2 ^ 64) (show 0 < 64 by decide)
      (show 1 ≤ l + write - 64 by omega) (show l + write - 64 ≤ 64 by omega)
    have hk' : lw + ind + 1 <
        (data.set (lw + ind) ((data.getD (lw + ind) 0 &&& compl m0) ||| (word >>> l))).length := by
      simpa using hk
    have hget : (data.set (lw + ind)
        ((data.getD (lw + ind) 0 &&& compl m0) ||| (word >>> l))).getD (lw + ind + 1) 0 =
        data.getD (lw + ind + 1) 0 := by
      rw [bitset_reference.getD_set _ _ _ _ hk0, if_neg (by omega)]
    refine ⟨(data.set (lw + ind) ((data.getD (lw + ind) 0 &&& compl m0) ||| (word >>> l))).set
        (lw + ind + 1) ((data.getD (lw + ind + 1) 0 &&& compl m1) ||| y1), by
      rw [get?_getD hk0, Option.some_bind, hm0, Option.some_bind, shr_eq _ hl, Option.some_bind,
        shl_eq _ (show 64 - l < 64 by omega), Option.some_bind, get?_getD hk', Option.some_bind,
        hm1, Option.some_bind, hy1, hget]
      rfl, by simp, fun q => ?_⟩
    rw [bit_at_set _ _ _ _ hk', bit_at_set _ _ _ _ hk0]
    have hq : q % 64 < 64 := Nat.mod_lt _ (by decide)
    by_cases hw1 : q / 64 = lw + ind + 1
    · rw [if_pos hw1]
      by_cases hr : v._l_offset + ind * 64 ≤ q ∧ q < v._l_offset + ind * 64 + write
      · rw [if_pos hr, Bool.eq_iff_iff, testBit_merge _ _ _ _ (by omega), hb1, hyb, testBit_shl,
          show 63 - q % 64 - (64 - l) = 63 - (q - (v._l_offset + ind * 64)) by omega]
        constructor
        · rintro (⟨_, h2⟩ | ⟨⟨_, _, h⟩, _⟩)
          · exact absurd ⟨by omega, by omega⟩ h2
          · exact h
        · intro h; exact Or.inr ⟨⟨by omega, by omega, h⟩, by omega, by omega⟩
      · rw [if_neg hr, Bool.eq_iff_iff, testBit_merge _ _ _ _ (by omega), hb1, hyb]
        unfold bit_at
        rw [hw1]
        constructor
        · rintro (⟨h1, _⟩ | ⟨_, h2, h3⟩)
          · exact h1
          · exfalso; apply hr; omega
        · intro h; exact Or.inl ⟨h, fun hc' => hr (by omega)⟩
    · rw [if_neg hw1]
      by_cases hw : q / 64 = lw + ind
      · rw [if_pos hw]
        by_cases hr : v._l_offset + ind * 64 ≤ q ∧ q < v._l_offset + ind * 64 + write
        · rw [if_pos hr, Bool.eq_iff_iff, testBit_merge _ _ _ _ (by omega), hb0, testBit_shr,
            show l + (63 - q % 64) = 63 - (q - (v._l_offset + ind * 64)) by omega]
          constructor
          · rintro (⟨_, h2⟩ | h)
            · exact absurd ⟨by omega, by omega⟩ h2
            · exact h
          · intro h; exact Or.inr h
        · rw [if_neg hr, Bool.eq_iff_iff, testBit_merge _ _ _ _ (by omega), hb0, testBit_shr]
          unfold bit_at
          rw [hw]
          constructor
          · rintro (⟨h1, _⟩ | h)
            · exact h1
            · rw [testBit_high hword (by omega)] at h; cases h
          · intro h; exact Or.inl ⟨h, fun hc' => hr (by omega)⟩
      · rw [if_neg hw, if_neg (by omega)]

end bitset_view

/-! ## Bit set: the word loops of a view -/

namespace bitset_view

open bitset

theorem Valid.of_length {data d : List Nat} {v : bitset_view} (hv : Valid data v)
    (h : d.length = data.length) : Valid d v := ⟨hv.le, hv.lt, by rw [h]; exact hv.inside⟩

theorem get_nth_word_lt {data : List Nat} {v : bitset_view} {ind w read : Nat}
    (hw : ∀ p, w.testBit p = true ↔ p < 64 ∧ 63 - p < read ∧
      bit data v (ind * 64 + (63 - p)) = true) : w < 2 ^ 64 :=
  lt_of_testBit fun p hp => ((hw p).mp hp).1

theorem Progress.advance {D d d' : List Nat} {v : bitset_view} {G : Nat → Bool} {i x : Nat}
    (hv : Valid D v) (hP : Progress D d v G i) (hlen : d'.length = d.length)
    (hset : ∀ q, bit_at d' q =
      if v._l_offset + i * 64 ≤ q ∧
          q < v._l_offset + i * 64 + min 64 (v._r_offset - v._l_offset - i * 64) then
        x.testBit (63 - (q - (v._l_offset + i * 64)))
      else bit_at d q)
    (hx : ∀ j, j < min 64 (v._r_offset - v._l_offset - i * 64) →
      x.testBit (63 - j) = G (v._l_offset + i * 64 + j)) :
    Progress D d' v G (i + 1) := by
  have hle := hv.le
  refine ⟨hlen.trans hP.1, fun q => ?_⟩
  rw [hset, hP.2]
  by_cases h1 : v._l_offset + i * 64 ≤ q ∧
      q < v._l_offset + i * 64 + min 64 (v._r_offset - v._l_offset - i * 64)
  · rw [if_pos h1, if_pos (by omega), hx _ (by omega)]
    congr 1
    omega
  · rw [if_neg h1]
    by_cases h2 : v._l_offset ≤ q ∧ q < min v._r_offset (v._l_offset + i * 64)
    · rw [if_pos h2, if_pos (by omega)]
    · rw [if_neg h2, if_neg (by omega)]

theorem Progress.updates {D d : List Nat} {v : bitset_view} {G : Nat → Bool} {i : Nat}
    (hv : Valid D v) (hP : Progress D d v G i) (hi : i = v.words_count) :
    Updates D d v fun j => G (v._l_offset + j) := by
  have hW := words_count_eq hv
  have hle := hv.le
  refine ⟨hP.1, fun j hj => ?_, fun q hq => ?_⟩
  · rw [bit, hP.2, if_pos (by omega)]
  · rw [hP.2, if_neg (by omega)]

theorem words_loop_spec {D : List Nat} {v : bitset_view} (hv : Valid D v) (G : Nat → Bool)
    (f : Nat → Nat → Option Nat)
    (hf : ∀ i w, i * 64 < v._r_offset - v._l_offset →
      (∀ p, w.testBit p = true ↔ p < 64 ∧ 63 - p < min 64 (v._r_offset - v._l_offset - i * 64) ∧
        bit D v (i * 64 + (63 - p)) = true) →
      ∃ x, f i w = some x ∧ x < 2 ^ 64 ∧
        ∀ j, j < min 64 (v._r_offset - v._l_offset - i * 64) →
          x.testBit (63 - j) = G (v._l_offset + i * 64 + j))
    (k i : Nat) (d : List Nat) (hk : i + k = v.words_count) (hP : Progress D d v G i) :
    ∃ d', words_loop v f i k d = some d' ∧ Updates D d' v fun j => G (v._l_offset + j) := by
  have hW := words_count_eq hv
  induction k generalizing i d with
  | zero => exact ⟨d, rfl, hP.updates hv (by omega)⟩
  | succ k ih =>
    have hi : i * 64 < v._r_offset - v._l_offset := by omega
    have hvd := hv.of_length hP.1
    obtain ⟨w, e, hw⟩ := get_nth_word_spec hvd hi
    have hw' : ∀ p, w.testBit p = true ↔
        p < 64 ∧ 63 - p < min 64 (v._r_offset - v._l_offset - i * 64) ∧
          bit D v (i * 64 + (63 - p)) = true := by
      intro p
      rw [hw]
      constructor
      · rintro ⟨h1, h2, h3⟩
        rw [bit, hP.2, if_neg (by omega)] at h3
        exact ⟨h1, h2, h3⟩
      · rintro ⟨h1, h2, h3⟩
        refine ⟨h1, h2, ?_⟩
        rw [bit, hP.2, if_neg (by omega)]
        exact h3
    obtain ⟨x, ex, hx, hxb⟩ := hf i w hi hw'
    obtain ⟨d1, e1, l1, b1⟩ := set_nth_word_spec hvd hi hx
    obtain ⟨d2, e2, u2⟩ := ih (i + 1) d1 (by omega) (hP.advance hv l1 b1 hxb)
    exact ⟨d2, by rw [words_loop, e, Option.some_bind, ex, Option.some_bind, e1,
      Option.some_bind, e2], u2⟩

theorem fill_loop_spec {D : List Nat} {v : bitset_view} (hv : Valid D v) (G : Nat → Bool)
    (val : Nat) (hval : val < 2 ^ 64) (hG : ∀ j q, j < 64 → val.testBit (63 - j) = G q)
    (k i : Nat) (d : List Nat) (hk : i + k = v.words_count) (hP : Progress D d v G i) :
    ∃ d', fill_loop v val i k d = some d' ∧ Updates D d' v fun j => G (v._l_offset + j) := by
  have hW := words_count_eq hv
  induction k generalizing i d with
  | zero => exact ⟨d, rfl, hP.updates hv (by omega)⟩
  | succ k ih =>
    have hi : i * 64 < v._r_offset - v._l_offset := by omega
    obtain ⟨d1, e1, l1, b1⟩ := set_nth_word_spec (hv.of_length hP.1) hi hval
    obtain ⟨d2, e2, u2⟩ := ih (i + 1) d1 (by omega)
      (hP.advance hv l1 b1 fun j hj => hG j _ (by omega))
    exact ⟨d2, by rw [fill_loop, e1, Option.some_bind, e2], u2⟩

theorem Progress.start (D : List Nat) (v : bitset_view) (G : Nat → Bool) :
    Progress D D v G 0 :=
  ⟨rfl, fun q => by rw [if_neg (by omega)]⟩

/-- The member `transform(other, f)` for a bitwise `f`. -/
theorem transform2_spec {data odata : List Nat} {v other : bitset_view} (hv : Valid data v)
    (ho : Valid odata other)
    (hsz : other._r_offset - other._l_offset = v._r_offset - v._l_offset)
    (f : Nat → Nat → Nat) (g : Bool → Bool → Bool) (hg : g false false = false)
    (hf : ∀ a b p, (f a b).testBit p = g (a.testBit p) (b.testBit p)) :
    ∃ d, transform2 data v odata other f = some d ∧
      Updates data d v fun i => g (bit data v i) (bit odata other i) := by
  have hle := hv.le
  obtain ⟨d, e, u⟩ := words_loop_spec hv
    (fun q => g (bit_at data q) (bit odata other (q - v._l_offset)))
    (fun i w => (get_nth_word odata other i).map fun o => f w o)
    (fun i w hi hw => by
      obtain ⟨o, eo, hob⟩ := get_nth_word_spec ho (show i * 64 <
        other._r_offset - other._l_offset by rw [hsz]; exact hi)
      rw [hsz] at hob
      refine ⟨f w o, by simp only [eo, Option.map_some'], lt_of_testBit fun p hp => ?_,
        fun j hj => ?_⟩
      · rw [hf] at hp
        by_contra hc
        have h1 : w.testBit p = false := by
          rw [Bool.eq_false_iff]; intro h; exact hc ((hw p).mp h).1
        have h2 : o.testBit p = false := by
          rw [Bool.eq_false_iff]; intro h; exact hc ((hob p).mp h).1
        rw [h1, h2, hg] at hp
        cases hp
      · have hwj : w.testBit (63 - j) = bit_at data (v._l_offset + i * 64 + j) := by
          rw [Bool.eq_iff_iff, hw, show 63 - (63 - j) = j by omega, bit, Nat.add_assoc]
          exact ⟨fun h => h.2.2, fun h => ⟨by omega, hj, h⟩⟩
        have hoj : o.testBit (63 - j) = bit odata other (v._l_offset + i * 64 + j - v._l_offset) := by
          rw [Bool.eq_iff_iff, hob, show 63 - (63 - j) = j by omega,
            show v._l_offset + i * 64 + j - v._l_offset = i * 64 + j by omega]
          exact ⟨fun h => h.2.2, fun h => ⟨by omega, hj, h⟩⟩
        rw [hf, hwj, hoj])
    v.words_count 0 data (by omega) (Progress.start _ _ _)
  refine ⟨d, e, u.1, fun i hi => ?_, u.2.2⟩
  rw [u.2.1 i hi]
  show g (bit_at data (v._l_offset + i)) (bit odata other (v._l_offset + i - v._l_offset)) = _
  rw [Nat.add_sub_cancel_left]
  rfl

/-- The member `flip()`. -/
theorem flip_spec {data : List Nat} {v : bitset_view} (hv : Valid data v) :
    ∃ d, flip data v = some d ∧ Updates data d v fun i => !bit data v i := by
  obtain ⟨d, e, u⟩ := words_loop_spec hv (fun q => !bit_at data q) (fun _ w => some (compl w))
    (fun i w hi hw => by
      refine ⟨compl w, rfl, lt_of_testBit fun p hp => ?_, fun j hj => ?_⟩
      · by_contra hc
        have := (testBit_compl w p).mp hp
        exact hc ((hw p).mp (this.mpr hc)).1
      · have hwj : w.testBit (63 - j) = bit_at data (v._l_offset + i * 64 + j) := by
          rw [Bool.eq_iff_iff, hw, show 63 - (63 - j) = j by omega, bit, Nat.add_assoc]
          exact ⟨fun h => h.2.2, fun h => ⟨by omega, hj, h⟩⟩
        show (compl w).testBit (63 - j) = !bit_at data (v._l_offset + i * 64 + j)
        rw [← hwj, Bool.eq_iff_iff, testBit_compl]
        cases w.testBit (63 - j)
        · simp; omega
        · simp; omega)
    v.words_count 0 data (by omega) (Progress.start _ _ _)
  exact ⟨d, e, u.1, fun i hi => by rw [u.2.1 i hi]; rfl, u.2.2⟩

/-- The members `set()` and `reset()`. -/
theorem fill_spec {data : List Nat} {v : bitset_view} (hv : Valid data v) :
    (∃ d, set data v = some d ∧ Updates data d v fun _ => true) ∧
    ∃ d, reset data v = some d ∧ Updates data d v fun _ => false := by
  constructor
  · exact fill_loop_spec hv (fun _ => true) bitset_utils.mask (by decide)
      (fun j q hj => by
        rw [bitset_utils.mask, SIZE_RANGE, (testBit_ones (63 - j)).mpr (by omega)])
      v.words_count 0 data (by omega) (Progress.start _ _ _)
  · exact fill_loop_spec hv (fun _ => false) 0 (by decide)
      (fun j q hj => Nat.zero_testBit _)
      v.words_count 0 data (by omega) (Progress.start _ _ _)

end bitset_view

/-! ## Bit set: the claims -/

namespace bitset

theorem to_string_of_bits (b : bitset) (hd : b._data.length = b.word_cnt)
    (hs : b._size < SIZE_RANGE) :
    b.to_string = some ((List.range b._size).map fun i => if bit_at b._data i then '1' else '0') := by
  rw [to_string, bitset_view.to_string_spec (view_valid b hd hs)]
  simp only [view, bitset_view.ctor_range, Nat.sub_zero, bitset_view.bit, Nat.zero_add]

/-- C35: the operator `<<=` on a bitset of a valid shape returns a bitset of the old size plus
`k` whose first old-size bits are unchanged; an appended bit that falls into the last old word
is the bit that this word held behind the old size, and the other appended bits are 0.  So
`to_string` becomes the old string followed by `k` characters `'0'` when the bits behind the
size are 0, but `bitset(3, true) <<= 2` is `11111` and `bitset("111") >>= 1` followed by
`<<= 1` is `111`. -/
theorem shl_assign_padding (b : bitset) (k : Nat) (hd : b._data.length = b.word_cnt)
    (hs : b._size + k < SIZE_RANGE) :
    (∃ b', b.shl_assign k = some b' ∧ b'._size = b._size + k ∧
      (∀ i, i < b._size → bit_at b'._data i = bit_at b._data i) ∧
      (∀ i, b._size ≤ i → i < b._size + k →
        bit_at b'._data i = (decide (i < 64 * b.word_cnt) && bit_at b._data i)) ∧
      ((∀ i, b._size ≤ i → i < 64 * b.word_cnt → bit_at b._data i = false) →
        b'.to_string = b.to_string.map fun s => s ++ List.replicate k '0')) ∧
    ((ctor_value 3 true).shl_assign 2).bind to_string = some ['1', '1', '1', '1', '1'] ∧
    (((ctor_string ['1', '1', '1']).bind fun b => b.shr_assign 1).bind fun b =>
      b.shl_assign 1).bind to_string = some ['1', '1', '1'] := by
  refine ⟨?_, by decide, by decide⟩
  obtain ⟨b', e, hsz, hl, hb⟩ := shl_assign_spec b k hd hs
  have hw := word_cnt_eq b
  refine ⟨b', e, hsz, fun i hi => ?_, fun i _ _ => hb i, fun hclean => ?_⟩
  · rw [hb, decide_eq_true (by omega), Bool.true_and]
  · rw [to_string_of_bits b' hl (by rw [hsz]; exact hs), to_string_of_bits b hd (by omega),
      Option.map_some', hsz, List.range_add, List.map_append, List.map_map]
    congr 2
    · apply List.map_congr_left
      intro i hi
      have hi' : i < b._size := List.mem_range.mp hi
      rw [hb, decide_eq_true (by omega), Bool.true_and]
    · rw [List.eq_replicate_iff]
      refine ⟨by simp, fun c hc => ?_⟩
      obtain ⟨i, _, rfl⟩ := List.mem_map.mp hc
      simp only [Function.comp]
      rw [hb]
      by_cases h64 : b._size + i < 64 * b.word_cnt
      · rw [hclean _ (by omega) h64, Bool.and_false]; rfl
      · rw [decide_eq_false h64, Bool.false_and]; rfl

theorem shl_assign_padding_witness :
    (ctor_value 3 true)._data.length = (ctor_value 3 true).word_cnt ∧
    (ctor_value 3 true)._size + 2 < SIZE_RANGE ∧
    ∃ b', (ctor_value 3 true).shl_assign 2 = some b' ∧ b'._size = (ctor_value 3 true)._size + 2 ∧
      (∀ i, i < (ctor_value 3 true)._size →
        bit_at b'._data i = bit_at (ctor_value 3 true)._data i) ∧
      (∀ i, (ctor_value 3 true)._size ≤ i → i < (ctor_value 3 true)._size + 2 →
        bit_at b'._data i = (decide (i < 64 * (ctor_value 3 true).word_cnt) &&
          bit_at (ctor_value 3 true)._data i)) ∧
      ((∀ i, (ctor_value 3 true)._size ≤ i → i < 64 * (ctor_value 3 true).word_cnt →
          bit_at (ctor_value 3 true)._data i = false) →
        b'.to_string = (ctor_value 3 true).to_string.map fun s => s ++ List.replicate 2 '0') :=
  ⟨by decide, by decide, (shl_assign_padding (ctor_value 3 true) 2 (by decide) (by decide)).1⟩

/-- C36: for every string `s` of characters `'0'` and `'1'`, of a length below `2 ^ 63` as
every string has, `bitset(s)` has size `|s|`; its bit `i`, read through `operator[]` and
stored at bit position `63 - i % 64` of word `i / 64`, is true iff `i < 2 ^ 31` and
`s[i] == '1'`, and `to_string(bitset(s))` has `'1'` at these indices and `'0'` at the others.
So for a string of at most `2 ^ 31` characters bit `i` is true iff `s[i] == '1'` and
`to_string(bitset(s)) == s`; for a string with a `'1'` at an index from `2 ^ 31` on this bit is
false and `to_string(bitset(s))` is not `s`, because the `int` counter of the loop wraps behind
the index `2 ^ 31 - 1`. -/
theorem string_round_trip (s : List Char) (hs : ∀ c ∈ s, c = '0' ∨ c = '1')
    (hlen : s.length < 2 ^ 63) :
    ∃ b, ctor_string s = some b ∧ b._size = s.length ∧
      (∀ i, i < s.length →
        (index i).get b._data = some (decide (i < 2 ^ 31) && decide (s.getD i '0' = '1')) ∧
        (b._data.getD (i / 64) 0).testBit (63 - i % 64) =
          (decide (i < 2 ^ 31) && decide (s.getD i '0' = '1'))) ∧
      b.to_string = some ((List.range s.length).map fun i =>
        if i < 2 ^ 31 ∧ s.getD i '0' = '1' then '1' else '0') ∧
      (s.length ≤ 2 ^ 31 → b.to_string = some s) ∧
      (∀ i, 2 ^ 31 ≤ i → i < s.length → s.getD i '0' = '1' →
        (index i).get b._data = some false ∧ b.to_string ≠ some s) := by
  obtain ⟨b, e, hsz, hl, hb⟩ := ctor_string_spec s hlen
  have hw := word_cnt_eq b
  have hd : b._data.length = b.word_cnt := by rw [hl]; simp only [word_cnt, hsz]
  have hchar : ∀ i, i < s.length →
      decide (s.getD i '0' ≠ '0') = decide (s.getD i '0' = '1') := by
    intro i hi
    have hm : s.getD i '0' ∈ s := by
      rw [List.getD_eq_getElem _ _ hi]; exact List.getElem_mem hi
    rcases hs _ hm with h | h <;> rw [h] <;> decide
  have hbit : ∀ i, i < s.length →
      bit_at b._data i = (decide (i < 2 ^ 31) && decide (s.getD i '0' = '1')) := by
    intro i hi
    rw [hb, hchar i hi]
    by_cases h31 : i < 2 ^ 31
    · rw [decide_eq_true (show i < s.length ∧ i < 2 ^ 31 from ⟨hi, h31⟩), decide_eq_true h31]
    · rw [decide_eq_false (show ¬ (i < s.length ∧ i < 2 ^ 31) from fun h => h31 h.2),
        decide_eq_false h31]
  have hget : ∀ i, i < s.length →
      (index i).get b._data = some (decide (i < 2 ^ 31) && decide (s.getD i '0' = '1')) := by
    intro i hi
    rw [bitset_reference.get_index _ _ (by rw [hd]; omega), hbit i hi]
  have hstr : b.to_string = some ((List.range s.length).map fun i =>
      if i < 2 ^ 31 ∧ s.getD i '0' = '1' then '1' else '0') := by
    rw [to_string_of_bits b hd (by rw [hsz]; unfold SIZE_RANGE; omega), hsz]
    congr 1
    apply List.map_congr_left
    intro i hi
    rw [hbit i (List.mem_range.mp hi)]
    by_cases h : i < 2 ^ 31 ∧ s.getD i '0' = '1'
    · rw [if_pos h, decide_eq_true h.1, decide_eq_true h.2]; rfl
    · rw [if_neg h]
      by_cases h31 : i < 2 ^ 31
      · rw [decide_eq_true h31, decide_eq_false (fun h1 => h ⟨h31, h1⟩)]; rfl
      · rw [decide_eq_false h31]; rfl
  have hat : ∀ i, i < s.length →
      ((List.range s.length).map fun i =>
        if i < 2 ^ 31 ∧ s.getD i '0' = '1' then '1' else '0').getD i '0' =
      if i < 2 ^ 31 ∧ s.getD i '0' = '1' then '1' else '0' := by
    intro i hi
    rw [List.getD_eq_getElem _ _ (by simpa using hi), List.getElem_map, List.getElem_range]
  refine ⟨b, e, hsz, fun i hi => ⟨hget i hi, hbit i hi⟩, hstr, fun h31 => ?_,
    fun i h31 hi h1 => ⟨?_, fun hcon => ?_⟩⟩
  · rw [hstr]
    apply congrArg some
    apply List.ext_getElem
    · simp
    · intro i h1 h2
      rw [List.getElem_map, List.getElem_range]
      have hm : s[i] ∈ s := List.getElem_mem h2
      rw [List.getD_eq_getElem _ _ h2]
      rcases hs _ hm with h | h
      · rw [h, if_neg (fun hc => absurd hc.2 (by decide))]
      · rw [h, if_pos ⟨by omega, rfl⟩]
  · rw [hget i hi, decide_eq_false (show ¬ i < 2 ^ 31 by omega)]
    rfl
  · rw [hstr] at hcon
    have h2 := hat i hi
    rw [Option.some.inj hcon, h1, if_neg (by omega)] at h2
    cases h2

theorem string_round_trip_witness :
    (∀ c ∈ ['1', '0', '1'], c = '0' ∨ c = '1') ∧ ['1', '0', '1'].length < 2 ^ 63 ∧
    ∃ b, ctor_string ['1', '0', '1'] = some b ∧ b._size = ['1', '0', '1'].length ∧
      (∀ i, i < ['1', '0', '1'].length →
        (index i).get b._data =
          some (decide (i < 2 ^ 31) && decide (['1', '0', '1'].getD i '0' = '1')) ∧
        (b._data.getD (i / 64) 0).testBit (63 - i % 64) =
          (decide (i < 2 ^ 31) && decide (['1', '0', '1'].getD i '0' = '1'))) ∧
      b.to_string = some ((List.range ['1', '0', '1'].length).map fun i =>
        if i < 2 ^ 31 ∧ ['1', '0', '1'].getD i '0' = '1' then '1' else '0') ∧
      (['1', '0', '1'].length ≤ 2 ^ 31 → b.to_string = some ['1', '0', '1']) :=
  have h := string_round_trip ['1', '0', '1'] (by decide) (by decide)
  ⟨by decide, by decide, h.imp fun _ hb => ⟨hb.1, hb.2.1, hb.2.2.1, hb.2.2.2.1, hb.2.2.2.2.1⟩⟩

end bitset

namespace bitset_view

open bitset

theorem ex_view_valid : Valid ex_words ex_view := ⟨by decide, by decide, by decide⟩

theorem ex_ones_valid : Valid ex_ones ex_view := ⟨by decide, by decide, by decide⟩

/-- C37: for every view `v` of the bits `[l, r)` of an array, at any offsets, and every view
`w` of the same size over another array, each of `v &= w`, `v |= w`, `v ^= w`, `v.flip()`,
`v.set()` and `v.reset()` returns, sets bit `i` of `v` to the corresponding Boolean result for
every `i < size` and leaves every bit of the array outside `[l, r)` unchanged; and
`set_nth_word(i, x)` followed by `get_nth_word(i)` returns `x` restricted to the valid bits of
word `i`. -/
theorem view_word_operations (data odata : List Nat) (v w : bitset_view) (hv : Valid data v)
    (hw : Valid odata w) (hsz : w._r_offset - w._l_offset = v._r_offset - v._l_offset) :
    (∃ d, and_assign data v odata w = some d ∧
      Updates data d v fun i => bit data v i && bit odata w i) ∧
    (∃ d, or_assign data v odata w = some d ∧
      Updates data d v fun i => bit data v i || bit odata w i) ∧
    (∃ d, xor_assign data v odata w = some d ∧
      Updates data d v fun i => xor (bit data v i) (bit odata w i)) ∧
    (∃ d, flip data v = some d ∧ Updates data d v fun i => !bit data v i) ∧
    (∃ d, set data v = some d ∧ Updates data d v fun _ => true) ∧
    (∃ d, reset data v = some d ∧ Updates data d v fun _ => false) ∧
    (∀ ind x, ind * 64 < v._r_offset - v._l_offset → x < 2 ^ 64 →
      ∃ d y, set_nth_word data v ind x = some d ∧ get_nth_word d v ind = some y ∧
        ∀ p, y.testBit p = true ↔
          p < 64 ∧ 63 - p < min 64 (v._r_offset - v._l_offset - ind * 64) ∧
            x.testBit p = true) := by
  refine ⟨transform2_spec hv hw hsz _ _ rfl fun a b p => Nat.testBit_and a b p,
    transform2_spec hv hw hsz _ _ rfl fun a b p => Nat.testBit_or a b p,
    transform2_spec hv hw hsz _ _ rfl fun a b p => Nat.testBit_xor a b p,
    flip_spec hv, (fill_spec hv).1, (fill_spec hv).2, fun ind x hi hx => ?_⟩
  obtain ⟨d, e, l, hb⟩ := set_nth_word_spec hv hi hx
  obtain ⟨y, ey, hy⟩ := get_nth_word_spec (hv.of_length l) hi
  refine ⟨d, y, e, ey, fun p => ?_⟩
  rw [hy]
  constructor
  · rintro ⟨h1, h2, h3⟩
    rw [bit, hb, if_pos (by omega),
      show 63 - (v._l_offset + (ind * 64 + (63 - p)) - (v._l_offset + ind * 64)) = p by omega]
      at h3
    exact ⟨h1, h2, h3⟩
  · rintro ⟨h1, h2, h3⟩
    refine ⟨h1, h2, ?_⟩
    rw [bit, hb, if_pos (by omega),
      show 63 - (v._l_offset + (ind * 64 + (63 - p)) - (v._l_offset + ind * 64)) = p by omega]
    exact h3

theorem view_word_operations_witness :
    Valid ex_words ex_view ∧ Valid ex_ones ex_view ∧
    ∃ d, xor_assign ex_words ex_view ex_ones ex_view = some d ∧
      Updates ex_words d ex_view fun i => xor (bit ex_words ex_view i) (bit ex_ones ex_view i) :=
  ⟨ex_view_valid, ex_ones_valid,
    (view_word_operations ex_words ex_ones ex_view ex_view ex_view_valid ex_ones_valid
      rfl).2.2.1⟩

/-- C38: for every view into an array, aligned or not, of any size and whatever the bits
outside the view, `count()` returns the number of true bits among the bits of the view,
`any()` returns true iff one of them is true, and `all()` returns true iff each of them is true
(true for the empty view); the members of `bitset` are those of the view of all its bits. -/
theorem view_all_any_count (data : List Nat) (v : bitset_view) (hv : Valid data v) :
    count data v = some ((List.range (v._r_offset - v._l_offset)).countP (bit data v)) ∧
    (∃ b, any data v = some b ∧
      (b = true ↔ ∃ i, i < v._r_offset - v._l_offset ∧ bit data v i = true)) ∧
    (∃ b, all data v = some b ∧
      (b = true ↔ ∀ i, i < v._r_offset - v._l_offset → bit data v i = true)) ∧
    (∀ b : bitset, b.count = count b._data b.view ∧ b.any = any b._data b.view ∧
      b.all = all b._data b.view) := by
  refine ⟨?_, ?_, ?_, fun b => ⟨rfl, rfl, rfl⟩⟩
  · have := count_loop_spec hv v.words_count 0 (by omega)
    rw [Nat.zero_mul, Nat.min_zero] at this
    exact this
  · obtain ⟨b, e, hb⟩ := any_loop_spec hv v.words_count 0 (by omega)
    refine ⟨b, e, hb.trans ⟨?_, ?_⟩⟩
    · rintro ⟨j, _, h2, h3⟩; exact ⟨j, h2, h3⟩
    · rintro ⟨j, h2, h3⟩; exact ⟨j, by omega, h2, h3⟩
  · obtain ⟨b, e, hb⟩ := all_loop_spec hv v.words_count 0 (by omega)
    refine ⟨b, e, hb.trans ⟨?_, ?_⟩⟩
    · intro h j hj; exact h j (by omega) hj
    · intro h j _ hj; exact h j hj

theorem view_all_any_count_witness :
    Valid ex_words ex_view ∧
    count ex_words ex_view =
      some ((List.range (ex_view._r_offset - ex_view._l_offset)).countP (bit ex_words ex_view)) :=
  ⟨ex_view_valid, (view_all_any_count ex_words ex_view ex_view_valid).1⟩

/-- C39: for every view `v` of `n < 2 ^ 63` bits and every offset and count,
`v.subview(offset, count)` is the view of the bits
`[min(offset, n), min(offset + count, n))` of `v`, with the sum taken without wrap-around; for
`count = npos` it is the suffix that starts at `offset`, and for `offset ≥ n` it is empty. -/
theorem subview_range (data : List Nat) (v : bitset_view) (hv : Valid data v)
    (hn : v._r_offset - v._l_offset < 2 ^ 63) (offset count : Nat) (ho : offset < SIZE_RANGE)
    (hc : count < SIZE_RANGE) :
    v.subview offset count =
      ⟨v._l_offset + min offset (v._r_offset - v._l_offset),
        v._l_offset + min (offset + count) (v._r_offset - v._l_offset)⟩ ∧
    Valid data (v.subview offset count) ∧
    (v.subview offset count).size =
      min (offset + count) (v._r_offset - v._l_offset) -
        min offset (v._r_offset - v._l_offset) ∧
    (∀ i, bit data (v.subview offset count) i =
      bit data v (min offset (v._r_offset - v._l_offset) + i)) ∧
    (count = npos → offset ≤ v._r_offset - v._l_offset →
      v.subview offset count = ⟨v._l_offset + offset, v._r_offset⟩) ∧
    (v._r_offset - v._l_offset ≤ offset → (v.subview offset count).size = 0) := by
  have h1 := hv.le
  have h2 := hv.lt
  have h3 := hv.inside
  have e := subview_spec hv hn ho hc
  have hval : Valid data (v.subview offset count) := by
    rw [e]; exact ⟨by simp only []; omega, by simp only []; omega, by simp only []; omega⟩
  refine ⟨e, hval, ?_, fun i => ?_, fun hc' hoff => ?_, fun hoff => ?_⟩
  · rw [size_eq hval, e]; simp only []; omega
  · rw [e]; simp only [bit]; rw [Nat.add_assoc]
  · rw [e]
    have : npos = 2 ^ 64 - 1 := rfl
    congr 1 <;> omega
  · rw [size_eq hval, e]; simp only []; omega

theorem subview_range_witness :
    Valid ex_words ex_view ∧ ex_view._r_offset - ex_view._l_offset < 2 ^ 63 ∧
    3 < SIZE_RANGE ∧ npos < SIZE_RANGE ∧
    ex_view.subview 3 npos =
      ⟨ex_view._l_offset + min 3 (ex_view._r_offset - ex_view._l_offset),
        ex_view._l_offset + min (3 + npos) (ex_view._r_offset - ex_view._l_offset)⟩ :=
  ⟨ex_view_valid, by decide, by decide, by decide,
    (subview_range ex_words ex_view ex_view_valid (by decide) 3 npos (by decide)
      (by decide)).1⟩

end bitset_view

end BitsetLemmas

/-! ## Ring buffer: the logical sequence -/

namespace circular_buffer

variable {T : Type}

theorem Ring.of_shape {b b' : circular_buffer T} (h : Shape b b') (hr : Ring b) : Ring b' :=
  ⟨by rw [h.1, h.2.2.1]; exact hr.1, by rw [h.2.2.2, h.2.2.1]; exact hr.2⟩

theorem Inv.ring {b : circular_buffer T} (hi : Inv b) (hc : 0 < b._capacity) : Ring b :=
  ⟨hi.offset_lt hc, hi.data_length⟩

theorem slot_lt {b : circular_buffer T} (hr : Ring b) {i : Nat} (hi : i < b._capacity) :
    b.slot i < b._capacity := by
  have := hr.1
  unfold slot arrow
  split <;> omega

theorem slot_inj {b : circular_buffer T} (hr : Ring b) {i j : Nat} (hi : i < b._capacity)
    (hj : j < b._capacity) (h : b.slot i = b.slot j) : i = j := by
  have := hr.1
  unfold slot arrow at h
  split at h <;> split at h <;> omega

theorem index_assign {b : circular_buffer T} (hr : Ring b) {i : Nat} (hi : i < b._capacity)
    (x : Option T) {k : Nat} (hk : k < b._capacity) :
    (b.assign_index i x).index k = if k = i then x else b.index k := by
  have hs : (b.assign_index i x).slot k = b.slot k := rfl
  unfold index
  rw [hs]
  simp only [assign_index, List.getD_eq_getElem?_getD]
  by_cases h : k = i
  · rw [if_pos h, h, List.getElem?_set_self (by rw [hr.2]; exact slot_lt hr hi)]
    rfl
  · rw [if_neg h, List.getElem?_set_ne (fun e => h (slot_inj hr hk hi e.symm))]

theorem index_swap {b : circular_buffer T} (hr : Ring b) {i j : Nat} (hi : i < b._capacity)
    (hj : j < b._capacity) {k : Nat} (hk : k < b._capacity) :
    (b.swap_index i j).index k =
      if k = i then b.index j else if k = j then b.index i else b.index k := by
  have hr1 : Ring (b.assign_index i (b.index j)) := hr.of_shape (assign_index_shape b i _)
  unfold swap_index
  rw [index_assign hr1 hj _ hk, index_assign hr hi _ hk]
  by_cases h1 : k = j
  · by_cases h2 : k = i
    · rw [if_pos h1, if_pos h2, ← h1, ← h2]
    · rw [if_pos h1, if_neg h2, if_pos h1]
  · rw [if_neg h1]
    by_cases h2 : k = i
    · rw [if_pos h2, if_pos h2]
    · rw [if_neg h2, if_neg h2, if_neg h1]

theorem getD_set_ne {l : List (Option T)} {i j : Nat} (x : Option T) (h : i ≠ j) :
    (l.set i x).getD j none = l.getD j none := by
  simp only [List.getD_eq_getElem?_getD]
  rw [List.getElem?_set_ne h]

theorem seq_erase_range (E : List (Option T)) (first len : Nat) (hl : first + len ≤ E.length)
    (k : Nat) :
    (E.take first ++ E.drop (first + len))[k]? =
      if k < first then E[k]? else E[k + len]? := by
  have hlen : (E.take first).length = first := by simp; omega
  rw [List.getElem?_append, hlen]
  by_cases h1 : k < first
  · simp [h1, List.getElem?_take]
  · rw [if_neg h1, if_neg h1, List.getElem?_drop]
    congr 1
    omega

theorem to_list_getElem? (b : circular_buffer T) (k : Nat) :
    b.to_list[k]? = if k < b._size then some (b.index k) else none := by
  unfold to_list
  rw [List.getElem?_map]
  by_cases h : k < b._size
  · rw [if_pos h, List.getElem?_eq_getElem (by simpa using h), List.getElem_range]
    rfl
  · rw [if_neg h, List.getElem?_eq_none (by simpa using h)]
    rfl

/-- The first loop of the back path of `erase`: the suffix moves down by `len`. -/
theorem erase_back_loop_index (pref len n i : Nat) (b : circular_buffer T) (hr : Ring b)
    (hc : pref + i + n + len ≤ b._capacity) {k : Nat} (hk : k < pref + i + n) :
    (erase_back_loop pref len i n b).index k =
      if pref + i ≤ k then b.index (k + len) else b.index k := by
  induction n generalizing i b with
  | zero => rw [erase_back_loop, if_neg (by omega)]
  | succ n ih =>
    have hs := swap_index_shape b (pref + i) (pref + i + len)
    have hr1 := hr.of_shape hs
    have hc1 : (b.swap_index (pref + i) (pref + i + len))._capacity = b._capacity := hs.2.2.1
    rw [erase_back_loop, ih (i + 1) _ hr1 (by rw [hc1]; omega) (by omega)]
    by_cases h1 : pref + (i + 1) ≤ k
    · rw [if_pos h1, if_pos (by omega), index_swap hr (by omega) (by omega) (by omega),
        if_neg (by omega), if_neg (by omega)]
    · rw [if_neg h1, index_swap hr (by omega) (by omega) (by omega)]
      by_cases h2 : k = pref + i
      · rw [if_pos h2, if_pos (by omega), h2]
      · rw [if_neg h2, if_neg (by omega), if_neg (by omega)]

/-- The first loop of the front path of `erase`: the prefix moves up by `len`. -/
theorem erase_front_loop_index (len i : Nat) (b : circular_buffer T) (hr : Ring b)
    (hc : len + i ≤ b._capacity) {k : Nat} (hl : len ≤ k) (hk : k < b._capacity) :
    (erase_front_loop len i b).index k =
      if k < len + i then b.index (k - len) else b.index k := by
  induction i generalizing b with
  | zero => rw [erase_front_loop, if_neg (by omega)]
  | succ i ih =>
    have hs := swap_index_shape b i (len + i)
    have hr1 := hr.of_shape hs
    have hc1 : (b.swap_index i (len + i))._capacity = b._capacity := hs.2.2.1
    rw [erase_front_loop, ih _ hr1 (by rw [hc1]; omega) (by rw [hc1]; exact hk)]
    by_cases h1 : k < len + i
    · rw [if_pos h1, if_pos (by omega), index_swap hr (by omega) (by omega) (by omega),
        if_neg (by omega), if_neg (by omega)]
    · rw [if_neg h1, index_swap hr (by omega) (by omega) hk]
      by_cases h2 : k = i
      · rw [if_pos h2, if_pos (by omega)]
        congr 1
        omega
      · rw [if_neg h2]
        by_cases h3 : k = len + i
        · rw [if_pos h3, if_pos (by omega)]
          congr 1
          omega
        · rw [if_neg h3, if_neg (by omega)]

theorem pop_back_index (b : circular_buffer T) (hr : Ring b) (h0 : 0 < b._size)
    (hs : b._size ≤ b._capacity) :
    ∃ b', b.pop_back = some b' ∧ b'._size = b._size - 1 ∧ b'._capacity = b._capacity ∧
      Ring b' ∧ ∀ k, k < b._size - 1 → b'.index k = b.index k := by
  refine ⟨{ b.assign_index (b._size - 1) none with _size := b._size - 1 }, ?_, rfl, rfl,
    ⟨hr.1, by simp [assign_index, hr.2]⟩, fun k hk => ?_⟩
  · rw [pop_back, if_neg (by omega)]
  · have e : ({ b.assign_index (b._size - 1) none with _size := b._size - 1 } :
        circular_buffer T).index k = (b.assign_index (b._size - 1) none).index k := rfl
    rw [e, index_assign hr (by omega) _ (by omega), if_neg (by omega)]

theorem pop_front_index (b : circular_buffer T) (hr : Ring b) (h0 : 0 < b._size) :
    ∃ b', b.pop_front = some b' ∧ b'._size = b._size - 1 ∧ b'._capacity = b._capacity ∧
      Ring b' ∧ ∀ k, k + 1 < b._capacity → b'.index k = b.index (k + 1) := by
  have ho := hr.1
  have hd := hr.2
  refine ⟨{ b.assign_index 0 none with
      _size := b._size - 1
      _offset := if b._offset = b._capacity - 1 then 0 else b._offset + 1 },
    by rw [pop_front, if_neg (by omega)], rfl, rfl, ⟨?_, ?_⟩, fun k hk => ?_⟩
  · show (if b._offset = b._capacity - 1 then 0 else b._offset + 1) < b._capacity
    split <;> omega
  · simp [assign_index, hd]
  · have hne : b.slot 0 ≠ b.slot (k + 1) := fun e => by
      have := slot_inj hr (by omega) hk e
      omega
    show (b._data.set (b.slot 0) none).getD
        (arrow ((if b._offset = b._capacity - 1 then 0 else b._offset + 1) + k) b._capacity)
        none = b._data.getD (b.slot (k + 1)) none
    have e : arrow ((if b._offset = b._capacity - 1 then 0 else b._offset + 1) + k)
        b._capacity = b.slot (k + 1) := by
      unfold slot arrow
      split <;> split <;> split <;> omega
    rw [e, getD_set_ne _ hne]

theorem repeat_pop_back_spec (n : Nat) (b : circular_buffer T) (hr : Ring b)
    (hn : n ≤ b._size) (hs : b._size ≤ b._capacity) :
    ∃ b', repeat_pop pop_back n b = some b' ∧ b'._size = b._size - n ∧
      b'._capacity = b._capacity ∧ ∀ k, k < b._size - n → b'.index k = b.index k := by
  induction n generalizing b with
  | zero => exact ⟨b, rfl, rfl, rfl, fun _ _ => rfl⟩
  | succ n ih =>
    obtain ⟨b1, e1, s1, c1, r1, i1⟩ := pop_back_index b hr (by omega) hs
    obtain ⟨b2, e2, s2, c2, i2⟩ := ih b1 r1 (by omega) (by omega)
    refine ⟨b2, by rw [repeat_pop, e1]; exact e2, by omega, by omega, fun k hk => ?_⟩
    rw [i2 k (by omega), i1 k (by omega)]

theorem repeat_pop_front_spec (n : Nat) (b : circular_buffer T) (hr : Ring b)
    (hn : n ≤ b._size) (hs : b._size ≤ b._capacity) :
    ∃ b', repeat_pop pop_front n b = some b' ∧ b'._size = b._size - n ∧
      b'._capacity = b._capacity ∧ ∀ k, k + n < b._capacity → b'.index k = b.index (k + n) := by
  induction n generalizing b with
  | zero => exact ⟨b, rfl, rfl, rfl, fun _ _ => rfl⟩
  | succ n ih =>
    obtain ⟨b1, e1, s1, c1, r1, i1⟩ := pop_front_index b hr (by omega)
    obtain ⟨b2, e2, s2, c2, i2⟩ := ih b1 r1 (by omega) (by omega)
    refine ⟨b2, by rw [repeat_pop, e1]; exact e2, by omega, by omega, fun k hk => ?_⟩
    rw [i2 k (by omega), i1 (k + n) (by omega)]
    rfl

/-- The elements after `erase`, on both of its paths. -/
theorem erase_index (b : circular_buffer T) (hi : Inv b) (pref len : Nat)
    (hp : pref + len ≤ b._size) :
    ∃ b', b.erase pref len = some b' ∧ b'._size = b._size - len ∧
      b'._capacity = b._capacity ∧
      ∀ k, k < b._size - len →
        b'.index k = if k < pref then b.index k else b.index (k + len) := by
  have hsz := hi.size_le
  by_cases h0 : b._size = 0
  · have e1 : pref = 0 := by omega
    have e2 : len = 0 := by omega
    subst e1 e2
    refine ⟨b, ?_, rfl, rfl, fun k hk => by omega⟩
    rw [erase, if_pos hp, if_neg (by omega)]
    rfl
  · have hr := hi.ring (by omega)
    by_cases h : pref > b._size - (pref + len)
    · have hs := erase_back_loop_shape pref len 0 (b._size - (pref + len)) b
      obtain ⟨b', e, s, c, i⟩ := repeat_pop_back_spec len _ (hr.of_shape hs)
        (by rw [hs.2.1]; omega) (by rw [hs.2.1, hs.2.2.1]; exact hsz)
      rw [hs.2.1] at s i
      rw [hs.2.2.1] at c
      refine ⟨b', ?_, s, c, fun k hk => ?_⟩
      · rw [erase, if_pos hp, if_pos h]
        exact e
      · rw [i k hk, erase_back_loop_index pref len _ 0 b hr (by omega) (by omega)]
        by_cases h1 : k < pref
        · rw [if_neg (by omega), if_pos h1]
        · rw [if_pos (by omega), if_neg h1]
    · have hs := erase_front_loop_shape len pref b
      obtain ⟨b', e, s, c, i⟩ := repeat_pop_front_spec len _ (hr.of_shape hs)
        (by rw [hs.2.1]; omega) (by rw [hs.2.1, hs.2.2.1]; exact hsz)
      rw [hs.2.1] at s
      rw [hs.2.2.1] at c i
      refine ⟨b', ?_, s, c, fun k hk => ?_⟩
      · rw [erase, if_pos hp, if_neg h]
        exact e
      · rw [i k (by omega), erase_front_loop_index len pref b hr (by omega) (by omega)
          (by omega), Nat.add_sub_cancel]
        by_cases h1 : k < pref
        · rw [if_pos (by omega), if_pos h1]
        · rw [if_neg (by omega), if_neg h1]

/-- The sequence after `erase`. -/
theorem erase_to_list (b : circular_buffer T) (hi : Inv b) (pref len : Nat)
    (hp : pref + len ≤ b._size) :
    ∃ b', b.erase pref len = some b' ∧ b'._capacity = b._capacity ∧
      b'.to_list = b.to_list.take pref ++ b.to_list.drop (pref + len) := by
  obtain ⟨b', e, hs, hc, hidx⟩ := erase_index b hi pref len hp
  refine ⟨b', e, hc, ?_⟩
  apply List.ext_getElem?
  intro k
  rw [seq_erase_range _ _ _ (by simp [to_list]; exact hp), to_list_getElem?, to_list_getElem?,
    to_list_getElem?, hs]
  by_cases hk : k < b._size - len
  · rw [if_pos hk, hidx k hk]
    by_cases h1 : k < pref
    · rw [if_pos h1, if_pos h1, if_pos (by omega)]
    · rw [if_neg h1, if_neg h1, if_pos (by omega)]
  · rw [if_neg hk]
    by_cases h1 : k < pref
    · omega
    · rw [if_neg h1, if_neg (by omega)]

/-! ### The claims on `insert` and `erase` -/

/-- C34: on a reachable buffer `erase(first, last)` with `first ≤ last ≤ size` returns; the
logical sequence afterwards is `v[0..first) ++ v[last..size)`; the returned iterator is
`begin() + first` and points at the slot of index `first`; the capacity is unchanged.  This
covers both paths (prefix longer than the suffix, and otherwise), ranges longer than the
shorter side and the empty range. -/
theorem erase_sequence (b : circular_buffer T) (hr : Reachable b) (first last : Nat)
    (hfl : first ≤ last) (hl : last ≤ b._size) :
    ∃ b' it, b.erase_it first (last - first) = some (b', it) ∧
      b'.to_list = b.to_list.take first ++ b.to_list.drop last ∧
      b'._size = b._size - (last - first) ∧
      it = b'._offset + first ∧ arrow it b'._capacity = b'.slot first ∧
      b'._capacity = b._capacity := by
  have hi := ring_reachable_inv hr
  obtain ⟨b', e, hs, _, _⟩ := erase_index b hi first (last - first) (by omega)
  obtain ⟨b1, e1, hc, hl1⟩ := erase_to_list b hi first (last - first) (by omega)
  rw [e] at e1
  cases e1
  rw [show first + (last - first) = last by omega] at hl1
  exact ⟨b', b'._offset + first, by rw [erase_it, e]; rfl, hl1, hs, rfl, rfl, hc⟩

theorem erase_sequence_witness :
    Reachable ex_full ∧ 1 ≤ 2 ∧ 2 ≤ ex_full._size ∧
    ∃ b' it, ex_full.erase_it 1 (2 - 1) = some (b', it) ∧
      b'.to_list = ex_full.to_list.take 1 ++ ex_full.to_list.drop 2 ∧
      b'._size = ex_full._size - (2 - 1) ∧
      it = b'._offset + 1 ∧ arrow it b'._capacity = b'.slot 1 ∧
      b'._capacity = ex_full._capacity :=
  ⟨ex_full_reachable, by decide, by decide,
    erase_sequence ex_full ex_full_reachable 1 2 (by decide) (by decide)⟩

end circular_buffer
